import Mathlib

/-!
minHumdrum: rhythm analysis of `HumdrumFileStructure`

A shallow embedding of `src/src/HumdrumFileStructure.cpp` and of the option
flags of `src/include/HumdrumFileBase.h`.

* `HumNum` (class not in the sources at hand) is an exact rational; the
  undefined value is any negative number, `-1` when freshly constructed.
* `HumdrumToken*` and `HumdrumLine*` are indices into the token arena and the
  line vector of the file.  Dereferencing an index outside its vector is
  undefined behaviour in C++ and gives `none` here; so does running out of
  fuel in a loop or recursion.
* The classification predicates of `HumdrumLine` and `HumdrumToken`
  (`isData`, `isBarline`, `hasRhythm`, ...) are computed by classes that are
  not among the sources; they are fields of the records.  Those read by the
  parameter analysis and by the durations of non-rhythmic spines, together
  with the text of a line or token, come as the tables `LineKind` and
  `TokenKind`; `getTrackEnd` comes as the list of ends of each track.
* `setParameters` is recorded as a list of pairs (receiver, source).
* The readers and phases called by `read*` and `analyzeStructure` are
  parameters (`BaseReaders`, `Phases`) over an arbitrary state.
* `int index += size_t` in `getBarline` is modelled on 64-bit unsigned and
  32-bit signed integers (`intPlusSize`), and so is the loop bound
  `(int)durs.size()` of `cleanDurs` and `getMinDur` (`sizeToInt`).
* `tpq` and `Convert::getLcm` return an `int`: there is no result when the
  least common multiple of the denominators is 2^31 or more.
* For tracks that never split, the calls of `setLineDurationFromStart` made
  by the propagation are listed by `chainEvents` and `trackEvents` and
  replayed on the start times by `foldSteps`.
-/

namespace minHumdrum

/-- Rational number class of the library, used for all durations. -/
abbrev HumNum := ℚ

/-- One cell of a spined line, with the members the rhythm analysis reads
and writes. -/
structure HumdrumToken where
  /-- index of the owning line: `getOwner`, `getLine`, `getLineIndex` -/
  lineIndex : Nat
  /-- token duration, `getDuration`; negative when undefined -/
  duration : HumNum
  /-- visit counter, `getState` and `incrementState` -/
  rhycheck : Int
  /-- forward links, `getNextToken(i)` and `getNextTokenCount` -/
  nextTokens : List Nat
  /-- backward links, `getPreviousToken(i)` and `getPreviousTokenCount` -/
  previousTokens : List Nat
  hasRhythm : Bool
  isTerminateInterpretation : Bool
deriving DecidableEq, Repr

/-- One row of the file, with the members the rhythm analysis reads and
writes. -/
structure HumdrumLine where
  /-- duration from the start of the score, `getDurationFromStart` -/
  durationFromStart : HumNum
  /-- duration of the line, `getDuration` -/
  duration : HumNum
  durationFromBarline : HumNum
  durationToBarline : HumNum
  hasSpines : Bool
  isBarline : Bool
  isData : Bool
  isAllRhythmicNull : Bool
deriving DecidableEq, Repr

/-- The members of `HumdrumFileStructure` (inherited from `HumdrumFileBase`)
used by the rhythm analysis.  `trackstarts` holds the entries of
`m_trackstarts` from index 1 on (index 0 is reserved in the source), so
`getMaxTrack` is its length and `getTrackStart(i)` its entry `i - 1`. -/
structure HumdrumFileStructure where
  lines : List HumdrumLine
  tokens : List HumdrumToken
  trackstarts : List Nat
  barlines : List Nat
  ticksperquarternote : Int
  /-- the message of `m_parseError`, set by `setParseError` only -/
  parseError : String := ""
deriving DecidableEq, Repr

/-- `HumdrumLine::setDurationFromStart` on `lines[i]`. -/
def setDurationFromStart (lines : List HumdrumLine) (i : Nat) (dur : HumNum) :
    List HumdrumLine :=
  match lines[i]? with
  | some l => lines.set i { l with durationFromStart := dur }
  | none => lines

/-- `HumdrumLine::setDuration` on `lines[i]`. -/
def setDuration (lines : List HumdrumLine) (i : Nat) (dur : HumNum) :
    List HumdrumLine :=
  match lines[i]? with
  | some l => lines.set i { l with duration := dur }
  | none => lines

/-- `HumdrumToken::incrementState` on token `tok`. -/
def incrementState (f : HumdrumFileStructure) (tok : Nat) : HumdrumFileStructure :=
  match f.tokens[tok]? with
  | some t => { f with tokens := f.tokens.set tok { t with rhycheck := t.rhycheck + 1 } }
  | none => f

/-- `HumdrumFileBase::getMaxTrack`. -/
def getMaxTrack (f : HumdrumFileStructure) : Nat := f.trackstarts.length

/-- `HumdrumFileBase::getTrackStart(track)`, tracks counted from 1. -/
def getTrackStart (f : HumdrumFileStructure) (track : Nat) : Option Nat :=
  if track = 0 then none else f.trackstarts[track - 1]?

/-! ## Score duration, ticks per quarter note, barline queries -/

/-- `HumdrumFileStructure::getScoreDuration`. -/
def getScoreDuration (f : HumdrumFileStructure) : HumNum :=
  if h : f.lines = [] then 0 else (f.lines.getLast h).durationFromStart

/-- `std::set<HumNum>::insert` on a set kept as a strictly increasing list. -/
def setInsert (x : HumNum) : List HumNum → List HumNum
  | [] => [x]
  | y :: ys =>
    if x < y then x :: y :: ys
    else if x = y then y :: ys
    else y :: setInsert x ys

/-- `HumdrumFileStructure::getPositiveLineDurations`. -/
def getPositiveLineDurations (f : HumdrumFileStructure) : List HumNum :=
  f.lines.foldl
    (fun output line => if 0 < line.duration then setInsert line.duration output else output)
    []

/-- Modelled from the spec: `Convert::getLcm` (Convert.cpp is not among the
sources) is the least common multiple of the listed integers, as in
"tpq = lcm of the denominators".  It returns an `int`: there is a result only
when the least common multiple is below 2^31. -/
def Convert.getLcm (dems : List Int) : Option Int :=
  let l := dems.foldl (fun acc d => (Int.lcm acc d : Int)) 1
  if l < 2 ^ 31 then some l else none

/-- The vector `dems` of `tpq`: the denominators greater than 1 of the
positive line durations. -/
def tpq.dems (f : HumdrumFileStructure) : List Int :=
  (getPositiveLineDurations f).foldl
    (fun dems it => if 1 < it.den then dems ++ [(it.den : Int)] else dems) []

/-- `HumdrumFileStructure::tpq`: the value returned and the file with the
cached value stored.  The value is an `int`: there is no result when the
least common multiple of the denominators does not fit. -/
def tpq (f : HumdrumFileStructure) : Option (Int × HumdrumFileStructure) :=
  if 0 < f.ticksperquarternote then some (f.ticksperquarternote, f)
  else
    (if 0 < (tpq.dems f).length then Convert.getLcm (tpq.dems f) else some 1).map
      (fun lcm => (lcm, { f with ticksperquarternote := lcm }))

/-- `HumdrumFileStructure::getBarlineCount`. -/
def getBarlineCount (f : HumdrumFileStructure) : Int := f.barlines.length

/-- The statement `index += barlines.size()` for an `int index`: both operands
are converted to the unsigned 64-bit type of `size()`, the sum is taken
modulo 2^64 and converted back to the 32-bit `int` (modulo 2^32, into the
signed range). -/
def intPlusSize (index : Int) (size : Nat) : Int :=
  let u := (index + size) % 2 ^ 64
  let w := u % 2 ^ 32
  if w < 2 ^ 31 then w else w - 2 ^ 32

/-- The part of `getBarline` after the adjustment of a negative index:
`some none` is the NULL result, and `none` a read outside the vector. -/
def getBarline.entry (f : HumdrumFileStructure) (index : Int) : Option (Option Nat) :=
  if index < 0 then some none
  else if index ≥ f.barlines.length then some none
  else (f.barlines[index.toNat]?).map some

/-- `HumdrumFileStructure::getBarline`. -/
def getBarline (f : HumdrumFileStructure) (index : Int) : Option (Option Nat) :=
  getBarline.entry f (if index < 0 then intPlusSize index f.barlines.length else index)

/-- `HumdrumFileStructure::getBarlineDuration`.  The comparison
`index + 1 < barlines.size() - 1` is made on unsigned 64-bit values. -/
def getBarlineDuration (f : HumdrumFileStructure) (index : Int) : Option HumNum :=
  let index := if index < 0 then intPlusSize index f.barlines.length else index
  if index < 0 then some 0
  else if index ≥ f.barlines.length then some 0
  else do
    let b ← f.barlines[index.toNat]?
    let bl ← f.lines[b]?
    let startdur := bl.durationFromStart
    let enddur ←
      if (index + 1).toNat % 2 ^ 64 < (f.barlines.length + 2 ^ 64 - 1) % 2 ^ 64 then do
        let b1 ← f.barlines[(index + 1).toNat]?
        let bl1 ← f.lines[b1]?
        pure bl1.durationFromStart
      else pure (getScoreDuration f)
    pure (enddur - startdur)

/-! ## Meter analysis -/

/-- First loop of `analyzeMeter`, from line `i` on: sets
`durationFromBarline` and collects the barline list. -/
def analyzeMeter.forward : Nat → HumNum → Bool → List Nat → List HumdrumLine →
    List HumdrumLine × List Nat
  | _, _, _, barlines, [] => ([], barlines)
  | i, sum, foundbarline, barlines, l :: rest =>
    let l1 := { l with durationFromBarline := sum }
    let sum1 := sum + l1.duration
    let afterBar : HumNum × Bool × List Nat :=
      if l1.isBarline then (0, true, barlines ++ [i]) else (sum1, foundbarline, barlines)
    let afterData : Bool × List Nat :=
      if l1.isData && !afterBar.2.1 then (true, afterBar.2.2 ++ [0])
      else (afterBar.2.1, afterBar.2.2)
    let r := analyzeMeter.forward (i + 1) afterBar.1 afterData.1 afterData.2 rest
    (l1 :: r.1, r.2)

/-- Second loop of `analyzeMeter`, from the last line back to the first:
returns the lines with `durationToBarline` set and the running sum. -/
def analyzeMeter.backward : List HumdrumLine → List HumdrumLine × HumNum
  | [] => ([], 0)
  | l :: rest =>
    let r := analyzeMeter.backward rest
    let sum := r.2 + l.duration
    ({ l with durationToBarline := sum } :: r.1, if l.isBarline then 0 else sum)

/-- `HumdrumFileStructure::analyzeMeter`. -/
def analyzeMeter (f : HumdrumFileStructure) : Bool × HumdrumFileStructure :=
  let r := analyzeMeter.forward 0 0 false [] f.lines
  (true, { f with lines := (analyzeMeter.backward r.1).1, barlines := r.2 })

/-! ## Rhythm propagation through the token graph -/

/-- `HumdrumFileStructure::setLineDurationFromStart`. -/
def setLineDurationFromStart (f : HumdrumFileStructure) (token : Nat) (dursum : HumNum) :
    Option (Bool × HumdrumFileStructure) := do
  let t ← f.tokens[token]?
  if !t.isTerminateInterpretation && t.duration < 0 then
    -- undefined rhythm, so don't assign line duration information
    pure (true, f)
  else
    let line ← f.lines[t.lineIndex]?
    if line.durationFromStart < 0 then
      pure (true, { f with lines := setDurationFromStart f.lines t.lineIndex dursum })
    else if line.durationFromStart ≠ dursum then
      pure (false, f)
    else
      pure (true, f)

/-- How a loop inside `prepareDurations` ends: the function returns `b`, or
the loop is left with the current token and running sum. -/
inductive Walk where
  | ret (b : Bool) (f : HumdrumFileStructure)
  | fall (f : HumdrumFileStructure) (token : Nat) (dursum : HumNum)
deriving DecidableEq, Repr

/-- The first `while (tcount > 0)` loop of `prepareDurations` (primary
track), entered at `token` with running sum `dursum`. -/
def prepareDurations.primary (state : Int) :
    Nat → HumdrumFileStructure → Nat → HumNum → Option Walk
  | 0, _, _, _ => none
  | fuel + 1, f, token, dursum => do
    let t ← f.tokens[token]?
    if 0 < t.nextTokens.length then
      let token1 ← t.nextTokens[0]?
      let t1 ← f.tokens[token1]?
      if state ≠ t1.rhycheck then
        pure (Walk.ret true f)
      else
        let f1 := incrementState f token1
        let r ← setLineDurationFromStart f1 token1 dursum
        if !r.1 then
          pure (Walk.ret false r.2)
        else
          let dursum1 := if 0 < t1.duration then dursum + t1.duration else dursum
          prepareDurations.primary state fuel r.2 token1 dursum1
    else
      pure (Walk.fall f token dursum)

/-- The loop `for (int i=1; i<tcount; i++)` of `prepareDurations` over the
secondary next tokens `rest`, each handed to the recursive call. -/
def prepareDurations.branches
    (recurse : HumdrumFileStructure → Nat → HumNum → Option (Bool × HumdrumFileStructure)) :
    HumdrumFileStructure → List Nat → HumNum → Option (Bool × HumdrumFileStructure)
  | f, [], _ => some (true, f)
  | f, x :: rest, dursum => do
    let r ← recurse f x dursum
    if !r.1 then
      pure (false, r.2)
    else
      prepareDurations.branches recurse r.2 rest dursum

/-- The second `while (tcount > 0)` loop of `prepareDurations` (secondary
tracks), entered at `token` with running sum `dursum`. -/
def prepareDurations.secondary
    (recurse : HumdrumFileStructure → Nat → HumNum → Option (Bool × HumdrumFileStructure))
    (newstate : Int) :
    Nat → HumdrumFileStructure → Nat → HumNum → Option (Bool × HumdrumFileStructure)
  | 0, _, _, _ => none
  | fuel + 1, f, token, dursum => do
    let t ← f.tokens[token]?
    if 0 < t.nextTokens.length then
      let r ← prepareDurations.branches recurse f (t.nextTokens.drop 1) dursum
      if !r.1 then
        pure (false, r.2)
      else
        let token1 ← t.nextTokens[0]?
        let t1 ← r.2.tokens[token1]?
        if newstate ≠ t1.rhycheck then
          pure (true, r.2)
        else
          let dursum1 := if 0 < t1.duration then dursum + t1.duration else dursum
          prepareDurations.secondary recurse newstate fuel r.2 token1 dursum1
    else
      pure (true, f)

/-- `HumdrumFileStructure::prepareDurations`.  The fuel bounds the depth of
the recursion and the length of each loop. -/
def prepareDurations :
    Nat → HumdrumFileStructure → Nat → Int → HumNum → Option (Bool × HumdrumFileStructure)
  | 0, _, _, _, _ => none
  | fuel + 1, f, token, state, startdur => do
    let t ← f.tokens[token]?
    if state ≠ t.rhycheck then
      pure (true, f)
    else
      let initial := token
      let f1 := incrementState f token
      let r ← setLineDurationFromStart f1 token startdur
      if !r.1 then
        pure (false, r.2)
      else
        let dursum := if 0 < t.duration then startdur + t.duration else startdur
        -- Assign line durationFromStarts for primary track first.
        match ← prepareDurations.primary state fuel r.2 token dursum with
        | Walk.ret b f2 => pure (b, f2)
        | Walk.fall f2 last dursum2 =>
          let tl ← f2.tokens[last]?
          let r3 ←
            if tl.isTerminateInterpretation then setLineDurationFromStart f2 last dursum2
            else pure (true, f2)
          if !r3.1 then
            pure (false, r3.2)
          else
            -- Process secondary tracks next:
            let newstate := state + 1
            let dursum := if 0 < t.duration then startdur + t.duration else startdur
            prepareDurations.secondary
              (fun g x d => prepareDurations fuel g x state d) newstate fuel r3.2 initial dursum

/-- `HumdrumFileStructure::assignDurationsToTrack`.  One more unit of fuel
than the file has lines is enough when every link leads to a later line. -/
def assignDurationsToTrack (f : HumdrumFileStructure) (starttoken : Nat) (startdur : HumNum) :
    Option (Bool × HumdrumFileStructure) := do
  let t ← f.tokens[starttoken]?
  if !t.hasRhythm then
    pure (true, f)
  else
    let state := t.rhycheck
    prepareDurations (f.lines.length + 1) f starttoken state startdur

/-- The search loop of `analyzeRhythmOfFloatingSpine`: `tcount` is not
updated inside the loop, so the loop is only left through `break`; the result
is `(founddur, dursum)`. -/
def analyzeRhythmOfFloatingSpine.search (f : HumdrumFileStructure) :
    Nat → Nat → HumNum → Option (HumNum × HumNum)
  | 0, _, _ => none
  | fuel + 1, token, dursum => do
    let t ← f.tokens[token]?
    let line ← f.lines[t.lineIndex]?
    if 0 ≤ line.durationFromStart then
      pure (line.durationFromStart, dursum)
    else
      let dursum1 := if 0 < t.duration then dursum + t.duration else dursum
      let token1 ← t.nextTokens[0]?
      analyzeRhythmOfFloatingSpine.search f fuel token1 dursum1

/-- `HumdrumFileStructure::analyzeRhythmOfFloatingSpine`. -/
def analyzeRhythmOfFloatingSpine (f : HumdrumFileStructure) (spinestart : Nat) :
    Option (Bool × HumdrumFileStructure) := do
  let t ← f.tokens[spinestart]?
  let line ← f.lines[t.lineIndex]?
  let found : HumNum × HumNum ←
    if 0 ≤ line.durationFromStart then pure (line.durationFromStart, 0)
    else if 0 < t.nextTokens.length then
      analyzeRhythmOfFloatingSpine.search f (f.lines.length + 1) spinestart 0
    else pure (0, 0)
  if found.1 = 0 then
    pure (false, f)
  else
    assignDurationsToTrack f spinestart (found.1 - found.2)

/-! ## Null lines, unknown start times, line durations -/

/-- The loop `for (j=0; j<nulllines.size(); j++)` of
`analyzeNullLineRhythms`, from index `j` on. -/
def analyzeNullLineRhythms.assign (startdur nulldur : HumNum) :
    Nat → List Nat → List HumdrumLine → List HumdrumLine
  | _, [], lines => lines
  | j, p :: rest, lines =>
    analyzeNullLineRhythms.assign startdur nulldur (j + 1) rest
      (setDurationFromStart lines p (startdur + nulldur * ((j : HumNum) + 1)))

/-- The main loop of `analyzeNullLineRhythms` from line `i` on, with the
local variables `nulllines` and `previous` (line indices). -/
def analyzeNullLineRhythms.loop :
    Nat → Nat → List HumdrumLine → List Nat → Option Nat → Option (Bool × List HumdrumLine)
  | 0, _, _, _, _ => none
  | fuel + 1, i, lines, nulllines, previous =>
    if i < lines.length then do
      let l ← lines[i]?
      if !l.hasSpines then
        analyzeNullLineRhythms.loop fuel (i + 1) lines nulllines previous
      else if l.isAllRhythmicNull then
        if l.isData then
          analyzeNullLineRhythms.loop fuel (i + 1) lines (nulllines ++ [i]) previous
        else
          analyzeNullLineRhythms.loop fuel (i + 1) lines nulllines previous
      else
        let dur := l.durationFromStart
        if dur < 0 then
          if l.isData then
            pure (false, lines)
          else
            analyzeNullLineRhythms.loop fuel (i + 1) lines nulllines previous
        else
          match previous with
          | none => analyzeNullLineRhythms.loop fuel (i + 1) lines [] (some i)
          | some prev =>
            let pl ← lines[prev]?
            let startdur := pl.durationFromStart
            let enddur := l.durationFromStart
            let gapdur := enddur - startdur
            let nulldur := gapdur / ((nulllines.length : HumNum) + 1)
            let lines1 := analyzeNullLineRhythms.assign startdur nulldur 0 nulllines lines
            analyzeNullLineRhythms.loop fuel (i + 1) lines1 [] (some i)
    else
      pure (true, lines)

/-- `HumdrumFileStructure::analyzeNullLineRhythms`. -/
def analyzeNullLineRhythms (f : HumdrumFileStructure) : Option (Bool × HumdrumFileStructure) := do
  let r ← analyzeNullLineRhythms.loop (f.lines.length + 1) 0 f.lines [] none
  pure (r.1, { f with lines := r.2 })

/-- First loop of `fillInNegativeStartTimes`, from the last line back to the
first: the lines and the final value of `lastdur`. -/
def fillInNegativeStartTimes.backward : List HumdrumLine → List HumdrumLine × HumNum
  | [] => ([], -1)
  | l :: rest =>
    let r := fillInNegativeStartTimes.backward rest
    let lastdur := r.2
    let dur := l.durationFromStart
    let l1 := if dur < 0 ∧ 0 ≤ lastdur then { l with durationFromStart := lastdur } else l
    (l1 :: r.1, if 0 ≤ dur then dur else lastdur)

/-- Second loop of `fillInNegativeStartTimes` (start times for ending
comments), entered with the value `lastdur` left by the first loop. -/
def fillInNegativeStartTimes.forward : HumNum → List HumdrumLine → List HumdrumLine
  | _, [] => []
  | lastdur, l :: rest =>
    let dur := l.durationFromStart
    if 0 ≤ dur then l :: fillInNegativeStartTimes.forward dur rest
    else { l with durationFromStart := lastdur } :: fillInNegativeStartTimes.forward lastdur rest

/-- `HumdrumFileStructure::fillInNegativeStartTimes`. -/
def fillInNegativeStartTimes (f : HumdrumFileStructure) : HumdrumFileStructure :=
  let r := fillInNegativeStartTimes.backward f.lines
  { f with lines := fillInNegativeStartTimes.forward r.2 r.1 }

/-- The loop `for (int i=0; i<lines.size()-1; i++)` of `assignLineDurations`;
`bound` is the value of `lines.size()-1`. -/
def assignLineDurations.loop (bound : Nat) :
    Nat → Nat → List HumdrumLine → Option (List HumdrumLine)
  | 0, _, _ => none
  | fuel + 1, i, lines =>
    if i < bound then do
      let li ← lines[i]?
      let lj ← lines[i + 1]?
      let startdur := li.durationFromStart
      let enddur := lj.durationFromStart
      let dur := enddur - startdur
      assignLineDurations.loop bound fuel (i + 1) (setDuration lines i dur)
    else
      pure lines

/-- `HumdrumFileStructure::assignLineDurations`.  `lines.size()` is an
unsigned 64-bit integer, so `lines.size()-1` wraps around for the empty
vector, and reading a line outside the vector gives `none`. -/
def assignLineDurations (f : HumdrumFileStructure) : Option HumdrumFileStructure := do
  let bound := (f.lines.length + 2 ^ 64 - 1) % 2 ^ 64
  let lines ← assignLineDurations.loop bound (bound + 1) 0 f.lines
  if 0 < lines.length then
    pure { f with lines := setDuration lines (lines.length - 1) 0 }
  else
    pure { f with lines := lines }

/-! ## The rhythm analysis as a whole -/

/-- First loop of `analyzeRhythm` over the tracks `i, i+1, ...`: tracks that
start on the line of track 1 are propagated from zero. -/
def analyzeRhythm.first (startline : Nat) :
    Nat → Nat → HumdrumFileStructure → Option (Bool × HumdrumFileStructure)
  | 0, _, f => some (true, f)
  | n + 1, i, f => do
    let start ← getTrackStart f i
    let t ← f.tokens[start]?
    if !t.hasRhythm then
      analyzeRhythm.first startline n (i + 1) f
    else
      let testline := t.lineIndex
      if testline = startline then
        let r ← assignDurationsToTrack f start 0
        if !r.1 then
          pure (false, r.2)
        else
          analyzeRhythm.first startline n (i + 1) r.2
      else
        analyzeRhythm.first startline n (i + 1) f

/-- Second loop of `analyzeRhythm` over the tracks `i, i+1, ...`: spines
which do not start at the beginning of the data stream. -/
def analyzeRhythm.second (startline : Nat) :
    Nat → Nat → HumdrumFileStructure → Option (Bool × HumdrumFileStructure)
  | 0, _, f => some (true, f)
  | n + 1, i, f => do
    let start ← getTrackStart f i
    let t ← f.tokens[start]?
    if !t.hasRhythm then
      analyzeRhythm.second startline n (i + 1) f
    else
      let testline := t.lineIndex
      if testline > startline then
        let r ← analyzeRhythmOfFloatingSpine f start
        if !r.1 then
          pure (false, r.2)
        else
          analyzeRhythm.second startline n (i + 1) r.2
      else
        analyzeRhythm.second startline n (i + 1) f

/-- `HumdrumFileStructure::analyzeRhythm`.  `analyzeNonNullDataTokens`
belongs to `HumdrumFileBase`, whose implementation is not among the sources;
the links it builds are not part of this state, and its verdict is the
parameter `nonNullDataTokens`. -/
def analyzeRhythm (nonNullDataTokens : HumdrumFileStructure → Bool)
    (f : HumdrumFileStructure) : Option (Bool × HumdrumFileStructure) :=
  if getMaxTrack f = 0 then
    some (true, f)
  else do
    let start1 ← getTrackStart f 1
    let t1 ← f.tokens[start1]?
    let startline := t1.lineIndex
    let r1 ← analyzeRhythm.first startline (getMaxTrack f) 1 f
    if !r1.1 then
      pure (false, r1.2)
    else
      let r2 ← analyzeRhythm.second startline (getMaxTrack f) 1 r1.2
      if !r2.1 then
        pure (false, r2.2)
      else
        let r3 ← analyzeNullLineRhythms r2.2
        if !r3.1 then
          pure (false, r3.2)
        else
          let f4 := fillInNegativeStartTimes r3.2
          let f5 ← assignLineDurations f4
          let r6 := analyzeMeter f5
          if !r6.1 then
            pure (false, r6.2)
          else if !nonNullDataTokens r6.2 then
            pure (false, r6.2)
          else
            pure (true, r6.2)

/-! ## Auxiliary definitions for the statements -/

/-- The file has a pickup measure: some data line occurs before the first
barline line (or there are data lines and no barline line at all). -/
def HasPickup (lines : List HumdrumLine) : Prop :=
  ∃ (i : Nat) (l : HumdrumLine), lines[i]? = some l ∧ l.isData = true ∧
    ∀ (j : Nat) (l1 : HumdrumLine), j ≤ i → lines[j]? = some l1 → l1.isBarline = false

/-- Scan for a data line ahead of the first barline line. -/
def pickupScan : List HumdrumLine → Bool
  | [] => false
  | l :: rest => if l.isBarline then false else if l.isData then true else pickupScan rest


/-- What the loop of `assignLineDurations` computes, by recursion on the
lines: every line but the last gets the difference to the next line. -/
def lineDurations : List HumdrumLine → List HumdrumLine
  | [] => []
  | [l] => [l]
  | l :: m :: rest =>
    { l with duration := m.durationFromStart - l.durationFromStart } :: lineDurations (m :: rest)


/-- A line of the given kind with every duration still undefined, as left by
the constructor of `HumdrumLine`. -/
def freshLine (hasSpines isBarline isData isAllRhythmicNull : Bool) : HumdrumLine :=
  ⟨-1, -1, -1, -1, hasSpines, isBarline, isData, isAllRhythmicNull⟩

/-- A token of a rhythmic spine (`**kern`) that has not been visited. -/
def kernToken (line : Nat) (dur : HumNum) (next prev : List Nat) (term : Bool) :
    HumdrumToken :=
  ⟨line, dur, 0, next, prev, true, term⟩

/-- The file `**kern / 4c / =1 / 4d / 4e / =2 / 4f / 4g / *-` after parsing
and token duration analysis: a pickup beat and two measures. -/
def pickupFile : HumdrumFileStructure :=
  { lines := [freshLine true false false false, freshLine true false true false,
              freshLine true true false false, freshLine true false true false,
              freshLine true false true false, freshLine true true false false,
              freshLine true false true false, freshLine true false true false,
              freshLine true false false false],
    tokens := [kernToken 0 (-1) [1] [] false, kernToken 1 1 [2] [0] false,
               kernToken 2 (-1) [3] [1] false, kernToken 3 1 [4] [2] false,
               kernToken 4 1 [5] [3] false, kernToken 5 (-1) [6] [4] false,
               kernToken 6 1 [7] [5] false, kernToken 7 1 [8] [6] false,
               kernToken 8 (-1) [] [7] true],
    trackstarts := [0], barlines := [], ticksperquarternote := 0 }

/-- The pickup file after `analyzeRhythm`. -/
def pickupAnalyzed : Option HumdrumFileStructure :=
  (analyzeRhythm (fun _ => true) pickupFile).map Prod.snd

/-- Three lines starting at 0, 1 and 3. -/
def threeLines : HumdrumFileStructure :=
  { lines := [⟨0, -1, -1, -1, true, false, true, false⟩, ⟨1, -1, -1, -1, true, false, true, false⟩,
              ⟨3, -1, -1, -1, true, false, false, false⟩],
    tokens := [], trackstarts := [], barlines := [], ticksperquarternote := 0 }

/-- The least common multiple of the denominators of the positive line
durations, as the spec words it. -/
def lcmOfDenominators (lines : List HumdrumLine) : Nat :=
  ((lines.filter (fun l => decide (0 < l.duration))).map (fun l => l.duration.den)).foldr
    Nat.lcm 1

/-- Ten lines lasting 1/3, 1/5, 1/7, 1/11, 1/13, 1/17, 1/19, 1/23, 1/29 and
1/31 of a quarter note. -/
def primeLines : HumdrumFileStructure :=
  { lines := [3, 5, 7, 11, 13, 17, 19, 23, 29, 31].map
      (fun n : Nat => ⟨-1, 1 / (n : HumNum), -1, -1, true, false, true, false⟩),
    tokens := [], trackstarts := [], barlines := [], ticksperquarternote := 0 }

/-- Five lines: a comment before the data, a line starting at 0, a comment,
a line starting at 1, and a trailing comment; comments have no start time. -/
def gapLines : HumdrumFileStructure :=
  { lines := [⟨-1, -1, -1, -1, false, false, false, false⟩,
              ⟨0, -1, -1, -1, true, false, true, false⟩,
              ⟨-1, -1, -1, -1, false, false, false, false⟩,
              ⟨1, -1, -1, -1, true, false, true, false⟩,
              ⟨-1, -1, -1, -1, false, false, false, false⟩],
    tokens := [], trackstarts := [], barlines := [], ticksperquarternote := 0 }

/-- A line that `analyzeNullLineRhythms` takes as the next reference point:
spined, not all rhythmic null, with a known start time. -/
def isAnchor (l : HumdrumLine) : Bool :=
  l.hasSpines && !l.isAllRhythmicNull && decide (0 ≤ l.durationFromStart)

/-- A line that `analyzeNullLineRhythms` collects in `nulllines`: a data line
whose rhythmic tokens are all null. -/
def isNullData (l : HumdrumLine) : Bool :=
  l.hasSpines && l.isAllRhythmicNull && l.isData

/-- A line on which `analyzeNullLineRhythms` gives up: a spined data line
that is not all rhythmic null and has no start time. -/
def isUnexpectedNegative (l : HumdrumLine) : Bool :=
  l.hasSpines && !l.isAllRhythmicNull && decide (l.durationFromStart < 0) && l.isData

/-- Whether line `m` of `lines` is a null data line. -/
def nullAt (lines : List HumdrumLine) (m : Nat) : Bool :=
  match lines[m]? with
  | some l => isNullData l
  | none => false

/-- The indices of the null data lines strictly between lines `p` and `q`, in
file order. -/
def nullsBetween (lines : List HumdrumLine) (p q : Nat) : List Nat :=
  (List.range' (p + 1) (q - (p + 1))).filter (nullAt lines)

/-- The lines after the assignment made when the reference line `l` is
reached with `previous` equal to `prev`. -/
def nullAssign (L : List HumdrumLine) (nulls : List Nat) (prev : Option Nat) (l : HumdrumLine) :
    List HumdrumLine :=
  match prev with
  | none => L
  | some p =>
    match L[p]? with
    | some pl =>
      analyzeNullLineRhythms.assign pl.durationFromStart
        ((l.durationFromStart - pl.durationFromStart) / ((nulls.length : HumNum) + 1)) 0 nulls L
    | none => L

/-- The state of the loop when it arrives at line `i`, relative to the lines
`lines` it started from: only lines before `i` have been touched, and the
local variables point before `i`. -/
def NullLoopInv (lines : List HumdrumLine) (i : Nat) (L : List HumdrumLine) (nulls : List Nat)
    (prev : Option Nat) : Prop :=
  L.length = lines.length ∧ (∀ m, i ≤ m → L[m]? = lines[m]?) ∧ (∀ x ∈ nulls, x < i) ∧
    ∀ p, prev = some p → p < i

/-- Two data lines starting at 1 and 2 with two all-null data lines between
them. -/
def nullPair : HumdrumFileStructure :=
  { lines := [⟨1, -1, -1, -1, true, false, true, false⟩,
              ⟨-1, -1, -1, -1, true, false, true, true⟩,
              ⟨-1, -1, -1, -1, true, false, true, true⟩,
              ⟨2, -1, -1, -1, true, false, true, false⟩],
    tokens := [], trackstarts := [], barlines := [], ticksperquarternote := 0 }

/-- The lines of `nullPair` after a data line that is not all rhythmic null
and has no start time. -/
def nullPairAfterUnknown : HumdrumFileStructure :=
  { nullPair with lines := ⟨-1, -1, -1, -1, true, false, true, false⟩ :: nullPair.lines }

/-- The file `f0` with the visit counter of token `i` replaced by `S i` and
the start time of line `n` replaced by `D n`: every state reached by the
rhythm propagation has this form. -/
def withState (f0 : HumdrumFileStructure) (S : Nat → Int) (D : Nat → HumNum) :
    HumdrumFileStructure :=
  { f0 with
    tokens := f0.tokens.mapIdx (fun i t => { t with rhycheck := S i })
    lines := f0.lines.mapIdx (fun i l => { l with durationFromStart := D i }) }

/-- The visit counters of a file, as a function of the token index. -/
def stateOf (f : HumdrumFileStructure) (i : Nat) : Int :=
  match f.tokens[i]? with
  | some t => t.rhycheck
  | none => 0

/-- The start times of the lines of a file, as a function of the line index. -/
def startOf (f : HumdrumFileStructure) (i : Nat) : HumNum :=
  match f.lines[i]? with
  | some l => l.durationFromStart
  | none => -1

/-- A token whose line gets a start time from the propagation: a terminator
or a token with a defined duration. -/
def isTimed (t : HumdrumToken) : Bool :=
  t.isTerminateInterpretation || decide (0 ≤ t.duration)

/-- What a token adds to the running sum: its duration if positive. -/
def posDur (t : HumdrumToken) : HumNum :=
  if 0 < t.duration then t.duration else 0

/-- The effect of `setLineDurationFromStart` for token `t` and running sum
`d` on the start times: the verdict and the new start times. -/
def lineStep (D : Nat → HumNum) (t : HumdrumToken) (d : HumNum) : Bool × (Nat → HumNum) :=
  if isTimed t then
    if D t.lineIndex < 0 then (true, Function.update D t.lineIndex d)
    else if D t.lineIndex ≠ d then (false, D)
    else (true, D)
  else (true, D)

/-- Every link leads to an existing token on a later line, and every token
lies on a line of the file. -/
structure WellLinked (f0 : HumdrumFileStructure) : Prop where
  next_valid : ∀ (i j : Nat) (t : HumdrumToken), f0.tokens[i]? = some t → j ∈ t.nextTokens →
    ∃ tj, f0.tokens[j]? = some tj ∧ t.lineIndex < tj.lineIndex
  line_valid : ∀ (i : Nat) (t : HumdrumToken), f0.tokens[i]? = some t →
    t.lineIndex < f0.lines.length

/-- The start times after the extra call of `setLineDurationFromStart` for
the token at which the primary loop ended. -/
def lastStep (D : Nat → HumNum) (tl : HumdrumToken) (d : HumNum) : Bool × (Nat → HumNum) :=
  if tl.isTerminateInterpretation then lineStep D tl d else (true, D)

/-- A timing of the tokens of a file: an onset `τ x` for every token such
that along every link the onset of the next token is the onset of the token
plus its positive duration, and two timed tokens on one line have the same
onset. -/
structure Timing (f0 : HumdrumFileStructure) (τ : Nat → HumNum) : Prop where
  nonneg : ∀ x, 0 ≤ τ x
  link : ∀ (x y : Nat) (tx : HumdrumToken), f0.tokens[x]? = some tx → y ∈ tx.nextTokens →
    τ y = τ x + posDur tx
  line : ∀ (x y : Nat) (tx ty : HumdrumToken), f0.tokens[x]? = some tx →
    f0.tokens[y]? = some ty → isTimed tx = true → isTimed ty = true →
    tx.lineIndex = ty.lineIndex → τ x = τ y

/-- The start times `D` agree with the timing wherever a timed token sits on
a line whose start time is known. -/
def Compat (f0 : HumdrumFileStructure) (τ : Nat → HumNum) (D : Nat → HumNum) : Prop :=
  ∀ (x : Nat) (tx : HumdrumToken), f0.tokens[x]? = some tx → isTimed tx = true →
    0 ≤ D tx.lineIndex → D tx.lineIndex = τ x

/-- Known start times are kept. -/
def Ext (D D1 : Nat → HumNum) : Prop := ∀ n, 0 ≤ D n → D1 n = D n

/-- The running sum after token `x`: its onset plus its positive duration. -/
def afterOf (f0 : HumdrumFileStructure) (τ : Nat → HumNum) (x : Nat) : HumNum :=
  match f0.tokens[x]? with
  | some t => τ x + posDur t
  | none => τ x

/-- The visit counters after the tokens of `cs` have been visited once. -/
def bump (S : Nat → Int) (cs : List Nat) (x : Nat) : Int :=
  if x ∈ cs then S x + 1 else S x

/-- `cs` lists the tokens met from `token` on by following the first next
token. -/
def Linked0 (f0 : HumdrumFileStructure) : Nat → List Nat → Prop
  | _, [] => True
  | token, c :: cs =>
    (∃ t rest, f0.tokens[token]? = some t ∧ t.nextTokens = c :: rest) ∧ Linked0 f0 c cs

/-- `cs` lists the tokens met from `token` on, each token before the last
having exactly one next token. -/
def Single (f0 : HumdrumFileStructure) : Nat → List Nat → Prop
  | _, [] => True
  | token, c :: cs =>
    (∃ t, f0.tokens[token]? = some t ∧ t.nextTokens = [c]) ∧ Single f0 c cs

/-- The list `L1` holds the lines of `L` with possibly other start times, the
start times of lines that are not null data lines being kept. -/
def SameButNull (L L1 : List HumdrumLine) : Prop :=
  L1.length = L.length ∧
  ∀ (m : Nat) (l : HumdrumLine), L[m]? = some l →
    ∃ v, L1[m]? = some { l with durationFromStart := v } ∧
      (isNullData l = false → v = l.durationFromStart)

/-- The part of `analyzeRhythm` that follows the propagation through the
tracks. -/
def rhythmTail (nonNullDataTokens : HumdrumFileStructure → Bool) (f2 : HumdrumFileStructure) :
    Option (Bool × HumdrumFileStructure) := do
  let r3 ← analyzeNullLineRhythms f2
  if !r3.1 then
    pure (false, r3.2)
  else
    let f4 := fillInNegativeStartTimes r3.2
    let f5 ← assignLineDurations f4
    let r6 := analyzeMeter f5
    if !r6.1 then
      pure (false, r6.2)
    else if !nonNullDataTokens r6.2 then
      pure (false, r6.2)
    else
      pure (true, r6.2)

/-- The line predicates agree with the tokens: a terminator has no positive
duration; a line holding a timed token is not an all-null data line; the line
count fits the unsigned size type. -/
structure FlagsAgree (f : HumdrumFileStructure) : Prop where
  terminator : ∀ (x : Nat) (t : HumdrumToken), f.tokens[x]? = some t →
    t.isTerminateInterpretation = true → posDur t = 0
  timed_not_null : ∀ (x : Nat) (t : HumdrumToken) (l : HumdrumLine), f.tokens[x]? = some t →
    isTimed t = true → f.lines[t.lineIndex]? = some l → isNullData l = false
  size : f.lines.length < 2 ^ 64

/-- Every spined data line that is not all rhythmic null holds a token that
is a terminator or has a defined duration.  A file need not have this
property: a data token that is not null may have an undefined duration, and
`analyzeNullLineRhythms` then reports an unexpected negative duration. -/
def DataTimed (f : HumdrumFileStructure) : Prop :=
  ∀ (n : Nat) (l : HumdrumLine), f.lines[n]? = some l → l.hasSpines = true →
    l.isAllRhythmicNull = false → l.isData = true →
    ∃ (x : Nat) (t : HumdrumToken), f.tokens[x]? = some t ∧ t.lineIndex = n ∧ isTimed t = true

/-- A freshly parsed file consisting of one rhythmic spine that never
splits: token `k` is followed by token `k + 1` alone, the last token by
nothing; no token has been visited and no line has a start time. -/
structure SingleSpine (f : HumdrumFileStructure) : Prop where
  linked : WellLinked f
  flags : FlagsAgree f
  chain : ∀ (k : Nat) (t : HumdrumToken), f.tokens[k]? = some t →
    t.nextTokens = if k + 1 < f.tokens.length then [k + 1] else []
  start : f.trackstarts = [0]
  nonempty : f.tokens ≠ []
  rhythm : ∀ t : HumdrumToken, f.tokens[0]? = some t → t.hasRhythm = true
  unvisited : ∀ (x : Nat) (t : HumdrumToken), f.tokens[x]? = some t → t.rhycheck = stateOf f 0
  fresh : ∀ (n : Nat) (l : HumdrumLine), f.lines[n]? = some l → l.durationFromStart < 0

/-- The sum of the positive durations of the tokens before token `k`. -/
def sumBefore (f : HumdrumFileStructure) (k : Nat) : HumNum :=
  ((f.tokens.take k).map posDur).sum

/-- The file `**kern / 4c / 4d / *-` after parsing and token duration
analysis. -/
def twoNotes : HumdrumFileStructure :=
  { lines := [freshLine true false false false, freshLine true false true false,
              freshLine true false true false, freshLine true false false false],
    tokens := [kernToken 0 (-1) [1] [] false, kernToken 1 1 [2] [0] false,
               kernToken 2 1 [3] [1] false, kernToken 3 (-1) [] [2] true],
    trackstarts := [0], barlines := [], ticksperquarternote := 0 }

/-- The sum of the positive durations of the tokens listed in `cs`. -/
def pathSum (f : HumdrumFileStructure) (cs : List Nat) : HumNum :=
  (cs.map (fun x => match f.tokens[x]? with
    | some t => posDur t
    | none => 0)).sum

/-- `cs` lists the tokens of a forward path from `token`: each one is among
the next tokens of the one before. -/
def Path (f0 : HumdrumFileStructure) : Nat → List Nat → Prop
  | _, [] => True
  | token, c :: cs => (∃ t, f0.tokens[token]? = some t ∧ c ∈ t.nextTokens) ∧ Path f0 c cs

/-- A freshly parsed file with one rhythmic track that splits once into two
sub-spines which merge again.  The track starts at token 0; `P` lists the
tokens after it up to the split token, whose next tokens are `a1` and `b1`;
`a1 :: A` and `b1 :: B` are the two sub-spines, both leading to the merged
token `m0`; `M` lists the tokens after `m0`, the last of which has no next
token.  No token has been visited and no line has a start time. -/
structure Diamond (f : HumdrumFileStructure) (P : List Nat) (a1 : Nat) (A : List Nat)
    (b1 : Nat) (B : List Nat) (m0 : Nat) (M : List Nat) : Prop where
  linked : WellLinked f
  flags : FlagsAgree f
  start : f.trackstarts = [0]
  first : ∃ t, f.tokens[0]? = some t ∧ t.hasRhythm = true
  pre : Single f 0 P
  split : ∃ ts, f.tokens[(0 :: P).getLast (List.cons_ne_nil _ _)]? = some ts ∧
    ts.nextTokens = [a1, b1]
  left : Single f a1 (A ++ m0 :: M)
  right : Single f b1 (B ++ [m0])
  stop : ∀ tl, f.tokens[(m0 :: M).getLast (List.cons_ne_nil _ _)]? = some tl →
    tl.nextTokens = []
  all : ∀ (x : Nat) (t : HumdrumToken), f.tokens[x]? = some t →
    x ∈ (0 :: (P ++ a1 :: (A ++ m0 :: M))) ++ b1 :: B
  distinct : ((0 :: (P ++ a1 :: (A ++ m0 :: M))) ++ b1 :: B).Nodup
  unvisited : ∀ (x : Nat) (t : HumdrumToken), f.tokens[x]? = some t → t.rhycheck = stateOf f 0
  fresh : ∀ (n : Nat) (l : HumdrumLine), f.lines[n]? = some l → l.durationFromStart < 0

/-- The file `**kern / 4c / *^ / 4c<TAB>4e / *v<TAB>*v / 4g / *-` after
parsing and token duration analysis: one spine that splits on line 2 and
merges on line 4. -/
def splitMerge : HumdrumFileStructure :=
  { lines := [freshLine true false false false, freshLine true false true false,
              freshLine true false false false, freshLine true false true false,
              freshLine true false false false, freshLine true false true false,
              freshLine true false false false],
    tokens := [kernToken 0 (-1) [1] [] false, kernToken 1 1 [2] [0] false,
               kernToken 2 (-1) [3, 4] [1] false, kernToken 3 1 [5] [2] false,
               kernToken 3 1 [6] [2] false, kernToken 4 (-1) [7] [3] false,
               kernToken 4 (-1) [7] [4] false, kernToken 5 1 [8] [5, 6] false,
               kernToken 6 (-1) [] [7] true],
    trackstarts := [0], barlines := [], ticksperquarternote := 0 }

/-- The onsets of the tokens of `splitMerge`. -/
def splitMergeOnset (x : Nat) : HumNum :=
  [0, 0, 1, 1, 1, 2, 2, 2, 3].getD x 0

/-- The file `**kern / *^ / 4c<TAB>2e / 2d<TAB>4f / *v<TAB>*v / *-` after
parsing and token duration analysis: both sub-spines last three quarter
notes, but their second notes start at different times. -/
def crossedDiamond : HumdrumFileStructure :=
  { lines := [freshLine true false false false, freshLine true false false false,
              freshLine true false true false, freshLine true false true false,
              freshLine true false false false, freshLine true false false false],
    tokens := [kernToken 0 (-1) [1] [] false, kernToken 1 (-1) [2, 3] [0] false,
               kernToken 2 1 [4] [1] false, kernToken 2 2 [5] [1] false,
               kernToken 3 2 [6] [2] false, kernToken 3 1 [7] [3] false,
               kernToken 4 (-1) [8] [4] false, kernToken 4 (-1) [8] [5] false,
               kernToken 5 (-1) [] [6, 7] true],
    trackstarts := [0], barlines := [], ticksperquarternote := 0 }

/-- Token `c` is one of the next tokens of token `q`. -/
def Par (f0 : HumdrumFileStructure) (q c : Nat) : Prop :=
  ∃ tq, f0.tokens[q]? = some tq ∧ c ∈ tq.nextTokens

/-- No sub-spines merge: no token is a next token of two different tokens,
and no token lists the same next token twice. -/
structure MergeFree (f0 : HumdrumFileStructure) : Prop where
  one_previous : ∀ (q q1 c : Nat), Par f0 q c → Par f0 q1 c → q = q1
  distinct_next : ∀ (q : Nat) (tq : HumdrumToken), f0.tokens[q]? = some tq →
    tq.nextTokens.Nodup

/-- The next tokens of an unvisited token (visit counter `st`) are
unvisited. -/
def Closed (f0 : HumdrumFileStructure) (st : Int) (S : Nat → Int) : Prop :=
  ∀ (q c : Nat), Par f0 q c → S q = st → S c = st

/-- From `S` to `S1` some unvisited tokens (visit counter `st`) have been
visited once; no other counter has changed. -/
def Grow (st : Int) (S S1 : Nat → Int) : Prop :=
  ∀ y, S1 y = S y ∨ (S y = st ∧ S1 y = st + 1)

/-- What a successful call of `prepareDurations` (as `recurse`) on an
unvisited token `tok`, all of whose previous tokens have been visited, does
in a file without merges: it visits unvisited tokens only, each from a token
visited in the same call, keeps the known start times, and leaves on the
line of every timed token reached by a forward path from `tok` the running
sum `d` plus the positive durations along the path. -/
def TreeSpec (f0 : HumdrumFileStructure) (st : Int)
    (recurse : HumdrumFileStructure → Nat → HumNum → Option (Bool × HumdrumFileStructure)) :
    Prop :=
  ∀ (tok : Nat) (S : Nat → Int) (D : Nat → HumNum) (d : HumNum) (g : HumdrumFileStructure),
    S tok = st → Closed f0 st S → (∀ q, Par f0 q tok → S q ≠ st) → 0 ≤ d →
    recurse (withState f0 S D) tok d = some (true, g) →
    ∃ S1 D1, g = withState f0 S1 D1 ∧ Ext D D1 ∧ Grow st S S1 ∧ Closed f0 st S1 ∧
      (∀ c, S1 c ≠ S c → c = tok ∨ ∃ q, Par f0 q c ∧ S1 q ≠ S q) ∧
      (∀ (π : List Nat) (ty : HumdrumToken), Path f0 tok π →
        f0.tokens[(tok :: π).getLast (List.cons_ne_nil _ _)]? = some ty → isTimed ty = true →
        D1 ty.lineIndex = d + pathSum f0 (tok :: π).dropLast)

/-- A freshly parsed file without merges: links lead to later lines; no
token is a next token of two tokens or twice of one; the track starts are
distinct and have no previous token; no token has been visited (all visit
counters are equal); a line holding a timed token is not a null data line;
the line count fits the unsigned size type. -/
structure MergeFreeFile (f : HumdrumFileStructure) : Prop where
  linked : WellLinked f
  tree : MergeFree f
  roots : ∀ (i s : Nat), getTrackStart f i = some s → ∀ q, ¬ Par f q s
  starts : f.trackstarts.Nodup
  unvisited : ∀ (x y : Nat) (tx ty : HumdrumToken), f.tokens[x]? = some tx →
    f.tokens[y]? = some ty → tx.rhycheck = ty.rhycheck
  timed_not_null : ∀ (x : Nat) (t : HumdrumToken) (l : HumdrumLine), f.tokens[x]? = some t →
    isTimed t = true → f.lines[t.lineIndex]? = some l → isNullData l = false
  size : f.lines.length < 2 ^ 64

/-- Every rhythmic track starts on the line on which track 1 starts. -/
def SameStartLine (f : HumdrumFileStructure) : Prop :=
  ∀ (i s s1 : Nat) (ts t1 : HumdrumToken), getTrackStart f i = some s →
    f.tokens[s]? = some ts → ts.hasRhythm = true → getTrackStart f 1 = some s1 →
    f.tokens[s1]? = some t1 → ts.lineIndex = t1.lineIndex

/-- The file `**kern / *^ / 4c<TAB>2e / *v<TAB>*v / 4g / *-` after parsing
and token duration analysis: the two sub-spines last one and two quarter
notes before they merge. -/
def looseDiamond : HumdrumFileStructure :=
  { lines := [freshLine true false false false, freshLine true false false false,
              freshLine true false true false, freshLine true false false false,
              freshLine true false true false, freshLine true false false false],
    tokens := [kernToken 0 (-1) [1] [] false, kernToken 1 (-1) [2, 3] [0] false,
               kernToken 2 1 [4] [1] false, kernToken 2 2 [5] [1] false,
               kernToken 3 (-1) [6] [2] false, kernToken 3 (-1) [6] [3] false,
               kernToken 4 1 [7] [4, 5] false, kernToken 5 (-1) [] [6] true],
    trackstarts := [0], barlines := [], ticksperquarternote := 0 }

/-- The file `**kern<TAB>**kern / *^<TAB>* / 4c<TAB>4e<TAB>4g / *-<TAB>*-<TAB>*-`
after parsing and token duration analysis: two tracks, the first of which
splits and never merges. -/
def splitOnly : HumdrumFileStructure :=
  { lines := [freshLine true false false false, freshLine true false false false,
              freshLine true false true false, freshLine true false false false],
    tokens := [kernToken 0 (-1) [2] [] false, kernToken 0 (-1) [3] [] false,
               kernToken 1 (-1) [4, 5] [0] false, kernToken 1 (-1) [6] [1] false,
               kernToken 2 1 [7] [2] false, kernToken 2 1 [8] [2] false,
               kernToken 2 1 [9] [3] false, kernToken 3 (-1) [] [4] true,
               kernToken 3 (-1) [] [5] true, kernToken 3 (-1) [] [6] true],
    trackstarts := [0, 1], barlines := [], ticksperquarternote := 0 }

/-! ## Option flags of `HumdrumFileBase.h` -/

/-- `#define OPT_PRIMARY 0x001`: only extract the primary subspine. -/
def OPT_PRIMARY : Nat := 0x001

/-- `#define OPT_NOEMPTY 0x002`. -/
def OPT_NOEMPTY : Nat := 0x002

/-- `#define OPT_NONULL 0x004`. -/
def OPT_NONULL : Nat := 0x004

/-- `#define OPT_NOINTERP 0x008`. -/
def OPT_NOINTERP : Nat := 0x008

/-- `#define OPT_NOMANIP 0x010`. -/
def OPT_NOMANIP : Nat := 0x010

/-- `#define OPT_NOCOMMENT 0x020`. -/
def OPT_NOCOMMENT : Nat := 0x020

/-- `#define OPT_NOGLOBAL 0x040`. -/
def OPT_NOGLOBAL : Nat := 0x040

/-- `#define OPT_NOREST 0x080`. -/
def OPT_NOREST : Nat := 0x080

/-- `#define OPT_NOTIE 0x100`. -/
def OPT_NOTIE : Nat := 0x100

/-- `#define OPT_DATA (OPT_NOMANIP | OPT_NOCOMMENT | OPT_NOGLOBAL)`. -/
def OPT_DATA : Nat := OPT_NOMANIP ||| OPT_NOCOMMENT ||| OPT_NOGLOBAL

/-- `#define OPT_ATTACKS (OPT_DATA | OPT_NOREST | OPT_NOTIE | OPT_NONULL)`. -/
def OPT_ATTACKS : Nat := OPT_DATA ||| OPT_NOREST ||| OPT_NOTIE ||| OPT_NONULL

/-- A file with three barline entries, lines 10, 20 and 30. -/
def threeBarlines : HumdrumFileStructure :=
  { lines := [], tokens := [], trackstarts := [], barlines := [10, 20, 30],
    ticksperquarternote := 0 }

/-! ## Reading a file: the entry points of `HumdrumFileStructure` -/

/-- The readers of `HumdrumFileBase`, whose implementation is not among the
sources, as functions of the input and the state of the object.  `readCsv`
and `readStringCsv` take the separator as second argument; in C++ it has the
default value `","`. -/
structure BaseReaders (σ : Type) where
  read : String → σ → Option (Bool × σ)
  readString : String → σ → Option (Bool × σ)
  readCsv : String → String → σ → Option (Bool × σ)
  readStringCsv : String → String → σ → Option (Bool × σ)

/-- The five analysis phases called by `analyzeStructure`, as functions of
the state of the object. -/
structure Phases (σ : Type) where
  analyzeGlobalParameters : σ → Option (Bool × σ)
  analyzeLocalParameters : σ → Option (Bool × σ)
  analyzeTokenDurations : σ → Option (Bool × σ)
  analyzeRhythm : σ → Option (Bool × σ)
  analyzeDurationsOfNonRhythmicSpines : σ → Option (Bool × σ)

/-- `HumdrumFileStructure::analyzeStructure`. -/
def analyzeStructure {σ : Type} (p : Phases σ) (s : σ) : Option (Bool × σ) :=
  (p.analyzeGlobalParameters s).bind fun r1 =>
  if !r1.1 then some (false, r1.2) else
  (p.analyzeLocalParameters r1.2).bind fun r2 =>
  if !r2.1 then some (false, r2.2) else
  (p.analyzeTokenDurations r2.2).bind fun r3 =>
  if !r3.1 then some (false, r3.2) else
  (p.analyzeRhythm r3.2).bind fun r4 =>
  if !r4.1 then some (false, r4.2) else
  (p.analyzeDurationsOfNonRhythmicSpines r4.2).bind fun r5 =>
  if !r5.1 then some (false, r5.2) else
  some (true, r5.2)

/-- `HumdrumFileStructure::readNoRhythm`. -/
def readNoRhythm {σ : Type} (b : BaseReaders σ) (contents : String) (s : σ) :
    Option (Bool × σ) :=
  b.read contents s

/-- `HumdrumFileStructure::read`. -/
def read {σ : Type} (b : BaseReaders σ) (p : Phases σ) (contents : String) (s : σ) :
    Option (Bool × σ) :=
  (readNoRhythm b contents s).bind fun r =>
  if !r.1 then some (false, r.2) else analyzeStructure p r.2

/-- `HumdrumFileStructure::readString`. -/
def readString {σ : Type} (b : BaseReaders σ) (p : Phases σ) (contents : String) (s : σ) :
    Option (Bool × σ) :=
  (b.readString contents s).bind fun r =>
  if !r.1 then some (false, r.2) else analyzeStructure p r.2

/-- `HumdrumFileStructure::readNoRhythmCsv`: the call
`HumdrumFileBase::readCsv(infile)` leaves the separator to its default. -/
def readNoRhythmCsv {σ : Type} (b : BaseReaders σ) (contents : String) (_seperator : String)
    (s : σ) : Option (Bool × σ) :=
  b.readCsv contents "," s

/-- `HumdrumFileStructure::readCsv`. -/
def readCsv {σ : Type} (b : BaseReaders σ) (p : Phases σ) (contents separator : String)
    (s : σ) : Option (Bool × σ) :=
  (readNoRhythmCsv b contents separator s).bind fun r =>
  if !r.1 then some (false, r.2) else analyzeStructure p r.2

/-- `HumdrumFileStructure::readStringCsv`. -/
def readStringCsv {σ : Type} (b : BaseReaders σ) (p : Phases σ) (contents separator : String)
    (s : σ) : Option (Bool × σ) :=
  (b.readStringCsv contents separator s).bind fun r =>
  if !r.1 then some (false, r.2) else analyzeStructure p r.2

/-- `HumdrumFileStructure::readStringNoRhythmCsv`: the call
`HumdrumFileBase::readStringCsv(contents)` leaves the separator to its
default. -/
def readStringNoRhythmCsv {σ : Type} (b : BaseReaders σ) (contents : String)
    (_separator : String) (s : σ) : Option (Bool × σ) :=
  b.readStringCsv contents "," s

/-- `HumdrumFileBase::parseCsv(istream&, separator)`, defined in the header as
`{ return readCsv(contents); }`. -/
def HumdrumFileBase.parseCsv {σ : Type} (b : BaseReaders σ) (contents : String)
    (_separator : String) (s : σ) : Option (Bool × σ) :=
  b.readCsv contents "," s

/-- `HumdrumFileBase::parseCsv(const string&, separator)`, defined in the
header as `{ return readStringCsv(contents); }`. -/
def HumdrumFileBase.parseCsvString {σ : Type} (b : BaseReaders σ) (contents : String)
    (_separator : String) (s : σ) : Option (Bool × σ) :=
  b.readStringCsv contents "," s

/-- Phases that write their name to a log and return the given verdicts. -/
def logPhases (v1 v2 v3 v4 v5 : Bool) : Phases (List String) :=
  { analyzeGlobalParameters := fun s => some (v1, s ++ ["global"])
    analyzeLocalParameters := fun s => some (v2, s ++ ["local"])
    analyzeTokenDurations := fun s => some (v3, s ++ ["token"])
    analyzeRhythm := fun s => some (v4, s ++ ["rhythm"])
    analyzeDurationsOfNonRhythmicSpines := fun s => some (v5, s ++ ["nonrhythmic"]) }

/-- Base readers that write their name and the separator they are given to
a log; `readString` fails on the empty input. -/
def logReaders : BaseReaders (List String) :=
  { read := fun _ s => some (true, s ++ ["read"])
    readString := fun c s => some (!c.isEmpty, s ++ ["readString"])
    readCsv := fun _ sep s => some (true, s ++ ["readCsv", sep])
    readStringCsv := fun _ sep s => some (true, s ++ ["readStringCsv", sep]) }

/-! ## Parameters -/

/-- The classification and the text of a line, as read by
`analyzeGlobalParameters`: `isAllNull`, `isManipulator`, `isCommentLocal`,
`isCommentGlobal` of `HumdrumLine` (a class not among the sources) and the
characters of the line. -/
structure LineKind where
  isAllNull : Bool
  isManipulator : Bool
  isCommentLocal : Bool
  isCommentGlobal : Bool
  text : String
deriving DecidableEq, Repr

/-- The test `text.find(pattern) == 0` of `std::string`: the text starts with
the pattern. -/
def findAtZero (text pattern : String) : Bool :=
  pattern.data.isPrefixOf text.data

/-- The loop `for (int i=lines.size()-1; i>=0; i--)` of
`analyzeGlobalParameters`, entered with `i + 1` lines still to visit.
`spineline` is the line tracked by the loop; `params` lists the calls
`spineline->setParameters(lines[i])` made so far as pairs
`(spineline, i)`. -/
def analyzeGlobalParameters.loop (kind : Nat → LineKind) (lines : List HumdrumLine) :
    Nat → Option Nat → List (Nat × Nat) → Option (List (Nat × Nat))
  | 0, _, params => some params
  | i + 1, spineline, params => do
    let l ← lines[i]?
    if l.hasSpines then
      if (kind i).isAllNull then
        analyzeGlobalParameters.loop kind lines i spineline params
      else if (kind i).isManipulator then
        analyzeGlobalParameters.loop kind lines i spineline params
      else if (kind i).isCommentLocal then
        analyzeGlobalParameters.loop kind lines i spineline params
      else
        -- should be a non-null data, barlines, or interpretation
        analyzeGlobalParameters.loop kind lines i (some i) params
    else
      match spineline with
      | none => analyzeGlobalParameters.loop kind lines i spineline params
      | some sp =>
        if !(kind i).isCommentGlobal then
          analyzeGlobalParameters.loop kind lines i spineline params
        else if !findAtZero (kind i).text "!!LO:" then
          analyzeGlobalParameters.loop kind lines i spineline params
        else
          analyzeGlobalParameters.loop kind lines i spineline (params ++ [(sp, i)])

/-- `HumdrumFileStructure::analyzeGlobalParameters`: the verdict and the
list of attachments `(target line, "!!LO:" line)`, after those of `params`. -/
def analyzeGlobalParameters (kind : Nat → LineKind) (f : HumdrumFileStructure)
    (params : List (Nat × Nat)) : Option (Bool × List (Nat × Nat)) := do
  let r ← analyzeGlobalParameters.loop kind f.lines f.lines.length none params
  pure (true, r)

/-- Line `j` is a spined line that is not all null, not a spine manipulator
line and not a local comment line. -/
def Attachable (kind : Nat → LineKind) (f : HumdrumFileStructure) (j : Nat) : Prop :=
  ∃ l, f.lines[j]? = some l ∧ l.hasSpines = true ∧ (kind j).isAllNull = false ∧
    (kind j).isManipulator = false ∧ (kind j).isCommentLocal = false

/-- Line `i` is an unspined global comment line whose text starts with
"!!LO:". -/
def IsLayoutLine (kind : Nat → LineKind) (f : HumdrumFileStructure) (i : Nat) : Prop :=
  ∃ l, f.lines[i]? = some l ∧ l.hasSpines = false ∧ (kind i).isCommentGlobal = true ∧
    findAtZero (kind i).text "!!LO:" = true

/-- `Attachable` as a computation on the list of lines. -/
def attachableB (kind : Nat → LineKind) (lines : List HumdrumLine) (j : Nat) : Bool :=
  match lines[j]? with
  | some l => l.hasSpines && !(kind j).isAllNull && !(kind j).isManipulator &&
      !(kind j).isCommentLocal
  | none => false

/-- The first attachable line among the lines `i, i + 1, ...`. -/
def nearestAttachable (kind : Nat → LineKind) (lines : List HumdrumLine) (i : Nat) :
    Option Nat :=
  (List.range' i (lines.length - i)).find? (attachableB kind lines)

/-- The attachment made for line `i`, if any. -/
def layoutAttachment (kind : Nat → LineKind) (lines : List HumdrumLine) (i : Nat) :
    Option (Nat × Nat) :=
  match lines[i]? with
  | some l =>
    if !l.hasSpines && (kind i).isCommentGlobal && findAtZero (kind i).text "!!LO:" then
      (nearestAttachable kind lines (i + 1)).map (fun sp => (sp, i))
    else none
  | none => none

/-- A file of eight lines: `!!LO:TX` / `**kern` / `!!LO:N` / `*^` / `.` /
`4c` / `*-` / `!!LO:X` (only the members read by `analyzeGlobalParameters`
matter). -/
def layoutLines : HumdrumFileStructure :=
  { lines := [freshLine false false false false, freshLine true false false false,
              freshLine false false false false, freshLine true false false false,
              freshLine true false true true, freshLine true false true false,
              freshLine true false false false, freshLine false false false false],
    tokens := [], trackstarts := [], barlines := [], ticksperquarternote := 0 }

/-- The classification and text of the lines of `layoutLines`. -/
def layoutKinds (i : Nat) : LineKind :=
  [⟨false, false, false, true, "!!LO:TX"⟩, ⟨false, false, false, false, "**kern"⟩,
   ⟨false, false, false, true, "!!LO:N"⟩, ⟨false, true, false, false, "*^"⟩,
   ⟨true, false, false, false, "."⟩, ⟨false, false, false, false, "4c"⟩,
   ⟨false, true, false, false, "*-"⟩, ⟨false, false, false, true, "!!LO:X"⟩].getD i
    ⟨false, false, false, false, ""⟩

/-! ## Grace notes, failure reports, floating spines -/

/-- The conversion `(int)durs.size()` of a vector size (unsigned, 64 bits) to
a 32-bit signed integer. -/
def sizeToInt (size : Nat) : Int :=
  let w : Nat := (size % 2 ^ 64) % 2 ^ 32
  if w < 2 ^ 31 then (w : Int) else (w : Int) - 2 ^ 32

/-- `HumdrumFileStructure::cleanDurs`: false when the durations hold both a
zero and a positive value (the message goes to `cerr`).  The loop
`for (int i=0; i<(int)durs.size(); i++)` visits the entries below
`(int)durs.size()`. -/
def cleanDurs (durs : List HumNum) : Bool :=
  let flags := (durs.take (sizeToInt durs.length).toNat).foldl
    (fun (zp : Bool × Bool) d =>
      if 0 < d then (zp.1, true) else if d = 0 then (true, zp.2) else zp)
    (false, false)
  if flags.1 && flags.2 then false else true

/-- `HumdrumFileStructure::getTokenDurations`: the verdict of `cleanDurs`
and the durations of the tokens of line `line`.  No function of the class
calls it. -/
def getTokenDurations (f : HumdrumFileStructure) (line : Nat) : Bool × List HumNum :=
  let durs := (f.tokens.filter (fun t => t.lineIndex = line)).map (fun t => t.duration)
  (cleanDurs durs, durs)

/-- The file `**kern<TAB>**kern / 4c<TAB>qc / .<TAB>4d / 4e<TAB>4f / *-<TAB>*-`
after parsing and token duration analysis: line 1 holds a quarter note and a
grace note. -/
def graceFile : HumdrumFileStructure :=
  { lines := [freshLine true false false false, freshLine true false true false,
              freshLine true false true false, freshLine true false true false,
              freshLine true false false false],
    tokens := [kernToken 0 (-1) [2] [] false, kernToken 0 (-1) [3] [] false,
               kernToken 1 1 [4] [0] false, kernToken 1 0 [5] [1] false,
               kernToken 2 (-1) [6] [2] false, kernToken 2 1 [7] [3] false,
               kernToken 3 1 [8] [4] false, kernToken 3 1 [9] [5] false,
               kernToken 4 (-1) [] [6] true, kernToken 4 (-1) [] [7] true],
    trackstarts := [0, 1], barlines := [], ticksperquarternote := 0 }

/-- The file `**kern<TAB>**kern / 4c<TAB>2e / *-<TAB>*-` after parsing and
token duration analysis: the two spines end at different times. -/
def unequalSpines : HumdrumFileStructure :=
  { lines := [freshLine true false false false, freshLine true false true false,
              freshLine true false false false],
    tokens := [kernToken 0 (-1) [2] [] false, kernToken 0 (-1) [3] [] false,
               kernToken 1 1 [4] [0] false, kernToken 1 2 [5] [1] false,
               kernToken 2 (-1) [] [2] true, kernToken 2 (-1) [] [3] true],
    trackstarts := [0, 1], barlines := [], ticksperquarternote := 0 }

/-- The file `**kern / 4c / c / *-` after parsing and token duration
analysis: the note of line 2 has no rhythm, so its duration is undefined. -/
def undefinedNote : HumdrumFileStructure :=
  { lines := [freshLine true false false false, freshLine true false true false,
              freshLine true false true false, freshLine true false false false],
    tokens := [kernToken 0 (-1) [1] [] false, kernToken 1 1 [2] [0] false,
               kernToken 2 (-1) [3] [1] false, kernToken 3 (-1) [] [2] true],
    trackstarts := [0], barlines := [], ticksperquarternote := 0 }

/-- The file `**kern / *+ / *<TAB>**kern / 4c<TAB>4e / *-<TAB>*-` after
parsing and token duration analysis: the second spine is added on line 1,
starts on line 2 and has its first note at time 0. -/
def floatingAtZero : HumdrumFileStructure :=
  { lines := [freshLine true false false false, freshLine true false false false,
              freshLine true false false false, freshLine true false true false,
              freshLine true false false false],
    tokens := [kernToken 0 (-1) [1] [] false, kernToken 1 (-1) [2] [0] false,
               kernToken 2 (-1) [4] [1] false, kernToken 2 (-1) [5] [] false,
               kernToken 3 1 [6] [2] false, kernToken 3 1 [7] [3] false,
               kernToken 4 (-1) [] [4] true, kernToken 4 (-1) [] [5] true],
    trackstarts := [0, 3], barlines := [], ticksperquarternote := 0 }

/-- The state of `floatingAtZero` when the second loop of `analyzeRhythm`
reaches the floating spine: the first track has been propagated from 0. -/
def floatingAtZero.propagated : HumdrumFileStructure :=
  { lines := [freshLine true false false false, freshLine true false false false,
              freshLine true false false false, ⟨0, -1, -1, -1, true, false, true, false⟩,
              ⟨1, -1, -1, -1, true, false, false, false⟩],
    tokens := [⟨0, -1, 1, [1], [], true, false⟩, ⟨1, -1, 1, [2], [0], true, false⟩,
               ⟨2, -1, 1, [4], [1], true, false⟩, kernToken 2 (-1) [5] [] false,
               ⟨3, 1, 1, [6], [2], true, false⟩, kernToken 3 1 [7] [3] false,
               ⟨4, -1, 1, [], [4], true, true⟩, kernToken 4 (-1) [] [5] true],
    trackstarts := [0, 3], barlines := [], ticksperquarternote := 0 }

/-! ## Local parameters -/

/-- The classification and the text of a token, as read by the backward
walks: `isData`, `isNull`, `isManipulator`, `isCommentLocal` of
`HumdrumToken` (a class not among the sources) and the characters of the
token. -/
structure TokenKind where
  isData : Bool
  isNull : Bool
  isManipulator : Bool
  isCommentLocal : Bool
  text : String
deriving DecidableEq, Repr

/-- `HumdrumFileStructure::checkForLocalParameters`; `params` lists the
calls `current->setParameters(token)` as pairs `(current, token)`. -/
def checkForLocalParameters (kind : Nat → TokenKind) (token current : Nat)
    (params : List (Nat × Nat)) : List (Nat × Nat) :=
  if (kind token).text.length < 1 then params
  else if !findAtZero (kind token).text "!LO:" then params
  else params ++ [(current, token)]

/-- The loop `for (int i=1; i<tcount; i++)` of
`processLocalParametersForTrack` over the secondary previous tokens `rest`,
each handed to the recursive call with the same `current`. -/
def processLocalParametersForTrack.branches
    (recurse : List (Nat × Nat) → Nat → Nat → Option (Bool × List (Nat × Nat))) :
    List (Nat × Nat) → List Nat → Nat → Option (Bool × List (Nat × Nat))
  | params, [], _ => some (true, params)
  | params, x :: rest, current => do
    let r ← recurse params x current
    if !r.1 then
      pure (false, r.2)
    else
      processLocalParametersForTrack.branches recurse r.2 rest current

/-- The loop `while (tcount > 0)` of `processLocalParametersForTrack`,
entered at `token`. -/
def processLocalParametersForTrack.loop (kind : Nat → TokenKind) (f : HumdrumFileStructure)
    (recurse : List (Nat × Nat) → Nat → Nat → Option (Bool × List (Nat × Nat))) :
    Nat → List (Nat × Nat) → Nat → Nat → Option (Bool × List (Nat × Nat))
  | 0, _, _, _ => none
  | fuel + 1, params, token, current => do
    let t ← f.tokens[token]?
    if 0 < t.previousTokens.length then
      let r ← processLocalParametersForTrack.branches recurse params
        (t.previousTokens.drop 1) current
      if !r.1 then
        pure (false, r.2)
      else
        let step : List (Nat × Nat) × Nat :=
          if !((kind token).isNull && (kind token).isManipulator) then
            if (kind token).isCommentLocal then
              (checkForLocalParameters kind token current r.2, current)
            else
              (r.2, token)
          else (r.2, current)
        let token1 ← t.previousTokens[0]?
        processLocalParametersForTrack.loop kind f recurse fuel step.1 token1 step.2
    else
      pure (true, params)

/-- `HumdrumFileStructure::processLocalParametersForTrack`.  The fuel bounds
the depth of the recursion and the length of the loop. -/
def processLocalParametersForTrack (kind : Nat → TokenKind) (f : HumdrumFileStructure) :
    Nat → List (Nat × Nat) → Nat → Nat → Option (Bool × List (Nat × Nat))
  | 0, _, _, _ => none
  | fuel + 1, params, starttok, current =>
    processLocalParametersForTrack.loop kind f
      (fun p x c => processLocalParametersForTrack kind f fuel p x c) fuel params starttok
      current

/-- The loop over the track ends `j` of one track in
`analyzeLocalParameters`. -/
def analyzeLocalParameters.ends (kind : Nat → TokenKind) (f : HumdrumFileStructure) :
    List (Nat × Nat) → List Nat → Option (Bool × List (Nat × Nat))
  | params, [] => some (true, params)
  | params, e :: rest => do
    let r ← processLocalParametersForTrack kind f (f.lines.length + 1) params e e
    if !r.1 then
      pure (false, r.2)
    else
      analyzeLocalParameters.ends kind f r.2 rest

/-- The loop over the tracks `i, i+1, ...` in `analyzeLocalParameters`.
`trackends` holds the entries of `m_trackends` from index 1 on. -/
def analyzeLocalParameters.tracks (kind : Nat → TokenKind) (trackends : List (List Nat))
    (f : HumdrumFileStructure) :
    Nat → Nat → List (Nat × Nat) → Option (Bool × List (Nat × Nat))
  | 0, _, params => some (true, params)
  | n + 1, i, params => do
    let es ← trackends[i - 1]?
    let r ← analyzeLocalParameters.ends kind f params es
    if !r.1 then
      pure (false, r.2)
    else
      analyzeLocalParameters.tracks kind trackends f n (i + 1) r.2

/-- `HumdrumFileStructure::analyzeLocalParameters`. -/
def analyzeLocalParameters (kind : Nat → TokenKind) (trackends : List (List Nat))
    (f : HumdrumFileStructure) (params : List (Nat × Nat)) :
    Option (Bool × List (Nat × Nat)) :=
  analyzeLocalParameters.tracks kind trackends f (getMaxTrack f) 1 params

/-- The file `**kern<TAB>**kern / !LO:N<TAB>! / .<TAB>4c / 4d<TAB>4e /
*-<TAB>*-` after parsing: a layout comment in the first spine stands before
a null token. -/
def layoutBeforeNull : HumdrumFileStructure :=
  { lines := [freshLine true false false false, freshLine true false false false,
              freshLine true false true false, freshLine true false true false,
              freshLine true false false false],
    tokens := [kernToken 0 (-1) [2] [] false, kernToken 0 (-1) [3] [] false,
               kernToken 1 (-1) [4] [0] false, kernToken 1 (-1) [5] [1] false,
               kernToken 2 (-1) [6] [2] false, kernToken 2 1 [7] [3] false,
               kernToken 3 1 [8] [4] false, kernToken 3 1 [9] [5] false,
               kernToken 4 (-1) [] [6] true, kernToken 4 (-1) [] [7] true],
    trackstarts := [0, 1], barlines := [], ticksperquarternote := 0 }

/-- The classification and text of the tokens of `layoutBeforeNull`. -/
def layoutBeforeNull.kinds (i : Nat) : TokenKind :=
  [⟨false, false, true, false, "**kern"⟩, ⟨false, false, true, false, "**kern"⟩,
   ⟨false, false, false, true, "!LO:N"⟩, ⟨false, true, false, true, "!"⟩,
   ⟨true, true, false, false, "."⟩, ⟨true, false, false, false, "4c"⟩,
   ⟨true, false, false, false, "4d"⟩, ⟨true, false, false, false, "4e"⟩,
   ⟨false, false, true, false, "*-"⟩, ⟨false, false, true, false, "*-"⟩].getD i
    ⟨false, false, false, false, ""⟩

/-- The file `**kern / 4c / !LO:N / *-` after parsing: a layout comment
directly before the terminator. -/
def layoutBeforeEnd : HumdrumFileStructure :=
  { lines := [freshLine true false false false, freshLine true false true false,
              freshLine true false false false, freshLine true false false false],
    tokens := [kernToken 0 (-1) [1] [] false, kernToken 1 1 [2] [0] false,
               kernToken 2 (-1) [3] [1] false, kernToken 3 (-1) [] [2] true],
    trackstarts := [0], barlines := [], ticksperquarternote := 0 }

/-- The classification and text of the tokens of `layoutBeforeEnd`. -/
def layoutBeforeEnd.kinds (i : Nat) : TokenKind :=
  [⟨false, false, true, false, "**kern"⟩, ⟨true, false, false, false, "4c"⟩,
   ⟨false, false, false, true, "!LO:N"⟩, ⟨false, false, true, false, "*-"⟩].getD i
    ⟨false, false, false, false, ""⟩

/-! ## Durations of non-rhythmic spines -/

/-- `HumdrumToken::setDuration` on token `tok`. -/
def HumdrumToken.setDuration (f : HumdrumFileStructure) (tok : Nat) (dur : HumNum) :
    HumdrumFileStructure :=
  match f.tokens[tok]? with
  | some t => { f with tokens := f.tokens.set tok { t with duration := dur } }
  | none => f

/-- `HumdrumToken::getDurationFromStart`: the start time of the owning
line. -/
def HumdrumToken.getDurationFromStart (f : HumdrumFileStructure) (tok : Nat) :
    Option HumNum := do
  let t ← f.tokens[tok]?
  let l ← f.lines[t.lineIndex]?
  pure l.durationFromStart

/-- The loop `for (int i=1; i<tcount; i++)` of
`assignDurationsToNonRhythmicTrack` over the secondary previous tokens
`rest`, each handed to the recursive call with the same `current`. -/
def assignDurationsToNonRhythmicTrack.branches
    (recurse : HumdrumFileStructure → Nat → Nat → Option (Bool × HumdrumFileStructure)) :
    HumdrumFileStructure → List Nat → Nat → Option (Bool × HumdrumFileStructure)
  | f, [], _ => some (true, f)
  | f, x :: rest, current => do
    let r ← recurse f x current
    if !r.1 then
      pure (false, r.2)
    else
      assignDurationsToNonRhythmicTrack.branches recurse r.2 rest current

/-- The body `if (token->isData()) { if (!token->isNull()) { ... } }` of the
loop of `assignDurationsToNonRhythmicTrack`: the new file and the new value
of `current`. -/
def assignDurationsToNonRhythmicTrack.step (kind : Nat → TokenKind)
    (f : HumdrumFileStructure) (token current : Nat) : Option (HumdrumFileStructure × Nat) :=
  if (kind token).isData then
    if !(kind token).isNull then do
      let a ← HumdrumToken.getDurationFromStart f current
      let b ← HumdrumToken.getDurationFromStart f token
      pure (HumdrumToken.setDuration f token (a - b), token)
    else
      pure (f, current)
  else
    pure (f, current)

/-- The loop `while (tcount > 0)` of `assignDurationsToNonRhythmicTrack`,
entered at `token`. -/
def assignDurationsToNonRhythmicTrack.loop (kind : Nat → TokenKind)
    (recurse : HumdrumFileStructure → Nat → Nat → Option (Bool × HumdrumFileStructure)) :
    Nat → HumdrumFileStructure → Nat → Nat → Option (Bool × HumdrumFileStructure)
  | 0, _, _, _ => none
  | fuel + 1, f, token, current => do
    let t ← f.tokens[token]?
    if 0 < t.previousTokens.length then
      let r ← assignDurationsToNonRhythmicTrack.branches recurse f
        (t.previousTokens.drop 1) current
      if !r.1 then
        pure (false, r.2)
      else
        let step ← assignDurationsToNonRhythmicTrack.step kind r.2 token current
        -- Data tokens can only be followed by up to one previous token
        let token1 ← t.previousTokens[0]?
        assignDurationsToNonRhythmicTrack.loop kind recurse fuel step.1 token1 step.2
    else
      pure (true, f)

/-- `HumdrumFileStructure::assignDurationsToNonRhythmicTrack`.  The fuel
bounds the depth of the recursion and the length of the loop. -/
def assignDurationsToNonRhythmicTrack (kind : Nat → TokenKind) :
    Nat → HumdrumFileStructure → Nat → Nat → Option (Bool × HumdrumFileStructure)
  | 0, _, _, _ => none
  | fuel + 1, f, endtoken, current =>
    assignDurationsToNonRhythmicTrack.loop kind
      (fun g x c => assignDurationsToNonRhythmicTrack kind fuel g x c) fuel f endtoken current

/-- The loop over the track ends `j` of one track in
`analyzeDurationsOfNonRhythmicSpines`. -/
def analyzeDurationsOfNonRhythmicSpines.ends (kind : Nat → TokenKind) :
    HumdrumFileStructure → List Nat → Option (Bool × HumdrumFileStructure)
  | f, [] => some (true, f)
  | f, e :: rest => do
    let t ← f.tokens[e]?
    if t.hasRhythm then
      analyzeDurationsOfNonRhythmicSpines.ends kind f rest
    else
      let r ← assignDurationsToNonRhythmicTrack kind (f.lines.length + 1) f e e
      if !r.1 then
        pure (false, r.2)
      else
        analyzeDurationsOfNonRhythmicSpines.ends kind r.2 rest

/-- The loop over the tracks `i, i+1, ...` in
`analyzeDurationsOfNonRhythmicSpines`.  `trackends` holds the entries of
`m_trackends` from index 1 on. -/
def analyzeDurationsOfNonRhythmicSpines.tracks (kind : Nat → TokenKind)
    (trackends : List (List Nat)) :
    Nat → Nat → HumdrumFileStructure → Option (Bool × HumdrumFileStructure)
  | 0, _, f => some (true, f)
  | n + 1, i, f => do
    let es ← trackends[i - 1]?
    let r ← analyzeDurationsOfNonRhythmicSpines.ends kind f es
    if !r.1 then
      pure (false, r.2)
    else
      analyzeDurationsOfNonRhythmicSpines.tracks kind trackends n (i + 1) r.2

/-- `HumdrumFileStructure::analyzeDurationsOfNonRhythmicSpines`. -/
def analyzeDurationsOfNonRhythmicSpines (kind : Nat → TokenKind)
    (trackends : List (List Nat)) (f : HumdrumFileStructure) :
    Option (Bool × HumdrumFileStructure) :=
  analyzeDurationsOfNonRhythmicSpines.tracks kind trackends (getMaxTrack f) 1 f

/-- The token is a data token that is not null. -/
def nonNullData (kind : Nat → TokenKind) (x : Nat) : Bool :=
  (kind x).isData && !(kind x).isNull

/-- The duration of token `i`. -/
def durOf (f : HumdrumFileStructure) (i : Nat) : HumNum :=
  match f.tokens[i]? with
  | some t => t.duration
  | none => 0

/-- The file `g` is the file `f` with possibly other token durations. -/
structure SameButDur (f g : HumdrumFileStructure) : Prop where
  lines_eq : g.lines = f.lines
  trackstarts_eq : g.trackstarts = f.trackstarts
  tokens_get : ∀ i, g.tokens[i]? =
    (f.tokens[i]?).map (fun (t : HumdrumToken) => { t with duration := durOf g i })

/-- Every backward link leads to an existing token on an earlier line, and
every token lies on a line of the file. -/
structure BackLinked (f0 : HumdrumFileStructure) : Prop where
  prev_valid : ∀ (i j : Nat) (t : HumdrumToken), f0.tokens[i]? = some t →
    j ∈ t.previousTokens → ∃ tj, f0.tokens[j]? = some tj ∧ tj.lineIndex < t.lineIndex
  line_valid : ∀ (i : Nat) (t : HumdrumToken), f0.tokens[i]? = some t →
    t.lineIndex < f0.lines.length

/-- `W` lists the tokens of a spine from its end back to its start: each
token has the next one of the list as its only previous token, and the last
one has no previous token. -/
def BackChain (f0 : HumdrumFileStructure) : List Nat → Prop
  | [] => False
  | [s] => ∃ t, f0.tokens[s]? = some t ∧ t.previousTokens = []
  | x :: y :: rest =>
    (∃ t, f0.tokens[x]? = some t ∧ t.previousTokens = [y]) ∧ BackChain f0 (y :: rest)

/-- The durations after the backward walk through the tokens of `W` (the
last of which is not visited), entered with the durations `d` and the
reference token `current`; `dfs` gives the start time of a token. -/
def walkDur (kind : Nat → TokenKind) (dfs : Nat → HumNum) :
    (Nat → HumNum) → List Nat → Nat → (Nat → HumNum)
  | d, [], _ => d
  | d, [_], _ => d
  | d, x :: y :: rest, current =>
    if nonNullData kind x then
      walkDur kind dfs (Function.update d x (dfs current - dfs x)) (y :: rest) x
    else
      walkDur kind dfs d (y :: rest) current

/-- The start time of the line of token `x`. -/
def tokenStart (f : HumdrumFileStructure) (x : Nat) : HumNum :=
  match f.tokens[x]? with
  | some t => startOf f t.lineIndex
  | none => -1

/-- The file `**kern<TAB>**text / 2c<TAB>foo / 2d<TAB>bar / *-<TAB>*-` after
the rhythm analysis: the lines start at 0, 0, 2 and 4. -/
def lyricsFile : HumdrumFileStructure :=
  { lines := [⟨0, 0, 0, 0, true, false, false, false⟩, ⟨0, 2, 0, 4, true, false, true, false⟩,
              ⟨2, 2, 2, 2, true, false, true, false⟩, ⟨4, 0, 4, 0, true, false, false, false⟩],
    tokens := [⟨0, -1, 1, [2], [], true, false⟩, ⟨0, -1, 0, [3], [], false, false⟩,
               ⟨1, 2, 1, [4], [0], true, false⟩, ⟨1, -1, 0, [5], [1], false, false⟩,
               ⟨2, 2, 1, [6], [2], true, false⟩, ⟨2, -1, 0, [7], [3], false, false⟩,
               ⟨3, -1, 1, [], [4], true, true⟩, ⟨3, -1, 0, [], [5], false, true⟩],
    trackstarts := [0, 1], barlines := [], ticksperquarternote := 0 }

/-- The classification and text of the tokens of `lyricsFile`. -/
def lyricsFile.kinds (i : Nat) : TokenKind :=
  [⟨false, false, true, false, "**kern"⟩, ⟨false, false, true, false, "**text"⟩,
   ⟨true, false, false, false, "2c"⟩, ⟨true, false, false, false, "foo"⟩,
   ⟨true, false, false, false, "2d"⟩, ⟨true, false, false, false, "bar"⟩,
   ⟨false, false, true, false, "*-"⟩, ⟨false, false, true, false, "*-"⟩].getD i
    ⟨false, false, false, false, ""⟩

/-- What a walk through a part of the file leaves alone: the durations of the
tokens outside `Q`. -/
def KeepsOutside (Q : Nat → Prop) (g g1 : HumdrumFileStructure) : Prop :=
  ∀ z, ¬ Q z → durOf g1 z = durOf g z

/-- The two nested loops of `analyzeDurationsOfNonRhythmicSpines` over the
listed tracks, each given by the list of its ends. -/
def analyzeDurationsOfNonRhythmicSpines.over (kind : Nat → TokenKind) :
    HumdrumFileStructure → List (List Nat) → Option (Bool × HumdrumFileStructure)
  | f, [] => some (true, f)
  | f, es :: rest =>
    (analyzeDurationsOfNonRhythmicSpines.ends kind f es).bind (fun r =>
      if !r.1 then some (false, r.2)
      else analyzeDurationsOfNonRhythmicSpines.over kind r.2 rest)

/-- The indices of the barline lines of a list of lines whose first line has
the index `i`. -/
def barlineIndices : Nat → List HumdrumLine → List Nat
  | _, [] => []
  | i, l :: rest =>
    if l.isBarline then i :: barlineIndices (i + 1) rest else barlineIndices (i + 1) rest

/-- Seven lines of the file `**kern / =1 / 4c / 4d / =2 / 2e / *-` with their
start times (0, 0, 0, 1, 2, 2, 4) and no line durations yet. -/
def measureLines : HumdrumFileStructure :=
  { lines := [⟨0, -1, -1, -1, true, false, false, false⟩, ⟨0, -1, -1, -1, true, true, false, false⟩,
              ⟨0, -1, -1, -1, true, false, true, false⟩, ⟨1, -1, -1, -1, true, false, true, false⟩,
              ⟨2, -1, -1, -1, true, true, false, false⟩, ⟨2, -1, -1, -1, true, false, true, false⟩,
              ⟨4, -1, -1, -1, true, false, false, false⟩],
    tokens := [], trackstarts := [], barlines := [], ticksperquarternote := 0 }

/-- The lines of `measureLines` with the durations 0, 0, 1, 1, 0, 2, 0 that
`assignLineDurations` gives them. -/
def meteredLines : HumdrumFileStructure :=
  { lines := [⟨0, 0, -1, -1, true, false, false, false⟩, ⟨0, 0, -1, -1, true, true, false, false⟩,
              ⟨0, 1, -1, -1, true, false, true, false⟩, ⟨1, 1, -1, -1, true, false, true, false⟩,
              ⟨2, 0, -1, -1, true, true, false, false⟩, ⟨2, 2, -1, -1, true, false, true, false⟩,
              ⟨4, 0, -1, -1, true, false, false, false⟩],
    tokens := [], trackstarts := [], barlines := [], ticksperquarternote := 0 }

/-! ## Files on which the rhythm analysis goes wrong -/

/-- The file `**kern / *^ / 4c<TAB>4e / *<TAB>*^ / 4c<TAB>4e<TAB>8g /
.<TAB>.<TAB>8g / *v<TAB>*v<TAB>*v / *-` after parsing and token duration
analysis: the second sub-spine splits again (tokens 7 and 8) before all three
sub-spines merge; the third one consists of the tokens 8, 11 and 14. -/
def nestedSplit : HumdrumFileStructure :=
  { lines := [freshLine true false false false, freshLine true false false false,
              freshLine true false true false, freshLine true false false false,
              freshLine true false true false, freshLine true false true false,
              freshLine true false false false, freshLine true false false false],
    tokens := [kernToken 0 (-1) [1] [] false, kernToken 1 (-1) [2, 3] [0] false,
               kernToken 2 1 [4] [1] false, kernToken 2 1 [5] [1] false,
               kernToken 3 (-1) [6] [2] false, kernToken 3 (-1) [7, 8] [3] false,
               kernToken 4 1 [9] [4] false, kernToken 4 1 [10] [5] false,
               kernToken 4 (1 / 2) [11] [5] false, kernToken 5 (-1) [12] [6] false,
               kernToken 5 (-1) [13] [7] false, kernToken 5 (1 / 2) [14] [8] false,
               kernToken 6 (-1) [15] [9] false, kernToken 6 (-1) [15] [10] false,
               kernToken 6 (-1) [15] [11] false, kernToken 7 (-1) [] [12, 13, 14] true],
    trackstarts := [0], barlines := [], ticksperquarternote := 0 }

/-- The file `**kern<TAB>**kern / 4c<TAB>2e / .<TAB>4d / 2f<TAB>. / *-<TAB>*-`
after parsing and token duration analysis: `2e` lasts until time 2, where
`4d` starts on line 2, but `2f` on the later line 3 starts at time 1. -/
def outOfOrder : HumdrumFileStructure :=
  { lines := [freshLine true false false false, freshLine true false true false,
              freshLine true false true false, freshLine true false true false,
              freshLine true false false false],
    tokens := [kernToken 0 (-1) [2] [] false, kernToken 0 (-1) [3] [] false,
               kernToken 1 1 [4] [0] false, kernToken 1 2 [5] [1] false,
               kernToken 2 (-1) [6] [2] false, kernToken 2 1 [7] [3] false,
               kernToken 3 2 [8] [4] false, kernToken 3 (-1) [9] [5] false,
               kernToken 4 (-1) [] [6] true, kernToken 4 (-1) [] [7] true],
    trackstarts := [0, 1], barlines := [], ticksperquarternote := 0 }

/-- The file `**text / *+ / *<TAB>**kern / foo<TAB>4c / *-<TAB>*-` after
parsing and token duration analysis: the only rhythmic spine (tokens 3, 5, 7)
is added on line 1 and starts on line 2. -/
def unanchoredFloat : HumdrumFileStructure :=
  { lines := [freshLine true false false false, freshLine true false false false,
              freshLine true false false false, freshLine true false true false,
              freshLine true false false false],
    tokens := [⟨0, -1, 0, [1], [], false, false⟩, ⟨1, -1, 0, [2], [0], false, false⟩,
               ⟨2, -1, 0, [4], [1], false, false⟩, kernToken 2 (-1) [5] [] false,
               ⟨3, -1, 0, [6], [2], false, false⟩, kernToken 3 1 [7] [3] false,
               ⟨4, -1, 0, [], [4], false, true⟩, kernToken 4 (-1) [] [5] true],
    trackstarts := [0, 3], barlines := [], ticksperquarternote := 0 }

/-- A file without lines. -/
def emptyFile : HumdrumFileStructure :=
  { lines := [], tokens := [], trackstarts := [], barlines := [], ticksperquarternote := 0 }

/-! ## Tracks that never split -/

/-- The calls of `setLineDurationFromStart` made while the primary walk passes
the tokens `cs`, entered with the running sum `d`: each token with the running
sum it is checked against. -/
def chainEvents (f : HumdrumFileStructure) : HumNum → List Nat → List (HumdrumToken × HumNum)
  | _, [] => []
  | d, c :: cs =>
    match f.tokens[c]? with
    | some t => (t, d) :: chainEvents f (d + posDur t) cs
    | none => []

/-- The effect of a sequence of calls of `setLineDurationFromStart` on the
start times, up to the first failing call. -/
def foldSteps : (Nat → HumNum) → List (HumdrumToken × HumNum) → Bool × (Nat → HumNum)
  | D, [] => (true, D)
  | D, e :: es =>
    if (lineStep D e.1 e.2).1 then foldSteps (lineStep D e.1 e.2).2 es else (false, D)

/-- The track whose tokens are listed in `c` is rhythmic: its start token has
rhythm. -/
def isRhythmic (f : HumdrumFileStructure) (c : List Nat) : Bool :=
  match c.head? with
  | some s =>
    match f.tokens[s]? with
    | some t => t.hasRhythm
    | none => false
  | none => false

/-- The calls of `setLineDurationFromStart` made for the listed tracks, in
order: those of the rhythmic tracks, each walked from the sum 0. -/
def trackEvents (f : HumdrumFileStructure) : List (List Nat) → List (HumdrumToken × HumNum)
  | [] => []
  | c :: rest => (if isRhythmic f c then chainEvents f 0 c else []) ++ trackEvents f rest

/-- Any two calls for timed tokens on one line carry the same running sum. -/
def EventsAgree (es : List (HumdrumToken × HumNum)) : Prop :=
  ∀ e1 ∈ es, ∀ e2 ∈ es, isTimed e1.1 = true → isTimed e2.1 = true →
    e1.1.lineIndex = e2.1.lineIndex → e1.2 = e2.2

/-- The start times `D` are those recorded by the calls `P`: the line of
every timed token of `P` has the running sum of its call, and every known
start time comes from such a call. -/
structure Recorded (D : Nat → HumNum) (P : List (HumdrumToken × HumNum)) : Prop where
  known : ∀ e ∈ P, isTimed e.1 = true → D e.1.lineIndex = e.2
  source : ∀ n, 0 ≤ D n → ∃ e ∈ P, isTimed e.1 = true ∧ e.1.lineIndex = n

/-- The tracks of the file are the token lists `tracks`, in order: each list
starts at the start token of its track, and every rhythmic track is a chain
that never splits, starts on line `startline`, ends at a token without next
token and shares no token with another rhythmic track. -/
structure ChainTracks (f : HumdrumFileStructure) (tracks : List (List Nat)) (startline : Nat) :
    Prop where
  starts : f.trackstarts = tracks.map (fun c => c.headD 0)
  valid : ∀ c ∈ tracks, ∃ s cs t, c = s :: cs ∧ f.tokens[s]? = some t
  single : ∀ s cs, s :: cs ∈ tracks → isRhythmic f (s :: cs) = true →
    Single f s cs ∧
    (∀ tl, f.tokens[(s :: cs).getLast (List.cons_ne_nil _ _)]? = some tl → tl.nextTokens = []) ∧
    (∀ t, f.tokens[s]? = some t → t.lineIndex = startline)
  disjoint : tracks.Pairwise (fun a b => isRhythmic f a = true → isRhythmic f b = true →
    ∀ x ∈ a, x ∉ b)

/-- Two timed tokens of different rhythmic tracks lie on one line and have
different sums of the positive durations of the tokens before them in their
own track. -/
def TrackConflict (f : HumdrumFileStructure) (tracks : List (List Nat)) : Prop :=
  ∃ (i j : Nat) (ci cj : List Nat) (k l x y : Nat) (tx ty : HumdrumToken),
    i ≠ j ∧ tracks[i]? = some ci ∧ tracks[j]? = some cj ∧
    isRhythmic f ci = true ∧ isRhythmic f cj = true ∧
    ci[k]? = some x ∧ cj[l]? = some y ∧ f.tokens[x]? = some tx ∧ f.tokens[y]? = some ty ∧
    isTimed tx = true ∧ isTimed ty = true ∧ tx.lineIndex = ty.lineIndex ∧
    pathSum f (ci.take k) ≠ pathSum f (cj.take l)

/-! ## The cached ticks per quarter note, files without tracks, line durations -/

/-- A file whose only line lasts a third of a quarter note and whose cached
ticks-per-quarter value is 4. -/
def cachedFile : HumdrumFileStructure :=
  { lines := [⟨0, 1 / 3, -1, -1, true, false, true, false⟩],
    tokens := [], trackstarts := [], barlines := [], ticksperquarternote := 4 }

/-- The file `!!one / !!two` after parsing: two global comments, no spine. -/
def globalComments : HumdrumFileStructure :=
  { lines := [freshLine false false false false, freshLine false false false false],
    tokens := [], trackstarts := [], barlines := [], ticksperquarternote := 0 }

/-- First loop of `getMinDur`: the value of `mindur` and of `allzero` after
the entries below `(int)durs.size()`. -/
def getMinDur.first (durs : List HumNum) : HumNum × Bool :=
  (durs.take (sizeToInt durs.length).toNat).foldl
    (fun (s : HumNum × Bool) d =>
      if 0 < d then (if s.1 = 0 then d else if d < s.1 then d else s.1, false) else s)
    (0, true)

/-- Second loop of `getMinDur`, `n` rounds from index `i`: every round reads
`durstate[i]`, which is outside the vector when `durstate` is too short. -/
def getMinDur.second (durstate : List HumNum) : Nat → Nat → HumNum → Option HumNum
  | 0, _, mindur => some mindur
  | n + 1, i, mindur => do
    let ds ← durstate[i]?
    if 0 < ds ∧ mindur = 0 then
      if ds = 0 then
        getMinDur.second durstate n (i + 1) mindur
      else if ds < mindur then
        getMinDur.second durstate n (i + 1) ds
      else
        getMinDur.second durstate n (i + 1) mindur
    else
      getMinDur.second durstate n (i + 1) mindur

/-- `HumdrumFileStructure::getMinDur`.  No function of the class calls it. -/
def getMinDur (durs durstate : List HumNum) : Option HumNum :=
  let r := getMinDur.first durs
  if r.2 then some r.1
  else getMinDur.second durstate (sizeToInt durs.length).toNat 0 r.1

/-- What the first loop of `getMinDur` knows after the entries `seen`: no
positive entry so far and `mindur` still 0, or `mindur` is the smallest
positive entry so far. -/
def MinSoFar (seen : List HumNum) (s : HumNum × Bool) : Prop :=
  (s.2 = true → s.1 = 0 ∧ ∀ d ∈ seen, ¬ 0 < d) ∧
  (s.2 = false → 0 < s.1 ∧ s.1 ∈ seen ∧ ∀ d ∈ seen, 0 < d → s.1 ≤ d)

/-! ## What the propagation leaves alone -/

/-- A relation between files that holds between a file and itself, is
transitive, and holds between a file and the file left by `incrementState`
or `setLineDurationFromStart`. -/
structure FrameRel (R : HumdrumFileStructure → HumdrumFileStructure → Prop) : Prop where
  rel_refl : ∀ f, R f f
  rel_trans : ∀ f g h, R f g → R g h → R f h
  rel_inc : ∀ f tok, R f (incrementState f tok)
  rel_set : ∀ f token d r, setLineDurationFromStart f token d = some r → R f r.2

/-- What the propagation can change: the visit counters of the tokens and the
start times of lines that hold a timed token. -/
structure Propagated (f g : HumdrumFileStructure) : Prop where
  timed : g.tokens.map (fun t => (t.lineIndex, isTimed t)) =
    f.tokens.map (fun t => (t.lineIndex, isTimed t))
  length : g.lines.length = f.lines.length
  line : ∀ (m : Nat) (l : HumdrumLine), f.lines[m]? = some l →
    ∃ v, g.lines[m]? = some { l with durationFromStart := v } ∧
      ((m, true) ∉ f.tokens.map (fun t => (t.lineIndex, isTimed t)) →
        v = l.durationFromStart)

/-! ## Theorems -/

/-- C10: getScoreDuration returns 0 when the file has no lines, and otherwise
exactly the duration_from_start of the last line; in particular the undefined
value -1 when the last line still carries it. -/
theorem getScoreDuration_spec (f : HumdrumFileStructure) :
    (f.lines = [] → getScoreDuration f = 0) ∧
    (∀ l, f.lines.getLast? = some l → getScoreDuration f = l.durationFromStart) ∧
    (∀ l, f.lines.getLast? = some l → l.durationFromStart = -1 →
      getScoreDuration f = -1) := by
  refine ⟨fun h => by simp [getScoreDuration, h], fun l hl => ?_, fun l hl h1 => ?_⟩
  all_goals
    have hne : f.lines ≠ [] := by
      intro h
      simp [h] at hl
    have hlast : f.lines.getLast hne = l := by
      rw [List.getLast?_eq_getLast _ hne] at hl
      exact Option.some.inj hl
    simp [getScoreDuration, hne, hlast]
  exact h1

theorem pickupScan_iff (lines : List HumdrumLine) : pickupScan lines = true ↔ HasPickup lines := by
  induction lines with
  | nil => simp [pickupScan, HasPickup]
  | cons l rest ih =>
    unfold pickupScan
    by_cases hb : l.isBarline = true
    · simp only [hb, if_true]
      constructor
      · intro h; exact absurd h (by decide)
      · rintro ⟨i, l0, -, -, h3⟩
        have := h3 0 l (Nat.zero_le _) (by simp)
        simp [hb] at this
    · have hb' : l.isBarline = false := by simpa using hb
      simp only [hb', Bool.false_eq_true, if_false]
      by_cases hd : l.isData = true
      · simp only [hd, if_true, true_iff]
        refine ⟨0, l, by simp, hd, ?_⟩
        intro j l1 hj hl1
        have : j = 0 := by omega
        subst this
        simp at hl1
        subst hl1
        exact hb'
      · have hd' : l.isData = false := by simpa using hd
        simp only [hd', Bool.false_eq_true, if_false]
        rw [ih]
        constructor
        · rintro ⟨i, l0, h1, h2, h3⟩
          refine ⟨i + 1, l0, by simpa using h1, h2, ?_⟩
          intro j l1 hj hl1
          cases j with
          | zero =>
            simp at hl1
            subst hl1
            exact hb'
          | succ j =>
            exact h3 j l1 (by omega) (by simpa using hl1)
        · rintro ⟨i, l0, h1, h2, h3⟩
          cases i with
          | zero =>
            simp at h1
            subst h1
            exact absurd h2 hd
          | succ i =>
            refine ⟨i, l0, by simpa using h1, h2, ?_⟩
            intro j l1 hj hl1
            exact h3 (j + 1) l1 (by omega) (by simpa using hl1)

theorem forward_barlines_length (lines : List HumdrumLine) :
    ∀ (i : Nat) (sum : HumNum) (found : Bool) (bars : List Nat),
      (analyzeMeter.forward i sum found bars lines).2.length =
        bars.length + lines.countP (fun l => l.isBarline) +
          (if found = false ∧ pickupScan lines = true then 1 else 0) := by
  induction lines with
  | nil => intro i sum found bars; simp [analyzeMeter.forward, pickupScan]
  | cons l rest ih =>
    intro i sum found bars
    simp only [analyzeMeter.forward, ih, pickupScan, List.countP_cons]
    by_cases hb : l.isBarline = true
    · simp [hb]
      omega
    · have hb' : l.isBarline = false := by simpa using hb
      by_cases hd : l.isData = true
      · cases found <;> simp [hb', hd]
        omega
      · have hd' : l.isData = false := by simpa using hd
        cases found <;> simp [hb', hd']

/-- C8: after analyzeMeter the number of entries in the barline list equals
the number of lines classified as barline, plus 1 if and only if the file has
a pickup measure (a data line ahead of the first barline line). -/
theorem analyzeMeter_barline_count (f : HumdrumFileStructure) :
    (HasPickup f.lines →
      (analyzeMeter f).2.barlines.length = f.lines.countP (fun l => l.isBarline) + 1) ∧
    (¬ HasPickup f.lines →
      (analyzeMeter f).2.barlines.length = f.lines.countP (fun l => l.isBarline)) := by
  have h := forward_barlines_length f.lines 0 0 false []
  rw [← pickupScan_iff]
  constructor
  · intro hp
    simp [analyzeMeter, h, hp]
  · intro hp
    simp [analyzeMeter, h, hp]

theorem getElem_append_cons_length {α : Type} (P : List α) (l : α) (S : List α) :
    (P ++ l :: S)[P.length]? = some l := by
  rw [List.getElem?_append_right (Nat.le_refl _)]
  simp

theorem setDuration_append_cons (P : List HumdrumLine) (l : HumdrumLine) (S : List HumdrumLine)
    (d : HumNum) :
    setDuration (P ++ l :: S) P.length d = P ++ { l with duration := d } :: S := by
  unfold setDuration
  rw [getElem_append_cons_length]
  simp

theorem assignLineDurations_loop_eq (S : List HumdrumLine) :
    ∀ (P : List HumdrumLine) (fuel : Nat), S ≠ [] → S.length ≤ fuel →
      assignLineDurations.loop (P.length + S.length - 1) fuel P.length (P ++ S) =
        some (P ++ lineDurations S) := by
  induction S with
  | nil => intro P fuel h; exact absurd rfl h
  | cons l rest ih =>
    intro P fuel _ hfuel
    cases fuel with
    | zero => simp at hfuel
    | succ fuel =>
      cases rest with
      | nil => simp [assignLineDurations.loop, lineDurations]
      | cons m rest =>
        have hlt : P.length < P.length + (l :: m :: rest).length - 1 := by
          simp only [List.length_cons]; omega
        have h1 : (P ++ l :: m :: rest)[P.length]? = some l := getElem_append_cons_length _ _ _
        have h2 : (P ++ l :: m :: rest)[P.length + 1]? = some m := by
          rw [List.getElem?_append_right (by omega)]
          simp
        simp only [assignLineDurations.loop, hlt, if_true, h1, h2, Option.bind_eq_bind,
          Option.some_bind, setDuration_append_cons]
        have := ih (P ++ [{ l with duration := m.durationFromStart - l.durationFromStart }]) fuel
          (by simp) (by simp only [List.length_cons] at hfuel ⊢; omega)
        simp only [List.length_append, List.length_cons, List.length_nil, List.append_assoc,
          List.singleton_append] at this
        have e : P.length + (l :: m :: rest).length - 1 = P.length + (0 + 1) + (rest.length + 1) - 1 := by
          simp only [List.length_cons]; omega
        rw [e, this]
        simp [lineDurations]

theorem lineDurations_length (S : List HumdrumLine) : (lineDurations S).length = S.length := by
  induction S with
  | nil => rfl
  | cons l rest ih =>
    cases rest with
    | nil => rfl
    | cons m rest => simp [lineDurations, ih]

theorem lineDurations_map_dfs (S : List HumdrumLine) :
    (lineDurations S).map (fun l => l.durationFromStart) = S.map (fun l => l.durationFromStart) := by
  induction S with
  | nil => rfl
  | cons l rest ih =>
    cases rest with
    | nil => rfl
    | cons m rest =>
      simp only [lineDurations, List.map_cons] at ih ⊢
      rw [ih]

theorem assignLineDurations_eq (f : HumdrumFileStructure) (hne : f.lines ≠ [])
    (hsz : f.lines.length < 2 ^ 64) :
    assignLineDurations f =
      some { f with lines := setDuration (lineDurations f.lines) (f.lines.length - 1) 0 } := by
  have hpos : 0 < f.lines.length := List.length_pos.mpr hne
  have hb : (f.lines.length + 2 ^ 64 - 1) % 2 ^ 64 = f.lines.length - 1 := by
    have : f.lines.length + 2 ^ 64 - 1 = (f.lines.length - 1) + 2 ^ 64 := by omega
    rw [this, Nat.add_mod_right, Nat.mod_eq_of_lt (by omega)]
  have h := assignLineDurations_loop_eq f.lines [] (f.lines.length - 1 + 1) hne (by omega)
  simp only [List.length_nil, Nat.zero_add, List.nil_append] at h
  simp only [assignLineDurations, hb, h, Option.bind_eq_bind, Option.some_bind,
    lineDurations_length, hpos, if_true]
  rfl


theorem setDuration_cons_succ (l : HumdrumLine) (S : List HumdrumLine) (i : Nat) (d : HumNum) :
    setDuration (l :: S) (i + 1) d = l :: setDuration S i d := by
  unfold setDuration
  simp only [List.getElem?_cons_succ]
  cases S[i]? <;> simp

theorem setDuration_map_dfs (S : List HumdrumLine) (i : Nat) (d : HumNum) :
    (setDuration S i d).map (fun l => l.durationFromStart) =
      S.map (fun l => l.durationFromStart) := by
  induction S generalizing i with
  | nil => simp [setDuration]
  | cons l rest ih =>
    cases i with
    | zero => simp [setDuration]
    | succ i => rw [setDuration_cons_succ, List.map_cons, ih, List.map_cons]

theorem setDuration_length (S : List HumdrumLine) (i : Nat) (d : HumNum) :
    (setDuration S i d).length = S.length := by
  unfold setDuration
  cases S[i]? <;> simp

/-- Successive lines of the result of the loop differ by the line duration. -/
theorem lineDurations_step (S : List HumdrumLine) :
    ∀ (i : Nat) (l m : HumdrumLine),
      (setDuration (lineDurations S) (S.length - 1) 0)[i]? = some l →
      (setDuration (lineDurations S) (S.length - 1) 0)[i + 1]? = some m →
      l.duration = m.durationFromStart - l.durationFromStart := by
  induction S with
  | nil => intro i l m h; simp [lineDurations, setDuration] at h
  | cons a rest ih =>
    cases rest with
    | nil =>
      intro i l m _ h2
      simp [lineDurations, setDuration] at h2
    | cons b rest =>
      intro i l m h1 h2
      have e : (a :: b :: rest).length - 1 = (b :: rest).length - 1 + 1 := by simp
      rw [e, lineDurations, setDuration_cons_succ] at h1 h2
      cases i with
      | zero =>
        simp only [List.getElem?_cons_zero, List.getElem?_cons_succ, Option.some.injEq] at h1 h2
        subst h1
        have hm : ((setDuration (lineDurations (b :: rest)) ((b :: rest).length - 1) 0).map
            (fun l => l.durationFromStart))[0]? = some m.durationFromStart := by
          rw [List.getElem?_map, h2]; rfl
        rw [setDuration_map_dfs, lineDurations_map_dfs] at hm
        simp only [List.map_cons, List.getElem?_cons_zero, Option.some.injEq] at hm
        simp [hm]
      | succ i =>
        simp only [List.getElem?_cons_succ] at h1 h2
        exact ih i l m h1 h2

theorem setDuration_get_self (S : List HumdrumLine) (i : Nat) (d : HumNum)
    (l : HumdrumLine) (h : (setDuration S i d)[i]? = some l) : l.duration = d := by
  unfold setDuration at h
  cases hs : S[i]? with
  | none => rw [hs] at h; simp only at h; rw [hs] at h; cases h
  | some a =>
    rw [hs] at h
    simp only at h
    have hi : i < S.length := by
      by_contra hc
      rw [List.getElem?_eq_none (by omega)] at hs
      cases hs
    rw [List.getElem?_set_self hi] at h
    cases h
    rfl

/-- The durations of the lines `i .. j-1` add up to the difference of the
start times, for any list in which successive lines differ by the duration. -/
theorem sum_durations_telescope (R : List HumdrumLine)
    (hstep : ∀ (i : Nat) (l m : HumdrumLine), R[i]? = some l → R[i + 1]? = some m →
      l.duration = m.durationFromStart - l.durationFromStart) :
    ∀ (d i : Nat) (li lj : HumdrumLine), R[i]? = some li → R[i + d]? = some lj →
      (((R.drop i).take d).map (fun l => l.duration)).sum =
        lj.durationFromStart - li.durationFromStart := by
  intro d
  induction d with
  | zero =>
    intro i li lj h1 h2
    rw [Nat.add_zero, h1] at h2
    cases h2
    simp
  | succ d ih =>
    intro i li lj h1 h2
    have hi : i + 1 < R.length + 1 := by
      by_contra hc
      rw [List.getElem?_eq_none (by omega)] at h1
      cases h1
    have hm : ∃ m, R[i + 1]? = some m := by
      have : i + 1 < R.length := by
        by_contra hc
        rw [List.getElem?_eq_none (by omega)] at h2
        cases h2
      exact ⟨R[i + 1], List.getElem?_eq_getElem this⟩
    obtain ⟨m, hm⟩ := hm
    have hdrop : R.drop i = li :: R.drop (i + 1) := by
      have hlt : i < R.length := by omega
      rw [List.drop_eq_getElem_cons hlt]
      congr 1
      rw [List.getElem?_eq_getElem hlt] at h1
      exact Option.some.inj h1
    have h3 := ih (i + 1) m lj hm (by rw [← h2]; congr 1; omega)
    rw [hdrop, List.take_succ_cons, List.map_cons, List.sum_cons, h3, hstep i li m h1 hm]
    ring

/-- C4: after assignLineDurations on a non-empty list of lines, the start
times are unchanged, every line but the last has as duration the difference
between the next line's duration_from_start and its own (so the next start
time is this start time plus this duration), the last line has duration 0,
and the durations of lines i..j-1 sum to duration_from_start(j) minus
duration_from_start(i). -/
theorem assignLineDurations_spec (f : HumdrumFileStructure) (hne : f.lines ≠ [])
    (hsz : f.lines.length < 2 ^ 64) :
    ∃ g, assignLineDurations f = some g ∧
      g.lines.map (fun l => l.durationFromStart) = f.lines.map (fun l => l.durationFromStart) ∧
      (∀ (i : Nat) (l m : HumdrumLine), g.lines[i]? = some l → g.lines[i + 1]? = some m →
        l.duration = m.durationFromStart - l.durationFromStart ∧
        m.durationFromStart = l.durationFromStart + l.duration) ∧
      (∀ l : HumdrumLine, g.lines[f.lines.length - 1]? = some l → l.duration = 0) ∧
      (∀ (i j : Nat) (li lj : HumdrumLine), i ≤ j → g.lines[i]? = some li →
        g.lines[j]? = some lj →
        (((g.lines.drop i).take (j - i)).map (fun l => l.duration)).sum =
          lj.durationFromStart - li.durationFromStart) := by
  refine ⟨_, assignLineDurations_eq f hne hsz, ?_, ?_, ?_, ?_⟩
  · simp only [setDuration_map_dfs, lineDurations_map_dfs]
  · intro i l m h1 h2
    have := lineDurations_step f.lines i l m h1 h2
    exact ⟨this, by rw [this]; ring⟩
  · intro l h
    exact setDuration_get_self _ _ _ _ h
  · intro i j li lj hij h1 h2
    have := sum_durations_telescope _ (lineDurations_step f.lines) (j - i) i li lj h1
      (by rw [← h2]; congr 1; omega)
    exact this

theorem pickupFile_hasPickup : HasPickup pickupFile.lines :=
  (pickupScan_iff _).1 (by decide)

/-- The pickup file has two barline lines and a pickup beat: three entries. -/
theorem analyzeMeter_barline_count_witness :
    HasPickup pickupFile.lines ∧ (analyzeMeter pickupFile).2.barlines.length = 3 ∧
      pickupAnalyzed.map (fun g => getBarlineCount g) = some 3 :=
  ⟨pickupFile_hasPickup,
    ((analyzeMeter_barline_count pickupFile).1 pickupFile_hasPickup).trans (by decide),
    by decide!⟩

/-- C9 (the code at the failing input): on the pickup file the barlines start
at 0, 1 and 3 and the score lasts 5; getBarlineDuration gives 1 for index 0
and 2 for index 2, but 4 for index 1, the distance to the end of the score,
where the distance to the next barline is 3 - 1 = 2. -/
theorem getBarlineDuration_pickup :
    pickupAnalyzed.map (fun g => g.barlines.map (fun b => (g.lines[b]?).map (fun l => l.durationFromStart)))
        = some [some 0, some 1, some 3] ∧
      pickupAnalyzed.map getScoreDuration = some 5 ∧
      pickupAnalyzed.bind (fun g => getBarlineDuration g 0) = some 1 ∧
      pickupAnalyzed.bind (fun g => getBarlineDuration g 1) = some 4 ∧
      pickupAnalyzed.bind (fun g => getBarlineDuration g 1) ≠ some (3 - 1) ∧
      pickupAnalyzed.bind (fun g => getBarlineDuration g 2) = some 2 := by
  refine ⟨by decide!, by decide!, by decide!, by decide!, by decide!, by decide!⟩

theorem assignLineDurations_spec_witness :
    ∃ g, assignLineDurations threeLines = some g ∧
      g.lines.map (fun l => l.durationFromStart) =
        threeLines.lines.map (fun l => l.durationFromStart) ∧
      (∀ (i : Nat) (l m : HumdrumLine), g.lines[i]? = some l → g.lines[i + 1]? = some m →
        l.duration = m.durationFromStart - l.durationFromStart ∧
        m.durationFromStart = l.durationFromStart + l.duration) ∧
      (∀ l : HumdrumLine, g.lines[threeLines.lines.length - 1]? = some l → l.duration = 0) ∧
      (∀ (i j : Nat) (li lj : HumdrumLine), i ≤ j → g.lines[i]? = some li →
        g.lines[j]? = some lj →
        (((g.lines.drop i).take (j - i)).map (fun l => l.duration)).sum =
          lj.durationFromStart - li.durationFromStart) :=
  assignLineDurations_spec threeLines (by simp [threeLines]) (by simp [threeLines])

theorem fill_backward_length (L : List HumdrumLine) :
    (fillInNegativeStartTimes.backward L).1.length = L.length := by
  induction L with
  | nil => rfl
  | cons l rest ih => simp [fillInNegativeStartTimes.backward, ih]

/-- The value of `lastdur` after the backward loop is the start time of the
first known line. -/
theorem fill_backward_snd (L : List HumdrumLine) :
    ∀ (j : Nat) (lj : HumdrumLine), L[j]? = some lj → 0 ≤ lj.durationFromStart →
      (∀ (k : Nat) (lk : HumdrumLine), k < j → L[k]? = some lk → lk.durationFromStart < 0) →
      (fillInNegativeStartTimes.backward L).2 = lj.durationFromStart := by
  induction L with
  | nil => intro j lj h; simp at h
  | cons l rest ih =>
    intro j lj h hk hu
    cases j with
    | zero =>
      simp only [List.getElem?_cons_zero, Option.some.injEq] at h
      subst h
      simp [fillInNegativeStartTimes.backward, hk]
    | succ j =>
      have hl : l.durationFromStart < 0 := hu 0 l (by omega) (by simp)
      have := ih j lj (by simpa using h) hk
        (fun k lk hkj hlk => hu (k + 1) lk (by omega) (by simpa using hlk))
      simp [fillInNegativeStartTimes.backward, not_le.mpr hl, this]

/-- Without a known line the backward loop leaves `lastdur` at -1. -/
theorem fill_backward_snd_none (L : List HumdrumLine)
    (hu : ∀ (k : Nat) (lk : HumdrumLine), L[k]? = some lk → lk.durationFromStart < 0) :
    (fillInNegativeStartTimes.backward L).2 = -1 := by
  induction L with
  | nil => rfl
  | cons l rest ih =>
    have hl : l.durationFromStart < 0 := hu 0 l (by simp)
    have := ih (fun k lk hlk => hu (k + 1) lk (by simpa using hlk))
    simp [fillInNegativeStartTimes.backward, not_le.mpr hl, this]

/-- The backward loop at one line: a known line is kept, an unknown line
followed by a known one takes the nearest following known value, an unknown
line with no known line after it is kept. -/
theorem fill_backward_get (L : List HumdrumLine) :
    ∀ (i : Nat) (l : HumdrumLine), L[i]? = some l →
      ∃ v, (fillInNegativeStartTimes.backward L).1[i]? = some { l with durationFromStart := v } ∧
        (0 ≤ l.durationFromStart → v = l.durationFromStart) ∧
        (∀ (j : Nat) (lj : HumdrumLine), i < j → L[j]? = some lj → 0 ≤ lj.durationFromStart →
          (∀ (k : Nat) (lk : HumdrumLine), i < k → k < j → L[k]? = some lk →
            lk.durationFromStart < 0) →
          l.durationFromStart < 0 → v = lj.durationFromStart) ∧
        ((∀ (k : Nat) (lk : HumdrumLine), i < k → L[k]? = some lk → lk.durationFromStart < 0) →
          l.durationFromStart < 0 → v = l.durationFromStart) := by
  induction L with
  | nil => intro i l h; simp at h
  | cons a rest ih =>
    intro i l h
    cases i with
    | zero =>
      simp only [List.getElem?_cons_zero, Option.some.injEq] at h
      subst h
      simp only [fillInNegativeStartTimes.backward, List.getElem?_cons_zero]
      by_cases hc : a.durationFromStart < 0 ∧ 0 ≤ (fillInNegativeStartTimes.backward rest).2
      · refine ⟨(fillInNegativeStartTimes.backward rest).2, by simp [hc], ?_, ?_, ?_⟩
        · intro h0; exact absurd hc.1 (not_lt.mpr h0)
        · intro j lj hj hlj hk hu _
          cases j with
          | zero => omega
          | succ j =>
            exact fill_backward_snd rest j lj (by simpa using hlj) hk
              (fun k lk hkj hlk => hu (k + 1) lk (by omega) (by omega) (by simpa using hlk))
        · intro hu _
          have := fill_backward_snd_none rest
            (fun k lk hlk => hu (k + 1) lk (by omega) (by simpa using hlk))
          rw [this] at hc
          exact absurd hc.2 (by norm_num)
      · refine ⟨a.durationFromStart, by simp [hc], fun _ => rfl, ?_, fun _ _ => rfl⟩
        intro j lj hj hlj hk hu ha
        cases j with
        | zero => omega
        | succ j =>
          have := fill_backward_snd rest j lj (by simpa using hlj) hk
            (fun k lk hkj hlk => hu (k + 1) lk (by omega) (by omega) (by simpa using hlk))
          rw [this] at hc
          exact absurd ⟨ha, hk⟩ hc
    | succ i =>
      obtain ⟨v, h1, h2, h3, h4⟩ := ih i l (by simpa using h)
      refine ⟨v, by simpa [fillInNegativeStartTimes.backward] using h1, h2, ?_, ?_⟩
      · intro j lj hj hlj hk hu hl
        cases j with
        | zero => omega
        | succ j =>
          exact h3 j lj (by omega) (by simpa using hlj) hk
            (fun k lk hik hkj hlk => hu (k + 1) lk (by omega) (by omega) (by simpa using hlk)) hl
      · intro hu hl
        exact h4 (fun k lk hik hlk => hu (k + 1) lk (by omega) (by simpa using hlk)) hl


/-- The forward loop at one line: a known line is kept, an unknown line takes
the value of the nearest preceding known line, or the entry value of
`lastdur` when there is none. -/
theorem fill_forward_get (L : List HumdrumLine) :
    ∀ (v : HumNum) (i : Nat) (l : HumdrumLine), L[i]? = some l →
      ∃ w, (fillInNegativeStartTimes.forward v L)[i]? = some { l with durationFromStart := w } ∧
        (0 ≤ l.durationFromStart → w = l.durationFromStart) ∧
        (∀ (k : Nat) (lk : HumdrumLine), k < i → L[k]? = some lk → 0 ≤ lk.durationFromStart →
          (∀ (m : Nat) (lm : HumdrumLine), k < m → m < i → L[m]? = some lm →
            lm.durationFromStart < 0) →
          l.durationFromStart < 0 → w = lk.durationFromStart) ∧
        ((∀ (m : Nat) (lm : HumdrumLine), m < i → L[m]? = some lm → lm.durationFromStart < 0) →
          l.durationFromStart < 0 → w = v) := by
  induction L with
  | nil => intro v i l h; simp at h
  | cons a rest ih =>
    intro v i l h
    cases i with
    | zero =>
      simp only [List.getElem?_cons_zero, Option.some.injEq] at h
      subst h
      by_cases hc : 0 ≤ a.durationFromStart
      · refine ⟨a.durationFromStart, by simp [fillInNegativeStartTimes.forward, hc],
          fun _ => rfl, ?_, ?_⟩
        · intro k lk hk; omega
        · intro _ hl; exact absurd hl (not_lt.mpr hc)
      · refine ⟨v, by simp [fillInNegativeStartTimes.forward, hc], fun h0 => absurd h0 hc,
          ?_, fun _ _ => rfl⟩
        intro k lk hk; omega
    | succ i =>
      by_cases hc : 0 ≤ a.durationFromStart
      · obtain ⟨w, h1, h2, h3, h4⟩ := ih a.durationFromStart i l (by simpa using h)
        refine ⟨w, by simpa [fillInNegativeStartTimes.forward, hc] using h1, h2, ?_, ?_⟩
        · intro k lk hk hlk hk0 hu hl
          cases k with
          | zero =>
            simp only [List.getElem?_cons_zero, Option.some.injEq] at hlk
            subst hlk
            exact h4 (fun m lm hm hlm => hu (m + 1) lm (by omega) (by omega) (by simpa using hlm)) hl
          | succ k =>
            exact h3 k lk (by omega) (by simpa using hlk) hk0
              (fun m lm hkm hm hlm => hu (m + 1) lm (by omega) (by omega) (by simpa using hlm)) hl
        · intro hu hl
          exact absurd (hu 0 a (by omega) (by simp)) (not_lt.mpr hc)
      · obtain ⟨w, h1, h2, h3, h4⟩ := ih v i l (by simpa using h)
        refine ⟨w, by simpa [fillInNegativeStartTimes.forward, hc] using h1, h2, ?_, ?_⟩
        · intro k lk hk hlk hk0 hu hl
          cases k with
          | zero =>
            simp only [List.getElem?_cons_zero, Option.some.injEq] at hlk
            subst hlk
            exact absurd hk0 hc
          | succ k =>
            exact h3 k lk (by omega) (by simpa using hlk) hk0
              (fun m lm hkm hm hlm => hu (m + 1) lm (by omega) (by omega) (by simpa using hlm)) hl
        · intro hu hl
          exact h4 (fun m lm hm hlm => hu (m + 1) lm (by omega) (by simpa using hlm)) hl


theorem exists_last_known (L : List HumdrumLine)
    (h : ∃ (k : Nat) (lk : HumdrumLine), L[k]? = some lk ∧ 0 ≤ lk.durationFromStart) :
    ∃ (k : Nat) (lk : HumdrumLine), L[k]? = some lk ∧ 0 ≤ lk.durationFromStart ∧
      ∀ (m : Nat) (lm : HumdrumLine), k < m → L[m]? = some lm → lm.durationFromStart < 0 := by
  classical
  obtain ⟨k0, lk0, h0, h0k⟩ := h
  let P : Nat → Prop := fun k => ∃ lk : HumdrumLine, L[k]? = some lk ∧ 0 ≤ lk.durationFromStart
  have hk0 : k0 < L.length := by
    by_contra hc
    rw [List.getElem?_eq_none (by omega)] at h0
    cases h0
  have hP : P (Nat.findGreatest P L.length) :=
    Nat.findGreatest_spec (Nat.le_of_lt hk0) ⟨lk0, h0, h0k⟩
  obtain ⟨lk, h1, h2⟩ := hP
  refine ⟨_, lk, h1, h2, ?_⟩
  intro m lm hm hlm
  have hmL : m < L.length := by
    by_contra hc
    rw [List.getElem?_eq_none (by omega)] at hlm
    cases hlm
  by_contra hc
  exact Nat.findGreatest_is_greatest hm (Nat.le_of_lt hmL) ⟨lm, hlm, not_lt.mp hc⟩

theorem exists_next_known (L : List HumdrumLine) (i : Nat)
    (h : ∃ (j : Nat) (lj : HumdrumLine), i < j ∧ L[j]? = some lj ∧ 0 ≤ lj.durationFromStart) :
    ∃ (j : Nat) (lj : HumdrumLine), i < j ∧ L[j]? = some lj ∧ 0 ≤ lj.durationFromStart ∧
      ∀ (k : Nat) (lk : HumdrumLine), i < k → k < j → L[k]? = some lk →
        lk.durationFromStart < 0 := by
  classical
  obtain ⟨lj, h1, h2, h3⟩ := Nat.find_spec h
  refine ⟨_, lj, h1, h2, h3, ?_⟩
  intro k lk hik hkj hlk
  by_contra hc
  exact Nat.find_min h hkj ⟨lk, hik, hlk, not_lt.mp hc⟩

/-- C6: when at least one line has a known duration_from_start, after
fillInNegativeStartTimes every line keeps its other members and gets a
non-negative duration_from_start: a known line keeps its value, an unknown
line followed by a known line gets the value of the nearest following known
line, and an unknown line with no known line after it gets the value of the
last known line of the file. -/
theorem fillInNegativeStartTimes_spec (f : HumdrumFileStructure)
    (hk : ∃ (k : Nat) (lk : HumdrumLine), f.lines[k]? = some lk ∧ 0 ≤ lk.durationFromStart)
    (i : Nat) (l : HumdrumLine) (hi : f.lines[i]? = some l) :
    ∃ v, (fillInNegativeStartTimes f).lines[i]? = some { l with durationFromStart := v } ∧
      0 ≤ v ∧
      (0 ≤ l.durationFromStart → v = l.durationFromStart) ∧
      (l.durationFromStart < 0 →
        ∀ (j : Nat) (lj : HumdrumLine), i < j → f.lines[j]? = some lj →
          0 ≤ lj.durationFromStart →
          (∀ (k : Nat) (lk : HumdrumLine), i < k → k < j → f.lines[k]? = some lk →
            lk.durationFromStart < 0) →
          v = lj.durationFromStart) ∧
      (l.durationFromStart < 0 →
        (∀ (k : Nat) (lk : HumdrumLine), i < k → f.lines[k]? = some lk →
          lk.durationFromStart < 0) →
        ∀ (k : Nat) (lk : HumdrumLine), f.lines[k]? = some lk → 0 ≤ lk.durationFromStart →
          (∀ (m : Nat) (lm : HumdrumLine), k < m → f.lines[m]? = some lm →
            lm.durationFromStart < 0) →
          v = lk.durationFromStart) := by
  obtain ⟨vb, hb1, hb2, hb3, hb4⟩ := fill_backward_get f.lines i l hi
  obtain ⟨w, hw1, hw2, hw3, hw4⟩ := fill_forward_get (fillInNegativeStartTimes.backward f.lines).1
    (fillInNegativeStartTimes.backward f.lines).2 i _ hb1
  simp only at hw1 hw2 hw3 hw4
  -- the three cases of the claim
  have c1 : 0 ≤ l.durationFromStart → w = l.durationFromStart := by
    intro h
    rw [hw2 (by rw [hb2 h]; exact h), hb2 h]
  have c2 : l.durationFromStart < 0 →
      ∀ (j : Nat) (lj : HumdrumLine), i < j → f.lines[j]? = some lj →
        0 ≤ lj.durationFromStart →
        (∀ (k : Nat) (lk : HumdrumLine), i < k → k < j → f.lines[k]? = some lk →
          lk.durationFromStart < 0) →
        w = lj.durationFromStart := by
    intro hl j lj hij hlj hj hu
    have e := hb3 j lj hij hlj hj hu hl
    rw [hw2 (by rw [e]; exact hj), e]
  have c3 : l.durationFromStart < 0 →
      (∀ (k : Nat) (lk : HumdrumLine), i < k → f.lines[k]? = some lk →
        lk.durationFromStart < 0) →
      ∀ (k : Nat) (lk : HumdrumLine), f.lines[k]? = some lk → 0 ≤ lk.durationFromStart →
        (∀ (m : Nat) (lm : HumdrumLine), k < m → f.lines[m]? = some lm →
          lm.durationFromStart < 0) →
        w = lk.durationFromStart := by
    intro hl hafter k lk hlk hk0 hlast
    have hki : k < i := by
      rcases Nat.lt_trichotomy k i with h | h | h
      · exact h
      · subst h
        rw [hi] at hlk
        cases hlk
        exact absurd hl (not_lt.mpr hk0)
      · exact absurd (hafter k lk h hlk) (not_lt.mpr hk0)
    have evb : vb = l.durationFromStart := hb4 hafter hl
    obtain ⟨vk, hk1, hk2, -, -⟩ := fill_backward_get f.lines k lk hlk
    have evk : vk = lk.durationFromStart := hk2 hk0
    have hk1' : (fillInNegativeStartTimes.backward f.lines).1[k]? = some lk := by
      rw [hk1, evk]
    refine hw3 k lk hki hk1' hk0 ?_ (by simpa [evb] using hl)
    intro m bm hkm hmi hbm
    have hmL : m < f.lines.length := by
      have : m < (fillInNegativeStartTimes.backward f.lines).1.length := by
        by_contra hc
        rw [List.getElem?_eq_none (by omega)] at hbm
        cases hbm
      rwa [fill_backward_length] at this
    obtain ⟨vm, hm1, -, -, hm4⟩ :=
      fill_backward_get f.lines m f.lines[m] (List.getElem?_eq_getElem hmL)
    have hmneg := hlast m f.lines[m] hkm (List.getElem?_eq_getElem hmL)
    have evm := hm4 (fun q lq hq hlq => hlast q lq (by omega) hlq) hmneg
    rw [hm1] at hbm
    cases hbm
    simpa [evm] using hmneg
  refine ⟨w, by simpa [fillInNegativeStartTimes] using hw1, ?_, c1, c2, c3⟩
  by_cases hl : 0 ≤ l.durationFromStart
  · rw [c1 hl]; exact hl
  · have hl' := not_le.mp hl
    by_cases hex : ∃ (j : Nat) (lj : HumdrumLine), i < j ∧ f.lines[j]? = some lj ∧
        0 ≤ lj.durationFromStart
    · obtain ⟨j, lj, h1, h2, h3, h4⟩ := exists_next_known f.lines i hex
      rw [c2 hl' j lj h1 h2 h3 h4]
      exact h3
    · have hafter : ∀ (k : Nat) (lk : HumdrumLine), i < k → f.lines[k]? = some lk →
          lk.durationFromStart < 0 := by
        intro k lk hik hlk
        by_contra hc
        exact hex ⟨k, lk, hik, hlk, not_lt.mp hc⟩
      obtain ⟨k, lk, h1, h2, h3⟩ := exists_last_known f.lines hk
      rw [c3 hl' hafter k lk h1 h2 h3]
      exact h2

theorem fillInNegativeStartTimes_spec_witness :
    (fillInNegativeStartTimes gapLines).lines.map (fun l => l.durationFromStart) =
        [0, 0, 1, 1, 1] ∧
      ∃ v, (fillInNegativeStartTimes gapLines).lines[4]? =
          some { (⟨-1, -1, -1, -1, false, false, false, false⟩ : HumdrumLine) with
            durationFromStart := v } ∧ 0 ≤ v :=
  ⟨by decide!,
    (fillInNegativeStartTimes_spec gapLines ⟨1, _, rfl, by decide!⟩ 4 _ rfl).imp
      (fun _ h => ⟨h.1, h.2.1⟩)⟩

theorem rat_mul_isInt_iff (t : ℤ) (q : ℚ) : (∃ z : ℤ, (t : ℚ) * q = z) ↔ (q.den : ℤ) ∣ t := by
  constructor
  · rintro ⟨z, hz⟩
    have h1 : (t : ℚ) * q.num = z * q.den := by
      have hd : (q.den : ℚ) ≠ 0 := by exact_mod_cast q.den_nz
      have hq : q = q.num / q.den := (Rat.num_div_den q).symm
      rw [hq] at hz
      field_simp at hz
      linarith
    have h2 : t * q.num = z * q.den := by exact_mod_cast h1
    have hc : IsCoprime (q.den : ℤ) q.num := by
      rw [Int.isCoprime_iff_gcd_eq_one, Int.gcd_comm]
      have := q.reduced
      simpa [Nat.Coprime, Int.gcd] using this
    exact hc.dvd_of_dvd_mul_right ⟨z, by rw [h2]; ring⟩
  · rintro ⟨k, hk⟩
    refine ⟨k * q.num, ?_⟩
    have hq : (q.den : ℚ) * q = q.num := by
      rw [mul_comm]; exact Rat.mul_den_eq_num q
    rw [hk]
    push_cast
    rw [mul_comm (q.den : ℚ) k, mul_assoc, hq]

theorem mem_setInsert (x q : HumNum) (s : List HumNum) :
    q ∈ setInsert x s ↔ q = x ∨ q ∈ s := by
  induction s with
  | nil => simp [setInsert]
  | cons y ys ih =>
    unfold setInsert
    by_cases h1 : x < y
    · simp [h1]
    · by_cases h2 : x = y
      · subst h2
        simp
      · simp only [h1, h2, if_false, List.mem_cons, ih]
        tauto

theorem mem_foldl_setInsert (L : List HumdrumLine) :
    ∀ (init : List HumNum) (q : HumNum),
      q ∈ L.foldl (fun output line =>
          if 0 < line.duration then setInsert line.duration output else output) init ↔
        q ∈ init ∨ ∃ l ∈ L, 0 < l.duration ∧ l.duration = q := by
  induction L with
  | nil => intro init q; simp
  | cons a rest ih =>
    intro init q
    rw [List.foldl_cons, ih]
    by_cases ha : 0 < a.duration
    · simp only [ha, if_true, mem_setInsert, List.mem_cons, exists_eq_or_imp, true_and]
      constructor
      · rintro ((h | h) | h)
        · exact Or.inr (Or.inl h.symm)
        · exact Or.inl h
        · exact Or.inr (Or.inr h)
      · rintro (h | h | h)
        · exact Or.inl (Or.inr h)
        · exact Or.inl (Or.inl h.symm)
        · exact Or.inr h
    · simp [ha]

theorem mem_getPositiveLineDurations (f : HumdrumFileStructure) (q : HumNum) :
    q ∈ getPositiveLineDurations f ↔ ∃ l ∈ f.lines, 0 < l.duration ∧ l.duration = q := by
  unfold getPositiveLineDurations
  rw [mem_foldl_setInsert]
  simp

theorem mem_foldl_dems (D : List HumNum) :
    ∀ (init : List Int) (d : Int),
      d ∈ D.foldl (fun dems it => if 1 < it.den then dems ++ [(it.den : Int)] else dems) init ↔
        d ∈ init ∨ ∃ q ∈ D, 1 < q.den ∧ d = q.den := by
  induction D with
  | nil => intro init d; simp
  | cons a rest ih =>
    intro init d
    rw [List.foldl_cons, ih]
    by_cases ha : 1 < a.den
    · simp only [ha, if_true, List.mem_append, List.mem_singleton, List.mem_cons,
        exists_eq_or_imp, true_and]
      tauto
    · simp [ha]

theorem getLcm_foldl (D : List Int) :
    ∀ acc : Int, 0 < acc → (∀ d ∈ D, 0 < d) →
      let r := D.foldl (fun acc d => (Int.lcm acc d : Int)) acc
      0 < r ∧ acc ∣ r ∧ (∀ d ∈ D, d ∣ r) ∧
        ∀ t : Int, acc ∣ t → (∀ d ∈ D, d ∣ t) → r ∣ t := by
  induction D with
  | nil => intro acc h _; simp [h]
  | cons a rest ih =>
    intro acc hacc hD
    have ha : 0 < a := hD a (by simp)
    have hl : 0 < (Int.lcm acc a : Int) := by
      have := Int.lcm_ne_zero (ne_of_gt hacc) (ne_of_gt ha)
      exact_mod_cast Nat.pos_of_ne_zero this
    obtain ⟨h1, h2, h3, h4⟩ := ih (Int.lcm acc a) hl (fun d hd => hD d (by simp [hd]))
    simp only [List.foldl_cons]
    refine ⟨h1, dvd_trans Int.dvd_lcm_left h2, ?_, ?_⟩
    · intro d hd
      rcases List.mem_cons.mp hd with h | h
      · subst h
        exact dvd_trans Int.dvd_lcm_right h2
      · exact h3 d h
    · intro t ht hall
      exact h4 t (Int.lcm_dvd ht (hall a (by simp))) (fun d hd => hall d (by simp [hd]))

theorem foldr_lcm_spec (D : List Nat) :
    (∀ d ∈ D, d ∣ D.foldr Nat.lcm 1) ∧
      ∀ t : Nat, (∀ d ∈ D, d ∣ t) → D.foldr Nat.lcm 1 ∣ t := by
  induction D with
  | nil => simp
  | cons a rest ih =>
    refine ⟨?_, ?_⟩
    · intro d hd
      rcases List.mem_cons.mp hd with h | h
      · subst h
        exact Nat.dvd_lcm_left _ _
      · exact dvd_trans (ih.1 d h) (Nat.dvd_lcm_right _ _)
    · intro t ht
      exact Nat.lcm_dvd (ht a (by simp)) (ih.2 t (fun d hd => ht d (by simp [hd])))

/-- The least common multiple of the vector `dems` of `tpq` is positive,
makes every positive line duration integral, divides every integer that does
so, is the least common multiple of the denominators of the positive line
durations, and is 1 when none of them exceeds 1. -/
theorem tpq_dems_lcm (f : HumdrumFileStructure) (L : Int)
    (hL : L = (tpq.dems f).foldl (fun acc d => (Int.lcm acc d : Int)) 1) :
    0 < L ∧
    (∀ l ∈ f.lines, 0 < l.duration → ∃ z : ℤ, ((L : ℤ) : ℚ) * l.duration = z) ∧
    (∀ t : ℤ, 0 < t → (∀ l ∈ f.lines, 0 < l.duration → ∃ z : ℤ, (t : ℚ) * l.duration = z) →
      L ∣ t ∧ L ≤ t) ∧
    L = (lcmOfDenominators f.lines : ℤ) ∧
    ((∀ l ∈ f.lines, 0 < l.duration → l.duration.den ≤ 1) → L = 1) := by
  subst hL
  have hdems : tpq.dems f = (getPositiveLineDurations f).foldl
      (fun dems it => if 1 < it.den then dems ++ [(it.den : Int)] else dems) [] := rfl
  generalize hd0 : tpq.dems f = dems at hdems ⊢
  have hmem : ∀ d : Int, d ∈ dems ↔
      ∃ l ∈ f.lines, 0 < l.duration ∧ 1 < l.duration.den ∧ d = l.duration.den := by
    intro d
    rw [hdems, mem_foldl_dems]
    simp only [List.not_mem_nil, false_or, mem_getPositiveLineDurations]
    constructor
    · rintro ⟨q, ⟨l, hl, hp, rfl⟩, h1, h2⟩
      exact ⟨l, hl, hp, h1, h2⟩
    · rintro ⟨l, hl, hp, h1, h2⟩
      exact ⟨l.duration, ⟨l, hl, hp, rfl⟩, h1, h2⟩
  have hpos : ∀ d ∈ dems, (0 : Int) < d := by
    intro d hd
    obtain ⟨l, -, -, h1, h2⟩ := (hmem d).1 hd
    rw [h2]
    exact_mod_cast (by omega : 0 < l.duration.den)
  obtain ⟨h1, -, h3, h4⟩ := getLcm_foldl dems 1 one_pos hpos
  have hint : ∀ l ∈ f.lines, 0 < l.duration →
      (l.duration.den : ℤ) ∣ List.foldl (fun acc d => (Int.lcm acc d : Int)) 1 dems := by
    intro l hl hp
    by_cases hden : 1 < l.duration.den
    · exact h3 _ ((hmem _).2 ⟨l, hl, hp, hden, rfl⟩)
    · have : l.duration.den = 1 := by
        have := l.duration.den_pos
        omega
      rw [this]
      simp
  refine ⟨h1, ?_, ?_, ?_, ?_⟩
  · intro l hl hp
    rw [rat_mul_isInt_iff]
    exact hint l hl hp
  · intro t ht hall
    have hdvd := h4 t (one_dvd t) (by
      intro d hd
      obtain ⟨l, hl, hp, -, h2⟩ := (hmem d).1 hd
      rw [h2, ← rat_mul_isInt_iff]
      exact hall l hl hp)
    exact ⟨hdvd, Int.le_of_dvd ht hdvd⟩
  · have g := foldr_lcm_spec (List.map (fun l : HumdrumLine => l.duration.den)
      (List.filter (fun l : HumdrumLine => decide (0 < l.duration)) f.lines))
    obtain ⟨g1, g2⟩ := g
    have hN : (0 : ℤ) ≤ (lcmOfDenominators f.lines : ℤ) := Int.natCast_nonneg _
    refine Int.dvd_antisymm (le_of_lt h1) hN ?_ ?_
    · apply h4 _ (one_dvd _)
      intro d hd
      obtain ⟨l, hl, hp, -, h2⟩ := (hmem d).1 hd
      rw [h2]
      exact Int.natCast_dvd_natCast.mpr (g1 _ (by
        simp only [List.mem_map, List.mem_filter, decide_eq_true_eq]
        exact ⟨l, ⟨hl, hp⟩, rfl⟩))
    · have hr : (List.foldl (fun acc d => (Int.lcm acc d : Int)) 1 dems) =
          ((List.foldl (fun acc d => (Int.lcm acc d : Int)) 1 dems).toNat : ℤ) :=
        (Int.toNat_of_nonneg (le_of_lt h1)).symm
      rw [hr]
      apply Int.natCast_dvd_natCast.mpr
      apply g2
      intro d hd
      simp only [List.mem_map, List.mem_filter, decide_eq_true_eq] at hd
      obtain ⟨l, ⟨hl, hp⟩, rfl⟩ := hd
      apply Int.natCast_dvd_natCast.mp
      rw [← hr]
      exact hint l hl hp
  · intro hall
    have : dems = [] := by
      cases hd : dems with
      | nil => rfl
      | cons a b =>
        have ha : a ∈ dems := by rw [hd]; simp
        obtain ⟨l, hl, hp, h1, -⟩ := (hmem a).1 ha
        have := hall l hl hp
        omega
    rw [this]
    rfl

/-- The value `tpq` computes when nothing is cached and the least common
multiple fits an `int`. -/
theorem tpq_eq_lcm (f : HumdrumFileStructure) (h : f.ticksperquarternote ≤ 0) (L : Int)
    (hL : L = (tpq.dems f).foldl (fun acc d => (Int.lcm acc d : Int)) 1) (hfit : L < 2 ^ 31) :
    tpq f = some (L, { f with ticksperquarternote := L }) := by
  unfold tpq
  rw [if_neg (not_lt.mpr h)]
  by_cases hlen : 0 < (tpq.dems f).length
  · rw [if_pos hlen]
    unfold Convert.getLcm
    simp only [← hL, hfit, if_true, Option.map_some']
  · rw [if_neg hlen]
    have hnil : tpq.dems f = [] := by
      cases hd : tpq.dems f with
      | nil => rfl
      | cons a b => rw [hd] at hlen; simp at hlen
    rw [hnil] at hL
    simp only [List.foldl_nil] at hL
    subst hL
    rfl

/-- Ten lines lasting 1/3, 1/5, ..., 1/31: the least common multiple
100280245065 of the denominators is no `int`, and `tpq` has no result. -/
theorem tpq_beyond_int :
    lcmOfDenominators primeLines.lines = 100280245065 ∧ tpq primeLines = none := by
  constructor <;> decide!

theorem nullLoop_step_error (fuel i : Nat) (L : List HumdrumLine) (nulls : List Nat)
    (prev : Option Nat) (l : HumdrumLine) (hl : L[i]? = some l)
    (he : isUnexpectedNegative l = true) :
    analyzeNullLineRhythms.loop (fuel + 1) i L nulls prev = some (false, L) := by
  have hi : i < L.length := by
    by_contra hc
    rw [List.getElem?_eq_none (by omega)] at hl
    cases hl
  simp only [isUnexpectedNegative, Bool.and_eq_true, Bool.not_eq_true', decide_eq_true_eq] at he
  obtain ⟨⟨⟨h1, h2⟩, h3⟩, h4⟩ := he
  simp [analyzeNullLineRhythms.loop, hi, hl, h1, h2, h3, h4]

theorem nullLoop_step_skip (fuel i : Nat) (L : List HumdrumLine) (nulls : List Nat)
    (prev : Option Nat) (l : HumdrumLine) (hl : L[i]? = some l)
    (ha : isAnchor l = false) (he : isUnexpectedNegative l = false) :
    analyzeNullLineRhythms.loop (fuel + 1) i L nulls prev =
      analyzeNullLineRhythms.loop fuel (i + 1) L
        (if isNullData l then nulls ++ [i] else nulls) prev := by
  have hi : i < L.length := by
    by_contra hc
    rw [List.getElem?_eq_none (by omega)] at hl
    cases hl
  unfold isAnchor at ha
  unfold isUnexpectedNegative at he
  unfold isNullData
  rw [analyzeNullLineRhythms.loop]
  simp only [hi, if_true, hl, Option.bind_eq_bind, Option.some_bind]
  cases h1 : l.hasSpines <;> cases h2 : l.isAllRhythmicNull <;> cases h3 : l.isData <;>
    simp [h1, h2, h3] at ha he ⊢
  · intro h
    exact absurd ha (not_lt.mpr h)
  · exact absurd ha (not_lt.mpr he)

theorem nullLoop_step_anchor (fuel i : Nat) (L : List HumdrumLine) (nulls : List Nat)
    (prev : Option Nat) (l : HumdrumLine) (hl : L[i]? = some l)
    (ha : isAnchor l = true) (hprev : ∀ p, prev = some p → p < L.length) :
    analyzeNullLineRhythms.loop (fuel + 1) i L nulls prev =
      analyzeNullLineRhythms.loop fuel (i + 1) (nullAssign L nulls prev l) [] (some i) := by
  have hi : i < L.length := by
    by_contra hc
    rw [List.getElem?_eq_none (by omega)] at hl
    cases hl
  simp only [isAnchor, Bool.and_eq_true, Bool.not_eq_true', decide_eq_true_eq] at ha
  obtain ⟨⟨h1, h2⟩, h3⟩ := ha
  rw [analyzeNullLineRhythms.loop]
  simp only [hi, if_true, hl, Option.bind_eq_bind, Option.some_bind, h1, h2, not_lt.mpr h3,
    Bool.not_true, Bool.false_eq_true, if_false]
  cases prev with
  | none => rfl
  | some p =>
    have hp := hprev p rfl
    simp only [nullAssign, List.getElem?_eq_getElem hp, Option.some_bind]

theorem setDurationFromStart_length (L : List HumdrumLine) (i : Nat) (d : HumNum) :
    (setDurationFromStart L i d).length = L.length := by
  unfold setDurationFromStart
  cases L[i]? <;> simp

theorem setDurationFromStart_get_ne (L : List HumdrumLine) (i m : Nat) (d : HumNum)
    (h : m ≠ i) : (setDurationFromStart L i d)[m]? = L[m]? := by
  unfold setDurationFromStart
  cases L[i]? with
  | none => rfl
  | some l => simp only; rw [List.getElem?_set_ne (Ne.symm h)]

theorem setDurationFromStart_get_self (L : List HumdrumLine) (i : Nat) (d : HumNum)
    (l : HumdrumLine) (h : L[i]? = some l) :
    (setDurationFromStart L i d)[i]? = some { l with durationFromStart := d } := by
  have hi : i < L.length := by
    by_contra hc
    rw [List.getElem?_eq_none (by omega)] at h
    cases h
  unfold setDurationFromStart
  rw [h]
  simp only
  rw [List.getElem?_set_self hi]

theorem nullAssign_loop_length (a d : HumNum) (ns : List Nat) :
    ∀ (j : Nat) (L : List HumdrumLine),
      (analyzeNullLineRhythms.assign a d j ns L).length = L.length := by
  induction ns with
  | nil => intro j L; rfl
  | cons n rest ih =>
    intro j L
    rw [analyzeNullLineRhythms.assign, ih, setDurationFromStart_length]

theorem nullAssign_loop_get_other (a d : HumNum) (ns : List Nat) :
    ∀ (j : Nat) (L : List HumdrumLine) (m : Nat), m ∉ ns →
      (analyzeNullLineRhythms.assign a d j ns L)[m]? = L[m]? := by
  induction ns with
  | nil => intro j L m _; rfl
  | cons n rest ih =>
    intro j L m hm
    rw [analyzeNullLineRhythms.assign, ih _ _ _ (fun h => hm (List.mem_cons_of_mem _ h)),
      setDurationFromStart_get_ne _ _ _ _ (fun h => hm (by simp [h]))]

theorem nullAssign_loop_get (a d : HumNum) (ns : List Nat) :
    ∀ (j0 : Nat) (L : List HumdrumLine), ns.Nodup →
      ∀ (j n : Nat) (l : HumdrumLine), ns[j]? = some n → L[n]? = some l →
        (analyzeNullLineRhythms.assign a d j0 ns L)[n]? =
          some { l with durationFromStart := a + d * (((j0 + j : Nat) : HumNum) + 1) } := by
  induction ns with
  | nil => intro j0 L _ j n l h; simp at h
  | cons x rest ih =>
    intro j0 L hnd j n l hj hl
    rw [List.nodup_cons] at hnd
    rw [analyzeNullLineRhythms.assign]
    cases j with
    | zero =>
      simp only [List.getElem?_cons_zero, Option.some.injEq] at hj
      subst hj
      rw [nullAssign_loop_get_other _ _ _ _ _ _ hnd.1, setDurationFromStart_get_self _ _ _ _ hl]
      simp
    | succ j =>
      simp only [List.getElem?_cons_succ] at hj
      have hne : n ≠ x := by
        intro h
        subst h
        exact hnd.1 (List.getElem?_mem hj)
      have := ih (j0 + 1) (setDurationFromStart L x (a + d * ((j0 : HumNum) + 1))) hnd.2 j n l hj
        (by rw [setDurationFromStart_get_ne _ _ _ _ hne]; exact hl)
      rw [this]
      congr 3
      push_cast
      ring

/-- Over a stretch of `n` lines from `i` on with no reference line and no
unexpected negative line, the loop only collects the null data lines. -/
theorem nullLoop_skip_run (L : List HumdrumLine) (prev : Option Nat) :
    ∀ (n fuel i : Nat) (nulls : List Nat),
      (∀ m, i ≤ m → m < i + n →
        ∃ l, L[m]? = some l ∧ isAnchor l = false ∧ isUnexpectedNegative l = false) →
      analyzeNullLineRhythms.loop (fuel + n) i L nulls prev =
        analyzeNullLineRhythms.loop fuel (i + n) L
          (nulls ++ (List.range' i n).filter (nullAt L)) prev := by
  intro n
  induction n with
  | zero => intro fuel i nulls _; simp
  | succ n ih =>
    intro fuel i nulls h
    obtain ⟨l, hl, ha, he⟩ := h i (Nat.le_refl _) (by omega)
    have e1 : fuel + (n + 1) = (fuel + n) + 1 := by omega
    rw [e1, nullLoop_step_skip _ _ _ _ _ l hl ha he,
      ih fuel (i + 1) _ (fun m h1 h2 => h m (by omega) (by omega))]
    have e2 : i + 1 + n = i + (n + 1) := by omega
    rw [e2]
    congr 1
    rw [List.range'_succ, List.filter_cons]
    have : nullAt L i = isNullData l := by simp [nullAt, hl]
    rw [this]
    cases isNullData l <;> simp

theorem nullAssign_length (L : List HumdrumLine) (nulls : List Nat) (prev : Option Nat)
    (l : HumdrumLine) : (nullAssign L nulls prev l).length = L.length := by
  unfold nullAssign
  cases prev with
  | none => rfl
  | some p =>
    simp only
    cases L[p]? with
    | none => rfl
    | some pl => exact nullAssign_loop_length _ _ _ _ _

theorem nullAssign_get_other (L : List HumdrumLine) (nulls : List Nat) (prev : Option Nat)
    (l : HumdrumLine) (m : Nat) (hm : m ∉ nulls) : (nullAssign L nulls prev l)[m]? = L[m]? := by
  unfold nullAssign
  cases prev with
  | none => rfl
  | some p =>
    simp only
    cases L[p]? with
    | none => rfl
    | some pl => exact nullAssign_loop_get_other _ _ _ _ _ _ hm

/-- The loop runs from line `i` to line `t` when no line in between is an
unexpected negative line. -/
theorem nullLoop_prefix_run (lines : List HumdrumLine) :
    ∀ (n i : Nat) (L : List HumdrumLine) (nulls : List Nat) (prev : Option Nat),
      NullLoopInv lines i L nulls prev → i + n ≤ lines.length →
      (∀ m l, i ≤ m → m < i + n → lines[m]? = some l → isUnexpectedNegative l = false) →
      ∃ L1 nulls1 prev1, NullLoopInv lines (i + n) L1 nulls1 prev1 ∧
        ∀ fuel, analyzeNullLineRhythms.loop (fuel + n) i L nulls prev =
          analyzeNullLineRhythms.loop fuel (i + n) L1 nulls1 prev1 := by
  intro n
  induction n with
  | zero =>
    intro i L nulls prev hinv _ _
    exact ⟨L, nulls, prev, hinv, fun fuel => rfl⟩
  | succ n ih =>
    intro i L nulls prev hinv hlen herr
    obtain ⟨h1, h2, h3, h4⟩ := hinv
    have hi : i < lines.length := by omega
    have hl : L[i]? = some lines[i] := by
      rw [h2 i (Nat.le_refl _)]
      exact List.getElem?_eq_getElem hi
    have he := herr i lines[i] (Nat.le_refl _) (by omega) (List.getElem?_eq_getElem hi)
    by_cases ha : isAnchor lines[i] = true
    · have hinv1 : NullLoopInv lines (i + 1) (nullAssign L nulls prev lines[i]) [] (some i) := by
        refine ⟨by rw [nullAssign_length, h1], ?_, by simp, ?_⟩
        · intro m hm
          rw [nullAssign_get_other _ _ _ _ _ (fun hx => by have := h3 m hx; omega)]
          exact h2 m (by omega)
        · intro p hp
          cases hp
          omega
      obtain ⟨L1, nulls1, prev1, g1, g2⟩ := ih (i + 1) _ _ _ hinv1 (by omega)
        (fun m l hm1 hm2 => herr m l (by omega) (by omega))
      refine ⟨L1, nulls1, prev1, by rwa [show i + (n + 1) = i + 1 + n by omega], ?_⟩
      intro fuel
      have e1 : fuel + (n + 1) = (fuel + n) + 1 := by omega
      rw [e1, nullLoop_step_anchor _ _ _ _ _ _ hl ha (fun p hp => by have := h4 p hp; omega),
        g2 fuel, show i + (n + 1) = i + 1 + n by omega]
    · have ha' : isAnchor lines[i] = false := by simpa using ha
      have hinv1 : NullLoopInv lines (i + 1) L
          (if isNullData lines[i] then nulls ++ [i] else nulls) prev := by
        refine ⟨h1, fun m hm => h2 m (by omega), ?_, fun p hp => by have := h4 p hp; omega⟩
        intro x hx
        split at hx
        · rcases List.mem_append.mp hx with h | h
          · have := h3 x h
            omega
          · simp at h
            omega
        · have := h3 x hx
          omega
      obtain ⟨L1, nulls1, prev1, g1, g2⟩ := ih (i + 1) _ _ _ hinv1 (by omega)
        (fun m l hm1 hm2 => herr m l (by omega) (by omega))
      refine ⟨L1, nulls1, prev1, by rwa [show i + (n + 1) = i + 1 + n by omega], ?_⟩
      intro fuel
      have e1 : fuel + (n + 1) = (fuel + n) + 1 := by omega
      rw [e1, nullLoop_step_skip _ _ _ _ _ _ hl ha' he, g2 fuel,
        show i + (n + 1) = i + 1 + n by omega]

/-- With enough fuel the loop returns, and it leaves untouched every line
before `i` that is not in `nulllines`. -/
theorem nullLoop_total_frame :
    ∀ (fuel i : Nat) (L : List HumdrumLine) (nulls : List Nat) (prev : Option Nat),
      L.length + 1 ≤ fuel + i → i ≤ L.length → (∀ p, prev = some p → p < L.length) →
      ∃ ok L1, analyzeNullLineRhythms.loop fuel i L nulls prev = some (ok, L1) ∧
        ∀ m, m < i → m ∉ nulls → L1[m]? = L[m]? := by
  intro fuel
  induction fuel with
  | zero =>
    intro i L nulls prev h h1 _
    omega
  | succ fuel ih =>
    intro i L nulls prev hfuel hile hprev
    by_cases hi : i < L.length
    · have hl : L[i]? = some L[i] := List.getElem?_eq_getElem hi
      by_cases he : isUnexpectedNegative L[i] = true
      · exact ⟨false, L, nullLoop_step_error _ _ _ _ _ _ hl he, fun _ _ _ => rfl⟩
      · have he' : isUnexpectedNegative L[i] = false := by simpa using he
        by_cases ha : isAnchor L[i] = true
        · rw [nullLoop_step_anchor _ _ _ _ _ _ hl ha hprev]
          obtain ⟨ok, L1, g1, g2⟩ := ih (i + 1) (nullAssign L nulls prev L[i]) [] (some i)
            (by rw [nullAssign_length]; omega) (by rw [nullAssign_length]; omega)
            (fun p hp => by cases hp; rw [nullAssign_length]; exact hi)
          refine ⟨ok, L1, g1, ?_⟩
          intro m hm hmn
          rw [g2 m (by omega) (by simp), nullAssign_get_other _ _ _ _ _ hmn]
        · have ha' : isAnchor L[i] = false := by simpa using ha
          rw [nullLoop_step_skip _ _ _ _ _ _ hl ha' he']
          obtain ⟨ok, L1, g1, g2⟩ := ih (i + 1) L
            (if isNullData L[i] then nulls ++ [i] else nulls) prev (by omega) (by omega) hprev
          refine ⟨ok, L1, g1, ?_⟩
          intro m hm hmn
          apply g2 m (by omega)
          split
          · intro hx
            rcases List.mem_append.mp hx with h | h
            · exact hmn h
            · simp at h
              omega
          · exact hmn
    · exact ⟨true, L, by simp [analyzeNullLineRhythms.loop, hi], fun _ _ _ => rfl⟩

theorem mem_nullsBetween (lines : List HumdrumLine) (p q x : Nat)
    (h : x ∈ nullsBetween lines p q) : p < x ∧ x < q := by
  unfold nullsBetween at h
  rw [List.mem_filter, List.mem_range'_1] at h
  omega

theorem nullsBetween_nodup (lines : List HumdrumLine) (p q : Nat) :
    (nullsBetween lines p q).Nodup :=
  List.Nodup.filter _ (List.nodup_range' _ _)

/-- C5 (amended): for two successive spined, not-all-rhythmic-null lines with
known duration_from_start a (line p) and b (line q), when no spined data line
that is not all rhythmic null and has an unknown duration_from_start occurs
before line q, analyzeNullLineRhythms returns and sets the
duration_from_start of the j-th null data line between them (j = 1..k) to
a + j*(b - a)/(k + 1), leaving its other members and the two lines
themselves unchanged. -/
theorem analyzeNullLineRhythms_interpolates (f : HumdrumFileStructure) (p q : Nat)
    (A B : HumdrumLine) (hpq : p < q)
    (hp : f.lines[p]? = some A) (hq : f.lines[q]? = some B)
    (hA : isAnchor A = true) (hB : isAnchor B = true)
    (hmid : ∀ m l, p < m → m < q → f.lines[m]? = some l → isAnchor l = false)
    (hok : ∀ m l, m < q → f.lines[m]? = some l → isUnexpectedNegative l = false) :
    ∃ ok g, analyzeNullLineRhythms f = some (ok, g) ∧
      g.lines[p]? = some A ∧ g.lines[q]? = some B ∧
      ∀ (j n : Nat) (l : HumdrumLine), (nullsBetween f.lines p q)[j]? = some n →
        f.lines[n]? = some l →
        g.lines[n]? = some { l with durationFromStart :=
          A.durationFromStart + ((j : HumNum) + 1) * (B.durationFromStart - A.durationFromStart) /
            (((nullsBetween f.lines p q).length : HumNum) + 1) } := by
  have hqn : q < f.lines.length := by
    by_contra hc
    rw [List.getElem?_eq_none (by omega)] at hq
    cases hq
  -- from the first line to line p
  obtain ⟨L1, nulls1, prev1, ⟨i1, i2, i3, i4⟩, run1⟩ :=
    nullLoop_prefix_run f.lines p 0 f.lines [] none
      ⟨rfl, fun _ _ => rfl, by simp, by simp⟩ (by omega)
      (fun m l _ hm hl => hok m l (by omega) hl)
  simp only [Nat.zero_add] at i2 i3 i4 run1
  -- line p is taken as `previous`
  have hL1p : L1[p]? = some A := by rw [i2 p (Nat.le_refl _), hp]
  have step2 := fun fuel => nullLoop_step_anchor fuel p L1 nulls1 prev1 A hL1p hA
    (fun x hx => by have := i4 x hx; omega)
  set L2 := nullAssign L1 nulls1 prev1 A with hL2
  have hL2len : L2.length = f.lines.length := by rw [hL2, nullAssign_length, i1]
  have hL2get : ∀ m, p ≤ m → L2[m]? = f.lines[m]? := by
    intro m hm
    rw [hL2, nullAssign_get_other _ _ _ _ _ (fun hx => by have := i3 m hx; omega)]
    exact i2 m hm
  -- the lines between p and q
  have run3 := fun fuel => nullLoop_skip_run L2 (some p) (q - (p + 1)) fuel (p + 1) [] (by
    intro m hm1 hm2
    have hm : m < f.lines.length := by omega
    refine ⟨f.lines[m], ?_, ?_, ?_⟩
    · rw [hL2get m (by omega)]
      exact List.getElem?_eq_getElem hm
    · exact hmid m _ (by omega) (by omega) (List.getElem?_eq_getElem hm)
    · exact hok m _ (by omega) (List.getElem?_eq_getElem hm))
  have hns : (List.range' (p + 1) (q - (p + 1))).filter (nullAt L2) = nullsBetween f.lines p q := by
    unfold nullsBetween
    apply List.filter_congr
    intro x hx
    rw [List.mem_range'_1] at hx
    simp only [nullAt, hL2get x (by omega)]
  simp only [List.nil_append, hns, show p + 1 + (q - (p + 1)) = q by omega] at run3
  -- line q is taken as `next`
  have hL2q : L2[q]? = some B := by rw [hL2get q (by omega), hq]
  have hL2p : L2[p]? = some A := by rw [hL2get p (Nat.le_refl _), hp]
  have step4 := fun fuel => nullLoop_step_anchor fuel q L2 (nullsBetween f.lines p q) (some p) B
    hL2q hB (fun x hx => by cases hx; omega)
  set L3 := nullAssign L2 (nullsBetween f.lines p q) (some p) B with hL3
  have hL3len : L3.length = f.lines.length := by rw [hL3, nullAssign_length, hL2len]
  -- the rest of the file
  obtain ⟨ok, L4, run5, frame5⟩ := nullLoop_total_frame (f.lines.length - q) (q + 1) L3 []
    (some q) (by omega) (by omega) (fun x hx => by cases hx; omega)
  have hfuel : f.lines.length + 1 =
      ((f.lines.length - q + 1) + (q - (p + 1)) + 1) + p := by omega
  have hrun : analyzeNullLineRhythms.loop (f.lines.length + 1) 0 f.lines [] none =
      some (ok, L4) := by
    rw [hfuel, run1, step2, run3, step4, run5]
  refine ⟨ok, { f with lines := L4 }, by simp [analyzeNullLineRhythms, hrun], ?_, ?_, ?_⟩
  · show L4[p]? = some A
    rw [frame5 p (by omega) (by simp), hL3,
      nullAssign_get_other _ _ _ _ _ (fun hx => by have := mem_nullsBetween _ _ _ _ hx; omega)]
    exact hL2p
  · show L4[q]? = some B
    rw [frame5 q (by omega) (by simp), hL3,
      nullAssign_get_other _ _ _ _ _ (fun hx => by have := mem_nullsBetween _ _ _ _ hx; omega)]
    exact hL2q
  · intro j n l hj hl
    have hn := mem_nullsBetween _ _ _ _ (List.getElem?_mem hj)
    show L4[n]? = _
    rw [frame5 n (by omega) (by simp), hL3]
    simp only [nullAssign, hL2p]
    rw [nullAssign_loop_get _ _ _ 0 L2 (nullsBetween_nodup _ _ _) j n l hj
      (by rw [hL2get n (by omega)]; exact hl)]
    congr 2
    simp only [Nat.zero_add]
    ring

theorem analyzeNullLineRhythms_interpolates_witness :
    (analyzeNullLineRhythms nullPair).map (fun r => r.2.lines.map (fun l => l.durationFromStart))
        = some [1, 4 / 3, 5 / 3, 2] ∧
      ∃ ok g, analyzeNullLineRhythms nullPair = some (ok, g) ∧
        g.lines[0]? = some ⟨1, -1, -1, -1, true, false, true, false⟩ ∧
        g.lines[3]? = some ⟨2, -1, -1, -1, true, false, true, false⟩ ∧
        ∀ (j n : Nat) (l : HumdrumLine), (nullsBetween nullPair.lines 0 3)[j]? = some n →
          nullPair.lines[n]? = some l →
          g.lines[n]? = some { l with durationFromStart :=
            1 + ((j : HumNum) + 1) * (2 - 1) /
              (((nullsBetween nullPair.lines 0 3).length : HumNum) + 1) } :=
  ⟨by decide!,
    analyzeNullLineRhythms_interpolates nullPair 0 3 _ _ (by decide) rfl rfl (by decide!)
      (by decide!)
      (by
        intro m l h1 h2 h
        have hm : m = 1 ∨ m = 2 := by omega
        rcases hm with rfl | rfl <;>
          (simp only [nullPair, List.getElem?_cons_succ, List.getElem?_cons_zero,
            Option.some.injEq] at h
           subst h
           decide!))
      (by
        intro m l h2 h
        have hm : m = 0 ∨ m = 1 ∨ m = 2 := by omega
        rcases hm with rfl | rfl | rfl <;>
          (simp only [nullPair, List.getElem?_cons_succ, List.getElem?_cons_zero,
            Option.some.injEq] at h
           subst h
           decide!))⟩

/-- C5 (counterexample): lines 1 and 4 are successive spined, not all
rhythmic null lines with known duration_from_start 1 and 2 and exactly the
two null data lines 2 and 3 between them, but line 0 is a data line without
start time: analyzeNullLineRhythms returns false there and the null lines
keep the undefined value -1 instead of 4/3 and 5/3. -/
theorem analyzeNullLineRhythms_stops_before_pair :
    nullPairAfterUnknown.lines.map isAnchor = [false, true, false, false, true] ∧
      nullsBetween nullPairAfterUnknown.lines 1 4 = [2, 3] ∧
      analyzeNullLineRhythms nullPairAfterUnknown = some (false, nullPairAfterUnknown) ∧
      (analyzeNullLineRhythms nullPairAfterUnknown).map
          (fun r => r.2.lines.map (fun l => l.durationFromStart)) = some [-1, 1, -1, -1, 2] ∧
      (-1 : HumNum) ≠ 1 + 1 * (2 - 1) / (2 + 1) := by
  refine ⟨by decide!, by decide!, by decide!, by decide!, by decide!⟩

theorem withState_tokens_get (f0 : HumdrumFileStructure) (S : Nat → Int) (D : Nat → HumNum)
    (i : Nat) :
    (withState f0 S D).tokens[i]? = (f0.tokens[i]?).map (fun t => { t with rhycheck := S i }) := by
  simp [withState]

theorem withState_lines_get (f0 : HumdrumFileStructure) (S : Nat → Int) (D : Nat → HumNum)
    (i : Nat) :
    (withState f0 S D).lines[i]? =
      (f0.lines[i]?).map (fun l => { l with durationFromStart := D i }) := by
  simp [withState]

theorem withState_lines_length (f0 : HumdrumFileStructure) (S : Nat → Int) (D : Nat → HumNum) :
    (withState f0 S D).lines.length = f0.lines.length := by
  simp [withState]

theorem withState_self (f : HumdrumFileStructure) : withState f (stateOf f) (startOf f) = f := by
  have h1 : f.tokens.mapIdx (fun i t => { t with rhycheck := stateOf f i }) = f.tokens := by
    apply List.ext_getElem?
    intro i
    rw [List.getElem?_mapIdx]
    unfold stateOf
    cases h : f.tokens[i]? <;> simp
  have h2 : f.lines.mapIdx (fun i l => { l with durationFromStart := startOf f i }) = f.lines := by
    apply List.ext_getElem?
    intro i
    rw [List.getElem?_mapIdx]
    unfold startOf
    cases h : f.lines[i]? <;> simp
  unfold withState
  rw [h1, h2]

theorem withState_incrementState (f0 : HumdrumFileStructure) (S : Nat → Int) (D : Nat → HumNum)
    (c : Nat) :
    incrementState (withState f0 S D) c = withState f0 (Function.update S c (S c + 1)) D := by
  unfold incrementState
  rw [withState_tokens_get]
  cases h : f0.tokens[c]? with
  | none =>
    simp only [Option.map_none']
    unfold withState
    congr 1
    apply List.ext_getElem?
    intro i
    simp only [List.getElem?_mapIdx]
    by_cases hic : i = c
    · subst hic; simp [h]
    · simp [Function.update_noteq hic]
  | some t =>
    simp only [Option.map_some']
    unfold withState
    simp only
    congr 1
    apply List.ext_getElem?
    intro i
    by_cases hic : i = c
    · subst hic
      have hi : i < f0.tokens.length := by
        by_contra hc
        rw [List.getElem?_eq_none (by omega)] at h
        cases h
      rw [List.getElem?_set_self (by simpa using hi)]
      simp [h]
    · rw [List.getElem?_set_ne (Ne.symm hic)]
      simp [Function.update_noteq hic]

theorem withState_setDurationFromStart (f0 : HumdrumFileStructure) (S : Nat → Int)
    (D : Nat → HumNum) (n : Nat) (d : HumNum) :
    { withState f0 S D with lines := setDurationFromStart (withState f0 S D).lines n d } =
      withState f0 S (Function.update D n d) := by
  unfold setDurationFromStart
  rw [withState_lines_get]
  cases h : f0.lines[n]? with
  | none =>
    simp only [Option.map_none']
    unfold withState
    simp only
    congr 1
    apply List.ext_getElem?
    intro i
    simp only [List.getElem?_mapIdx]
    by_cases hic : i = n
    · subst hic; simp [h]
    · simp [Function.update_noteq hic]
  | some l =>
    simp only [Option.map_some']
    unfold withState
    simp only
    congr 1
    apply List.ext_getElem?
    intro i
    by_cases hic : i = n
    · subst hic
      have hi : i < f0.lines.length := by
        by_contra hc
        rw [List.getElem?_eq_none (by omega)] at h
        cases h
      rw [List.getElem?_set_self (by simpa using hi)]
      simp [h]
    · rw [List.getElem?_set_ne (Ne.symm hic)]
      simp [Function.update_noteq hic]

theorem setLineDurationFromStart_withState (f0 : HumdrumFileStructure) (S : Nat → Int)
    (D : Nat → HumNum) (c : Nat) (d : HumNum) (tc : HumdrumToken) (l : HumdrumLine)
    (hc : f0.tokens[c]? = some tc) (hl : f0.lines[tc.lineIndex]? = some l) :
    setLineDurationFromStart (withState f0 S D) c d =
      some ((lineStep D tc d).1, withState f0 S (lineStep D tc d).2) := by
  unfold setLineDurationFromStart lineStep isTimed
  simp only [withState_tokens_get, hc, Option.map_some', Option.bind_eq_bind, Option.some_bind,
    withState_lines_get, hl]
  cases hterm : tc.isTerminateInterpretation
  · by_cases hd : tc.duration < 0
    · simp [hd, not_le.mpr hd]
    · simp only [Bool.not_false, Bool.true_and, decide_eq_true_eq, hd, if_false, Bool.false_or,
        not_lt.mp hd, if_true]
      by_cases h1 : D tc.lineIndex < 0
      · simp only [h1, if_true]
        rw [withState_setDurationFromStart]
        rfl
      · by_cases h2 : D tc.lineIndex = d
        · have h3 : ¬ d < 0 := h2 ▸ h1
          simp [h1, h2, h3]
        · simp [h1, h2]
  · simp only [Bool.not_true, Bool.false_and, Bool.false_eq_true, if_false, Bool.true_or, if_true]
    by_cases h1 : D tc.lineIndex < 0
    · simp only [h1, if_true]
      rw [withState_setDurationFromStart]
      rfl
    · by_cases h2 : D tc.lineIndex = d
      · have h3 : ¬ d < 0 := h2 ▸ h1
        simp [h1, h2, h3]
      · simp [h1, h2]

theorem WellLinked.line_get {f0 : HumdrumFileStructure} (hw : WellLinked f0) {i : Nat}
    {t : HumdrumToken} (h : f0.tokens[i]? = some t) :
    ∃ l, f0.lines[t.lineIndex]? = some l :=
  ⟨_, List.getElem?_eq_getElem (hw.line_valid i t h)⟩

theorem primary_step (f0 : HumdrumFileStructure) (hw : WellLinked f0) (st : Int) (fuel : Nat)
    (S : Nat → Int) (D : Nat → HumNum) (token c : Nat) (rest : List Nat) (d : HumNum)
    (t tc : HumdrumToken) (ht : f0.tokens[token]? = some t) (hn : t.nextTokens = c :: rest)
    (hc : f0.tokens[c]? = some tc) :
    prepareDurations.primary st (fuel + 1) (withState f0 S D) token d =
      if st ≠ S c then some (Walk.ret true (withState f0 S D))
      else if (lineStep D tc d).1 = false then
        some (Walk.ret false (withState f0 (Function.update S c (S c + 1)) (lineStep D tc d).2))
      else
        prepareDurations.primary st fuel
          (withState f0 (Function.update S c (S c + 1)) (lineStep D tc d).2) c (d + posDur tc) := by
  obtain ⟨l, hl⟩ := hw.line_get hc
  rw [prepareDurations.primary]
  simp only [withState_tokens_get, ht, hc, Option.map_some', Option.bind_eq_bind,
    Option.some_bind, hn, List.length_cons, Nat.zero_lt_succ, if_true, List.getElem?_cons_zero,
    withState_incrementState, setLineDurationFromStart_withState f0 _ D c d tc l hc hl]
  by_cases h1 : st = S c
  · simp only [h1, ne_eq, not_true_eq_false, if_false]
    cases h2 : (lineStep D tc d).1
    · simp
    · simp only [Bool.not_true, Bool.false_eq_true, if_false, Bool.true_eq_false]
      congr 1
      unfold posDur
      split <;> simp
  · simp [h1]

theorem primary_end (f0 : HumdrumFileStructure) (st : Int) (fuel : Nat)
    (S : Nat → Int) (D : Nat → HumNum) (token : Nat) (d : HumNum)
    (t : HumdrumToken) (ht : f0.tokens[token]? = some t) (hn : t.nextTokens = []) :
    prepareDurations.primary st (fuel + 1) (withState f0 S D) token d =
      some (Walk.fall (withState f0 S D) token d) := by
  rw [prepareDurations.primary]
  simp [withState_tokens_get, ht, hn]

theorem secondary_end (f0 : HumdrumFileStructure)
    (recurse : HumdrumFileStructure → Nat → HumNum → Option (Bool × HumdrumFileStructure))
    (newstate : Int) (fuel : Nat)
    (S : Nat → Int) (D : Nat → HumNum) (token : Nat) (d : HumNum)
    (t : HumdrumToken) (ht : f0.tokens[token]? = some t) (hn : t.nextTokens = []) :
    prepareDurations.secondary recurse newstate (fuel + 1) (withState f0 S D) token d =
      some (true, withState f0 S D) := by
  rw [prepareDurations.secondary]
  simp [withState_tokens_get, ht, hn]

theorem secondary_step (f0 : HumdrumFileStructure)
    (recurse : HumdrumFileStructure → Nat → HumNum → Option (Bool × HumdrumFileStructure))
    (newstate : Int) (fuel : Nat)
    (S S1 : Nat → Int) (D D1 : Nat → HumNum) (token c : Nat) (rest : List Nat) (d : HumNum)
    (t tc : HumdrumToken) (ht : f0.tokens[token]? = some t) (hn : t.nextTokens = c :: rest)
    (hc : f0.tokens[c]? = some tc)
    (hb : prepareDurations.branches recurse (withState f0 S D) rest d =
      some (true, withState f0 S1 D1)) :
    prepareDurations.secondary recurse newstate (fuel + 1) (withState f0 S D) token d =
      if newstate ≠ S1 c then some (true, withState f0 S1 D1)
      else prepareDurations.secondary recurse newstate fuel (withState f0 S1 D1) c
        (d + posDur tc) := by
  rw [prepareDurations.secondary]
  simp only [withState_tokens_get, ht, hc, Option.map_some', Option.bind_eq_bind,
    Option.some_bind, hn, List.length_cons, Nat.zero_lt_succ, if_true, List.getElem?_cons_zero,
    List.drop_succ_cons, List.drop_zero, hb, Bool.not_true, Bool.false_eq_true, if_false]
  by_cases h1 : newstate = S1 c
  · simp only [h1, ne_eq, not_true_eq_false, if_false]
    congr 1
    unfold posDur
    split <;> simp
  · simp [h1]

theorem secondary_step_fail (f0 : HumdrumFileStructure)
    (recurse : HumdrumFileStructure → Nat → HumNum → Option (Bool × HumdrumFileStructure))
    (newstate : Int) (fuel : Nat)
    (S : Nat → Int) (D : Nat → HumNum) (token c : Nat) (rest : List Nat) (d : HumNum)
    (t : HumdrumToken) (g : HumdrumFileStructure) (ht : f0.tokens[token]? = some t)
    (hn : t.nextTokens = c :: rest)
    (hb : prepareDurations.branches recurse (withState f0 S D) rest d = some (false, g)) :
    prepareDurations.secondary recurse newstate (fuel + 1) (withState f0 S D) token d =
      some (false, g) := by
  rw [prepareDurations.secondary]
  simp [withState_tokens_get, ht, hn, hb]

theorem prepareDurations_visited (f0 : HumdrumFileStructure) (fuel : Nat)
    (S : Nat → Int) (D : Nat → HumNum) (token : Nat) (st : Int) (d : HumNum)
    (t : HumdrumToken) (ht : f0.tokens[token]? = some t) (hs : st ≠ S token) :
    prepareDurations (fuel + 1) (withState f0 S D) token st d = some (true, withState f0 S D) := by
  rw [prepareDurations]
  simp [withState_tokens_get, ht, hs]

theorem prepareDurations_first_fail (f0 : HumdrumFileStructure) (hw : WellLinked f0) (fuel : Nat)
    (S : Nat → Int) (D : Nat → HumNum) (token : Nat) (st : Int) (d : HumNum)
    (t : HumdrumToken) (ht : f0.tokens[token]? = some t) (hs : st = S token)
    (hf : (lineStep D t d).1 = false) :
    prepareDurations (fuel + 1) (withState f0 S D) token st d =
      some (false, withState f0 (Function.update S token (S token + 1)) (lineStep D t d).2) := by
  obtain ⟨l, hl⟩ := hw.line_get ht
  rw [prepareDurations]
  simp [withState_tokens_get, ht, hs, withState_incrementState,
    setLineDurationFromStart_withState f0 _ D token d t l ht hl, hf]

theorem prepareDurations_primary_ret (f0 : HumdrumFileStructure) (hw : WellLinked f0) (fuel : Nat)
    (S : Nat → Int) (D : Nat → HumNum) (token : Nat) (st : Int) (d : HumNum)
    (t : HumdrumToken) (b : Bool) (g : HumdrumFileStructure)
    (ht : f0.tokens[token]? = some t) (hs : st = S token)
    (hf : (lineStep D t d).1 = true)
    (hp : prepareDurations.primary st fuel
      (withState f0 (Function.update S token (S token + 1)) (lineStep D t d).2) token
      (d + posDur t) = some (Walk.ret b g)) :
    prepareDurations (fuel + 1) (withState f0 S D) token st d = some (b, g) := by
  obtain ⟨l, hl⟩ := hw.line_get ht
  have hd : (if 0 < t.duration then d + t.duration else d) = d + posDur t := by
    unfold posDur
    split <;> simp
  subst hs
  rw [prepareDurations]
  simp [withState_tokens_get, ht, withState_incrementState,
    setLineDurationFromStart_withState f0 _ D token d t l ht hl, hf, hd, hp]

theorem prepareDurations_primary_fall (f0 : HumdrumFileStructure) (hw : WellLinked f0)
    (fuel : Nat) (S S2 : Nat → Int) (D D2 : Nat → HumNum) (token last : Nat) (st : Int)
    (d d2 : HumNum) (t tl : HumdrumToken)
    (ht : f0.tokens[token]? = some t) (hs : st = S token)
    (hf : (lineStep D t d).1 = true)
    (hp : prepareDurations.primary st fuel
      (withState f0 (Function.update S token (S token + 1)) (lineStep D t d).2) token
      (d + posDur t) = some (Walk.fall (withState f0 S2 D2) last d2))
    (hl : f0.tokens[last]? = some tl) :
    prepareDurations (fuel + 1) (withState f0 S D) token st d =
      if (lastStep D2 tl d2).1 = false then some (false, withState f0 S2 (lastStep D2 tl d2).2)
      else prepareDurations.secondary (fun g x e => prepareDurations fuel g x st e) (st + 1) fuel
        (withState f0 S2 (lastStep D2 tl d2).2) token (d + posDur t) := by
  obtain ⟨l, hline⟩ := hw.line_get ht
  obtain ⟨l2, hline2⟩ := hw.line_get hl
  have hd : (if 0 < t.duration then d + t.duration else d) = d + posDur t := by
    unfold posDur
    split <;> simp
  subst hs
  rw [prepareDurations]
  simp only [withState_tokens_get, ht, withState_incrementState, Option.map_some',
    Option.bind_eq_bind, Option.some_bind, ne_eq, not_true_eq_false, if_false,
    setLineDurationFromStart_withState f0 _ D token d t l ht hline, hf, Bool.not_true,
    Bool.false_eq_true, hd, hp, hl, lastStep]
  cases hterm : tl.isTerminateInterpretation
  · simp
  · simp only [if_true, setLineDurationFromStart_withState f0 _ D2 last d2 tl l2 hl hline2,
      Option.some_bind]
    cases h2 : (lineStep D2 tl d2).1 <;> simp

theorem Ext.ext_refl (D : Nat → HumNum) : Ext D D := fun _ _ => rfl

theorem Ext.ext_trans {D D1 D2 : Nat → HumNum} (h1 : Ext D D1) (h2 : Ext D1 D2) : Ext D D2 := by
  intro n hn
  have e1 := h1 n hn
  rw [h2 n (by rw [e1]; exact hn), e1]

theorem lineStep_ext (D : Nat → HumNum) (t : HumdrumToken) (d : HumNum) :
    Ext D (lineStep D t d).2 := by
  intro n hn
  unfold lineStep
  split
  · split
    · rename_i h1
      by_cases hnl : n = t.lineIndex
      · subst hnl
        exact absurd h1 (not_lt.mpr hn)
      · simp [Function.update_noteq hnl]
    · split <;> rfl
  · rfl

theorem posDur_nonneg (t : HumdrumToken) : 0 ≤ posDur t := by
  unfold posDur
  split
  · rename_i h; exact le_of_lt h
  · exact le_refl _

/-- With a timing and compatible start times, `setLineDurationFromStart`
called with the onset of the token succeeds and the start times stay
compatible. -/
theorem lineStep_timing (f0 : HumdrumFileStructure) (τ : Nat → HumNum) (hτ : Timing f0 τ)
    (D : Nat → HumNum) (hD : Compat f0 τ D) (c : Nat) (tc : HumdrumToken)
    (hc : f0.tokens[c]? = some tc) :
    (lineStep D tc (τ c)).1 = true ∧ Compat f0 τ (lineStep D tc (τ c)).2 ∧
      (isTimed tc = true → (lineStep D tc (τ c)).2 tc.lineIndex = τ c) := by
  unfold lineStep
  by_cases ht : isTimed tc = true
  · simp only [ht, if_true]
    by_cases h1 : D tc.lineIndex < 0
    · simp only [h1, if_true, Function.update_same, true_and, implies_true, and_true]
      intro x tx hx htx hk
      by_cases hl : tx.lineIndex = tc.lineIndex
      · rw [hl, Function.update_same]
        exact (hτ.line x c tx tc hx hc htx ht hl).symm
      · rw [Function.update_noteq hl] at hk ⊢
        exact hD x tx hx htx hk
    · have h2 : D tc.lineIndex = τ c := hD c tc hc ht (not_lt.mp h1)
      have h3 : ¬ τ c < 0 := not_lt.mpr (hτ.nonneg c)
      simp [h1, h2, h3, hD]
  · simp [ht, hD]

theorem bump_cons (S : Nat → Int) (c : Nat) (cs : List Nat) (hc : c ∉ cs) :
    bump (Function.update S c (S c + 1)) cs = bump S (c :: cs) := by
  funext x
  unfold bump
  by_cases hx : x = c
  · subst hx
    simp [hc]
  · simp [hx, Function.update_noteq hx]

theorem afterOf_eq (f0 : HumdrumFileStructure) (τ : Nat → HumNum) (x : Nat) (t : HumdrumToken)
    (h : f0.tokens[x]? = some t) : afterOf f0 τ x = τ x + posDur t := by
  simp [afterOf, h]

/-- The primary loop along a chain of unvisited tokens, with a timing: every
step succeeds, the tokens are visited, and their lines get their onsets. -/
theorem primary_run (f0 : HumdrumFileStructure) (hw : WellLinked f0) (τ : Nat → HumNum)
    (hτ : Timing f0 τ) (st : Int) :
    ∀ (cs : List Nat) (token : Nat) (S : Nat → Int) (D : Nat → HumNum) (fuel : Nat),
      Compat f0 τ D → Linked0 f0 token cs → (∀ c ∈ cs, S c = st) → cs.Nodup →
      ∃ D1, prepareDurations.primary st (fuel + cs.length) (withState f0 S D) token
            (afterOf f0 τ token) =
          prepareDurations.primary st fuel (withState f0 (bump S cs) D1)
            ((token :: cs).getLast (List.cons_ne_nil _ _))
            (afterOf f0 τ ((token :: cs).getLast (List.cons_ne_nil _ _))) ∧
        Compat f0 τ D1 ∧ Ext D D1 ∧
        ∀ c ∈ cs, ∀ tc, f0.tokens[c]? = some tc → isTimed tc = true →
          D1 tc.lineIndex = τ c := by
  intro cs
  induction cs with
  | nil =>
    intro token S D fuel hD _ _ _
    refine ⟨D, ?_, hD, Ext.ext_refl D, by simp⟩
    have : bump S [] = S := by funext x; simp [bump]
    simp [this]
  | cons c cs ih =>
    intro token S D fuel hD hlink hS hnd
    obtain ⟨⟨t, rest, ht, hn⟩, hlink2⟩ := hlink
    obtain ⟨tc, hc, -⟩ := hw.next_valid token c t ht (by simp [hn])
    have hτc : τ c = afterOf f0 τ token := by
      rw [afterOf_eq f0 τ token t ht]
      exact hτ.link token c t ht (by simp [hn])
    obtain ⟨g1, g2, g3⟩ := lineStep_timing f0 τ hτ D hD c tc hc
    rw [List.nodup_cons] at hnd
    have hSc : S c = st := hS c (by simp)
    obtain ⟨D1, e1, e2, e3, e4⟩ := ih c (Function.update S c (S c + 1)) (lineStep D tc (τ c)).2 fuel
      g2 hlink2
      (fun x hx => by
        have hxc : x ≠ c := fun h => hnd.1 (h ▸ hx)
        rw [Function.update_noteq hxc]
        exact hS x (by simp [hx]))
      hnd.2
    refine ⟨D1, ?_, e2, (lineStep_ext D tc (τ c)).ext_trans e3, ?_⟩
    · have hfuel : fuel + (c :: cs).length = (fuel + cs.length) + 1 := by
        simp only [List.length_cons]; omega
      rw [hfuel, primary_step f0 hw st _ S D token c rest _ t tc ht hn hc, ← hτc,
        if_neg (not_not.mpr hSc.symm), if_neg (by rw [g1]; decide),
        ← afterOf_eq f0 τ c tc hc, e1, bump_cons S c cs hnd.1]
      simp only [List.getLast_cons (List.cons_ne_nil c cs)]
    · intro x hx tx htx htimed
      rcases List.mem_cons.mp hx with h | h
      · subst h
        rw [hc] at htx
        cases htx
        have := g3 htimed
        rw [e3 _ (by rw [this]; exact hτ.nonneg x), this]
      · exact e4 x h tx htx htimed

theorem Single.linked0 (f0 : HumdrumFileStructure) :
    ∀ (cs : List Nat) (token : Nat), Single f0 token cs → Linked0 f0 token cs := by
  intro cs
  induction cs with
  | nil => intro token _; trivial
  | cons c cs ih =>
    intro token h
    obtain ⟨⟨t, ht, hn⟩, h2⟩ := h
    exact ⟨⟨t, [], ht, hn⟩, ih c h2⟩

/-- The secondary loop along a chain of visited tokens with one next token
each: nothing to recurse into. -/
theorem secondary_run (f0 : HumdrumFileStructure) (hw : WellLinked f0) (τ : Nat → HumNum)
    (hτ : Timing f0 τ)
    (recurse : HumdrumFileStructure → Nat → HumNum → Option (Bool × HumdrumFileStructure))
    (newstate : Int) (S : Nat → Int) (D : Nat → HumNum) :
    ∀ (cs : List Nat) (token : Nat) (fuel : Nat),
      Single f0 token cs → (∀ c ∈ cs, S c = newstate) →
      prepareDurations.secondary recurse newstate (fuel + cs.length) (withState f0 S D) token
          (afterOf f0 τ token) =
        prepareDurations.secondary recurse newstate fuel (withState f0 S D)
          ((token :: cs).getLast (List.cons_ne_nil _ _))
          (afterOf f0 τ ((token :: cs).getLast (List.cons_ne_nil _ _))) := by
  intro cs
  induction cs with
  | nil => intro token fuel _ _; simp
  | cons c cs ih =>
    intro token fuel hlink hS
    obtain ⟨⟨t, ht, hn⟩, hlink2⟩ := hlink
    obtain ⟨tc, hc, -⟩ := hw.next_valid token c t ht (by simp [hn])
    have hτc : τ c = afterOf f0 τ token := by
      rw [afterOf_eq f0 τ token t ht]
      exact hτ.link token c t ht (by simp [hn])
    have hfuel : fuel + (c :: cs).length = (fuel + cs.length) + 1 := by
      simp only [List.length_cons]; omega
    rw [hfuel, secondary_step f0 recurse newstate _ S S D D token c [] _ t tc ht hn hc rfl,
      if_neg (not_not.mpr (hS c (by simp)).symm), ← hτc, ← afterOf_eq f0 τ c tc hc,
      ih c fuel hlink2 (fun x hx => hS x (by simp [hx]))]
    simp only [List.getLast_cons (List.cons_ne_nil c cs)]

theorem Linked0.valid (f0 : HumdrumFileStructure) (hw : WellLinked f0) :
    ∀ (cs : List Nat) (token : Nat) (t : HumdrumToken), f0.tokens[token]? = some t →
      Linked0 f0 token cs → ∀ c ∈ token :: cs, ∃ tc, f0.tokens[c]? = some tc := by
  intro cs
  induction cs with
  | nil =>
    intro token t ht _ c hc
    simp only [List.mem_singleton] at hc
    subst hc
    exact ⟨t, ht⟩
  | cons c cs ih =>
    intro token t ht hlink x hx
    obtain ⟨⟨t1, rest, ht1, hn⟩, hlink2⟩ := hlink
    rcases List.mem_cons.mp hx with h | h
    · subst h
      exact ⟨t, ht⟩
    · obtain ⟨tc, hc, -⟩ := hw.next_valid token c t1 ht1 (by simp [hn])
      exact ih c tc hc hlink2 x h

theorem lastStep_timing (f0 : HumdrumFileStructure) (τ : Nat → HumNum) (hτ : Timing f0 τ)
    (hterm : ∀ (x : Nat) (t : HumdrumToken), f0.tokens[x]? = some t →
      t.isTerminateInterpretation = true → posDur t = 0)
    (D : Nat → HumNum) (hD : Compat f0 τ D) (c : Nat) (tc : HumdrumToken)
    (hc : f0.tokens[c]? = some tc) :
    (lastStep D tc (afterOf f0 τ c)).1 = true ∧ Compat f0 τ (lastStep D tc (afterOf f0 τ c)).2 ∧
      Ext D (lastStep D tc (afterOf f0 τ c)).2 := by
  unfold lastStep
  by_cases h : tc.isTerminateInterpretation = true
  · have e : afterOf f0 τ c = τ c := by
      rw [afterOf_eq f0 τ c tc hc, hterm c tc hc h, add_zero]
    simp only [h, if_true, e]
    obtain ⟨g1, g2, -⟩ := lineStep_timing f0 τ hτ D hD c tc hc
    exact ⟨g1, g2, lineStep_ext D tc (τ c)⟩
  · rw [if_neg h]
    exact ⟨rfl, hD, Ext.ext_refl D⟩

/-- `prepareDurations` on a spine that never splits: with a timing and
compatible start times it succeeds, visits every token of the spine once and
gives the line of every timed token its onset. -/
theorem prepareDurations_chain (f0 : HumdrumFileStructure) (hw : WellLinked f0)
    (τ : Nat → HumNum) (hτ : Timing f0 τ)
    (hterm : ∀ (x : Nat) (t : HumdrumToken), f0.tokens[x]? = some t →
      t.isTerminateInterpretation = true → posDur t = 0)
    (st : Int) (tok : Nat) (cs : List Nat) (S : Nat → Int) (D : Nat → HumNum) (fuel : Nat)
    (t : HumdrumToken) (ht : f0.tokens[tok]? = some t)
    (hD : Compat f0 τ D) (hlink : Single f0 tok cs)
    (hlast : ∀ tl, f0.tokens[(tok :: cs).getLast (List.cons_ne_nil _ _)]? = some tl →
      tl.nextTokens = [])
    (hS : ∀ c ∈ tok :: cs, S c = st) (hnd : (tok :: cs).Nodup) :
    ∃ D1, prepareDurations (fuel + cs.length + 2) (withState f0 S D) tok st (τ tok) =
        some (true, withState f0 (bump S (tok :: cs)) D1) ∧
      Compat f0 τ D1 ∧ Ext D D1 ∧
      ∀ c ∈ tok :: cs, ∀ tc, f0.tokens[c]? = some tc → isTimed tc = true →
        D1 tc.lineIndex = τ c := by
  have hStok : st = S tok := (hS tok (by simp)).symm
  rw [List.nodup_cons] at hnd
  obtain ⟨g1, g2, g3⟩ := lineStep_timing f0 τ hτ D hD tok t ht
  -- the primary loop
  have hS1 : ∀ c ∈ cs, Function.update S tok (S tok + 1) c = st := by
    intro c hc
    have : c ≠ tok := fun h => hnd.1 (h ▸ hc)
    rw [Function.update_noteq this]
    exact hS c (by simp [hc])
  obtain ⟨D2, e1, e2, e3, e4⟩ := primary_run f0 hw τ hτ st cs tok
    (Function.update S tok (S tok + 1)) (lineStep D t (τ tok)).2 (fuel + 1) g2
    (Single.linked0 f0 cs tok hlink) hS1 hnd.2
  have hlastmem : (tok :: cs).getLast (List.cons_ne_nil _ _) ∈ tok :: cs := List.getLast_mem _
  obtain ⟨tl, htl⟩ := Linked0.valid f0 hw cs tok t ht (Single.linked0 f0 cs tok hlink) _ hlastmem
  rw [primary_end f0 st fuel _ D2 _ _ tl htl (hlast tl htl)] at e1
  -- the terminator
  obtain ⟨k1, k2, k3⟩ := lastStep_timing f0 τ hτ hterm D2 e2 _ tl htl
  -- the secondary loop
  have hsec := secondary_run f0 hw τ hτ (fun g x e => prepareDurations (fuel + 1 + cs.length) g x st e)
    (st + 1) (bump (Function.update S tok (S tok + 1)) cs)
    (lastStep D2 tl (afterOf f0 τ ((tok :: cs).getLast (List.cons_ne_nil _ _)))).2 cs tok
    (fuel + 1) hlink (fun c hc => by simp [bump, hc, hS1 c hc])
  rw [secondary_end f0 _ (st + 1) fuel _ _ _ _ tl htl (hlast tl htl)] at hsec
  refine ⟨_, ?_, k2, (lineStep_ext D t (τ tok)).ext_trans (e3.ext_trans k3), ?_⟩
  · have hfuel : fuel + cs.length + 2 = (fuel + 1 + cs.length) + 1 := by omega
    rw [hfuel, prepareDurations_primary_fall f0 hw _ S _ D D2 tok _ st (τ tok) _ t tl ht hStok g1
      (by rw [← afterOf_eq f0 τ tok t ht]; exact e1) htl,
      if_neg (by rw [k1]; decide), ← afterOf_eq f0 τ tok t ht, hsec,
      bump_cons S tok cs hnd.1]
  · intro c hc tc htc htimed
    rcases List.mem_cons.mp hc with h | h
    · subst h
      rw [ht] at htc
      cases htc
      have h1 := g3 htimed
      have h2 := e3 _ (by rw [h1]; exact hτ.nonneg c)
      rw [k3 _ (by rw [h2, h1]; exact hτ.nonneg c), h2, h1]
    · have h1 := e4 c h tc htc htimed
      rw [k3 _ (by rw [h1]; exact hτ.nonneg c), h1]

theorem SameButNull.same_refl (L : List HumdrumLine) : SameButNull L L :=
  ⟨rfl, fun _ l h => ⟨l.durationFromStart, h, fun _ => rfl⟩⟩

theorem SameButNull.same_trans {L L1 L2 : List HumdrumLine} (h1 : SameButNull L L1)
    (h2 : SameButNull L1 L2) : SameButNull L L2 := by
  refine ⟨h2.1.trans h1.1, ?_⟩
  intro m l hl
  obtain ⟨v, e1, e2⟩ := h1.2 m l hl
  obtain ⟨w, e3, e4⟩ := h2.2 m _ e1
  refine ⟨w, e3, ?_⟩
  intro hn
  rw [e4 (by simpa [isNullData] using hn), e2 hn]

theorem SameButNull.keeps_nullAt {L L1 : List HumdrumLine} (h : SameButNull L L1) (x : Nat)
    (hx : nullAt L x = true) : nullAt L1 x = true := by
  unfold minHumdrum.nullAt at hx ⊢
  cases hl : L[x]? with
  | none => rw [hl] at hx; cases hx
  | some l =>
    rw [hl] at hx
    obtain ⟨v, e1, -⟩ := h.2 x l hl
    rw [e1]
    simpa [isNullData] using hx

theorem SameButNull.keeps_expected {L L1 : List HumdrumLine} (h : SameButNull L L1)
    (hL : ∀ (m : Nat) (l : HumdrumLine), L[m]? = some l → isUnexpectedNegative l = false) :
    ∀ (m : Nat) (l : HumdrumLine), L1[m]? = some l → isUnexpectedNegative l = false := by
  intro m l1 hl1
  have hm : m < L.length := by
    by_contra hc
    rw [List.getElem?_eq_none (by rw [h.1]; omega)] at hl1
    cases hl1
  obtain ⟨v, e1, e2⟩ := h.2 m L[m] (List.getElem?_eq_getElem hm)
  rw [e1] at hl1
  cases hl1
  have h0 := hL m L[m] (List.getElem?_eq_getElem hm)
  by_cases hn : isNullData L[m] = true
  · simp only [isNullData, Bool.and_eq_true] at hn
    simp [isUnexpectedNegative, hn.1.2]
  · have hn' : isNullData L[m] = false := by simpa using hn
    rw [e2 hn']
    exact h0

theorem setDurationFromStart_sameButNull (L : List HumdrumLine) (p : Nat) (d : HumNum)
    (hp : nullAt L p = true) : SameButNull L (setDurationFromStart L p d) := by
  refine ⟨setDurationFromStart_length L p d, ?_⟩
  intro m l hl
  by_cases hm : m = p
  · subst hm
    refine ⟨d, setDurationFromStart_get_self L m d l hl, ?_⟩
    intro hn
    simp [nullAt, hl, hn] at hp
  · exact ⟨l.durationFromStart, by rw [setDurationFromStart_get_ne L p m d hm]; exact hl,
      fun _ => rfl⟩

theorem nullAssign_loop_sameButNull (a d : HumNum) (ns : List Nat) :
    ∀ (j : Nat) (L : List HumdrumLine), (∀ x ∈ ns, nullAt L x = true) →
      SameButNull L (analyzeNullLineRhythms.assign a d j ns L) := by
  induction ns with
  | nil => intro j L _; exact SameButNull.same_refl L
  | cons n rest ih =>
    intro j L h
    rw [analyzeNullLineRhythms.assign]
    have h1 := setDurationFromStart_sameButNull L n (a + d * ((j : HumNum) + 1)) (h n (by simp))
    exact h1.same_trans (ih (j + 1) _ (fun x hx => h1.keeps_nullAt x (h x (by simp [hx]))))

theorem nullAssign_sameButNull (L : List HumdrumLine) (nulls : List Nat) (prev : Option Nat)
    (l : HumdrumLine) (h : ∀ x ∈ nulls, nullAt L x = true) :
    SameButNull L (nullAssign L nulls prev l) := by
  unfold nullAssign
  cases prev with
  | none => exact SameButNull.same_refl L
  | some p =>
    simp only
    cases L[p]? with
    | none => exact SameButNull.same_refl L
    | some pl => exact nullAssign_loop_sameButNull _ _ _ _ _ h

/-- With enough fuel the loop of `analyzeNullLineRhythms` returns; it changes
start times of null data lines only, and it returns true when no line is an
unexpected negative line. -/
theorem nullLoop_spec :
    ∀ (fuel i : Nat) (L : List HumdrumLine) (nulls : List Nat) (prev : Option Nat),
      L.length + 1 ≤ fuel + i → i ≤ L.length → (∀ p, prev = some p → p < L.length) →
      (∀ x ∈ nulls, nullAt L x = true) →
      ∃ ok L1, analyzeNullLineRhythms.loop fuel i L nulls prev = some (ok, L1) ∧
        SameButNull L L1 ∧
        ((∀ (m : Nat) (l : HumdrumLine), L[m]? = some l → isUnexpectedNegative l = false) →
          ok = true) := by
  intro fuel
  induction fuel with
  | zero =>
    intro i L nulls prev h h1 _ _
    omega
  | succ fuel ih =>
    intro i L nulls prev hfuel hile hprev hnulls
    by_cases hi : i < L.length
    · have hl : L[i]? = some L[i] := List.getElem?_eq_getElem hi
      by_cases he : isUnexpectedNegative L[i] = true
      · refine ⟨false, L, nullLoop_step_error _ _ _ _ _ _ hl he, SameButNull.same_refl L, ?_⟩
        intro hall
        rw [hall i L[i] hl] at he
        cases he
      · have he' : isUnexpectedNegative L[i] = false := by simpa using he
        by_cases ha : isAnchor L[i] = true
        · rw [nullLoop_step_anchor _ _ _ _ _ _ hl ha hprev]
          have hR := nullAssign_sameButNull L nulls prev L[i] hnulls
          obtain ⟨ok, L1, g1, g2, g3⟩ := ih (i + 1) (nullAssign L nulls prev L[i]) [] (some i)
            (by rw [nullAssign_length]; omega) (by rw [nullAssign_length]; omega)
            (fun p hp => by cases hp; rw [nullAssign_length]; exact hi) (by simp)
          exact ⟨ok, L1, g1, hR.same_trans g2, fun hall => g3 (hR.keeps_expected hall)⟩
        · have ha' : isAnchor L[i] = false := by simpa using ha
          rw [nullLoop_step_skip _ _ _ _ _ _ hl ha' he']
          obtain ⟨ok, L1, g1, g2, g3⟩ := ih (i + 1) L
            (if isNullData L[i] then nulls ++ [i] else nulls) prev (by omega) (by omega) hprev
            (by
              intro x hx
              split at hx
              · rename_i hnd
                rcases List.mem_append.mp hx with h | h
                · exact hnulls x h
                · simp only [List.mem_singleton] at h
                  subst h
                  simp [nullAt, hl, hnd]
              · exact hnulls x hx)
          exact ⟨ok, L1, g1, g2, g3⟩
    · exact ⟨true, L, by simp [analyzeNullLineRhythms.loop, hi], SameButNull.same_refl L,
        fun _ => rfl⟩

theorem analyzeNullLineRhythms_spec (f : HumdrumFileStructure) :
    ∃ ok L1, analyzeNullLineRhythms f = some (ok, { f with lines := L1 }) ∧
      SameButNull f.lines L1 ∧
      ((∀ (m : Nat) (l : HumdrumLine), f.lines[m]? = some l → isUnexpectedNegative l = false) →
        ok = true) := by
  obtain ⟨ok, L1, h1, h2, h3⟩ := nullLoop_spec (f.lines.length + 1) 0 f.lines [] none
    (by omega) (by omega) (by simp) (by simp)
  exact ⟨ok, L1, by simp [analyzeNullLineRhythms, h1], h2, h3⟩

theorem fill_forward_length (L : List HumdrumLine) :
    ∀ v : HumNum, (fillInNegativeStartTimes.forward v L).length = L.length := by
  induction L with
  | nil => intro v; rfl
  | cons l rest ih =>
    intro v
    unfold fillInNegativeStartTimes.forward
    simp only
    split <;> simp [ih]

theorem fillInNegativeStartTimes_length (f : HumdrumFileStructure) :
    (fillInNegativeStartTimes f).lines.length = f.lines.length := by
  simp [fillInNegativeStartTimes, fill_forward_length, fill_backward_length]

/-- A line with a known start time is left as it is by
`fillInNegativeStartTimes`. -/
theorem fillInNegativeStartTimes_keeps (f : HumdrumFileStructure) (i : Nat) (l : HumdrumLine)
    (hl : f.lines[i]? = some l) (hk : 0 ≤ l.durationFromStart) :
    (fillInNegativeStartTimes f).lines[i]? = some l := by
  obtain ⟨vb, hb1, hb2, -, -⟩ := fill_backward_get f.lines i l hl
  rw [hb2 hk] at hb1
  obtain ⟨w, hw1, hw2, -, -⟩ := fill_forward_get (fillInNegativeStartTimes.backward f.lines).1
    (fillInNegativeStartTimes.backward f.lines).2 i _ hb1
  rw [hw2 hk] at hw1
  exact hw1

theorem meter_forward_map_dfs (L : List HumdrumLine) :
    ∀ (i : Nat) (sum : HumNum) (found : Bool) (bars : List Nat),
      (analyzeMeter.forward i sum found bars L).1.map (fun l => l.durationFromStart) =
        L.map (fun l => l.durationFromStart) := by
  induction L with
  | nil => intro i sum found bars; rfl
  | cons l rest ih =>
    intro i sum found bars
    simp only [analyzeMeter.forward, List.map_cons, ih]

theorem meter_backward_map_dfs (L : List HumdrumLine) :
    (analyzeMeter.backward L).1.map (fun l => l.durationFromStart) =
      L.map (fun l => l.durationFromStart) := by
  induction L with
  | nil => rfl
  | cons l rest ih => simp only [analyzeMeter.backward, List.map_cons, ih]

theorem analyzeMeter_map_dfs (f : HumdrumFileStructure) :
    (analyzeMeter f).2.lines.map (fun l => l.durationFromStart) =
      f.lines.map (fun l => l.durationFromStart) := by
  simp only [analyzeMeter, meter_backward_map_dfs, meter_forward_map_dfs]

theorem map_dfs_get (L L1 : List HumdrumLine)
    (h : L1.map (fun l => l.durationFromStart) = L.map (fun l => l.durationFromStart))
    (i : Nat) (l : HumdrumLine) (hl : L[i]? = some l) :
    ∃ l1, L1[i]? = some l1 ∧ l1.durationFromStart = l.durationFromStart := by
  have h1 : (L1.map (fun l => l.durationFromStart))[i]? = some l.durationFromStart := by
    rw [h, List.getElem?_map, hl]
    rfl
  rw [List.getElem?_map] at h1
  cases h2 : L1[i]? with
  | none => rw [h2] at h1; cases h1
  | some l1 =>
    rw [h2] at h1
    exact ⟨l1, rfl, Option.some.inj h1⟩

theorem analyzeRhythm_eq (nn : HumdrumFileStructure → Bool) (f : HumdrumFileStructure)
    (h : getMaxTrack f ≠ 0) :
    analyzeRhythm nn f =
      (getTrackStart f 1).bind (fun start1 => (f.tokens[start1]?).bind (fun t1 =>
        (analyzeRhythm.first t1.lineIndex (getMaxTrack f) 1 f).bind (fun r1 =>
          if !r1.1 then some (false, r1.2)
          else (analyzeRhythm.second t1.lineIndex (getMaxTrack f) 1 r1.2).bind (fun r2 =>
            if !r2.1 then some (false, r2.2) else rhythmTail nn r2.2)))) := by
  unfold analyzeRhythm rhythmTail
  simp only [h, if_false]
  rfl

theorem rhythmTail_eq (nn : HumdrumFileStructure → Bool) (f2 g3 f5 : HumdrumFileStructure)
    (h1 : analyzeNullLineRhythms f2 = some (true, g3))
    (h5 : assignLineDurations (fillInNegativeStartTimes g3) = some f5) :
    rhythmTail nn f2 = some (nn (analyzeMeter f5).2, (analyzeMeter f5).2) := by
  unfold rhythmTail
  rw [h1, Option.bind_eq_bind, Option.some_bind, if_neg (by simp)]
  show (assignLineDurations (fillInNegativeStartTimes g3)).bind _ = _
  rw [h5, Option.some_bind]
  have hm : (analyzeMeter f5).1 = true := rfl
  show (if (!(analyzeMeter f5).1) = true then _ else _) = _
  rw [hm, if_neg (by simp)]
  cases h : nn (analyzeMeter f5).2
  · rw [if_pos (by simp)]
    rfl
  · rw [if_neg (by simp)]
    rfl

theorem rhythmTail_eq_false (nn : HumdrumFileStructure → Bool) (f2 g3 : HumdrumFileStructure)
    (h1 : analyzeNullLineRhythms f2 = some (false, g3)) :
    rhythmTail nn f2 = some (false, g3) := by
  unfold rhythmTail
  rw [h1]
  rfl

/-- The tail of `analyzeRhythm` returns for a non-empty file; when it
succeeds, the lines that had a known start time and are not null data lines
keep it; and it succeeds when no line is an unexpected negative line. -/
theorem rhythmTail_spec (nn : HumdrumFileStructure → Bool) (f2 : HumdrumFileStructure)
    (hne : f2.lines ≠ []) (hsz : f2.lines.length < 2 ^ 64) :
    ∃ b g, rhythmTail nn f2 = some (b, g) ∧
      (b = true → ∀ (i : Nat) (l : HumdrumLine), f2.lines[i]? = some l →
        0 ≤ l.durationFromStart → isNullData l = false →
        ∃ l1, g.lines[i]? = some l1 ∧ l1.durationFromStart = l.durationFromStart) ∧
      ((∀ (m : Nat) (l : HumdrumLine), f2.lines[m]? = some l →
          isUnexpectedNegative l = false) → (∀ g, nn g = true) → b = true) := by
  obtain ⟨ok, L1, h1, h2, h3⟩ := analyzeNullLineRhythms_spec f2
  cases ok with
  | false =>
    refine ⟨false, { f2 with lines := L1 }, rhythmTail_eq_false nn f2 _ h1, ?_, ?_⟩
    · intro h
      exact absurd h (by decide)
    · intro hall _
      exact absurd (h3 hall) (by decide)
  | true =>
    have hlen : (fillInNegativeStartTimes { f2 with lines := L1 }).lines.length =
        f2.lines.length := by
      rw [fillInNegativeStartTimes_length]
      exact h2.1
    have hne4 : (fillInNegativeStartTimes { f2 with lines := L1 }).lines ≠ [] := by
      intro h0
      rw [h0] at hlen
      exact hne (List.length_eq_zero.mp hlen.symm)
    obtain ⟨f5, h5, h5m⟩ : ∃ f5,
        assignLineDurations (fillInNegativeStartTimes { f2 with lines := L1 }) = some f5 ∧
        f5.lines.map (fun l => l.durationFromStart) =
          (fillInNegativeStartTimes { f2 with lines := L1 }).lines.map
            (fun l => l.durationFromStart) := by
      refine ⟨_, assignLineDurations_eq _ hne4 (by rw [hlen]; exact hsz), ?_⟩
      simp only [setDuration_map_dfs, lineDurations_map_dfs]
    refine ⟨nn (analyzeMeter f5).2, (analyzeMeter f5).2, ?_, ?_, ?_⟩
    · exact rhythmTail_eq nn f2 _ f5 h1 h5
    · intro _ i l hl hk hn
      obtain ⟨v, e1, e2⟩ := h2.2 i l hl
      rw [e2 hn] at e1
      have e3 := fillInNegativeStartTimes_keeps { f2 with lines := L1 } i _ e1 hk
      obtain ⟨l5, e5, e6⟩ := map_dfs_get _ _ h5m i _ e3
      obtain ⟨l6, e7, e8⟩ := map_dfs_get _ _ (analyzeMeter_map_dfs f5) i _ e5
      exact ⟨l6, e7, by rw [e8, e6]⟩
    · intro _ hnn
      exact hnn _

theorem sumBefore_nonneg (f : HumdrumFileStructure) (k : Nat) : 0 ≤ sumBefore f k := by
  unfold sumBefore
  apply List.sum_nonneg
  intro x hx
  simp only [List.mem_map] at hx
  obtain ⟨t, -, rfl⟩ := hx
  exact posDur_nonneg t

theorem sumBefore_succ (f : HumdrumFileStructure) (k : Nat) (t : HumdrumToken)
    (h : f.tokens[k]? = some t) : sumBefore f (k + 1) = sumBefore f k + posDur t := by
  have hk : k < f.tokens.length := by
    by_contra hc
    rw [List.getElem?_eq_none (by omega)] at h
    cases h
  unfold sumBefore
  rw [List.take_succ, h]
  simp

theorem SingleSpine.line_ge (f : HumdrumFileStructure) (h : SingleSpine f) :
    ∀ (k : Nat) (t : HumdrumToken), f.tokens[k]? = some t → k ≤ t.lineIndex := by
  intro k
  induction k with
  | zero => intro t _; omega
  | succ k ih =>
    intro t ht
    have hk : k + 1 < f.tokens.length := by
      by_contra hc
      rw [List.getElem?_eq_none (by omega)] at ht
      cases ht
    have hk0 : f.tokens[k]? = some f.tokens[k] := List.getElem?_eq_getElem (by omega)
    have hn := h.chain k _ hk0
    rw [if_pos hk] at hn
    obtain ⟨tj, h1, h2⟩ := h.linked.next_valid k (k + 1) _ hk0 (by rw [hn]; simp)
    rw [ht] at h1
    cases h1
    have := ih _ hk0
    omega

theorem SingleSpine.line_step (f : HumdrumFileStructure) (h : SingleSpine f)
    (k : Nat) (t u : HumdrumToken) (ht : f.tokens[k]? = some t)
    (hu : f.tokens[k + 1]? = some u) : t.lineIndex < u.lineIndex := by
  have hk : k + 1 < f.tokens.length := by
    by_contra hc
    rw [List.getElem?_eq_none (by omega)] at hu
    cases hu
  have hn := h.chain k _ ht
  rw [if_pos hk] at hn
  obtain ⟨tj, h1, h2⟩ := h.linked.next_valid k (k + 1) _ ht (by rw [hn]; simp)
  rw [h1] at hu
  cases hu
  exact h2

theorem SingleSpine.line_mono (f : HumdrumFileStructure) (h : SingleSpine f) :
    ∀ (d k : Nat) (t u : HumdrumToken), f.tokens[k]? = some t → f.tokens[k + d + 1]? = some u →
      t.lineIndex < u.lineIndex := by
  intro d
  induction d with
  | zero =>
    intro k t u ht hu
    exact SingleSpine.line_step f h k t u ht hu
  | succ d ih =>
    intro k t u ht hu
    have hk : k + (d + 1) + 1 < f.tokens.length := by
      by_contra hc
      rw [List.getElem?_eq_none (by omega)] at hu
      cases hu
    have hm : f.tokens[k + d + 1]? = some f.tokens[k + d + 1] :=
      List.getElem?_eq_getElem (by omega)
    have h1 := ih k t _ ht hm
    have h2 := SingleSpine.line_step f h (k + d + 1) _ u hm hu
    omega

theorem SingleSpine.line_inj (f : HumdrumFileStructure) (h : SingleSpine f)
    (x y : Nat) (tx ty : HumdrumToken) (hx : f.tokens[x]? = some tx)
    (hy : f.tokens[y]? = some ty) (hl : tx.lineIndex = ty.lineIndex) : x = y := by
  rcases Nat.lt_trichotomy x y with hlt | heq | hgt
  · have := SingleSpine.line_mono f h (y - x - 1) x tx ty hx
      (by rw [show x + (y - x - 1) + 1 = y by omega]; exact hy)
    omega
  · exact heq
  · have := SingleSpine.line_mono f h (x - y - 1) y ty tx hy
      (by rw [show y + (x - y - 1) + 1 = x by omega]; exact hx)
    omega

theorem SingleSpine.timing (f : HumdrumFileStructure) (h : SingleSpine f) :
    Timing f (sumBefore f) := by
  refine ⟨sumBefore_nonneg f, ?_, ?_⟩
  · intro x y tx hx hy
    have hn := h.chain x tx hx
    split at hn
    · rw [hn] at hy
      simp only [List.mem_singleton] at hy
      subst hy
      exact sumBefore_succ f x tx hx
    · rw [hn] at hy
      simp at hy
  · intro x y tx ty hx hy _ _ hl
    rw [SingleSpine.line_inj f h x y tx ty hx hy hl]

theorem SingleSpine.single (f : HumdrumFileStructure) (h : SingleSpine f) :
    ∀ (m k : Nat), k + m < f.tokens.length → Single f k (List.range' (k + 1) m) := by
  intro m
  induction m with
  | zero => intro k _; trivial
  | succ m ih =>
    intro k hk
    rw [List.range'_succ]
    refine ⟨⟨f.tokens[k], List.getElem?_eq_getElem (by omega), ?_⟩, ih (k + 1) (by omega)⟩
    rw [h.chain k _ (List.getElem?_eq_getElem (by omega)), if_pos (by omega)]

theorem startOf_neg_of_fresh (f : HumdrumFileStructure)
    (h : ∀ (n : Nat) (l : HumdrumLine), f.lines[n]? = some l → l.durationFromStart < 0)
    (n : Nat) : startOf f n < 0 := by
  unfold startOf
  cases hl : f.lines[n]? with
  | none => norm_num
  | some l => exact h n l hl

theorem withState_trackstarts (f0 : HumdrumFileStructure) (S : Nat → Int) (D : Nat → HumNum) :
    (withState f0 S D).trackstarts = f0.trackstarts := rfl

theorem sumBefore_zero (f : HumdrumFileStructure) : sumBefore f 0 = 0 := by
  simp [sumBefore]

theorem first_single (f f1 : HumdrumFileStructure) (t0 : HumdrumToken)
    (hstart : f.trackstarts = [0]) (ht0 : f.tokens[0]? = some t0) (hr : t0.hasRhythm = true)
    (hrun : assignDurationsToTrack f 0 0 = some (true, f1)) :
    analyzeRhythm.first t0.lineIndex 1 1 f = some (true, f1) := by
  have hg : getTrackStart f 1 = some 0 := by simp [getTrackStart, hstart]
  rw [analyzeRhythm.first]
  simp only [hg, ht0, hr, hrun, Option.bind_eq_bind, Option.some_bind, Bool.not_true,
    Bool.false_eq_true, if_false, if_true]
  rfl

theorem second_single (f1 : HumdrumFileStructure) (t1 : HumdrumToken) (startline : Nat)
    (hstart : f1.trackstarts = [0]) (ht1 : f1.tokens[0]? = some t1)
    (hl : t1.lineIndex = startline) :
    analyzeRhythm.second startline 1 1 f1 = some (true, f1) := by
  have hg : getTrackStart f1 1 = some 0 := by simp [getTrackStart, hstart]
  rw [analyzeRhythm.second]
  simp only [hg, ht1, hl, Option.bind_eq_bind, Option.some_bind, gt_iff_lt, lt_self_iff_false,
    if_false]
  cases t1.hasRhythm <;> rfl

theorem assignDurationsToTrack_eq (f : HumdrumFileStructure) (tok : Nat) (t : HumdrumToken)
    (d : HumNum) (ht : f.tokens[tok]? = some t) (hr : t.hasRhythm = true) :
    assignDurationsToTrack f tok d =
      prepareDurations (f.lines.length + 1) f tok (stateOf f tok) d := by
  unfold assignDurationsToTrack stateOf
  simp [ht, hr]

/-- C2 (amended): for every freshly parsed file consisting of a single
rhythmic spine that never splits, in which every data line that is not all
rhythmic null holds a token of defined duration, analyzeRhythm succeeds and,
for every token that has a non-negative duration and for the terminator, the
duration_from_start of its line equals the sum of the positive durations of
the tokens that precede it in the spine. -/
theorem analyzeRhythm_single_spine (nn : HumdrumFileStructure → Bool) (hnn : ∀ g, nn g = true)
    (f : HumdrumFileStructure) (h : SingleSpine f) (hdt : DataTimed f) :
    ∃ g, analyzeRhythm nn f = some (true, g) ∧
      ∀ (k : Nat) (t : HumdrumToken), f.tokens[k]? = some t → isTimed t = true →
        ∃ l, g.lines[t.lineIndex]? = some l ∧ l.durationFromStart = sumBefore f k := by
  have hn0 : 0 < f.tokens.length := List.length_pos.mpr h.nonempty
  have ht0 : f.tokens[0]? = some f.tokens[0] := List.getElem?_eq_getElem hn0
  -- the file has at least as many lines as tokens
  have hnl : f.tokens.length ≤ f.lines.length := by
    have hlast : f.tokens[f.tokens.length - 1]? = some f.tokens[f.tokens.length - 1] :=
      List.getElem?_eq_getElem (by omega)
    have h1 := SingleSpine.line_ge f h _ _ hlast
    have h2 := h.linked.line_valid _ _ hlast
    omega
  -- propagation through the spine
  have hτ := SingleSpine.timing f h
  have hD : Compat f (sumBefore f) (startOf f) := by
    intro x tx _ _ hk
    exact absurd (startOf_neg_of_fresh f h.fresh tx.lineIndex) (not_lt.mpr hk)
  have hcs : (0 :: List.range' 1 (f.tokens.length - 1)).Nodup := by
    rw [List.nodup_cons]
    refine ⟨?_, List.nodup_range' _ _⟩
    rw [List.mem_range'_1]
    omega
  have hlastidx : (0 :: List.range' 1 (f.tokens.length - 1)).getLast (List.cons_ne_nil _ _) =
      f.tokens.length - 1 := by
    by_cases h1 : f.tokens.length - 1 = 0
    · simp [h1]
    · rw [List.getLast_cons (by
        intro h0
        have := congrArg List.length h0
        simp at this
        omega)]
      rw [List.getLast_range']
      omega
  obtain ⟨D1, hrun, hD1, -, hval⟩ := prepareDurations_chain f h.linked (sumBefore f) hτ
    h.flags.terminator (stateOf f 0) 0 (List.range' 1 (f.tokens.length - 1)) (stateOf f)
    (startOf f) (f.lines.length - f.tokens.length) f.tokens[0] ht0 hD
    (SingleSpine.single f h (f.tokens.length - 1) 0 (by omega))
    (by
      intro tl htl
      rw [hlastidx] at htl
      rw [h.chain _ tl htl, if_neg (by omega)])
    (by
      intro c hc
      have hcv : c < f.tokens.length := by
        rcases List.mem_cons.mp hc with h1 | h1
        · omega
        · rw [List.mem_range'_1] at h1
          omega
      have := h.unvisited c _ (List.getElem?_eq_getElem hcv)
      simp only [stateOf, List.getElem?_eq_getElem hcv, List.getElem?_eq_getElem hn0] at this ⊢
      exact this)
    hcs
  rw [withState_self, sumBefore_zero, List.length_range',
    show f.lines.length - f.tokens.length + (f.tokens.length - 1) + 2 = f.lines.length + 1
      by omega] at hrun
  have hassign := assignDurationsToTrack_eq f 0 _ 0 ht0 (h.rhythm _ ht0)
  rw [hrun] at hassign
  set S1 := bump (stateOf f) (0 :: List.range' 1 (f.tokens.length - 1)) with hS1
  have hfirst := first_single f (withState f S1 D1) _ h.start ht0 (h.rhythm _ ht0) hassign
  have ht1 : (withState f S1 D1).tokens[0]? = some { f.tokens[0] with rhycheck := S1 0 } := by
    rw [withState_tokens_get, ht0]
    rfl
  have hsecond := second_single (withState f S1 D1) _ f.tokens[0].lineIndex
    ((withState_trackstarts f S1 D1).trans h.start) ht1 rfl
  -- the rest of the analysis
  have hlines1 : (withState f S1 D1).lines.length = f.lines.length := withState_lines_length _ _ _
  obtain ⟨b, g, htail, hkeep, hsucc⟩ := rhythmTail_spec nn (withState f S1 D1)
    (by
      intro h0
      have h00 : f.lines.length = 0 := by rw [← hlines1, h0]; rfl
      omega)
    (by rw [hlines1]; exact h.flags.size)
  have hb : b = true := by
    apply hsucc _ hnn
    intro m l1 hl1
    rw [withState_lines_get] at hl1
    cases hl : f.lines[m]? with
    | none => rw [hl] at hl1; cases hl1
    | some l =>
      rw [hl] at hl1
      simp only [Option.map_some', Option.some.injEq] at hl1
      subst hl1
      by_cases hc : l.hasSpines = true ∧ l.isAllRhythmicNull = false ∧ l.isData = true
      · obtain ⟨x, t, hx, hxl, hxt⟩ := hdt m l hl hc.1 hc.2.1 hc.2.2
        have hxv : x < f.tokens.length := by
          by_contra hcc
          rw [List.getElem?_eq_none (by omega)] at hx
          cases hx
        have hxmem : x ∈ 0 :: List.range' 1 (f.tokens.length - 1) := by
          rcases Nat.eq_zero_or_pos x with h0 | h0
          · simp [h0]
          · apply List.mem_cons_of_mem
            rw [List.mem_range'_1]
            omega
        have hv := hval x hxmem t hx hxt
        rw [hxl] at hv
        have hk : ¬ (D1 m < 0) := by
          rw [hv]
          exact not_lt.mpr (sumBefore_nonneg f x)
        simp [isUnexpectedNegative, hk]
      · simp only [isUnexpectedNegative, Bool.and_eq_false_iff, Bool.not_eq_false']
        by_cases h1 : l.hasSpines = true
        · by_cases h2 : l.isAllRhythmicNull = false
          · have h3 : l.isData = false := by
              cases hd : l.isData
              · rfl
              · exact absurd ⟨h1, h2, hd⟩ hc
            right
            exact h3
          · left; left; right
            simpa using h2
        · left; left; left
          simpa using h1
  subst hb
  refine ⟨g, ?_, ?_⟩
  · have hmax : getMaxTrack f ≠ 0 := by simp [getMaxTrack, h.start]
    have hmax1 : getMaxTrack f = 1 := by simp [getMaxTrack, h.start]
    have hg : getTrackStart f 1 = some 0 := by simp [getTrackStart, h.start]
    rw [analyzeRhythm_eq nn f hmax, hg, Option.some_bind, ht0, Option.some_bind, hmax1, hfirst,
      Option.some_bind, if_neg (by simp)]
    show (analyzeRhythm.second f.tokens[0].lineIndex 1 1 (withState f S1 D1)).bind _ = _
    rw [hsecond, Option.some_bind, if_neg (by simp)]
    exact htail
  · intro k t hk htimed
    have hkv : k < f.tokens.length := by
      by_contra hcc
      rw [List.getElem?_eq_none (by omega)] at hk
      cases hk
    have hkmem : k ∈ 0 :: List.range' 1 (f.tokens.length - 1) := by
      rcases Nat.eq_zero_or_pos k with h0 | h0
      · simp [h0]
      · apply List.mem_cons_of_mem
        rw [List.mem_range'_1]
        omega
    have hv := hval k hkmem t hk htimed
    obtain ⟨l, hl⟩ := h.linked.line_get hk
    have hl1 : (withState f S1 D1).lines[t.lineIndex]? =
        some { l with durationFromStart := D1 t.lineIndex } := by
      rw [withState_lines_get, hl]
      rfl
    obtain ⟨l2, e1, e2⟩ := hkeep rfl t.lineIndex _ hl1
      (by simp only; rw [hv]; exact sumBefore_nonneg f k)
      (by
        have := h.flags.timed_not_null k t l hk htimed hl
        simpa [isNullData] using this)
    exact ⟨l2, e1, by rw [e2]; simp only; exact hv⟩

theorem twoNotes_token_cases (k : Nat) (t : HumdrumToken) (h : twoNotes.tokens[k]? = some t) :
    (k = 0 ∧ t = kernToken 0 (-1) [1] [] false) ∨ (k = 1 ∧ t = kernToken 1 1 [2] [0] false) ∨
      (k = 2 ∧ t = kernToken 2 1 [3] [1] false) ∨ (k = 3 ∧ t = kernToken 3 (-1) [] [2] true) := by
  have hk : k < 4 := by
    by_contra hc
    rw [List.getElem?_eq_none (by simp [twoNotes]; omega)] at h
    cases h
  interval_cases k <;> simp [twoNotes] at h <;> simp [h]

theorem twoNotes_line_cases (n : Nat) (l : HumdrumLine) (h : twoNotes.lines[n]? = some l) :
    (n = 0 ∧ l = freshLine true false false false) ∨ (n = 1 ∧ l = freshLine true false true false) ∨
      (n = 2 ∧ l = freshLine true false true false) ∨
      (n = 3 ∧ l = freshLine true false false false) := by
  have hk : n < 4 := by
    by_contra hc
    rw [List.getElem?_eq_none (by simp [twoNotes]; omega)] at h
    cases h
  interval_cases n <;> simp [twoNotes] at h <;> simp [h]

theorem twoNotes_dataTimed : DataTimed twoNotes := by
  intro n l hl _ _ hd
  rcases twoNotes_line_cases n l hl with ⟨rfl, rfl⟩ | ⟨rfl, rfl⟩ | ⟨rfl, rfl⟩ | ⟨rfl, rfl⟩
  · exact absurd hd (by decide)
  · exact ⟨1, _, rfl, rfl, by decide!⟩
  · exact ⟨2, _, rfl, rfl, by decide!⟩
  · exact absurd hd (by decide)

theorem twoNotes_singleSpine : SingleSpine twoNotes := by
  refine ⟨⟨?_, ?_⟩, ⟨?_, ?_, ?_⟩, ?_, rfl, by simp [twoNotes], ?_, ?_, ?_⟩
  · intro i j t ht hj
    rcases twoNotes_token_cases i t ht with ⟨rfl, rfl⟩ | ⟨rfl, rfl⟩ | ⟨rfl, rfl⟩ | ⟨rfl, rfl⟩ <;>
      simp [kernToken] at hj <;> subst hj <;> exact ⟨_, rfl, by decide⟩
  · intro i t ht
    rcases twoNotes_token_cases i t ht with ⟨rfl, rfl⟩ | ⟨rfl, rfl⟩ | ⟨rfl, rfl⟩ | ⟨rfl, rfl⟩ <;>
      decide
  · intro x t ht hterm
    rcases twoNotes_token_cases x t ht with ⟨rfl, rfl⟩ | ⟨rfl, rfl⟩ | ⟨rfl, rfl⟩ | ⟨rfl, rfl⟩ <;>
      first | (exact absurd hterm (by decide)) | decide!
  · intro x t l ht _ hl
    rcases twoNotes_token_cases x t ht with ⟨rfl, rfl⟩ | ⟨rfl, rfl⟩ | ⟨rfl, rfl⟩ | ⟨rfl, rfl⟩ <;>
      rcases twoNotes_line_cases _ l hl with ⟨_, rfl⟩ | ⟨_, rfl⟩ | ⟨_, rfl⟩ | ⟨_, rfl⟩ <;> decide
  · decide
  · intro k t ht
    rcases twoNotes_token_cases k t ht with ⟨rfl, rfl⟩ | ⟨rfl, rfl⟩ | ⟨rfl, rfl⟩ | ⟨rfl, rfl⟩ <;>
      decide
  · intro t ht
    rcases twoNotes_token_cases 0 t ht with ⟨_, rfl⟩ | ⟨h, _⟩ | ⟨h, _⟩ | ⟨h, _⟩
    · rfl
    all_goals exact absurd h (by decide)
  · intro x t ht
    rcases twoNotes_token_cases x t ht with ⟨rfl, rfl⟩ | ⟨rfl, rfl⟩ | ⟨rfl, rfl⟩ | ⟨rfl, rfl⟩ <;>
      decide
  · intro n l hl
    rcases twoNotes_line_cases n l hl with ⟨rfl, rfl⟩ | ⟨rfl, rfl⟩ | ⟨rfl, rfl⟩ | ⟨rfl, rfl⟩ <;>
      decide!

theorem analyzeRhythm_single_spine_witness :
    (analyzeRhythm (fun _ => true) twoNotes).map
        (fun r => (r.1, r.2.lines.map (fun l => l.durationFromStart),
          (tpq r.2).map Prod.fst, getScoreDuration r.2)) =
        some (true, [0, 0, 1, 2], some 1, 2) ∧
      ∃ g, analyzeRhythm (fun _ => true) twoNotes = some (true, g) ∧
        ∀ (k : Nat) (t : HumdrumToken), twoNotes.tokens[k]? = some t → isTimed t = true →
          ∃ l, g.lines[t.lineIndex]? = some l ∧ l.durationFromStart = sumBefore twoNotes k :=
  ⟨by decide!, analyzeRhythm_single_spine (fun _ => true) (fun _ => rfl) twoNotes
    twoNotes_singleSpine twoNotes_dataTimed⟩

theorem getLast_cons_append (c y : Nat) (xs ys : List Nat) :
    (c :: (xs ++ y :: ys)).getLast (List.cons_ne_nil _ _) =
      (y :: ys).getLast (List.cons_ne_nil _ _) := by
  simp [List.getLast_append]

theorem Linked0.append (f0 : HumdrumFileStructure) :
    ∀ (xs : List Nat) (c y : Nat) (ys : List Nat), Linked0 f0 c xs →
      (∃ t rest, f0.tokens[(c :: xs).getLast (List.cons_ne_nil _ _)]? = some t ∧
        t.nextTokens = y :: rest) →
      Linked0 f0 y ys → Linked0 f0 c (xs ++ y :: ys) := by
  intro xs
  induction xs with
  | nil =>
    intro c y ys _ h2 h3
    exact ⟨by simpa using h2, h3⟩
  | cons x xs ih =>
    intro c y ys h1 h2 h3
    obtain ⟨h11, h12⟩ := h1
    refine ⟨h11, ih x y ys h12 ?_ h3⟩
    rw [List.getLast_cons (List.cons_ne_nil x xs)] at h2
    exact h2

theorem bump_append (S : Nat → Int) (xs ys : List Nat) (h : ∀ x ∈ xs, x ∉ ys) :
    bump (bump S xs) ys = bump S (xs ++ ys) := by
  funext x
  unfold bump
  by_cases h1 : x ∈ ys
  · have h2 : x ∉ xs := fun hx => h x hx h1
    simp [h1, h2]
  · simp [h1]

/-- Along a chain of links the line index grows by at least one per link. -/
theorem Linked0.line_bound (f0 : HumdrumFileStructure) (hw : WellLinked f0) :
    ∀ (cs : List Nat) (c : Nat) (t tl : HumdrumToken), f0.tokens[c]? = some t →
      Linked0 f0 c cs → f0.tokens[(c :: cs).getLast (List.cons_ne_nil _ _)]? = some tl →
      t.lineIndex + cs.length ≤ tl.lineIndex := by
  intro cs
  induction cs with
  | nil =>
    intro c t tl ht _ htl
    simp only [List.getLast_singleton] at htl
    rw [ht] at htl
    cases htl
    simp
  | cons x xs ih =>
    intro c t tl ht hl htl
    obtain ⟨⟨t1, rest, ht1, hn⟩, hl2⟩ := hl
    rw [ht] at ht1
    cases ht1
    obtain ⟨tx, hx, hlt⟩ := hw.next_valid c x t ht (by simp [hn])
    rw [List.getLast_cons (List.cons_ne_nil x xs)] at htl
    have := ih x tx tl hx hl2 htl
    simp only [List.length_cons]
    omega

/-- `prepareDurations` entered at a sub-spine that runs into a token already
visited (a merge): the sub-spine is visited and the function returns true
from its primary loop. -/
theorem prepareDurations_deadend (f0 : HumdrumFileStructure) (hw : WellLinked f0)
    (τ : Nat → HumNum) (hτ : Timing f0 τ)
    (st : Int) (tok : Nat) (cs : List Nat) (S : Nat → Int) (D : Nat → HumNum) (fuel : Nat)
    (t : HumdrumToken) (ht : f0.tokens[tok]? = some t)
    (hD : Compat f0 τ D) (hlink : Linked0 f0 tok cs)
    (m : Nat) (hmerge : ∃ tl rest, f0.tokens[(tok :: cs).getLast (List.cons_ne_nil _ _)]? = some tl ∧
      tl.nextTokens = m :: rest)
    (hm : S m ≠ st) (hS : ∀ c ∈ tok :: cs, S c = st) (hnd : (tok :: cs).Nodup) :
    ∃ D1, prepareDurations (fuel + cs.length + 2) (withState f0 S D) tok st (τ tok) =
        some (true, withState f0 (bump S (tok :: cs)) D1) ∧
      Compat f0 τ D1 ∧ Ext D D1 ∧
      ∀ c ∈ tok :: cs, ∀ tc, f0.tokens[c]? = some tc → isTimed tc = true →
        D1 tc.lineIndex = τ c := by
  have hStok : st = S tok := (hS tok (by simp)).symm
  have hmnot : m ∉ tok :: cs := fun hmem => hm (hS m hmem)
  rw [List.nodup_cons] at hnd
  obtain ⟨g1, g2, g3⟩ := lineStep_timing f0 τ hτ D hD tok t ht
  have hS1 : ∀ c ∈ cs, Function.update S tok (S tok + 1) c = st := by
    intro c hc
    have : c ≠ tok := fun h => hnd.1 (h ▸ hc)
    rw [Function.update_noteq this]
    exact hS c (by simp [hc])
  obtain ⟨D2, e1, e2, e3, e4⟩ := primary_run f0 hw τ hτ st cs tok
    (Function.update S tok (S tok + 1)) (lineStep D t (τ tok)).2 (fuel + 1) g2 hlink hS1 hnd.2
  obtain ⟨tl, rest, htl, hnl⟩ := hmerge
  obtain ⟨tm, htm, -⟩ := hw.next_valid _ m tl htl (by simp [hnl])
  have hSm : st ≠ bump (Function.update S tok (S tok + 1)) cs m := by
    have h1 : m ∉ cs := fun h => hmnot (List.mem_cons_of_mem _ h)
    have h2 : m ≠ tok := fun h => hmnot (by simp [h])
    simp only [bump, h1, if_false, Function.update_noteq h2]
    exact fun h => hm h.symm
  rw [primary_step f0 hw st fuel _ D2 _ m rest _ tl tm htl hnl htm, if_pos hSm] at e1
  refine ⟨D2, ?_, e2, (lineStep_ext D t (τ tok)).ext_trans e3, ?_⟩
  · have hfuel : fuel + cs.length + 2 = (fuel + 1 + cs.length) + 1 := by omega
    rw [hfuel, prepareDurations_primary_ret f0 hw _ S D tok st (τ tok) t true _ ht hStok g1
      (by rw [← afterOf_eq f0 τ tok t ht]; exact e1), bump_cons S tok cs hnd.1]
  · intro c hc tc htc htimed
    rcases List.mem_cons.mp hc with h | h
    · subst h
      rw [ht] at htc
      cases htc
      have h1 := g3 htimed
      rw [e3 _ (by rw [h1]; exact hτ.nonneg c), h1]
    · exact e4 c h tc htc htimed

theorem branches_one
    (recurse : HumdrumFileStructure → Nat → HumNum → Option (Bool × HumdrumFileStructure))
    (f g : HumdrumFileStructure) (x : Nat) (d : HumNum)
    (h : recurse f x d = some (true, g)) :
    prepareDurations.branches recurse f [x] d = some (true, g) := by
  simp [prepareDurations.branches, h]

theorem bump_mem (S : Nat → Int) (cs : List Nat) (x : Nat) (h : x ∈ cs) :
    bump S cs x = S x + 1 := by
  simp [bump, h]

theorem bump_not_mem (S : Nat → Int) (cs : List Nat) (x : Nat) (h : x ∉ cs) :
    bump S cs x = S x := by
  simp [bump, h]

/-- `prepareDurations` on a spine that splits once into two sub-spines which
merge again: with a timing and compatible start times it succeeds, visits
every token once and gives the line of every timed token its onset.  `P`
lists the tokens after `p0` up to the split, `R` the tokens after `a1` (the
first sub-spine and what follows the merge), `B` the tokens after `b1` in the
second sub-spine. -/
theorem prepareDurations_diamond (f0 : HumdrumFileStructure) (hw : WellLinked f0)
    (τ : Nat → HumNum) (hτ : Timing f0 τ)
    (hterm : ∀ (x : Nat) (t : HumdrumToken), f0.tokens[x]? = some t →
      t.isTerminateInterpretation = true → posDur t = 0)
    (st : Int) (p0 : Nat) (P : List Nat) (a1 : Nat) (R : List Nat) (b1 : Nat) (B : List Nat)
    (m : Nat) (S : Nat → Int) (D : Nat → HumNum) (fuel : Nat)
    (t : HumdrumToken) (ht : f0.tokens[p0]? = some t) (hD : Compat f0 τ D)
    (hP : Single f0 p0 P)
    (hsplit : ∃ ts, f0.tokens[(p0 :: P).getLast (List.cons_ne_nil _ _)]? = some ts ∧
      ts.nextTokens = [a1, b1])
    (hR : Single f0 a1 R)
    (hend : ∀ tl, f0.tokens[(a1 :: R).getLast (List.cons_ne_nil _ _)]? = some tl →
      tl.nextTokens = [])
    (hB : Linked0 f0 b1 B)
    (hmerge : ∃ tb rest, f0.tokens[(b1 :: B).getLast (List.cons_ne_nil _ _)]? = some tb ∧
      tb.nextTokens = m :: rest)
    (hm : m ∈ a1 :: R)
    (hS : ∀ c ∈ (p0 :: (P ++ a1 :: R)) ++ b1 :: B, S c = st)
    (hnd : ((p0 :: (P ++ a1 :: R)) ++ b1 :: B).Nodup)
    (hfuel : B.length + 1 ≤ fuel + (P ++ a1 :: R).length) :
    ∃ D1, prepareDurations (fuel + (P ++ a1 :: R).length + 2) (withState f0 S D) p0 st (τ p0) =
        some (true, withState f0 (bump S ((p0 :: (P ++ a1 :: R)) ++ b1 :: B)) D1) ∧
      Compat f0 τ D1 ∧ Ext D D1 ∧
      ∀ c ∈ (p0 :: (P ++ a1 :: R)) ++ b1 :: B, ∀ tc, f0.tokens[c]? = some tc →
        isTimed tc = true → D1 tc.lineIndex = τ c := by
  have hStok : st = S p0 := (hS p0 (by simp)).symm
  obtain ⟨hndQ, hndB, hdisj⟩ := List.nodup_append.mp hnd
  have hndQ2 := List.nodup_cons.mp hndQ
  obtain ⟨ts, hts, hns⟩ := hsplit
  have hlinkQ : Linked0 f0 p0 (P ++ a1 :: R) :=
    Linked0.append f0 P p0 a1 R (Single.linked0 f0 P p0 hP) ⟨ts, [b1], hts, hns⟩
      (Single.linked0 f0 R a1 hR)
  obtain ⟨g1, g2, g3⟩ := lineStep_timing f0 τ hτ D hD p0 t ht
  -- the primary loop
  have hS1 : ∀ c ∈ P ++ a1 :: R, Function.update S p0 (S p0 + 1) c = st := by
    intro c hc
    have : c ≠ p0 := fun h => hndQ2.1 (h ▸ hc)
    rw [Function.update_noteq this]
    exact hS c (List.mem_append_left _ (List.mem_cons_of_mem _ hc))
  obtain ⟨D2, e1, e2, e3, e4⟩ := primary_run f0 hw τ hτ st (P ++ a1 :: R) p0
    (Function.update S p0 (S p0 + 1)) (lineStep D t (τ p0)).2 (fuel + 1) g2 hlinkQ hS1 hndQ2.2
  have hlastmem : (p0 :: (P ++ a1 :: R)).getLast (List.cons_ne_nil _ _) ∈ p0 :: (P ++ a1 :: R) :=
    List.getLast_mem _
  obtain ⟨tl, htl⟩ := Linked0.valid f0 hw _ p0 t ht hlinkQ _ hlastmem
  have hendl : tl.nextTokens = [] := by
    apply hend
    rw [← getLast_cons_append p0 a1 P R]
    exact htl
  rw [primary_end f0 st fuel _ D2 _ _ tl htl hendl] at e1
  -- the terminator
  obtain ⟨k1, k2, k3⟩ := lastStep_timing f0 τ hτ hterm D2 e2 _ tl htl
  -- the secondary loop up to the split
  have hS2 : ∀ c ∈ P ++ a1 :: R,
      bump (Function.update S p0 (S p0 + 1)) (P ++ a1 :: R) c = st + 1 := by
    intro c hc
    rw [bump_mem _ _ c hc, hS1 c hc]
  have hsec1 := secondary_run f0 hw τ hτ
    (fun g x e => prepareDurations (fuel + 1 + (P ++ a1 :: R).length) g x st e)
    (st + 1) (bump (Function.update S p0 (S p0 + 1)) (P ++ a1 :: R))
    (lastStep D2 tl (afterOf f0 τ ((p0 :: (P ++ a1 :: R)).getLast (List.cons_ne_nil _ _)))).2
    P p0 (fuel + 1 + R.length + 1) hP (fun c hc => hS2 c (List.mem_append_left _ hc))
  -- the second sub-spine
  obtain ⟨ta, hta, -⟩ := hw.next_valid _ a1 ts hts (by simp [hns])
  obtain ⟨tb1, htb1, -⟩ := hw.next_valid _ b1 ts hts (by simp [hns])
  have hτa : τ a1 = afterOf f0 τ ((p0 :: P).getLast (List.cons_ne_nil _ _)) := by
    rw [afterOf_eq f0 τ _ ts hts]
    exact hτ.link _ a1 ts hts (by simp [hns])
  have hτb : τ b1 = afterOf f0 τ ((p0 :: P).getLast (List.cons_ne_nil _ _)) := by
    rw [afterOf_eq f0 τ _ ts hts]
    exact hτ.link _ b1 ts hts (by simp [hns])
  have hBnot : ∀ c ∈ b1 :: B, c ∉ p0 :: (P ++ a1 :: R) := fun c hc hq => hdisj hq hc
  have hSB : ∀ c ∈ b1 :: B,
      bump (Function.update S p0 (S p0 + 1)) (P ++ a1 :: R) c = st := by
    intro c hc
    have h1 := hBnot c hc
    have h2 : c ∉ P ++ a1 :: R := fun h => h1 (List.mem_cons_of_mem _ h)
    have h3 : c ≠ p0 := fun h => h1 (by simp [h])
    rw [bump_not_mem _ _ c h2, Function.update_noteq h3]
    exact hS c (List.mem_append_right _ hc)
  have hmQ : m ∈ P ++ a1 :: R := List.mem_append_right _ hm
  obtain ⟨D4, r1, r2, r3, r4⟩ := prepareDurations_deadend f0 hw τ hτ st b1 B
    (bump (Function.update S p0 (S p0 + 1)) (P ++ a1 :: R))
    (lastStep D2 tl (afterOf f0 τ ((p0 :: (P ++ a1 :: R)).getLast (List.cons_ne_nil _ _)))).2
    (fuel + (P ++ a1 :: R).length - (B.length + 1)) tb1 htb1 k2 hB m hmerge
    (by rw [hS2 m hmQ]; omega) hSB hndB
  rw [show fuel + (P ++ a1 :: R).length - (B.length + 1) + B.length + 2 =
    fuel + 1 + (P ++ a1 :: R).length by omega, hτb] at r1
  have hbr := branches_one
    (fun g x e => prepareDurations (fuel + 1 + (P ++ a1 :: R).length) g x st e) _ _ b1 _ r1
  -- the secondary loop after the split
  have ha1B : a1 ∉ b1 :: B := fun h => hBnot a1 h (by simp)
  have hS3 : ∀ c ∈ a1 :: R,
      bump (bump (Function.update S p0 (S p0 + 1)) (P ++ a1 :: R)) (b1 :: B) c = st + 1 := by
    intro c hc
    have h1 : c ∉ b1 :: B := fun h => hBnot c h (List.mem_cons_of_mem _ (List.mem_append_right _ hc))
    rw [bump_not_mem _ _ c h1, hS2 c (List.mem_append_right _ hc)]
  have hsec2 := secondary_run f0 hw τ hτ
    (fun g x e => prepareDurations (fuel + 1 + (P ++ a1 :: R).length) g x st e)
    (st + 1) (bump (bump (Function.update S p0 (S p0 + 1)) (P ++ a1 :: R)) (b1 :: B)) D4
    R a1 (fuel + 1) hR (fun c hc => hS3 c (List.mem_cons_of_mem _ hc))
  have htl2 : f0.tokens[(a1 :: R).getLast (List.cons_ne_nil _ _)]? = some tl := by
    rw [← getLast_cons_append p0 a1 P R]
    exact htl
  rw [secondary_end f0 _ (st + 1) fuel _ _ _ _ tl htl2 hendl] at hsec2
  rw [secondary_step f0 _ (st + 1) (fuel + 1 + R.length) _ _ _ _ _ a1 [b1] _ ts ta hts hns hta hbr,
    if_neg (not_not.mpr (hS3 a1 (by simp)).symm), ← hτa, ← afterOf_eq f0 τ a1 ta hta, hsec2]
    at hsec1
  refine ⟨D4, ?_, r2, (lineStep_ext D t (τ p0)).ext_trans (e3.ext_trans (k3.ext_trans r3)), ?_⟩
  · have hfuel2 : fuel + (P ++ a1 :: R).length + 2 = (fuel + 1 + (P ++ a1 :: R).length) + 1 := by
      omega
    have hfuel3 : fuel + 1 + (P ++ a1 :: R).length = fuel + 1 + R.length + 1 + P.length := by
      simp only [List.length_append, List.length_cons]
      omega
    rw [hfuel2, prepareDurations_primary_fall f0 hw _ S _ D D2 p0 _ st (τ p0) _ t tl ht hStok g1
      (by rw [← afterOf_eq f0 τ p0 t ht]; exact e1) htl,
      if_neg (by rw [k1]; decide), ← afterOf_eq f0 τ p0 t ht]
    rw [hfuel3] at hsec1 ⊢
    rw [hsec1, bump_cons S p0 _ hndQ2.1, bump_append _ _ _ (fun x hx hb => hdisj hx hb)]
  · intro c hc tc htc htimed
    rcases List.mem_append.mp hc with hq | hb
    · have hv : D2 tc.lineIndex = τ c := by
        rcases List.mem_cons.mp hq with h | h
        · subst h
          rw [ht] at htc
          cases htc
          have h1 := g3 htimed
          rw [e3 _ (by rw [h1]; exact hτ.nonneg c), h1]
        · exact e4 c h tc htc htimed
      have h2 := k3 _ (by rw [hv]; exact hτ.nonneg c)
      rw [r3 _ (by rw [h2, hv]; exact hτ.nonneg c), h2, hv]
    · exact r4 c hb tc htc htimed

theorem pathSum_nil (f : HumdrumFileStructure) : pathSum f [] = 0 := rfl

theorem pathSum_cons (f : HumdrumFileStructure) (c : Nat) (cs : List Nat) (t : HumdrumToken)
    (h : f.tokens[c]? = some t) : pathSum f (c :: cs) = posDur t + pathSum f cs := by
  simp [pathSum, h]

theorem pathSum_append (f : HumdrumFileStructure) (xs ys : List Nat) :
    pathSum f (xs ++ ys) = pathSum f xs + pathSum f ys := by
  simp [pathSum]

theorem Linked0.path (f0 : HumdrumFileStructure) :
    ∀ (cs : List Nat) (token : Nat), Linked0 f0 token cs → Path f0 token cs := by
  intro cs
  induction cs with
  | nil => intro token _; trivial
  | cons c cs ih =>
    intro token h
    obtain ⟨⟨t, rest, ht, hn⟩, h2⟩ := h
    exact ⟨⟨t, ht, by simp [hn]⟩, ih c h2⟩

theorem Path.path_append (f0 : HumdrumFileStructure) :
    ∀ (xs : List Nat) (c y : Nat) (ys : List Nat), Path f0 c xs →
      (∃ t, f0.tokens[(c :: xs).getLast (List.cons_ne_nil _ _)]? = some t ∧ y ∈ t.nextTokens) →
      Path f0 y ys → Path f0 c (xs ++ y :: ys) := by
  intro xs
  induction xs with
  | nil =>
    intro c y ys _ h2 h3
    exact ⟨by simpa using h2, h3⟩
  | cons x xs ih =>
    intro c y ys h1 h2 h3
    obtain ⟨h11, h12⟩ := h1
    refine ⟨h11, ih x y ys h12 ?_ h3⟩
    rw [List.getLast_cons (List.cons_ne_nil x xs)] at h2
    exact h2

/-- With a timing, the onset of a token on a forward path is the onset of the
start of the path plus the positive durations of the tokens before it on the
path. -/
theorem Path.onset (f0 : HumdrumFileStructure) (τ : Nat → HumNum)
    (hlink : ∀ (x y : Nat) (tx : HumdrumToken), f0.tokens[x]? = some tx → y ∈ tx.nextTokens →
      τ y = τ x + posDur tx) :
    ∀ (cs : List Nat) (c : Nat), Path f0 c cs → ∀ (j x : Nat), (c :: cs)[j]? = some x →
      τ x = τ c + pathSum f0 ((c :: cs).take j) := by
  intro cs
  induction cs with
  | nil =>
    intro c _ j x hj
    cases j with
    | zero =>
      simp only [List.getElem?_cons_zero, Option.some.injEq] at hj
      subst hj
      simp [pathSum_nil]
    | succ j => simp at hj
  | cons c1 cs ih =>
    intro c hp j x hj
    obtain ⟨⟨t, ht, hmem⟩, hp2⟩ := hp
    cases j with
    | zero =>
      simp only [List.getElem?_cons_zero, Option.some.injEq] at hj
      subst hj
      simp [pathSum_nil]
    | succ j =>
      rw [List.getElem?_cons_succ] at hj
      rw [ih c1 hp2 j x hj, hlink c c1 t ht hmem, List.take_succ_cons, pathSum_cons f0 c _ t ht]
      ring

theorem Single.split_last (f0 : HumdrumFileStructure) :
    ∀ (xs : List Nat) (c y : Nat), Single f0 c (xs ++ [y]) →
      Single f0 c xs ∧
        ∃ t, f0.tokens[(c :: xs).getLast (List.cons_ne_nil _ _)]? = some t ∧
          t.nextTokens = [y] := by
  intro xs
  induction xs with
  | nil =>
    intro c y h
    obtain ⟨⟨t, ht, hn⟩, -⟩ := h
    exact ⟨trivial, t, by simpa using ht, hn⟩
  | cons x xs ih =>
    intro c y h
    obtain ⟨h1, h2⟩ := h
    obtain ⟨h3, t, ht, hn⟩ := ih x y h2
    refine ⟨⟨h1, h3⟩, t, ?_, hn⟩
    rw [List.getLast_cons (List.cons_ne_nil x xs)]
    exact ht

/-- The analysis of a file with one track starting at token 0, given that the
propagation through the track succeeds and gives the line of every timed
token the value `τ`: `analyzeRhythm` succeeds and these lines keep their
values. -/
theorem analyzeRhythm_one_track (nn : HumdrumFileStructure → Bool) (hnn : ∀ g, nn g = true)
    (f : HumdrumFileStructure) (hw : WellLinked f) (flags : FlagsAgree f) (hdt : DataTimed f)
    (hstart : f.trackstarts = [0]) (t0 : HumdrumToken) (ht0 : f.tokens[0]? = some t0)
    (hr : t0.hasRhythm = true) (S1 : Nat → Int) (D1 : Nat → HumNum)
    (hrun : prepareDurations (f.lines.length + 1) f 0 (stateOf f 0) 0 =
      some (true, withState f S1 D1))
    (τ : Nat → HumNum) (hτ0 : ∀ x, 0 ≤ τ x)
    (hval : ∀ (x : Nat) (t : HumdrumToken), f.tokens[x]? = some t → isTimed t = true →
      D1 t.lineIndex = τ x) :
    ∃ g, analyzeRhythm nn f = some (true, g) ∧
      ∀ (k : Nat) (t : HumdrumToken), f.tokens[k]? = some t → isTimed t = true →
        ∃ l, g.lines[t.lineIndex]? = some l ∧ l.durationFromStart = τ k := by
  have hassign := assignDurationsToTrack_eq f 0 _ 0 ht0 hr
  rw [hrun] at hassign
  have hfirst := first_single f (withState f S1 D1) _ hstart ht0 hr hassign
  have ht1 : (withState f S1 D1).tokens[0]? = some { t0 with rhycheck := S1 0 } := by
    rw [withState_tokens_get, ht0]
    rfl
  have hsecond := second_single (withState f S1 D1) _ t0.lineIndex
    ((withState_trackstarts f S1 D1).trans hstart) ht1 rfl
  have hlines1 : (withState f S1 D1).lines.length = f.lines.length := withState_lines_length _ _ _
  have hpos := hw.line_valid 0 t0 ht0
  obtain ⟨b, g, htail, hkeep, hsucc⟩ := rhythmTail_spec nn (withState f S1 D1)
    (by
      intro h0
      have h00 : f.lines.length = 0 := by rw [← hlines1, h0]; rfl
      omega)
    (by rw [hlines1]; exact flags.size)
  have hb : b = true := by
    apply hsucc _ hnn
    intro m l1 hl1
    rw [withState_lines_get] at hl1
    cases hl : f.lines[m]? with
    | none => rw [hl] at hl1; cases hl1
    | some l =>
      rw [hl] at hl1
      simp only [Option.map_some', Option.some.injEq] at hl1
      subst hl1
      by_cases hc : l.hasSpines = true ∧ l.isAllRhythmicNull = false ∧ l.isData = true
      · obtain ⟨x, t, hx, hxl, hxt⟩ := hdt m l hl hc.1 hc.2.1 hc.2.2
        have hv := hval x t hx hxt
        rw [hxl] at hv
        have hk : ¬ (D1 m < 0) := by
          rw [hv]
          exact not_lt.mpr (hτ0 x)
        simp [isUnexpectedNegative, hk]
      · simp only [isUnexpectedNegative, Bool.and_eq_false_iff, Bool.not_eq_false']
        by_cases h1 : l.hasSpines = true
        · by_cases h2 : l.isAllRhythmicNull = false
          · have h3 : l.isData = false := by
              cases hd : l.isData
              · rfl
              · exact absurd ⟨h1, h2, hd⟩ hc
            right
            exact h3
          · left; left; right
            simpa using h2
        · left; left; left
          simpa using h1
  subst hb
  refine ⟨g, ?_, ?_⟩
  · have hmax : getMaxTrack f ≠ 0 := by simp [getMaxTrack, hstart]
    have hmax1 : getMaxTrack f = 1 := by simp [getMaxTrack, hstart]
    have hg : getTrackStart f 1 = some 0 := by simp [getTrackStart, hstart]
    rw [analyzeRhythm_eq nn f hmax, hg, Option.some_bind, ht0, Option.some_bind, hmax1, hfirst,
      Option.some_bind, if_neg (by simp)]
    show (analyzeRhythm.second t0.lineIndex 1 1 (withState f S1 D1)).bind _ = _
    rw [hsecond, Option.some_bind, if_neg (by simp)]
    exact htail
  · intro k t hk htimed
    have hv := hval k t hk htimed
    obtain ⟨l, hl⟩ := hw.line_get hk
    have hl1 : (withState f S1 D1).lines[t.lineIndex]? =
        some { l with durationFromStart := D1 t.lineIndex } := by
      rw [withState_lines_get, hl]
      rfl
    obtain ⟨l2, e1, e2⟩ := hkeep rfl t.lineIndex _ hl1
      (by simp only; rw [hv]; exact hτ0 k)
      (by
        have := flags.timed_not_null k t l hk htimed hl
        simpa [isNullData] using this)
    exact ⟨l2, e1, by rw [e2]; simp only; exact hv⟩

theorem Path.init (f0 : HumdrumFileStructure) :
    ∀ (xs : List Nat) (c : Nat) (ys : List Nat), Path f0 c (xs ++ ys) → Path f0 c xs := by
  intro xs
  induction xs with
  | nil => intro c ys _; trivial
  | cons x xs ih =>
    intro c ys h
    exact ⟨h.1, ih x ys h.2⟩

/-- The onset of the token at position `j` of the second part of a path. -/
theorem Path.onset_after (f0 : HumdrumFileStructure) (τ : Nat → HumNum)
    (hlink : ∀ (x y : Nat) (tx : HumdrumToken), f0.tokens[x]? = some tx → y ∈ tx.nextTokens →
      τ y = τ x + posDur tx)
    (xs : List Nat) (c : Nat) (ys : List Nat) (hp : Path f0 c (xs ++ ys)) (j x : Nat)
    (hj : ys[j]? = some x) :
    τ x = τ c + pathSum f0 (c :: xs) + pathSum f0 (ys.take j) := by
  have h1 : (c :: (xs ++ ys))[xs.length + 1 + j]? = some x := by
    rw [show xs.length + 1 + j = (xs.length + j) + 1 by omega, List.getElem?_cons_succ,
      List.getElem?_append_right (by omega), show xs.length + j - xs.length = j by omega]
    exact hj
  rw [Path.onset f0 τ hlink _ c hp _ x h1,
    show xs.length + 1 + j = (xs.length + j) + 1 by omega, List.take_succ_cons,
    List.take_append, ← List.cons_append, pathSum_append]
  ring

theorem pathSum_zero_of_neg (f : HumdrumFileStructure) :
    ∀ (cs : List Nat), (∀ y ∈ cs, ∀ ty, f.tokens[y]? = some ty → ty.duration < 0) →
      pathSum f cs = 0 := by
  intro cs
  induction cs with
  | nil => intro _; rfl
  | cons c cs ih =>
    intro h
    have h2 := ih (fun y hy => h y (List.mem_cons_of_mem _ hy))
    cases hc : f.tokens[c]? with
    | none => simp [pathSum, hc] at h2 ⊢; exact h2
    | some t =>
      rw [pathSum_cons f c cs t hc, h2]
      have := h c (by simp) t hc
      simp [posDur, not_lt.mpr (le_of_lt this)]

/-- C3 (amended): for every freshly parsed file whose only track is a
rhythmic track that splits once into two sub-spines which later merge, whose
tokens have consistent onsets (onset 0 at the start, growing along every link
by the positive duration of the token left, equal for two timed tokens of one
line), and in which every data line that is not all rhythmic null holds a
token of defined duration, analyzeRhythm succeeds; the two branches have the same total; the
line of every timed token of either sub-spine gets the positive durations
before the split plus those before the token on its branch; and the line of
the first timed token after the merge gets the sum before the split plus the
branch total. -/
theorem analyzeRhythm_diamond (nn : HumdrumFileStructure → Bool) (hnn : ∀ g, nn g = true)
    (f : HumdrumFileStructure) (P : List Nat) (a1 : Nat) (A : List Nat) (b1 : Nat)
    (B : List Nat) (m0 : Nat) (M : List Nat) (h : Diamond f P a1 A b1 B m0 M)
    (hdt : DataTimed f) (τ : Nat → HumNum) (hτ : Timing f τ) (hτ0 : τ 0 = 0) :
    ∃ g, analyzeRhythm nn f = some (true, g) ∧
      pathSum f (a1 :: A) = pathSum f (b1 :: B) ∧
      (∀ (i x : Nat) (t : HumdrumToken), (a1 :: A)[i]? = some x → f.tokens[x]? = some t →
        isTimed t = true → ∃ l, g.lines[t.lineIndex]? = some l ∧
          l.durationFromStart = pathSum f (0 :: P) + pathSum f ((a1 :: A).take i)) ∧
      (∀ (i x : Nat) (t : HumdrumToken), (b1 :: B)[i]? = some x → f.tokens[x]? = some t →
        isTimed t = true → ∃ l, g.lines[t.lineIndex]? = some l ∧
          l.durationFromStart = pathSum f (0 :: P) + pathSum f ((b1 :: B).take i)) ∧
      (∀ (j x : Nat) (t : HumdrumToken), (m0 :: M)[j]? = some x → f.tokens[x]? = some t →
        isTimed t = true →
        (∀ y ∈ (m0 :: M).take j, ∀ ty, f.tokens[y]? = some ty → ty.duration < 0) →
        ∃ l, g.lines[t.lineIndex]? = some l ∧
          l.durationFromStart = pathSum f (0 :: P) + pathSum f (a1 :: A)) := by
  obtain ⟨t0, ht0, hr⟩ := h.first
  obtain ⟨ts, hts, hns⟩ := h.split
  obtain ⟨hB, tb, htb, hnb⟩ := Single.split_last f B b1 m0 h.right
  -- the paths through the two sub-spines
  have hlinkQ : Linked0 f 0 (P ++ a1 :: (A ++ m0 :: M)) :=
    Linked0.append f P 0 a1 _ (Single.linked0 f P 0 h.pre) ⟨ts, [b1], hts, hns⟩
      (Single.linked0 f _ a1 h.left)
  have hpathA : Path f 0 ((P ++ a1 :: A) ++ m0 :: M) := by
    have := Linked0.path f _ 0 hlinkQ
    simpa using this
  have hpathB : Path f 0 ((P ++ b1 :: B) ++ [m0]) := by
    have := Path.path_append f P 0 b1 (B ++ [m0]) (Linked0.path f P 0 (Single.linked0 f P 0 h.pre))
      ⟨ts, hts, by simp [hns]⟩ (Linked0.path f _ b1 (Single.linked0 f _ b1 h.right))
    simpa using this
  have hpathA1 : Path f 0 (P ++ a1 :: A) := Path.init f _ 0 _ hpathA
  have hpathB1 : Path f 0 (P ++ b1 :: B) := Path.init f _ 0 _ hpathB
  have hmA := Path.onset_after f τ hτ.link (P ++ a1 :: A) 0 (m0 :: M) hpathA
  have hmB := Path.onset_after f τ hτ.link (P ++ b1 :: B) 0 [m0] hpathB 0 m0 (by simp)
  have hsum : pathSum f (a1 :: A) = pathSum f (b1 :: B) := by
    have e1 := hmA 0 m0 (by simp)
    rw [e1] at hmB
    simp only [List.take_zero, pathSum_nil, add_zero, ← List.cons_append, pathSum_append] at hmB
    linarith
  -- fuel for the propagation
  have hlastmem : (0 :: (P ++ a1 :: (A ++ m0 :: M))).getLast (List.cons_ne_nil _ _) ∈
      0 :: (P ++ a1 :: (A ++ m0 :: M)) := List.getLast_mem _
  obtain ⟨tl, htl⟩ := Linked0.valid f h.linked _ 0 t0 ht0 hlinkQ _ hlastmem
  have hb1 := Linked0.line_bound f h.linked _ 0 t0 tl ht0 hlinkQ htl
  have hb2 := h.linked.line_valid _ tl htl
  obtain ⟨tb1, htb1, hb3⟩ := h.linked.next_valid _ b1 ts hts (by simp [hns])
  obtain ⟨tm, htm, hb4⟩ := h.linked.next_valid _ m0 tb htb (by simp [hnb])
  have hb5 := Linked0.line_bound f h.linked B b1 tb1 tb htb1 (Single.linked0 f B b1 hB) htb
  have hb6 := h.linked.line_valid _ tm htm
  -- propagation
  have hD : Compat f τ (startOf f) := by
    intro x tx _ _ hk
    exact absurd (startOf_neg_of_fresh f h.fresh tx.lineIndex) (not_lt.mpr hk)
  have hstop : ∀ tl, f.tokens[(a1 :: (A ++ m0 :: M)).getLast (List.cons_ne_nil _ _)]? = some tl →
      tl.nextTokens = [] := by
    intro tl1 h1
    apply h.stop
    rw [getLast_cons_append a1 m0 A M] at h1
    exact h1
  have hSall : ∀ c ∈ (0 :: (P ++ a1 :: (A ++ m0 :: M))) ++ b1 :: B, stateOf f c = stateOf f 0 := by
    intro c hmem
    have hex : ∃ tc, f.tokens[c]? = some tc := by
      rcases List.mem_append.mp hmem with hq | hb
      · exact Linked0.valid f h.linked _ 0 t0 ht0 hlinkQ c hq
      · exact Linked0.valid f h.linked B b1 tb1 htb1 (Single.linked0 f B b1 hB) c hb
    obtain ⟨tc, hc⟩ := hex
    have := h.unvisited c tc hc
    simp only [stateOf, hc, ht0] at this ⊢
    exact this
  obtain ⟨D1, hrun, -, -, hval⟩ := prepareDurations_diamond f h.linked τ hτ h.flags.terminator
    (stateOf f 0) 0 P a1 (A ++ m0 :: M) b1 B m0 (stateOf f) (startOf f)
    (f.lines.length - 1 - (P ++ a1 :: (A ++ m0 :: M)).length) t0 ht0 hD h.pre ⟨ts, hts, hns⟩
    h.left hstop (Single.linked0 f B b1 hB) ⟨tb, [], htb, hnb⟩
    (by simp) hSall h.distinct (by omega)
  rw [withState_self, hτ0,
    show f.lines.length - 1 - (P ++ a1 :: (A ++ m0 :: M)).length +
      (P ++ a1 :: (A ++ m0 :: M)).length + 2 = f.lines.length + 1 by omega] at hrun
  obtain ⟨g, hg, hlines⟩ := analyzeRhythm_one_track nn hnn f h.linked h.flags hdt h.start t0 ht0 hr _ D1
    hrun τ hτ.nonneg (fun x t hx htimed => hval x (h.all x t hx) t hx htimed)
  refine ⟨g, hg, hsum, ?_, ?_, ?_⟩
  · intro i x t hi hx htimed
    obtain ⟨l, e1, e2⟩ := hlines x t hx htimed
    refine ⟨l, e1, ?_⟩
    rw [e2, Path.onset_after f τ hτ.link P 0 (a1 :: A) hpathA1 i x hi, hτ0, zero_add]
  · intro i x t hi hx htimed
    obtain ⟨l, e1, e2⟩ := hlines x t hx htimed
    refine ⟨l, e1, ?_⟩
    rw [e2, Path.onset_after f τ hτ.link P 0 (b1 :: B) hpathB1 i x hi, hτ0, zero_add]
  · intro j x t hj hx htimed hneg
    obtain ⟨l, e1, e2⟩ := hlines x t hx htimed
    refine ⟨l, e1, ?_⟩
    rw [e2, hmA j x hj, hτ0, zero_add, pathSum_zero_of_neg f _ hneg, add_zero,
      ← List.cons_append, pathSum_append]

theorem splitMerge_token_lt (k : Nat) (t : HumdrumToken) (h : splitMerge.tokens[k]? = some t) :
    k < 9 := by
  by_contra hc
  rw [List.getElem?_eq_none (by simp [splitMerge]; omega)] at h
  cases h

theorem splitMerge_line_cases (n : Nat) (l : HumdrumLine) (h : splitMerge.lines[n]? = some l) :
    n < 7 ∧ (l = freshLine true false false false ∨ l = freshLine true false true false) ∧
      (l.isData = true → n = 1 ∨ n = 3 ∨ n = 5) := by
  have hk : n < 7 := by
    by_contra hc
    rw [List.getElem?_eq_none (by simp [splitMerge]; omega)] at h
    cases h
  interval_cases n <;> simp [splitMerge] at h <;> subst h <;> simp [freshLine]

theorem splitMerge_wellLinked : WellLinked splitMerge := by
  refine ⟨?_, ?_⟩
  · intro i j t ht hj
    have hi := splitMerge_token_lt i t ht
    interval_cases i <;> simp [splitMerge] at ht <;> subst ht <;> simp [kernToken] at hj <;>
      first
        | (subst hj; exact ⟨_, rfl, by decide⟩)
        | (rcases hj with rfl | rfl <;> exact ⟨_, rfl, by decide⟩)
  · intro i t ht
    have hi := splitMerge_token_lt i t ht
    interval_cases i <;> simp [splitMerge] at ht <;> subst ht <;> decide

theorem splitMerge_flags : FlagsAgree splitMerge := by
  refine ⟨?_, ?_, ?_⟩
  · intro x t ht hterm
    have hx := splitMerge_token_lt x t ht
    interval_cases x <;> simp [splitMerge] at ht <;> subst ht <;>
      first | (exact absurd hterm (by decide)) | decide!
  · intro x t l _ _ hl
    rcases splitMerge_line_cases _ l hl with ⟨-, rfl | rfl, -⟩ <;> decide
  · decide

theorem splitMerge_dataTimed : DataTimed splitMerge := by
  intro n l hl _ _ hd
  obtain ⟨-, -, h3⟩ := splitMerge_line_cases n l hl
  rcases h3 hd with rfl | rfl | rfl
  · exact ⟨1, _, rfl, rfl, by decide!⟩
  · exact ⟨3, _, rfl, rfl, by decide!⟩
  · exact ⟨7, _, rfl, rfl, by decide!⟩

theorem splitMerge_diamond : Diamond splitMerge [1, 2] 3 [5] 4 [6] 7 [8] := by
  refine ⟨splitMerge_wellLinked, splitMerge_flags, rfl, ⟨_, rfl, rfl⟩, ?_, ⟨_, rfl, rfl⟩, ?_, ?_,
    ?_, ?_, by decide, ?_, ?_⟩
  · exact ⟨⟨_, rfl, rfl⟩, ⟨_, rfl, rfl⟩, trivial⟩
  · exact ⟨⟨_, rfl, rfl⟩, ⟨_, rfl, rfl⟩, ⟨_, rfl, rfl⟩, trivial⟩
  · exact ⟨⟨_, rfl, rfl⟩, ⟨_, rfl, rfl⟩, trivial⟩
  · intro tl htl
    have h8 : splitMerge.tokens[8]? = some tl := htl
    simp [splitMerge] at h8
    subst h8
    rfl
  · intro x t ht
    have hx := splitMerge_token_lt x t ht
    interval_cases x <;> decide
  · intro x t ht
    have hx := splitMerge_token_lt x t ht
    interval_cases x <;> simp [splitMerge] at ht <;> subst ht <;> decide
  · intro n l hl
    rcases splitMerge_line_cases n l hl with ⟨-, rfl | rfl, -⟩ <;> decide!

theorem splitMergeOnset_nonneg (x : Nat) : 0 ≤ splitMergeOnset x := by
  by_cases hx : x < 9
  · interval_cases x <;> decide!
  · have : splitMergeOnset x = 0 := by
      unfold splitMergeOnset
      rw [List.getD_eq_default]
      simp
      omega
    rw [this]

theorem splitMerge_timing : Timing splitMerge splitMergeOnset := by
  refine ⟨splitMergeOnset_nonneg, ?_, ?_⟩
  · intro x y tx hx hy
    have hlt := splitMerge_token_lt x tx hx
    interval_cases x <;> simp [splitMerge] at hx <;> subst hx <;> simp [kernToken] at hy <;>
      first
        | (subst hy; decide!)
        | (rcases hy with rfl | rfl <;> decide!)
  · intro x y tx ty hx hy h1 h2 h3
    have hltx := splitMerge_token_lt x tx hx
    have hlty := splitMerge_token_lt y ty hy
    interval_cases x <;> simp [splitMerge] at hx <;> subst hx <;>
      interval_cases y <;> simp [splitMerge] at hy <;> subst hy <;>
      first
        | rfl
        | (exact absurd h3 (by decide))

theorem crossedDiamond_token_lt (k : Nat) (t : HumdrumToken) (h : crossedDiamond.tokens[k]? = some t) :
    k < 9 := by
  by_contra hc
  rw [List.getElem?_eq_none (by simp [crossedDiamond]; omega)] at h
  cases h

theorem crossedDiamond_line_cases (n : Nat) (l : HumdrumLine) (h : crossedDiamond.lines[n]? = some l) :
    n < 6 ∧ (l = freshLine true false false false ∨ l = freshLine true false true false) ∧
      (l.isData = true → n = 2 ∨ n = 3) := by
  have hk : n < 6 := by
    by_contra hc
    rw [List.getElem?_eq_none (by simp [crossedDiamond]; omega)] at h
    cases h
  interval_cases n <;> simp [crossedDiamond] at h <;> subst h <;> simp [freshLine]

theorem crossedDiamond_wellLinked : WellLinked crossedDiamond := by
  refine ⟨?_, ?_⟩
  · intro i j t ht hj
    have hi := crossedDiamond_token_lt i t ht
    interval_cases i <;> simp [crossedDiamond] at ht <;> subst ht <;> simp [kernToken] at hj <;>
      first
        | (subst hj; exact ⟨_, rfl, by decide⟩)
        | (rcases hj with rfl | rfl <;> exact ⟨_, rfl, by decide⟩)
  · intro i t ht
    have hi := crossedDiamond_token_lt i t ht
    interval_cases i <;> simp [crossedDiamond] at ht <;> subst ht <;> decide

theorem crossedDiamond_flags : FlagsAgree crossedDiamond := by
  refine ⟨?_, ?_, ?_⟩
  · intro x t ht hterm
    have hx := crossedDiamond_token_lt x t ht
    interval_cases x <;> simp [crossedDiamond] at ht <;> subst ht <;>
      first | (exact absurd hterm (by decide)) | decide!
  · intro x t l _ _ hl
    rcases crossedDiamond_line_cases _ l hl with ⟨-, rfl | rfl, -⟩ <;> decide
  · decide

theorem crossedDiamond_dataTimed : DataTimed crossedDiamond := by
  intro n l hl _ _ hd
  obtain ⟨-, -, h3⟩ := crossedDiamond_line_cases n l hl
  rcases h3 hd with rfl | rfl
  · exact ⟨2, _, rfl, rfl, by decide!⟩
  · exact ⟨4, _, rfl, rfl, by decide!⟩

theorem crossedDiamond_diamond : Diamond crossedDiamond [1] 2 [4, 6] 3 [5, 7] 8 [] := by
  refine ⟨crossedDiamond_wellLinked, crossedDiamond_flags, rfl, ⟨_, rfl, rfl⟩, ?_, ⟨_, rfl, rfl⟩, ?_, ?_,
    ?_, ?_, by decide, ?_, ?_⟩
  · exact ⟨⟨_, rfl, rfl⟩, trivial⟩
  · exact ⟨⟨_, rfl, rfl⟩, ⟨_, rfl, rfl⟩, ⟨_, rfl, rfl⟩, trivial⟩
  · exact ⟨⟨_, rfl, rfl⟩, ⟨_, rfl, rfl⟩, ⟨_, rfl, rfl⟩, trivial⟩
  · intro tl htl
    have h8 : crossedDiamond.tokens[8]? = some tl := htl
    simp [crossedDiamond] at h8
    subst h8
    rfl
  · intro x t ht
    have hx := crossedDiamond_token_lt x t ht
    interval_cases x <;> decide
  · intro x t ht
    have hx := crossedDiamond_token_lt x t ht
    interval_cases x <;> simp [crossedDiamond] at ht <;> subst ht <;> decide
  · intro n l hl
    rcases crossedDiamond_line_cases n l hl with ⟨-, rfl | rfl, -⟩ <;> decide!

/-- C3 (counterexample): the file `**kern / *^ / 4c 2e / 2d 4f / *v *v / *-`
has one rhythmic track that splits once into two sub-spines which merge
again; nothing precedes the split (A = 0) and both branches sum to B = 3;
yet analyzeRhythm returns false, because the second notes of the two
branches, on one line, start at 1 and at 2. -/
theorem analyzeRhythm_crossed_diamond :
    Diamond crossedDiamond [1] 2 [4, 6] 3 [5, 7] 8 [] ∧ DataTimed crossedDiamond ∧
      pathSum crossedDiamond [0, 1] = 0 ∧
      pathSum crossedDiamond [2, 4, 6] = 3 ∧ pathSum crossedDiamond [3, 5, 7] = 3 ∧
      (analyzeRhythm (fun _ => true) crossedDiamond).map (fun r => r.1) = some false :=
  ⟨crossedDiamond_diamond, crossedDiamond_dataTimed, by decide!, by decide!, by decide!,
    by decide!⟩

theorem analyzeRhythm_diamond_witness :
    (Diamond splitMerge [1, 2] 3 [5] 4 [6] 7 [8] ∧ DataTimed splitMerge ∧
      Timing splitMerge splitMergeOnset ∧ splitMergeOnset 0 = 0) ∧
    (analyzeRhythm (fun _ => true) splitMerge).map
        (fun r => (r.1, r.2.lines.map (fun l => l.durationFromStart))) =
      some (true, [0, 0, 1, 1, 2, 2, 3]) ∧
    ∃ g, analyzeRhythm (fun _ => true) splitMerge = some (true, g) ∧
      pathSum splitMerge (3 :: [5]) = pathSum splitMerge (4 :: [6]) ∧
      (∀ (i x : Nat) (t : HumdrumToken), (3 :: [5])[i]? = some x →
        splitMerge.tokens[x]? = some t →
        isTimed t = true → ∃ l, g.lines[t.lineIndex]? = some l ∧
          l.durationFromStart =
            pathSum splitMerge (0 :: [1, 2]) + pathSum splitMerge ((3 :: [5]).take i)) ∧
      (∀ (i x : Nat) (t : HumdrumToken), (4 :: [6])[i]? = some x →
        splitMerge.tokens[x]? = some t →
        isTimed t = true → ∃ l, g.lines[t.lineIndex]? = some l ∧
          l.durationFromStart =
            pathSum splitMerge (0 :: [1, 2]) + pathSum splitMerge ((4 :: [6]).take i)) ∧
      (∀ (j x : Nat) (t : HumdrumToken), (7 :: [8])[j]? = some x →
        splitMerge.tokens[x]? = some t →
        isTimed t = true →
        (∀ y ∈ (7 :: [8]).take j, ∀ ty, splitMerge.tokens[y]? = some ty → ty.duration < 0) →
        ∃ l, g.lines[t.lineIndex]? = some l ∧
          l.durationFromStart = pathSum splitMerge (0 :: [1, 2]) + pathSum splitMerge (3 :: [5])) :=
  ⟨⟨splitMerge_diamond, splitMerge_dataTimed, splitMerge_timing, by decide!⟩, by decide!,
    analyzeRhythm_diamond (fun _ => true) (fun _ => rfl) splitMerge [1, 2] 3 [5] 4 [6] 7 [8]
      splitMerge_diamond splitMerge_dataTimed splitMergeOnset splitMerge_timing (by decide!)⟩

theorem Grow.grow_refl (st : Int) (S : Nat → Int) : Grow st S S := fun _ => Or.inl rfl

theorem Grow.grow_trans {st : Int} {S S1 S2 : Nat → Int} (h1 : Grow st S S1)
    (h2 : Grow st S1 S2) : Grow st S S2 := by
  intro y
  rcases h1 y with a | ⟨a, b⟩ <;> rcases h2 y with c | ⟨c, d⟩
  · left; rw [c, a]
  · right; exact ⟨a ▸ c, d⟩
  · right; exact ⟨a, c ▸ b⟩
  · right; exact ⟨a, d⟩

theorem Grow.keeps {st : Int} {S S1 : Nat → Int} (h : Grow st S S1) (y : Nat)
    (hy : S y ≠ st) : S1 y = S y := by
  rcases h y with a | ⟨a, -⟩
  · exact a
  · exact absurd a hy

theorem Grow.changed {st : Int} {S S1 : Nat → Int} (h : Grow st S S1) (y : Nat)
    (hy : S1 y ≠ S y) : S y = st ∧ S1 y = st + 1 := by
  rcases h y with a | a
  · exact absurd a hy
  · exact a

theorem Grow.unvisited {st : Int} {S S1 : Nat → Int} (h : Grow st S S1) (y : Nat)
    (hy : S1 y = st) : S y = st := by
  rcases h y with a | ⟨a, -⟩
  · rw [← a]; exact hy
  · exact a

theorem Grow.changed_left {st : Int} {S S1 S2 : Nat → Int} (h1 : Grow st S S1)
    (h2 : Grow st S1 S2) (y : Nat) (hy : S1 y ≠ S y) : S2 y ≠ S y := by
  obtain ⟨a, b⟩ := h1.changed y hy
  rw [h2.keeps y (by rw [b]; omega), b, a]
  omega

theorem Grow.changed_right {st : Int} {S S1 S2 : Nat → Int} (h1 : Grow st S S1)
    (h2 : Grow st S1 S2) (y : Nat) (hy : S2 y ≠ S1 y) : S2 y ≠ S y := by
  obtain ⟨a, b⟩ := h2.changed y hy
  rw [b, h1.unvisited y a]
  omega

theorem Grow.of_update (st : Int) (S : Nat → Int) (c : Nat) (h : S c = st) :
    Grow st S (Function.update S c (S c + 1)) := by
  intro y
  by_cases hy : y = c
  · subst hy
    right
    rw [Function.update_same, h]
    exact ⟨rfl, rfl⟩
  · left
    rw [Function.update_noteq hy]

theorem Grow.of_bump (st : Int) (S : Nat → Int) (cs : List Nat) (h : ∀ c ∈ cs, S c = st) :
    Grow st S (minHumdrum.bump S cs) := by
  intro y
  by_cases hy : y ∈ cs
  · right
    rw [bump_mem S cs y hy, h y hy]
    exact ⟨rfl, rfl⟩
  · left
    rw [bump_not_mem S cs y hy]

/-- A successful `setLineDurationFromStart` leaves the running sum on the
line of a timed token. -/
theorem lineStep_ok (D : Nat → HumNum) (t : HumdrumToken) (d : HumNum)
    (h : (lineStep D t d).1 = true) (ht : isTimed t = true) :
    (lineStep D t d).2 t.lineIndex = d := by
  unfold lineStep at h ⊢
  rw [if_pos ht] at h ⊢
  by_cases h1 : D t.lineIndex < 0
  · rw [if_pos h1]
    exact Function.update_same _ _ _
  · rw [if_neg h1] at h ⊢
    by_cases h2 : D t.lineIndex ≠ d
    · rw [if_pos h2] at h
      exact absurd h (by simp)
    · rw [if_neg h2]
      exact not_not.mp h2

theorem Par.par_line_lt {f0 : HumdrumFileStructure} (hw : WellLinked f0) {q c : Nat}
    (h : Par f0 q c) (tq tc : HumdrumToken) (hq : f0.tokens[q]? = some tq)
    (hc : f0.tokens[c]? = some tc) : tq.lineIndex < tc.lineIndex := by
  obtain ⟨t, ht, hmem⟩ := h
  rw [hq] at ht
  cases ht
  obtain ⟨tj, h1, h2⟩ := hw.next_valid q c tq hq hmem
  rw [hc] at h1
  cases h1
  exact h2

theorem Par.ne {f0 : HumdrumFileStructure} (hw : WellLinked f0) {q c : Nat}
    (h : Par f0 q c) : q ≠ c := by
  intro e
  subst e
  obtain ⟨t, ht, hmem⟩ := h
  obtain ⟨tj, h1, h2⟩ := hw.next_valid q q t ht hmem
  rw [ht] at h1
  cases h1
  omega

/-- Visiting a token whose previous tokens have all been visited keeps the
unvisited tokens closed under next tokens. -/
theorem Closed.visit {f0 : HumdrumFileStructure} {st : Int} {S : Nat → Int}
    (h : Closed f0 st S) (c : Nat) (hc : S c = st) (hp : ∀ q, Par f0 q c → S q ≠ st) :
    Closed f0 st (Function.update S c (S c + 1)) := by
  intro q x hpar hq
  by_cases hqc : q = c
  · subst hqc
    rw [Function.update_same] at hq
    omega
  · rw [Function.update_noteq hqc] at hq
    by_cases hx : x = c
    · subst hx
      exact absurd hq (hp q hpar)
    · rw [Function.update_noteq hx]
      exact h q x hpar hq

theorem bump_nil (S : Nat → Int) : bump S [] = S := by
  funext x
  simp [bump]

theorem Linked0.line_lt (f0 : HumdrumFileStructure) (hw : WellLinked f0) :
    ∀ (cs : List Nat) (cur : Nat) (tcur : HumdrumToken), f0.tokens[cur]? = some tcur →
      Linked0 f0 cur cs → ∀ c ∈ cs, ∀ tc, f0.tokens[c]? = some tc →
        tcur.lineIndex < tc.lineIndex := by
  intro cs
  induction cs with
  | nil => intro cur tcur _ _ c hc; simp at hc
  | cons x xs ih =>
    intro cur tcur hcur hl c hc tc htc
    obtain ⟨⟨t1, rest, ht1, hn⟩, hl2⟩ := hl
    rw [hcur] at ht1
    cases ht1
    obtain ⟨tx, hx, hlt⟩ := hw.next_valid cur x tcur hcur (by simp [hn])
    rcases List.mem_cons.mp hc with h | h
    · subst h
      rw [hx] at htc
      cases htc
      exact hlt
    · have := ih x tx hx hl2 c h tc htc
      omega

theorem Linked0.not_mem (f0 : HumdrumFileStructure) (hw : WellLinked f0)
    (cs : List Nat) (cur : Nat) (tcur : HumdrumToken) (hcur : f0.tokens[cur]? = some tcur)
    (hl : Linked0 f0 cur cs) : cur ∉ cs := by
  intro hmem
  have := Linked0.line_lt f0 hw cs cur tcur hcur hl cur hmem tcur hcur
  omega

/-- The primary loop of `prepareDurations` below an unvisited part of a file
without merges: if it returns, it has either met an inconsistency, or it has
followed the first next tokens down to a token without next token, visiting
each of them and leaving the running sum on the line of each timed one. -/
theorem primary_cond (f0 : HumdrumFileStructure) (hw : WellLinked f0) (hm : MergeFree f0)
    (st : Int) :
    ∀ (fuel cur : Nat) (S : Nat → Int) (D : Nat → HumNum) (d : HumNum) (w : Walk)
      (tcur : HumdrumToken), f0.tokens[cur]? = some tcur → Closed f0 st S → S cur ≠ st →
      (∀ c, Par f0 cur c → S c = st) → 0 ≤ d →
      prepareDurations.primary st fuel (withState f0 S D) cur d = some w →
      (∃ g, w = Walk.ret false g) ∨
      ∃ cs D2 d2, Linked0 f0 cur cs ∧
        (∃ tl, f0.tokens[(cur :: cs).getLast (List.cons_ne_nil _ _)]? = some tl ∧
          tl.nextTokens = []) ∧
        w = Walk.fall (withState f0 (bump S cs) D2)
          ((cur :: cs).getLast (List.cons_ne_nil _ _)) d2 ∧
        Ext D D2 ∧ (∀ c ∈ cs, S c = st) ∧ Closed f0 st (bump S cs) ∧
        (∀ (π : List Nat) (ty : HumdrumToken), π <+: cs → π ≠ [] →
          f0.tokens[(cur :: π).getLast (List.cons_ne_nil _ _)]? = some ty →
          isTimed ty = true → D2 ty.lineIndex = d + pathSum f0 π.dropLast) := by
  intro fuel
  induction fuel with
  | zero =>
    intro cur S D d w tcur _ _ _ _ _ h
    simp [prepareDurations.primary] at h
  | succ fuel ih =>
    intro cur S D d w tcur hcur hcl hvis hch hd h
    cases hn : tcur.nextTokens with
    | nil =>
      rw [primary_end f0 st fuel S D cur d tcur hcur hn] at h
      right
      refine ⟨[], D, d, trivial, ⟨tcur, by simpa using hcur, hn⟩, ?_, Ext.ext_refl D,
        by simp, by rw [bump_nil]; exact hcl, ?_⟩
      · rw [bump_nil]
        exact (Option.some.inj h).symm
      · intro π ty hπ hne
        exact absurd (List.prefix_nil.mp hπ) hne
    | cons c rest =>
      obtain ⟨tc, hc, -⟩ := hw.next_valid cur c tcur hcur (by simp [hn])
      have hpar : Par f0 cur c := ⟨tcur, hcur, by simp [hn]⟩
      have hSc : S c = st := hch c hpar
      rw [primary_step f0 hw st fuel S D cur c rest d tcur tc hcur hn hc,
        if_neg (not_not.mpr hSc.symm)] at h
      by_cases hls : (lineStep D tc d).1 = false
      · rw [if_pos hls] at h
        left
        exact ⟨_, (Option.some.inj h).symm⟩
      · rw [if_neg hls] at h
        have hls1 : (lineStep D tc d).1 = true := by simpa using hls
        have hcl1 : Closed f0 st (Function.update S c (S c + 1)) :=
          hcl.visit c hSc (fun q hq => by
            rw [hm.one_previous q cur c hq hpar]
            exact hvis)
        have hvis1 : Function.update S c (S c + 1) c ≠ st := by
          rw [Function.update_same]
          omega
        have hch1 : ∀ c2, Par f0 c c2 → Function.update S c (S c + 1) c2 = st := by
          intro c2 hp2
          rw [Function.update_noteq (Par.ne hw hp2).symm]
          exact hcl c c2 hp2 hSc
        rcases ih c _ _ _ w tc hc hcl1 hvis1 hch1 (add_nonneg hd (posDur_nonneg tc)) h with
          hfail | ⟨cs1, D2, d2, hl, hleaf, hw2, hext, hall, hcl2, hval⟩
        · left
          exact hfail
        · right
          have hnot : c ∉ cs1 := Linked0.not_mem f0 hw cs1 c tc hc hl
          have hb : bump (Function.update S c (S c + 1)) cs1 = bump S (c :: cs1) :=
            bump_cons S c cs1 hnot
          refine ⟨c :: cs1, D2, d2, ⟨⟨tcur, rest, hcur, hn⟩, hl⟩, ?_, ?_,
            (lineStep_ext D tc d).ext_trans hext, ?_, ?_, ?_⟩
          · rw [List.getLast_cons (List.cons_ne_nil c cs1)]
            exact hleaf
          · rw [hw2, hb]
            simp only [List.getLast_cons (List.cons_ne_nil c cs1)]
          · intro x hx
            rcases List.mem_cons.mp hx with e | e
            · rw [e]; exact hSc
            · have hxc : x ≠ c := fun e2 => hnot (by rw [← e2]; exact e)
              have := hall x e
              rwa [Function.update_noteq hxc] at this
          · rw [← hb]
            exact hcl2
          · intro π ty hπ hne hty htimed
            cases π with
            | nil => exact absurd rfl hne
            | cons p π1 =>
              obtain ⟨e, hπ1⟩ := List.cons_prefix_cons.mp hπ
              subst e
              rw [List.getLast_cons (List.cons_ne_nil p π1)] at hty
              by_cases hπe : π1 = []
              · subst hπe
                simp only [List.getLast_singleton] at hty
                rw [hc] at hty
                cases hty
                have e1 := lineStep_ok D tc d hls1 htimed
                rw [hext _ (by rw [e1]; exact hd), e1]
                simp [pathSum_nil]
              · rw [hval π1 ty hπ1 hπe hty htimed, List.dropLast_cons_of_ne_nil hπe,
                  pathSum_cons f0 p _ tc hc]
                ring

theorem pathSum_nonneg (f : HumdrumFileStructure) (cs : List Nat) : 0 ≤ pathSum f cs := by
  unfold pathSum
  apply List.sum_nonneg
  intro x hx
  simp only [List.mem_map] at hx
  obtain ⟨c, -, rfl⟩ := hx
  split
  · exact posDur_nonneg _
  · exact le_refl _

theorem lastStep_ext (D : Nat → HumNum) (t : HumdrumToken) (d : HumNum) :
    Ext D (lastStep D t d).2 := by
  unfold lastStep
  split
  · exact lineStep_ext D t d
  · exact Ext.ext_refl D

theorem Linked0.pred (f0 : HumdrumFileStructure) :
    ∀ (cs : List Nat) (cur : Nat), Linked0 f0 cur cs → ∀ c ∈ cs,
      ∃ p ∈ cur :: cs, ∃ tp rest, f0.tokens[p]? = some tp ∧ tp.nextTokens = c :: rest := by
  intro cs
  induction cs with
  | nil => intro cur _ c hc; simp at hc
  | cons x xs ih =>
    intro cur hl c hc
    obtain ⟨⟨t, rest, ht, hn⟩, hl2⟩ := hl
    rcases List.mem_cons.mp hc with e | e
    · subst e
      exact ⟨cur, by simp, t, rest, ht, hn⟩
    · obtain ⟨p, hp, h⟩ := ih x hl2 c e
      exact ⟨p, List.mem_cons_of_mem _ hp, h⟩

theorem secondary_step_none (f0 : HumdrumFileStructure)
    (recurse : HumdrumFileStructure → Nat → HumNum → Option (Bool × HumdrumFileStructure))
    (newstate : Int) (fuel : Nat)
    (S : Nat → Int) (D : Nat → HumNum) (token c : Nat) (rest : List Nat) (d : HumNum)
    (t : HumdrumToken) (ht : f0.tokens[token]? = some t)
    (hn : t.nextTokens = c :: rest)
    (hb : prepareDurations.branches recurse (withState f0 S D) rest d = none) :
    prepareDurations.secondary recurse newstate (fuel + 1) (withState f0 S D) token d = none := by
  rw [prepareDurations.secondary]
  simp [withState_tokens_get, ht, hn, hb]

theorem prepareDurations_no_token (f0 : HumdrumFileStructure) (fuel : Nat)
    (S : Nat → Int) (D : Nat → HumNum) (token : Nat) (st : Int) (d : HumNum)
    (ht : f0.tokens[token]? = none) :
    prepareDurations fuel (withState f0 S D) token st d = none := by
  cases fuel with
  | zero => rfl
  | succ n =>
    rw [prepareDurations]
    simp [withState_tokens_get, ht]

theorem prepareDurations_primary_none (f0 : HumdrumFileStructure) (hw : WellLinked f0)
    (fuel : Nat) (S : Nat → Int) (D : Nat → HumNum) (token : Nat) (st : Int) (d : HumNum)
    (t : HumdrumToken)
    (ht : f0.tokens[token]? = some t) (hs : st = S token)
    (hf : (lineStep D t d).1 = true)
    (hp : prepareDurations.primary st fuel
      (withState f0 (Function.update S token (S token + 1)) (lineStep D t d).2) token
      (d + posDur t) = none) :
    prepareDurations (fuel + 1) (withState f0 S D) token st d = none := by
  obtain ⟨l, hl⟩ := hw.line_get ht
  have hd : (if 0 < t.duration then d + t.duration else d) = d + posDur t := by
    unfold posDur
    split <;> simp
  subst hs
  rw [prepareDurations]
  simp [withState_tokens_get, ht, withState_incrementState,
    setLineDurationFromStart_withState f0 _ D token d t l ht hl, hf, hd, hp]

/-- The recursive calls of the secondary loop for the next tokens `rest` of a
visited token `p`, all unvisited. -/
theorem branches_cond (f0 : HumdrumFileStructure) (hm : MergeFree f0) (st : Int)
    (recurse : HumdrumFileStructure → Nat → HumNum → Option (Bool × HumdrumFileStructure))
    (hrec : TreeSpec f0 st recurse) (p : Nat) :
    ∀ (rest : List Nat) (S : Nat → Int) (D : Nat → HumNum) (d : HumNum)
      (g : HumdrumFileStructure), (∀ r ∈ rest, Par f0 p r) → rest.Nodup → S p ≠ st →
      (∀ r ∈ rest, S r = st) → Closed f0 st S → 0 ≤ d →
      prepareDurations.branches recurse (withState f0 S D) rest d = some (true, g) →
      ∃ S1 D1, g = withState f0 S1 D1 ∧ Ext D D1 ∧ Grow st S S1 ∧ Closed f0 st S1 ∧
        (∀ c, S1 c ≠ S c → c ∈ rest ∨ ∃ q, Par f0 q c ∧ S1 q ≠ S q) ∧
        (∀ r ∈ rest, ∀ (π : List Nat) (ty : HumdrumToken), Path f0 r π →
          f0.tokens[(r :: π).getLast (List.cons_ne_nil _ _)]? = some ty → isTimed ty = true →
          D1 ty.lineIndex = d + pathSum f0 (r :: π).dropLast) := by
  intro rest
  induction rest with
  | nil =>
    intro S D d g _ _ _ _ hcl _ h
    simp only [prepareDurations.branches, Option.some.injEq, Prod.mk.injEq, true_and] at h
    exact ⟨S, D, h.symm, Ext.ext_refl D, Grow.grow_refl st S, hcl,
      fun c hc => absurd rfl hc, fun r hr => by simp at hr⟩
  | cons r rest ih =>
    intro S D d g hpar hnd hp hun hcl hd h
    rw [prepareDurations.branches] at h
    cases hr : recurse (withState f0 S D) r d with
    | none =>
      rw [hr] at h
      simp at h
    | some res =>
      obtain ⟨b, g1⟩ := res
      rw [hr] at h
      cases b with
      | false => simp at h
      | true =>
        simp only [Option.bind_eq_bind, Option.some_bind, Bool.not_true, Bool.false_eq_true,
          if_false] at h
        rw [List.nodup_cons] at hnd
        obtain ⟨S1, D1, e1, x1, g1', c1, k1, v1⟩ := hrec r S D d g1 (hun r (by simp)) hcl
          (fun q hq => by
            rw [hm.one_previous q p r hq (hpar r (by simp))]
            exact hp) hd hr
        subst e1
        have hun1 : ∀ r2 ∈ rest, S1 r2 = st := by
          intro r2 hr2
          have hS := hun r2 (List.mem_cons_of_mem _ hr2)
          by_contra hne
          have hch : S1 r2 ≠ S r2 := by rw [hS]; exact hne
          rcases k1 r2 hch with e | ⟨q, hq, hq2⟩
          · exact hnd.1 (e ▸ hr2)
          · rw [hm.one_previous q p r2 hq (hpar r2 (List.mem_cons_of_mem _ hr2))] at hq2
            exact hq2 (g1'.keeps p hp)
        obtain ⟨S2, D2, e2, x2, g2, c2, k2, v2⟩ := ih S1 D1 d g
          (fun r2 hr2 => hpar r2 (List.mem_cons_of_mem _ hr2)) hnd.2
          (by rw [g1'.keeps p hp]; exact hp) hun1 c1 hd h
        refine ⟨S2, D2, e2, x1.ext_trans x2, g1'.grow_trans g2, c2, ?_, ?_⟩
        · intro c hc
          by_cases h21 : S2 c ≠ S1 c
          · rcases k2 c h21 with e | ⟨q, hq, hq2⟩
            · left; exact List.mem_cons_of_mem _ e
            · right; exact ⟨q, hq, g1'.changed_right g2 q hq2⟩
          · have h10 : S1 c ≠ S c := by
              rw [← not_not.mp h21]; exact hc
            rcases k1 c h10 with e | ⟨q, hq, hq2⟩
            · left; rw [e]; simp
            · right; exact ⟨q, hq, g1'.changed_left g2 q hq2⟩
        · intro r0 hr0 π ty hπ hty htimed
          rcases List.mem_cons.mp hr0 with e | e
          · subst e
            have e1 := v1 π ty hπ hty htimed
            rw [x2 _ (by rw [e1]; exact add_nonneg hd (pathSum_nonneg f0 _)), e1]
          · exact v2 r0 e π ty hπ hty htimed

/-- The secondary loop of `prepareDurations` along a chain of visited tokens
whose other next tokens are unvisited, in a file without merges. -/
theorem secondary_cond (f0 : HumdrumFileStructure) (hw : WellLinked f0) (hm : MergeFree f0)
    (st : Int)
    (recurse : HumdrumFileStructure → Nat → HumNum → Option (Bool × HumdrumFileStructure))
    (hrec : TreeSpec f0 st recurse) :
    ∀ (cs : List Nat) (cur fuel : Nat) (S : Nat → Int) (D : Nat → HumNum) (d : HumNum)
      (g : HumdrumFileStructure) (tcur : HumdrumToken), f0.tokens[cur]? = some tcur →
      Linked0 f0 cur cs →
      (∃ tl, f0.tokens[(cur :: cs).getLast (List.cons_ne_nil _ _)]? = some tl ∧
        tl.nextTokens = []) →
      (∀ c ∈ cur :: cs, S c = st + 1) →
      (∀ c ∈ cur :: cs, ∀ tc, f0.tokens[c]? = some tc → ∀ r ∈ tc.nextTokens.drop 1, S r = st) →
      Closed f0 st S → 0 ≤ d →
      prepareDurations.secondary recurse (st + 1) fuel (withState f0 S D) cur d =
        some (true, g) →
      ∃ S1 D1, g = withState f0 S1 D1 ∧ Ext D D1 ∧ Grow st S S1 ∧ Closed f0 st S1 ∧
        (∀ c, S1 c ≠ S c → ∃ q, Par f0 q c ∧ (q ∈ cur :: cs ∨ S1 q ≠ S q)) ∧
        (∀ (π : List Nat) (ty : HumdrumToken), Path f0 cur π → ¬ π <+: cs →
          f0.tokens[(cur :: π).getLast (List.cons_ne_nil _ _)]? = some ty → isTimed ty = true →
          D1 ty.lineIndex = d + pathSum f0 π.dropLast) := by
  intro cs
  induction cs with
  | nil =>
    intro cur fuel S D d g tcur hcur _ hleaf _ _ hcl _ h
    obtain ⟨tl, htl, hnl⟩ := hleaf
    simp only [List.getLast_singleton] at htl
    rw [hcur] at htl
    cases htl
    cases fuel with
    | zero => simp [prepareDurations.secondary] at h
    | succ fuel =>
      rw [secondary_end f0 recurse (st + 1) fuel S D cur d tcur hcur hnl] at h
      simp only [Option.some.injEq, Prod.mk.injEq, true_and] at h
      refine ⟨S, D, h.symm, Ext.ext_refl D, Grow.grow_refl st S, hcl,
        fun c hc => absurd rfl hc, ?_⟩
      intro π ty hπ hnp
      cases π with
      | nil => exact absurd (List.prefix_refl _) hnp
      | cons c π1 =>
        obtain ⟨⟨t, ht, hmem⟩, -⟩ := hπ
        rw [hcur] at ht
        cases ht
        rw [hnl] at hmem
        simp at hmem
  | cons c1 cs1 ih =>
    intro cur fuel S D d g tcur hcur hl hleaf hch hpend hcl hd h
    obtain ⟨⟨t, rest, ht, hn⟩, hl2⟩ := hl
    rw [hcur] at ht
    cases ht
    obtain ⟨tc1, hc1, -⟩ := hw.next_valid cur c1 tcur hcur (by simp [hn])
    have hnotcur : cur ∉ c1 :: cs1 :=
      Linked0.not_mem f0 hw _ cur tcur hcur ⟨⟨tcur, rest, hcur, hn⟩, hl2⟩
    have hparrest : ∀ r ∈ rest, Par f0 cur r :=
      fun r hr => ⟨tcur, hcur, by rw [hn]; exact List.mem_cons_of_mem _ hr⟩
    have hSc : S cur ≠ st := by
      rw [hch cur (by simp)]
      omega
    cases fuel with
    | zero => simp [prepareDurations.secondary] at h
    | succ fuel =>
      cases hbr : prepareDurations.branches recurse (withState f0 S D) rest d with
      | none =>
        rw [secondary_step_none f0 recurse (st + 1) fuel S D cur c1 rest d tcur hcur hn hbr] at h
        cases h
      | some res =>
        obtain ⟨b, g1⟩ := res
        cases b with
        | false =>
          rw [secondary_step_fail f0 recurse (st + 1) fuel S D cur c1 rest d tcur g1 hcur hn
            hbr] at h
          simp at h
        | true =>
          have hnd := hm.distinct_next cur tcur hcur
          rw [hn, List.nodup_cons] at hnd
          obtain ⟨S1, D1, e1, x1, g1', c1', k1, v1⟩ := branches_cond f0 hm st recurse hrec cur
            rest S D d g1 hparrest hnd.2 hSc
            (fun r hr => hpend cur (by simp) tcur hcur r (by rw [hn]; exact hr)) hcl hd hbr
          subst e1
          have hS1c1 : S1 c1 = st + 1 := by
            rw [g1'.keeps c1 (by rw [hch c1 (by simp)]; omega), hch c1 (by simp)]
          rw [secondary_step f0 recurse (st + 1) fuel S S1 D D1 cur c1 rest d tcur tc1 hcur hn
            hc1 hbr, if_neg (not_not.mpr hS1c1.symm)] at h
          have hch1 : ∀ c ∈ c1 :: cs1, S1 c = st + 1 := by
            intro c hc
            have := hch c (List.mem_cons_of_mem _ hc)
            rw [g1'.keeps c (by rw [this]; omega), this]
          have hpend1 : ∀ c ∈ c1 :: cs1, ∀ tc, f0.tokens[c]? = some tc →
              ∀ r ∈ tc.nextTokens.drop 1, S1 r = st := by
            intro c hc tc htc r hr
            have hS := hpend c (List.mem_cons_of_mem _ hc) tc htc r hr
            have hparc : Par f0 c r := ⟨tc, htc, List.mem_of_mem_drop hr⟩
            by_contra hne
            have hchg : S1 r ≠ S r := by rw [hS]; exact hne
            rcases k1 r hchg with e | ⟨q, hq, hq2⟩
            · have := hm.one_previous cur c r (hparrest r e) hparc
              exact hnotcur (this ▸ hc)
            · rw [hm.one_previous q c r hq hparc] at hq2
              have := hch c (List.mem_cons_of_mem _ hc)
              exact hq2 (g1'.keeps c (by rw [this]; omega))
          obtain ⟨S2, D2, e2, x2, g2, c2, k2, v2⟩ := ih c1 fuel S1 D1 (d + posDur tc1) g tc1 hc1
            hl2
            (by
              rw [List.getLast_cons (List.cons_ne_nil c1 cs1)] at hleaf
              exact hleaf)
            hch1 hpend1 c1' (add_nonneg hd (posDur_nonneg tc1)) h
          refine ⟨S2, D2, e2, x1.ext_trans x2, g1'.grow_trans g2, c2, ?_, ?_⟩
          · intro c hc
            by_cases h21 : S2 c ≠ S1 c
            · obtain ⟨q, hq, hq2⟩ := k2 c h21
              refine ⟨q, hq, ?_⟩
              rcases hq2 with e | e
              · left; exact List.mem_cons_of_mem _ e
              · right; exact g1'.changed_right g2 q e
            · have h10 : S1 c ≠ S c := by
                rw [← not_not.mp h21]; exact hc
              rcases k1 c h10 with e | ⟨q, hq, hq2⟩
              · exact ⟨cur, hparrest c e, Or.inl (by simp)⟩
              · exact ⟨q, hq, Or.inr (g1'.changed_left g2 q hq2)⟩
          · intro π ty hπ hnp hty htimed
            cases π with
            | nil => exact absurd List.nil_prefix hnp
            | cons p π1 =>
              obtain ⟨⟨t, ht, hmem⟩, hπ1⟩ := hπ
              rw [hcur] at ht
              cases ht
              rw [hn] at hmem
              rw [List.getLast_cons (List.cons_ne_nil p π1)] at hty
              rcases List.mem_cons.mp hmem with e | e
              · subst e
                have hnp1 : ¬ π1 <+: cs1 := fun hp => hnp (List.cons_prefix_cons.mpr ⟨rfl, hp⟩)
                have hne : π1 ≠ [] := by
                  intro e0
                  subst e0
                  exact hnp1 List.nil_prefix
                rw [v2 π1 ty hπ1 hnp1 hty htimed, List.dropLast_cons_of_ne_nil hne,
                  pathSum_cons f0 p _ tc1 hc1]
                ring
              · have e1 := v1 p e π1 ty hπ1 hty htimed
                rw [x2 _ (by rw [e1]; exact add_nonneg hd (pathSum_nonneg f0 _)), e1]

/-- In a file without merges, every successful call of `prepareDurations` on
an unvisited token leaves on the line of every timed token reached by a
forward path the running sum plus the positive durations along the path. -/
theorem prepareDurations_tree (f0 : HumdrumFileStructure) (hw : WellLinked f0)
    (hm : MergeFree f0) (st : Int) :
    ∀ fuel : Nat, TreeSpec f0 st (fun g x e => prepareDurations fuel g x st e) := by
  intro fuel
  induction fuel with
  | zero =>
    intro tok S D d g _ _ _ _ h
    simp [prepareDurations] at h
  | succ n ih =>
    intro tok S D d g hS hcl hpar hd h
    simp only at h
    cases htok : f0.tokens[tok]? with
    | none =>
      rw [prepareDurations_no_token f0 _ S D tok st d htok] at h
      cases h
    | some t =>
      by_cases hls : (lineStep D t d).1 = false
      · rw [prepareDurations_first_fail f0 hw n S D tok st d t htok hS.symm hls] at h
        simp at h
      · have hls1 : (lineStep D t d).1 = true := by simpa using hls
        have hcl1 : Closed f0 st (Function.update S tok (S tok + 1)) := hcl.visit tok hS hpar
        have hvis1 : Function.update S tok (S tok + 1) tok ≠ st := by
          rw [Function.update_same]
          omega
        have hch1 : ∀ c, Par f0 tok c → Function.update S tok (S tok + 1) c = st := by
          intro c hp
          rw [Function.update_noteq (Par.ne hw hp).symm]
          exact hcl tok c hp hS
        have hd1 : 0 ≤ d + posDur t := add_nonneg hd (posDur_nonneg t)
        cases hprim : prepareDurations.primary st n
            (withState f0 (Function.update S tok (S tok + 1)) (lineStep D t d).2) tok
            (d + posDur t) with
        | none =>
          rw [prepareDurations_primary_none f0 hw n S D tok st d t htok hS.symm hls1 hprim] at h
          cases h
        | some w =>
          rcases primary_cond f0 hw hm st n tok _ _ _ w t htok hcl1 hvis1 hch1 hd1 hprim with
            ⟨g1, hfail⟩ | ⟨cs, D2, d2, hl, hleaf, hw2, hext, hall, hcl2, hval⟩
          · subst hfail
            rw [prepareDurations_primary_ret f0 hw n S D tok st d t false g1 htok hS.symm hls1
              hprim] at h
            simp at h
          · subst hw2
            obtain ⟨tl, htl, hnl⟩ := hleaf
            have hnot : tok ∉ cs := Linked0.not_mem f0 hw cs tok t htok hl
            have hb : bump (Function.update S tok (S tok + 1)) cs = bump S (tok :: cs) :=
              bump_cons S tok cs hnot
            have hSall : ∀ c ∈ tok :: cs, S c = st := by
              intro c hc
              rcases List.mem_cons.mp hc with e | e
              · rw [e]; exact hS
              · have := hall c e
                rwa [Function.update_noteq (fun e2 => hnot (by rw [← e2]; exact e))] at this
            rw [prepareDurations_primary_fall f0 hw n S _ D D2 tok _ st d d2 t tl htok hS.symm
              hls1 hprim htl] at h
            by_cases hlast : (lastStep D2 tl d2).1 = false
            · rw [if_pos hlast] at h
              simp at h
            · rw [if_neg hlast, hb] at h
              rw [hb] at hcl2
              have hgrow0 : Grow st S (bump S (tok :: cs)) := Grow.of_bump st S _ hSall
              have hch3 : ∀ c ∈ tok :: cs, bump S (tok :: cs) c = st + 1 := by
                intro c hc
                rw [bump_mem S _ c hc, hSall c hc]
              have hpend : ∀ c ∈ tok :: cs, ∀ tc, f0.tokens[c]? = some tc →
                  ∀ r ∈ tc.nextTokens.drop 1, bump S (tok :: cs) r = st := by
                intro c hc tc htc r hr
                have hparc : Par f0 c r := ⟨tc, htc, List.mem_of_mem_drop hr⟩
                have hSr : S r = st := hcl c r hparc (hSall c hc)
                have hrnot : r ∉ tok :: cs := by
                  intro hmem
                  rcases List.mem_cons.mp hmem with e | e
                  · rw [e] at hparc
                    exact hpar c hparc (hSall c hc)
                  · obtain ⟨p, hp, tp, restp, htp, hnp⟩ := Linked0.pred f0 cs tok hl r e
                    have hpp : Par f0 p r := ⟨tp, htp, by simp [hnp]⟩
                    have epc := hm.one_previous p c r hpp hparc
                    subst epc
                    have etc : tp = tc := Option.some.inj (htp.symm.trans htc)
                    subst etc
                    have hnd := hm.distinct_next p tp htp
                    rw [hnp] at hnd hr
                    simp only [List.drop_succ_cons, List.drop_zero] at hr
                    exact (List.nodup_cons.mp hnd).1 hr
                rw [bump_not_mem S _ r hrnot]
                exact hSr
              obtain ⟨S1, D1, e1, x1, g1, c1, k1, v1⟩ := secondary_cond f0 hw hm st _ ih cs tok n
                (bump S (tok :: cs)) (lastStep D2 tl d2).2 (d + posDur t) g t htok hl
                ⟨tl, htl, hnl⟩ hch3 hpend hcl2 hd1 h
              have hx02 : Ext D D2 := (lineStep_ext D t d).ext_trans hext
              have hx23 : Ext D2 (lastStep D2 tl d2).2 := lastStep_ext D2 tl d2
              have hx21 : Ext D2 D1 := hx23.ext_trans x1
              have hchain : ∀ c ∈ tok :: cs, S1 c ≠ S c := by
                intro c hc
                rw [g1.keeps c (by rw [hch3 c hc]; omega), hch3 c hc, hSall c hc]
                omega
              refine ⟨S1, D1, e1, hx02.ext_trans hx21, hgrow0.grow_trans g1, c1, ?_, ?_⟩
              · intro c hc
                by_cases h21 : S1 c ≠ bump S (tok :: cs) c
                · obtain ⟨q, hq, hq2⟩ := k1 c h21
                  right
                  refine ⟨q, hq, ?_⟩
                  rcases hq2 with e | e
                  · exact hchain q e
                  · exact hgrow0.changed_right g1 q e
                · have h10 : bump S (tok :: cs) c ≠ S c := by
                    rw [← not_not.mp h21]; exact hc
                  have hmem : c ∈ tok :: cs := by
                    by_contra hn
                    exact h10 (bump_not_mem S _ c hn)
                  rcases List.mem_cons.mp hmem with e | e
                  · left; exact e
                  · obtain ⟨p, hp, tp, restp, htp, hnp⟩ := Linked0.pred f0 cs tok hl c e
                    right
                    exact ⟨p, ⟨tp, htp, by simp [hnp]⟩, hchain p hp⟩
              · intro π ty hπ hty htimed
                by_cases hpre : π <+: cs
                · by_cases hπe : π = []
                  · subst hπe
                    simp only [List.getLast_singleton] at hty
                    have ety : t = ty := Option.some.inj (htok.symm.trans hty)
                    subst ety
                    have e0 := lineStep_ok D t d hls1 htimed
                    have e2 := hext _ (by rw [e0]; exact hd)
                    rw [hx21 _ (by rw [e2, e0]; exact hd), e2, e0]
                    simp [pathSum_nil]
                  · have e2 := hval π ty hpre hπe hty htimed
                    rw [hx21 _ (by rw [e2]; exact add_nonneg hd1 (pathSum_nonneg f0 _)), e2,
                      List.dropLast_cons_of_ne_nil hπe, pathSum_cons f0 tok _ t htok]
                    ring
                · have hπe : π ≠ [] := by
                    intro e0
                    subst e0
                    exact hpre List.nil_prefix
                  rw [v1 π ty hπ hpre hty htimed, List.dropLast_cons_of_ne_nil hπe,
                    pathSum_cons f0 tok _ t htok]
                  ring

theorem getTrackStart_withState (f0 : HumdrumFileStructure) (S : Nat → Int) (D : Nat → HumNum)
    (i : Nat) : getTrackStart (withState f0 S D) i = getTrackStart f0 i := rfl

theorem getTrackStart_inj (f : HumdrumFileStructure) (hnd : f.trackstarts.Nodup) (i j s : Nat)
    (hi : getTrackStart f i = some s) (hj : getTrackStart f j = some s) : i = j := by
  unfold getTrackStart at hi hj
  split at hi
  · cases hi
  · split at hj
    · cases hj
    · have hi1 : i - 1 < f.trackstarts.length := by
        by_contra hc
        rw [List.getElem?_eq_none (by omega)] at hi
        cases hi
      have hj1 : j - 1 < f.trackstarts.length := by
        by_contra hc
        rw [List.getElem?_eq_none (by omega)] at hj
        cases hj
      rw [List.getElem?_eq_getElem hi1] at hi
      rw [List.getElem?_eq_getElem hj1] at hj
      have := (List.Nodup.getElem_inj_iff hnd).mp ((Option.some.inj hi).trans (Option.some.inj hj).symm)
      omega

theorem stateOf_withState (f0 : HumdrumFileStructure) (S : Nat → Int) (D : Nat → HumNum)
    (x : Nat) (t : HumdrumToken) (h : f0.tokens[x]? = some t) :
    stateOf (withState f0 S D) x = S x := by
  unfold stateOf
  rw [withState_tokens_get, h]
  rfl

/-- The second loop of `analyzeRhythm` does nothing when every rhythmic
track starts on the line `startline`. -/
theorem second_noop (startline : Nat) :
    ∀ (n i : Nat) (f : HumdrumFileStructure) (r : Bool × HumdrumFileStructure),
      (∀ (j s : Nat) (t : HumdrumToken), getTrackStart f j = some s → f.tokens[s]? = some t →
        t.hasRhythm = true → t.lineIndex = startline) →
      analyzeRhythm.second startline n i f = some r → r = (true, f) := by
  intro n
  induction n with
  | zero =>
    intro i f r _ h
    simp only [analyzeRhythm.second, Option.some.injEq] at h
    exact h.symm
  | succ n ih =>
    intro i f r hs h
    rw [analyzeRhythm.second] at h
    obtain ⟨s, h1, h⟩ := Option.bind_eq_some.mp h
    obtain ⟨t, h2, h⟩ := Option.bind_eq_some.mp h
    by_cases hr : t.hasRhythm = true
    · have hline := hs i s t h1 h2 hr
      rw [if_neg (by simp [hr]), if_neg (by simp [hline])] at h
      exact ih (i + 1) f r hs h
    · rw [if_pos (by simpa using hr)] at h
      exact ih (i + 1) f r hs h

/-- The first loop of `analyzeRhythm` over the tracks `i, ..., i + n - 1` of
a file without merges whose track starts are unvisited and have no previous
token: if it succeeds, then for every rhythmic one of these tracks starting
on `startline`, the line of every timed token reached by a forward path from
the track start holds the positive durations along the path. -/
theorem first_cond (f0 : HumdrumFileStructure) (hw : WellLinked f0) (hm : MergeFree f0)
    (st : Int) (startline : Nat)
    (hroot : ∀ (i s : Nat), getTrackStart f0 i = some s → ∀ q, ¬ Par f0 q s)
    (hnd : f0.trackstarts.Nodup) :
    ∀ (n i : Nat) (S : Nat → Int) (D : Nat → HumNum) (g : HumdrumFileStructure),
      Closed f0 st S →
      (∀ (j s : Nat) (ts : HumdrumToken), i ≤ j → getTrackStart f0 j = some s →
        f0.tokens[s]? = some ts → S s = st) →
      analyzeRhythm.first startline n i (withState f0 S D) = some (true, g) →
      ∃ S1 D1, g = withState f0 S1 D1 ∧ Ext D D1 ∧
        ∀ (j s : Nat) (ts : HumdrumToken), i ≤ j → j < i + n → getTrackStart f0 j = some s →
          f0.tokens[s]? = some ts → ts.hasRhythm = true → ts.lineIndex = startline →
          ∀ (π : List Nat) (ty : HumdrumToken), Path f0 s π →
            f0.tokens[(s :: π).getLast (List.cons_ne_nil _ _)]? = some ty → isTimed ty = true →
            D1 ty.lineIndex = pathSum f0 (s :: π).dropLast := by
  intro n
  induction n with
  | zero =>
    intro i S D g _ _ h
    simp only [analyzeRhythm.first, Option.some.injEq, Prod.mk.injEq, true_and] at h
    exact ⟨S, D, h.symm, Ext.ext_refl D, fun j s ts h1 h2 => by omega⟩
  | succ n ih =>
    intro i S D g hcl hun h
    rw [analyzeRhythm.first] at h
    obtain ⟨s, h1, h⟩ := Option.bind_eq_some.mp h
    obtain ⟨t1, h2, h⟩ := Option.bind_eq_some.mp h
    rw [getTrackStart_withState] at h1
    rw [withState_tokens_get] at h2
    cases hs : f0.tokens[s]? with
    | none =>
      rw [hs] at h2
      cases h2
    | some ts =>
      rw [hs] at h2
      simp only [Option.map_some', Option.some.injEq] at h2
      subst h2
      have hskip : analyzeRhythm.first startline n (i + 1) (withState f0 S D) = some (true, g) →
          ¬ (ts.hasRhythm = true ∧ ts.lineIndex = startline) →
          ∃ S1 D1, g = withState f0 S1 D1 ∧ Ext D D1 ∧
            ∀ (j s : Nat) (ts : HumdrumToken), i ≤ j → j < i + (n + 1) →
              getTrackStart f0 j = some s →
              f0.tokens[s]? = some ts → ts.hasRhythm = true → ts.lineIndex = startline →
              ∀ (π : List Nat) (ty : HumdrumToken), Path f0 s π →
                f0.tokens[(s :: π).getLast (List.cons_ne_nil _ _)]? = some ty →
                isTimed ty = true → D1 ty.lineIndex = pathSum f0 (s :: π).dropLast := by
        intro h' hnot
        obtain ⟨S1, D1, e1, x1, v1⟩ := ih (i + 1) S D g hcl
          (fun j s2 ts2 hj => hun j s2 ts2 (by omega)) h'
        refine ⟨S1, D1, e1, x1, ?_⟩
        intro j s2 ts2 hj1 hj2 hg2 hts2 hr2 hl2
        by_cases hji : j = i
        · subst hji
          rw [h1] at hg2
          cases hg2
          rw [hs] at hts2
          cases hts2
          exact absurd ⟨hr2, hl2⟩ hnot
        · exact v1 j s2 ts2 (by omega) (by omega) hg2 hts2 hr2 hl2
      by_cases hr : ts.hasRhythm = true
      · by_cases hline : ts.lineIndex = startline
        · simp only [hr, Bool.not_true, Bool.false_eq_true, if_false, hline, if_true] at h
          obtain ⟨r, h3, h⟩ := Option.bind_eq_some.mp h
          obtain ⟨b, g1⟩ := r
          cases b with
          | false => simp at h
          | true =>
            simp only [Bool.not_true, Bool.false_eq_true, if_false] at h
            have hSs : S s = st := hun i s ts (le_refl i) h1 hs
            have hts1 : (withState f0 S D).tokens[s]? = some { ts with rhycheck := S s } := by
              rw [withState_tokens_get, hs]
              rfl
            rw [assignDurationsToTrack_eq (withState f0 S D) s _ 0 hts1 hr,
              stateOf_withState f0 S D s ts hs, hSs, withState_lines_length] at h3
            obtain ⟨S1, D1, e1, x1, g1', c1, k1, v1⟩ :=
              prepareDurations_tree f0 hw hm st (f0.lines.length + 1) s S D 0 g1 hSs hcl
                (fun q hq => absurd hq (hroot i s h1 q)) (le_refl 0) h3
            subst e1
            have hun1 : ∀ (j s2 : Nat) (ts2 : HumdrumToken), i + 1 ≤ j →
                getTrackStart f0 j = some s2 → f0.tokens[s2]? = some ts2 → S1 s2 = st := by
              intro j s2 ts2 hj hg2 hts2
              have hS2 := hun j s2 ts2 (by omega) hg2 hts2
              by_contra hne
              have hchg : S1 s2 ≠ S s2 := by rw [hS2]; exact hne
              rcases k1 s2 hchg with e | ⟨q, hq, -⟩
              · subst e
                have := getTrackStart_inj f0 hnd i j s2 h1 hg2
                omega
              · exact hroot j s2 hg2 q hq
            obtain ⟨S2, D2, e2, x2, v2⟩ := ih (i + 1) S1 D1 g c1 hun1 h
            refine ⟨S2, D2, e2, x1.ext_trans x2, ?_⟩
            intro j s2 ts2 hj1 hj2 hg2 hts2 hr2 hl2 π ty hπ hty htimed
            by_cases hji : j = i
            · subst hji
              rw [h1] at hg2
              cases hg2
              have e3 := v1 π ty hπ hty htimed
              rw [zero_add] at e3
              rw [x2 _ (by rw [e3]; exact pathSum_nonneg f0 _), e3]
            · exact v2 j s2 ts2 (by omega) (by omega) hg2 hts2 hr2 hl2 π ty hπ hty htimed
        · simp only [hr, Bool.not_true, Bool.false_eq_true, if_false, hline] at h
          exact hskip h (fun hc => hline hc.2)
      · have hr0 : ts.hasRhythm = false := by simpa using hr
        simp only [hr0, Bool.not_false, if_true] at h
        exact hskip h (fun hc => hr hc.1)

theorem getTrackStart_range (f : HumdrumFileStructure) (i s : Nat)
    (h : getTrackStart f i = some s) : 1 ≤ i ∧ i < 1 + getMaxTrack f := by
  unfold getTrackStart at h
  split at h
  · cases h
  · have hi1 : i - 1 < f.trackstarts.length := by
      by_contra hc
      rw [List.getElem?_eq_none (by omega)] at h
      cases h
    unfold getMaxTrack
    omega

/-- The start times after a successful `analyzeRhythm` on a file without
merges whose rhythmic tracks start on one line. -/
theorem analyzeRhythm_tree (nn : HumdrumFileStructure → Bool) (f : HumdrumFileStructure)
    (h : MergeFreeFile f) (hsame : SameStartLine f) (g : HumdrumFileStructure)
    (hrun : analyzeRhythm nn f = some (true, g))
    (i s : Nat) (ts : HumdrumToken) (π : List Nat) (ty : HumdrumToken)
    (hg : getTrackStart f i = some s) (hts : f.tokens[s]? = some ts)
    (hr : ts.hasRhythm = true) (hπ : Path f s π)
    (hty : f.tokens[(s :: π).getLast (List.cons_ne_nil _ _)]? = some ty)
    (htimed : isTimed ty = true) :
    ∃ l, g.lines[ty.lineIndex]? = some l ∧
      l.durationFromStart = pathSum f (s :: π).dropLast := by
  obtain ⟨hi1, hi2⟩ := getTrackStart_range f i s hg
  have hmax : getMaxTrack f ≠ 0 := by omega
  rw [analyzeRhythm_eq nn f hmax] at hrun
  obtain ⟨s1, h1, hrun⟩ := Option.bind_eq_some.mp hrun
  obtain ⟨t1, h2, hrun⟩ := Option.bind_eq_some.mp hrun
  obtain ⟨r1, h3, hrun⟩ := Option.bind_eq_some.mp hrun
  obtain ⟨b1, f1⟩ := r1
  cases b1 with
  | false => simp at hrun
  | true =>
    simp only [Bool.not_true, Bool.false_eq_true, if_false] at hrun
    obtain ⟨r2, h4, hrun⟩ := Option.bind_eq_some.mp hrun
    -- the first loop
    have h3' : analyzeRhythm.first t1.lineIndex (getMaxTrack f) 1
        (withState f (stateOf f) (startOf f)) = some (true, f1) := by
      rw [withState_self]
      exact h3
    have hstate : ∀ (x : Nat) (tx : HumdrumToken), f.tokens[x]? = some tx →
        stateOf f x = t1.rhycheck := by
      intro x tx hx
      unfold stateOf
      rw [hx]
      exact h.unvisited x s1 tx t1 hx h2
    have hcl : Closed f t1.rhycheck (stateOf f) := by
      intro q c hpar _
      obtain ⟨tq, hq, hc⟩ := hpar
      obtain ⟨tc, htc, -⟩ := h.linked.next_valid q c tq hq hc
      exact hstate c tc htc
    obtain ⟨S1, D1, e1, -, v1⟩ := first_cond f h.linked h.tree t1.rhycheck t1.lineIndex h.roots
      h.starts (getMaxTrack f) 1 (stateOf f) (startOf f) f1 hcl
      (fun j s2 ts2 _ _ hts2 => hstate s2 ts2 hts2) h3'
    subst e1
    have hval := v1 i s ts hi1 hi2 hg hts hr (hsame i s s1 ts t1 hg hts hr h1 h2) π ty hπ hty
      htimed
    -- the second loop
    have h4' := second_noop t1.lineIndex (getMaxTrack f) 1 (withState f S1 D1) r2
      (by
        intro j s2 t2 hg2 ht2 hr2
        rw [getTrackStart_withState] at hg2
        rw [withState_tokens_get] at ht2
        cases hs2 : f.tokens[s2]? with
        | none => rw [hs2] at ht2; cases ht2
        | some ts2 =>
          rw [hs2] at ht2
          simp only [Option.map_some', Option.some.injEq] at ht2
          subst ht2
          exact hsame j s2 s1 ts2 t1 hg2 hs2 hr2 h1 h2)
      h4
    subst h4'
    simp only [Bool.not_true, Bool.false_eq_true, if_false] at hrun
    -- the rest of the analysis
    have hlines1 : (withState f S1 D1).lines.length = f.lines.length :=
      withState_lines_length _ _ _
    have hpos := h.linked.line_valid s ts hts
    obtain ⟨b, g', htail, hkeep, -⟩ := rhythmTail_spec nn (withState f S1 D1)
      (by
        intro h0
        have h00 : f.lines.length = 0 := by rw [← hlines1, h0]; rfl
        omega)
      (by rw [hlines1]; exact h.size)
    rw [hrun] at htail
    simp only [Option.some.injEq, Prod.mk.injEq] at htail
    obtain ⟨hb, hg'⟩ := htail
    subst hg'
    obtain ⟨l, hl⟩ := h.linked.line_get hty
    have hl1 : (withState f S1 D1).lines[ty.lineIndex]? =
        some { l with durationFromStart := D1 ty.lineIndex } := by
      rw [withState_lines_get, hl]
      rfl
    obtain ⟨l2, e1, e2⟩ := hkeep hb.symm ty.lineIndex _ hl1
      (by simp only; rw [hval]; exact pathSum_nonneg f _)
      (by
        have := h.timed_not_null _ ty l hty htimed hl
        simpa [isNullData] using this)
    exact ⟨l2, e1, by rw [e2]; simp only; exact hval⟩

theorem splitOnly_token_lt (k : Nat) (t : HumdrumToken) (h : splitOnly.tokens[k]? = some t) :
    k < 10 := by
  by_contra hc
  rw [List.getElem?_eq_none (by simp [splitOnly]; omega)] at h
  cases h

theorem splitOnly_wellLinked : WellLinked splitOnly := by
  refine ⟨?_, ?_⟩
  · intro i j t ht hj
    have hi := splitOnly_token_lt i t ht
    interval_cases i <;> simp [splitOnly] at ht <;> subst ht <;> simp [kernToken] at hj <;>
      first
        | (subst hj; exact ⟨_, rfl, by decide⟩)
        | (rcases hj with rfl | rfl <;> exact ⟨_, rfl, by decide⟩)
  · intro i t ht
    have hi := splitOnly_token_lt i t ht
    interval_cases i <;> simp [splitOnly] at ht <;> subst ht <;> decide

theorem splitOnly_mergeFree : MergeFree splitOnly := by
  refine ⟨?_, ?_⟩
  · rintro q q1 c ⟨tq, hq, hc⟩ ⟨tq1, hq1, hc1⟩
    have h1 := splitOnly_token_lt q tq hq
    have h2 := splitOnly_token_lt q1 tq1 hq1
    interval_cases q <;> simp [splitOnly] at hq <;> subst hq <;> simp [kernToken] at hc <;>
      interval_cases q1 <;> simp [splitOnly] at hq1 <;> subst hq1 <;>
      simp [kernToken] at hc1 <;> omega
  · intro q tq hq
    have h1 := splitOnly_token_lt q tq hq
    interval_cases q <;> simp [splitOnly] at hq <;> subst hq <;> decide

theorem splitOnly_mergeFreeFile : MergeFreeFile splitOnly := by
  refine ⟨splitOnly_wellLinked, splitOnly_mergeFree, ?_, by decide, ?_, ?_, by decide⟩
  · rintro i s hg q ⟨tq, hq, hc⟩
    have hi := getTrackStart_range splitOnly i s hg
    have hi2 : i < 3 := hi.2
    have hi1 := hi.1
    have h1 := splitOnly_token_lt q tq hq
    interval_cases i <;> simp [getTrackStart, splitOnly] at hg <;> subst hg <;>
      interval_cases q <;> simp [splitOnly] at hq <;> subst hq <;> simp [kernToken] at hc
  · have h0 : ∀ (x : Nat) (tx : HumdrumToken), splitOnly.tokens[x]? = some tx →
        tx.rhycheck = 0 := by
      intro x tx hx
      have h1 := splitOnly_token_lt x tx hx
      interval_cases x <;> simp [splitOnly] at hx <;> subst hx <;> rfl
    intro x y tx ty hx hy
    rw [h0 x tx hx, h0 y ty hy]
  · intro x t l _ _ hl
    have hk : t.lineIndex < 4 := by
      by_contra hc
      rw [List.getElem?_eq_none (by simp [splitOnly]; omega)] at hl
      cases hl
    generalize t.lineIndex = n at hl hk
    interval_cases n <;> simp [splitOnly] at hl <;> subst hl <;> decide

theorem splitOnly_sameStartLine : SameStartLine splitOnly := by
  intro i s s1 ts t1 hg hts _ hg1 ht1
  have hi := getTrackStart_range splitOnly i s hg
  have hi2 : i < 3 := hi.2
  have hi1 := hi.1
  simp [getTrackStart, splitOnly] at hg1
  subst hg1
  simp [splitOnly] at ht1
  subst ht1
  interval_cases i <;> simp [getTrackStart, splitOnly] at hg <;> subst hg <;>
    simp [splitOnly] at hts <;> subst hts <;> rfl

/-- C1 (amended): path-sum consistency on files without merges.  Whenever
analyzeRhythm returns true on a freshly parsed file in which no sub-spines
merge and whose rhythmic tracks all start on the same line as track 1, then
for every token of a rhythmic track that has a non-negative duration or is a
terminator, and for every forward path along next tokens from the start token
of its track to it, the positive durations of the tokens on the path strictly
before it sum to the duration_from_start of its line; hence two such paths
reaching the same line have equal sums. -/
theorem analyzeRhythm_path_sums (nn : HumdrumFileStructure → Bool) (f : HumdrumFileStructure)
    (h : MergeFreeFile f) (hsame : SameStartLine f) (g : HumdrumFileStructure)
    (hrun : analyzeRhythm nn f = some (true, g)) :
    (∀ (i s : Nat) (ts : HumdrumToken) (π : List Nat) (ty : HumdrumToken),
      getTrackStart f i = some s → f.tokens[s]? = some ts → ts.hasRhythm = true →
      Path f s π → f.tokens[(s :: π).getLast (List.cons_ne_nil _ _)]? = some ty →
      isTimed ty = true →
      ∃ l, g.lines[ty.lineIndex]? = some l ∧
        l.durationFromStart = pathSum f (s :: π).dropLast) ∧
    (∀ (i j s r : Nat) (ts tr : HumdrumToken) (π ρ : List Nat) (ty tz : HumdrumToken),
      getTrackStart f i = some s → f.tokens[s]? = some ts → ts.hasRhythm = true →
      Path f s π → f.tokens[(s :: π).getLast (List.cons_ne_nil _ _)]? = some ty →
      isTimed ty = true →
      getTrackStart f j = some r → f.tokens[r]? = some tr → tr.hasRhythm = true →
      Path f r ρ → f.tokens[(r :: ρ).getLast (List.cons_ne_nil _ _)]? = some tz →
      isTimed tz = true → ty.lineIndex = tz.lineIndex →
      pathSum f (s :: π).dropLast = pathSum f (r :: ρ).dropLast) := by
  refine ⟨fun i s ts π ty hg hts hr hπ hty htimed =>
    analyzeRhythm_tree nn f h hsame g hrun i s ts π ty hg hts hr hπ hty htimed, ?_⟩
  intro i j s r ts tr π ρ ty tz hg hts hr hπ hty htimed hg2 htr hr2 hρ htz htimed2 hline
  obtain ⟨l, e1, e2⟩ := analyzeRhythm_tree nn f h hsame g hrun i s ts π ty hg hts hr hπ hty htimed
  obtain ⟨l2, e3, e4⟩ :=
    analyzeRhythm_tree nn f h hsame g hrun j r tr ρ tz hg2 htr hr2 hρ htz htimed2
  rw [hline, e3] at e1
  cases e1
  rw [← e2, ← e4]

/-- C1 (counterexample): on the file `**kern / *^ / 4c 2e / *v *v / 4g / *-`
(one track) analyzeRhythm returns true and gives line 4, which holds `4g`,
the start time 1; but the forward path from the track start through the
second sub-spine to `4g` passes `2e`, and the positive durations before `4g`
on it sum to 2. -/
theorem analyzeRhythm_misses_merge :
    (analyzeRhythm (fun _ => true) looseDiamond).map
        (fun r => (r.1, r.2.lines.map (fun l => l.durationFromStart))) =
      some (true, [0, 0, 0, 1, 1, 2]) ∧
    getTrackStart looseDiamond 1 = some 0 ∧ getMaxTrack looseDiamond = 1 ∧
    Path looseDiamond 0 [1, 3, 5, 6] ∧
    looseDiamond.tokens[6]? = some (kernToken 4 1 [7] [4, 5] false) ∧
    isTimed (kernToken 4 1 [7] [4, 5] false) = true ∧
    pathSum looseDiamond [0, 1, 3, 5] = 2 :=
  ⟨by decide!, rfl, rfl,
    ⟨⟨_, rfl, by decide⟩, ⟨_, rfl, by decide⟩, ⟨_, rfl, by decide⟩, ⟨_, rfl, by decide⟩, trivial⟩,
    rfl, by decide!, by decide!⟩

theorem analyzeRhythm_path_sums_witness :
    MergeFreeFile splitOnly ∧ SameStartLine splitOnly ∧
    (analyzeRhythm (fun _ => true) splitOnly).map
        (fun r => (r.1, r.2.lines.map (fun l => l.durationFromStart))) =
      some (true, [0, 0, 0, 1]) ∧
    ∃ g, analyzeRhythm (fun _ => true) splitOnly = some (true, g) ∧
      (∀ (i s : Nat) (ts : HumdrumToken) (π : List Nat) (ty : HumdrumToken),
        getTrackStart splitOnly i = some s → splitOnly.tokens[s]? = some ts →
        ts.hasRhythm = true → Path splitOnly s π →
        splitOnly.tokens[(s :: π).getLast (List.cons_ne_nil _ _)]? = some ty →
        isTimed ty = true →
        ∃ l, g.lines[ty.lineIndex]? = some l ∧
          l.durationFromStart = pathSum splitOnly (s :: π).dropLast) ∧
      (∀ (i j s r : Nat) (ts tr : HumdrumToken) (π ρ : List Nat) (ty tz : HumdrumToken),
        getTrackStart splitOnly i = some s → splitOnly.tokens[s]? = some ts →
        ts.hasRhythm = true → Path splitOnly s π →
        splitOnly.tokens[(s :: π).getLast (List.cons_ne_nil _ _)]? = some ty →
        isTimed ty = true →
        getTrackStart splitOnly j = some r → splitOnly.tokens[r]? = some tr →
        tr.hasRhythm = true → Path splitOnly r ρ →
        splitOnly.tokens[(r :: ρ).getLast (List.cons_ne_nil _ _)]? = some tz →
        isTimed tz = true → ty.lineIndex = tz.lineIndex →
        pathSum splitOnly (s :: π).dropLast = pathSum splitOnly (r :: ρ).dropLast) := by
  have hrun : (analyzeRhythm (fun _ => true) splitOnly).map (fun r => r.1) = some true := by
    decide!
  refine ⟨splitOnly_mergeFreeFile, splitOnly_sameStartLine, by decide!, ?_⟩
  cases hres : analyzeRhythm (fun _ => true) splitOnly with
  | none =>
    rw [hres] at hrun
    cases hrun
  | some res =>
    obtain ⟨b, g⟩ := res
    rw [hres] at hrun
    simp only [Option.map_some', Option.some.injEq] at hrun
    subst hrun
    exact ⟨g, rfl, analyzeRhythm_path_sums (fun _ => true) splitOnly splitOnly_mergeFreeFile
      splitOnly_sameStartLine g hres⟩

/-- C19: the nine option flags PRIMARY, NOEMPTY, NONULL, NOINTERP, NOMANIP,
NOCOMMENT, NOGLOBAL, NOREST, NOTIE are the single bits 2^0, ..., 2^8 (so
pairwise distinct, and no two share a bit); OPT_DATA is exactly
NOMANIP | NOCOMMENT | NOGLOBAL and OPT_ATTACKS exactly
OPT_DATA | NOREST | NOTIE | NONULL; ATTACKS contains every bit of DATA, and
neither alias contains PRIMARY, NOEMPTY or NOINTERP. -/
theorem option_flags_spec :
    [OPT_PRIMARY, OPT_NOEMPTY, OPT_NONULL, OPT_NOINTERP, OPT_NOMANIP, OPT_NOCOMMENT,
        OPT_NOGLOBAL, OPT_NOREST, OPT_NOTIE] = (List.range 9).map (fun k => 2 ^ k) ∧
      [OPT_PRIMARY, OPT_NOEMPTY, OPT_NONULL, OPT_NOINTERP, OPT_NOMANIP, OPT_NOCOMMENT,
        OPT_NOGLOBAL, OPT_NOREST, OPT_NOTIE].Pairwise (fun a b => a ≠ b ∧ a &&& b = 0) ∧
      OPT_DATA = OPT_NOMANIP ||| OPT_NOCOMMENT ||| OPT_NOGLOBAL ∧
      OPT_DATA = 0x070 ∧
      OPT_ATTACKS = OPT_DATA ||| OPT_NOREST ||| OPT_NOTIE ||| OPT_NONULL ∧
      OPT_ATTACKS = 0x1F4 ∧
      OPT_ATTACKS &&& OPT_DATA = OPT_DATA ∧
      OPT_DATA &&& (OPT_PRIMARY ||| OPT_NOEMPTY ||| OPT_NOINTERP) = 0 ∧
      OPT_ATTACKS &&& (OPT_PRIMARY ||| OPT_NOEMPTY ||| OPT_NOINTERP) = 0 := by
  decide

theorem intPlusSize_eq (i : Int) (n : Nat) (h1 : -2 ^ 31 ≤ i + n) (h2 : i + n < 2 ^ 31) :
    intPlusSize i n = i + n := by
  unfold intPlusSize
  norm_num at h1 h2 ⊢
  split <;> omega

/-- C18: for a barline list of size n and every index i of type `int`,
getBarline never reads outside the list; and when n fits the `int` type
(n < 2^31) it returns entry i when 0 <= i < n, entry n + i when -n <= i < 0,
and NULL otherwise (in particular for every i when n = 0). -/
theorem getBarline_spec (f : HumdrumFileStructure) (i : Int) (hi1 : -2 ^ 31 ≤ i)
    (hi2 : i < 2 ^ 31) :
    getBarline f i ≠ none ∧
    (f.barlines.length < 2 ^ 31 →
      (0 ≤ i → i < f.barlines.length →
        ∃ b, f.barlines[i.toNat]? = some b ∧ getBarline f i = some (some b)) ∧
      (-(f.barlines.length : Int) ≤ i → i < 0 →
        ∃ b, f.barlines[(f.barlines.length + i).toNat]? = some b ∧
          getBarline f i = some (some b)) ∧
      ((i < -(f.barlines.length : Int) ∨ (f.barlines.length : Int) ≤ i) →
        getBarline f i = some none) ∧
      (f.barlines.length = 0 → getBarline f i = some none)) := by
  have hget : ∀ j : Int, 0 ≤ j → j < f.barlines.length →
      ∃ b, f.barlines[j.toNat]? = some b := by
    intro j h0 h1
    have hj : j.toNat < f.barlines.length := by omega
    exact ⟨f.barlines[j.toNat], List.getElem?_eq_getElem hj⟩
  have hsafe : ∀ j : Int, getBarline.entry f j ≠ none := by
    intro j
    unfold getBarline.entry
    split
    · simp
    · split
      · simp
      · obtain ⟨b, hb⟩ := hget j (by omega) (by omega)
        rw [hb]
        simp
  have hval : ∀ j : Int, 0 ≤ j → j < f.barlines.length → ∀ b, f.barlines[j.toNat]? = some b →
      getBarline.entry f j = some (some b) := by
    intro j h0 h1 b hb
    unfold getBarline.entry
    rw [if_neg (by omega), if_neg (by omega), hb]
    rfl
  have hnull : ∀ j : Int, (j < 0 ∨ (f.barlines.length : Int) ≤ j) →
      getBarline.entry f j = some none := by
    intro j h
    unfold getBarline.entry
    by_cases h0 : j < 0
    · rw [if_pos h0]
    · rw [if_neg h0, if_pos (by omega)]
  refine ⟨hsafe _, fun hn => ⟨?_, ?_, ?_, ?_⟩⟩
  · intro h0 h1
    obtain ⟨b, hb⟩ := hget i h0 h1
    refine ⟨b, hb, ?_⟩
    unfold getBarline
    rw [if_neg (not_lt.mpr h0)]
    exact hval i h0 h1 b hb
  · intro h0 h1
    have e := intPlusSize_eq i f.barlines.length (by omega) (by omega)
    obtain ⟨b, hb⟩ := hget (f.barlines.length + i) (by omega) (by omega)
    refine ⟨b, hb, ?_⟩
    unfold getBarline
    rw [if_pos h1, e, add_comm]
    exact hval _ (by omega) (by omega) b hb
  · intro h
    unfold getBarline
    by_cases hneg : i < 0
    · have e := intPlusSize_eq i f.barlines.length (by omega) (by omega)
      rw [if_pos hneg, e]
      exact hnull _ (by omega)
    · rw [if_neg hneg]
      exact hnull _ (by omega)
  · intro h0
    unfold getBarline
    by_cases hneg : i < 0
    · have e := intPlusSize_eq i f.barlines.length (by omega) (by omega)
      rw [if_pos hneg, e]
      exact hnull _ (by omega)
    · rw [if_neg hneg]
      exact hnull _ (by omega)

theorem getBarline_spec_witness :
    getBarline threeBarlines (-1) = some (some 30) ∧
    getBarline threeBarlines 0 = some (some 10) ∧
    getBarline threeBarlines (-4) = some none ∧
    getBarline threeBarlines 3 = some none ∧
    (getBarline threeBarlines (-1) ≠ none ∧
    (threeBarlines.barlines.length < 2 ^ 31 →
      (0 ≤ (-1 : Int) → (-1 : Int) < threeBarlines.barlines.length →
        ∃ b, threeBarlines.barlines[(-1 : Int).toNat]? = some b ∧
          getBarline threeBarlines (-1) = some (some b)) ∧
      (-(threeBarlines.barlines.length : Int) ≤ -1 → (-1 : Int) < 0 →
        ∃ b, threeBarlines.barlines[(threeBarlines.barlines.length + (-1 : Int)).toNat]? =
            some b ∧
          getBarline threeBarlines (-1) = some (some b)) ∧
      (((-1 : Int) < -(threeBarlines.barlines.length : Int) ∨
          (threeBarlines.barlines.length : Int) ≤ -1) →
        getBarline threeBarlines (-1) = some none) ∧
      (threeBarlines.barlines.length = 0 → getBarline threeBarlines (-1) = some none))) :=
  ⟨by decide, by decide, by decide, by decide,
    getBarline_spec threeBarlines (-1) (by decide) (by decide)⟩

theorem analyzeStructure_true_iff {σ : Type} (p : Phases σ) (s s5 : σ) :
    analyzeStructure p s = some (true, s5) ↔
      ∃ s1 s2 s3 s4, p.analyzeGlobalParameters s = some (true, s1) ∧
        p.analyzeLocalParameters s1 = some (true, s2) ∧
        p.analyzeTokenDurations s2 = some (true, s3) ∧
        p.analyzeRhythm s3 = some (true, s4) ∧
        p.analyzeDurationsOfNonRhythmicSpines s4 = some (true, s5) := by
  unfold analyzeStructure
  constructor
  · intro h
    obtain ⟨⟨b1, s1⟩, h1, h⟩ := Option.bind_eq_some.mp h
    cases b1 with
    | false => simp at h
    | true =>
      simp only [Bool.not_true, Bool.false_eq_true, if_false] at h
      obtain ⟨⟨b2, s2⟩, h2, h⟩ := Option.bind_eq_some.mp h
      cases b2 with
      | false => simp at h
      | true =>
        simp only [Bool.not_true, Bool.false_eq_true, if_false] at h
        obtain ⟨⟨b3, s3⟩, h3, h⟩ := Option.bind_eq_some.mp h
        cases b3 with
        | false => simp at h
        | true =>
          simp only [Bool.not_true, Bool.false_eq_true, if_false] at h
          obtain ⟨⟨b4, s4⟩, h4, h⟩ := Option.bind_eq_some.mp h
          cases b4 with
          | false => simp at h
          | true =>
            simp only [Bool.not_true, Bool.false_eq_true, if_false] at h
            obtain ⟨⟨b5, s6⟩, h5, h⟩ := Option.bind_eq_some.mp h
            cases b5 with
            | false => simp at h
            | true =>
              simp only [Bool.not_true, Bool.false_eq_true, if_false, Option.some.injEq,
                Prod.mk.injEq, true_and] at h
              subst h
              exact ⟨s1, s2, s3, s4, h1, h2, h3, h4, h5⟩
  · rintro ⟨s1, s2, s3, s4, h1, h2, h3, h4, h5⟩
    simp [h1, h2, h3, h4, h5]

/-- C14: analyzeStructure returns true exactly when each of its five phases
(global parameters, local parameters, token durations, rhythm, non-rhythmic
spine durations) returns true when run in that order on the state left by
the one before; when a phase is the first to fail, the result is false with
the state left by that phase, whatever the later phases are (they do not
run); and readString returns false with the state left by the base
readString, whatever the phases are, when the base readString fails, and
otherwise runs analyzeStructure on the state it left. -/
theorem analyzeStructure_spec {σ : Type} (p : Phases σ) (b : BaseReaders σ)
    (contents : String) (s : σ) :
    (∀ s5, analyzeStructure p s = some (true, s5) ↔
      ∃ s1 s2 s3 s4, p.analyzeGlobalParameters s = some (true, s1) ∧
        p.analyzeLocalParameters s1 = some (true, s2) ∧
        p.analyzeTokenDurations s2 = some (true, s3) ∧
        p.analyzeRhythm s3 = some (true, s4) ∧
        p.analyzeDurationsOfNonRhythmicSpines s4 = some (true, s5)) ∧
    (∀ s1, p.analyzeGlobalParameters s = some (false, s1) →
      ∀ q : Phases σ, q.analyzeGlobalParameters = p.analyzeGlobalParameters →
        analyzeStructure q s = some (false, s1)) ∧
    (∀ s1 s2, p.analyzeGlobalParameters s = some (true, s1) →
      p.analyzeLocalParameters s1 = some (false, s2) →
      ∀ q : Phases σ, q.analyzeGlobalParameters = p.analyzeGlobalParameters →
        q.analyzeLocalParameters = p.analyzeLocalParameters →
        analyzeStructure q s = some (false, s2)) ∧
    (∀ s1 s2 s3, p.analyzeGlobalParameters s = some (true, s1) →
      p.analyzeLocalParameters s1 = some (true, s2) →
      p.analyzeTokenDurations s2 = some (false, s3) →
      ∀ q : Phases σ, q.analyzeGlobalParameters = p.analyzeGlobalParameters →
        q.analyzeLocalParameters = p.analyzeLocalParameters →
        q.analyzeTokenDurations = p.analyzeTokenDurations →
        analyzeStructure q s = some (false, s3)) ∧
    (∀ s1 s2 s3 s4, p.analyzeGlobalParameters s = some (true, s1) →
      p.analyzeLocalParameters s1 = some (true, s2) →
      p.analyzeTokenDurations s2 = some (true, s3) →
      p.analyzeRhythm s3 = some (false, s4) →
      ∀ q : Phases σ, q.analyzeGlobalParameters = p.analyzeGlobalParameters →
        q.analyzeLocalParameters = p.analyzeLocalParameters →
        q.analyzeTokenDurations = p.analyzeTokenDurations →
        q.analyzeRhythm = p.analyzeRhythm →
        analyzeStructure q s = some (false, s4)) ∧
    (∀ s1 s2 s3 s4 s5, p.analyzeGlobalParameters s = some (true, s1) →
      p.analyzeLocalParameters s1 = some (true, s2) →
      p.analyzeTokenDurations s2 = some (true, s3) →
      p.analyzeRhythm s3 = some (true, s4) →
      p.analyzeDurationsOfNonRhythmicSpines s4 = some (false, s5) →
      analyzeStructure p s = some (false, s5)) ∧
    (∀ s1, b.readString contents s = some (false, s1) →
      ∀ q : Phases σ, readString b q contents s = some (false, s1)) ∧
    (∀ s1, b.readString contents s = some (true, s1) →
      readString b p contents s = analyzeStructure p s1) := by
  refine ⟨fun s5 => analyzeStructure_true_iff p s s5, ?_, ?_, ?_, ?_, ?_, ?_, ?_⟩
  · intro s1 h1 q e1
    simp [analyzeStructure, e1, h1]
  · intro s1 s2 h1 h2 q e1 e2
    simp [analyzeStructure, e1, e2, h1, h2]
  · intro s1 s2 s3 h1 h2 h3 q e1 e2 e3
    simp [analyzeStructure, e1, e2, e3, h1, h2, h3]
  · intro s1 s2 s3 s4 h1 h2 h3 h4 q e1 e2 e3 e4
    simp [analyzeStructure, e1, e2, e3, e4, h1, h2, h3, h4]
  · intro s1 s2 s3 s4 s5 h1 h2 h3 h4 h5
    simp [analyzeStructure, h1, h2, h3, h4, h5]
  · intro s1 h1 q
    simp [readString, h1]
  · intro s1 h1
    simp [readString, h1]

theorem analyzeStructure_spec_witness :
    analyzeStructure (logPhases true true true true true) [] =
      some (true, ["global", "local", "token", "rhythm", "nonrhythmic"]) ∧
    analyzeStructure (logPhases true true false true true) [] =
      some (false, ["global", "local", "token"]) ∧
    analyzeStructure (logPhases true true true false true) [] =
      some (false, ["global", "local", "token", "rhythm"]) ∧
    readString logReaders (logPhases true true true true true) "" [] =
      some (false, ["readString"]) ∧
    readString logReaders (logPhases true true true true true) "**kern" [] =
      some (true, ["readString", "global", "local", "token", "rhythm", "nonrhythmic"]) ∧
    (∀ s3, (logPhases true true false true true).analyzeGlobalParameters [] =
        some (true, ["global"]) →
      (logPhases true true false true true).analyzeLocalParameters ["global"] =
        some (true, ["global", "local"]) →
      (logPhases true true false true true).analyzeTokenDurations ["global", "local"] =
        some (false, s3) →
      ∀ q : Phases (List String),
        q.analyzeGlobalParameters =
          (logPhases true true false true true).analyzeGlobalParameters →
        q.analyzeLocalParameters =
          (logPhases true true false true true).analyzeLocalParameters →
        q.analyzeTokenDurations =
          (logPhases true true false true true).analyzeTokenDurations →
        analyzeStructure q [] = some (false, s3)) :=
  ⟨by decide, by decide, by decide, by decide, by decide,
    fun s3 =>
      (analyzeStructure_spec (logPhases true true false true true) logReaders "" []).2.2.2.1
        ["global"] ["global", "local"] s3⟩

/-- C20 (divergence): every CSV entry point that takes a separator, apart
from readStringCsv, hands the input to the base reader with the default
separator ","; with the separator ";" the base reader is still called with
",". -/
theorem csv_separator_ignored :
    (∀ (σ : Type) (b : BaseReaders σ) (contents separator : String) (s : σ),
      readNoRhythmCsv b contents separator s = b.readCsv contents "," s ∧
      readStringNoRhythmCsv b contents separator s = b.readStringCsv contents "," s ∧
      HumdrumFileBase.parseCsv b contents separator s = b.readCsv contents "," s ∧
      HumdrumFileBase.parseCsvString b contents separator s =
        b.readStringCsv contents "," s ∧
      ∀ p : Phases σ, readCsv b p contents separator s = readCsv b p contents "," s) ∧
    readNoRhythmCsv logReaders "a;b" ";" [] = some (true, ["readCsv", ","]) ∧
    logReaders.readCsv "a;b" ";" [] = some (true, ["readCsv", ";"]) ∧
    readStringNoRhythmCsv logReaders "a;b" ";" [] = some (true, ["readStringCsv", ","]) ∧
    HumdrumFileBase.parseCsv logReaders "a;b" ";" [] = some (true, ["readCsv", ","]) ∧
    readCsv logReaders (logPhases true true true true true) "a;b" ";" [] =
      some (true, ["readCsv", ",", "global", "local", "token", "rhythm", "nonrhythmic"]) ∧
    readStringCsv logReaders (logPhases true true true true true) "a;b" ";" [] =
      some (true,
        ["readStringCsv", ";", "global", "local", "token", "rhythm", "nonrhythmic"]) :=
  ⟨fun _ _ _ _ _ => ⟨rfl, rfl, rfl, rfl, fun _ => rfl⟩, by decide, by decide, by decide,
    by decide, by decide, by decide⟩

theorem attachableB_iff (kind : Nat → LineKind) (f : HumdrumFileStructure) (j : Nat) :
    attachableB kind f.lines j = true ↔ Attachable kind f j := by
  unfold attachableB Attachable
  cases h : f.lines[j]? with
  | none => simp
  | some l => simp [Bool.and_eq_true, and_assoc]

theorem attachableB_lt (kind : Nat → LineKind) (lines : List HumdrumLine) (j : Nat)
    (h : attachableB kind lines j = true) : j < lines.length := by
  unfold attachableB at h
  cases e : lines[j]? with
  | none => rw [e] at h; cases h
  | some l =>
    by_contra hj
    rw [List.getElem?_eq_none (by omega)] at e
    cases e

theorem nearestAttachable_succ (kind : Nat → LineKind) (lines : List HumdrumLine) (i : Nat)
    (h : i < lines.length) :
    nearestAttachable kind lines i =
      if attachableB kind lines i then some i else nearestAttachable kind lines (i + 1) := by
  unfold nearestAttachable
  have e : lines.length - i = (lines.length - (i + 1)) + 1 := by omega
  rw [e, List.range'_succ, List.find?_cons]
  cases attachableB kind lines i <;> simp

theorem nearestAttachable_ge (kind : Nat → LineKind) (lines : List HumdrumLine) (i : Nat)
    (h : lines.length ≤ i) : nearestAttachable kind lines i = none := by
  unfold nearestAttachable
  have e : lines.length - i = 0 := by omega
  rw [e]; rfl

theorem nearestAttachable_eq_some (kind : Nat → LineKind) (lines : List HumdrumLine) :
    ∀ (k i sp : Nat), lines.length - i = k →
      (nearestAttachable kind lines i = some sp ↔
        (i ≤ sp ∧ attachableB kind lines sp = true ∧
          ∀ j, i ≤ j → j < sp → attachableB kind lines j = false)) := by
  intro k
  induction k with
  | zero =>
    intro i sp hk
    rw [nearestAttachable_ge kind lines i (by omega)]
    constructor
    · intro h; cases h
    · rintro ⟨h1, h2, _⟩
      have := attachableB_lt kind lines sp h2
      omega
  | succ k ih =>
    intro i sp hk
    rw [nearestAttachable_succ kind lines i (by omega)]
    by_cases ha : attachableB kind lines i = true
    · rw [if_pos ha]
      constructor
      · intro h
        have e : i = sp := Option.some.inj h
        subst e
        exact ⟨le_refl _, ha, fun j h1 h2 => by omega⟩
      · rintro ⟨h1, h2, h3⟩
        by_cases e : i = sp
        · rw [e]
        · have := h3 i (le_refl _) (by omega)
          rw [ha] at this; cases this
    · rw [if_neg ha, ih (i + 1) sp (by omega)]
      have ha' : attachableB kind lines i = false := by
        cases h : attachableB kind lines i
        · rfl
        · exact absurd h ha
      constructor
      · rintro ⟨h1, h2, h3⟩
        refine ⟨by omega, h2, fun j hj1 hj2 => ?_⟩
        by_cases e : j = i
        · rw [e]; exact ha'
        · exact h3 j (by omega) hj2
      · rintro ⟨h1, h2, h3⟩
        have hne : i ≠ sp := by
          intro e; rw [e] at ha; exact ha h2
        exact ⟨by omega, h2, fun j hj1 hj2 => h3 j (by omega) hj2⟩

theorem analyzeGlobalParameters.loop_spec (kind : Nat → LineKind) (lines : List HumdrumLine) :
    ∀ (i : Nat), i ≤ lines.length → ∀ (params : List (Nat × Nat)),
      analyzeGlobalParameters.loop kind lines i (nearestAttachable kind lines i) params =
        some (params ++ (List.range i).reverse.filterMap (layoutAttachment kind lines)) := by
  intro i
  induction i with
  | zero => intro _ params; simp [analyzeGlobalParameters.loop]
  | succ i ih =>
    intro hi params
    have hlt : i < lines.length := by omega
    have hl : lines[i]? = some lines[i] := List.getElem?_eq_getElem hlt
    have hn := nearestAttachable_succ kind lines i hlt
    have hr : (List.range (i + 1)).reverse.filterMap (layoutAttachment kind lines) =
        (layoutAttachment kind lines i).toList ++
          (List.range i).reverse.filterMap (layoutAttachment kind lines) := by
      rw [List.range_succ, List.reverse_append, List.reverse_singleton, List.singleton_append,
        List.filterMap_cons]
      cases layoutAttachment kind lines i <;> rfl
    rw [hr]
    unfold analyzeGlobalParameters.loop
    rw [hl]
    simp only [Option.bind_eq_bind, Option.some_bind]
    have hatt : attachableB kind lines i = (lines[i].hasSpines && !(kind i).isAllNull &&
        !(kind i).isManipulator && !(kind i).isCommentLocal) := by
      unfold attachableB; rw [hl]
    have hlay : layoutAttachment kind lines i =
        if (!lines[i].hasSpines && (kind i).isCommentGlobal &&
            findAtZero (kind i).text "!!LO:") = true then
          (nearestAttachable kind lines (i + 1)).map (fun sp => (sp, i)) else none := by
      unfold layoutAttachment; rw [hl]
    cases hs : lines[i].hasSpines
    · -- an unspined line
      rw [hs] at hatt hlay
      have hatt' : attachableB kind lines i = false := by rw [hatt]; rfl
      rw [hatt'] at hn
      simp only [Bool.false_eq_true, if_false] at hn
      have ih' := fun p => ih (by omega) p
      rw [← hn] at hlay ⊢
      generalize nearestAttachable kind lines i = s at hlay ih' ⊢
      cases s with
      | none =>
        have : layoutAttachment kind lines i = none := by
          rw [hlay]; split <;> rfl
        rw [this]
        simpa using ih' params
      | some sp =>
        simp only [Bool.false_eq_true, if_false]
        cases hg : (kind i).isCommentGlobal
        · rw [hg] at hlay
          have : layoutAttachment kind lines i = none := by
            rw [hlay]; simp
          rw [this]
          simpa using ih' params
        · cases hf : findAtZero (kind i).text "!!LO:"
          · rw [hg, hf] at hlay
            have : layoutAttachment kind lines i = none := by
              rw [hlay]; simp
            rw [this]
            simpa using ih' params
          · rw [hg, hf] at hlay
            have : layoutAttachment kind lines i = some (sp, i) := by
              rw [hlay]; simp
            rw [this]
            simpa using ih' (params ++ [(sp, i)])
    · -- a spined line
      rw [hs] at hatt hlay
      have hl0 : layoutAttachment kind lines i = none := by
        rw [hlay]; simp
      rw [hl0]
      simp only [if_true, Option.toList_none, List.nil_append]
      cases h1 : (kind i).isAllNull
      · cases h2 : (kind i).isManipulator
        · cases h3 : (kind i).isCommentLocal
          · have hatt' : attachableB kind lines i = true := by
              rw [hatt, h1, h2, h3]; rfl
            rw [hatt'] at hn
            simp only [if_true] at hn
            simp only [Bool.false_eq_true, if_false]
            have ih' := ih (by omega) params
            rw [hn] at ih'
            exact ih'
          · have hatt' : attachableB kind lines i = false := by
              rw [hatt, h1, h2, h3]; rfl
            rw [hatt'] at hn
            simp only [Bool.false_eq_true, if_false] at hn
            simp only [Bool.false_eq_true, if_false, if_true]
            rw [← hn]
            exact ih (by omega) params
        · have hatt' : attachableB kind lines i = false := by
            rw [hatt, h1, h2]; simp
          rw [hatt'] at hn
          simp only [Bool.false_eq_true, if_false] at hn
          simp only [Bool.false_eq_true, if_false, if_true]
          rw [← hn]
          exact ih (by omega) params
      · have hatt' : attachableB kind lines i = false := by
          rw [hatt, h1]; simp
        rw [hatt'] at hn
        simp only [Bool.false_eq_true, if_false] at hn
        simp only [if_true]
        rw [← hn]
        exact ih (by omega) params

theorem layoutAttachment_eq_some (kind : Nat → LineKind) (f : HumdrumFileStructure)
    (a : Nat) (p : Nat × Nat) :
    layoutAttachment kind f.lines a = some p ↔
      (p.2 = a ∧ IsLayoutLine kind f a ∧ a < p.1 ∧ Attachable kind f p.1 ∧
        ∀ j, a < j → j < p.1 → ¬ Attachable kind f j) := by
  obtain ⟨sp, i⟩ := p
  have hn := nearestAttachable_eq_some kind f.lines _ (a + 1) sp rfl
  unfold layoutAttachment IsLayoutLine
  cases hl : f.lines[a]? with
  | none => simp
  | some l =>
    simp only [Option.some.injEq, exists_eq_left']
    by_cases hc : (!l.hasSpines && (kind a).isCommentGlobal &&
        findAtZero (kind a).text "!!LO:") = true
    · rw [if_pos hc]
      simp only [Bool.and_eq_true, Bool.not_eq_true'] at hc
      simp only [Option.map_eq_some', Prod.mk.injEq]
      constructor
      · rintro ⟨sp', h1, h2, h3⟩
        subst h2 h3
        obtain ⟨h4, h5, h6⟩ := hn.1 h1
        refine ⟨rfl, ⟨hc.1.1, hc.1.2, hc.2⟩, by omega,
          (attachableB_iff kind f _).1 h5, fun j hj1 hj2 hj => ?_⟩
        have := h6 j (by omega) hj2
        rw [(attachableB_iff kind f j).2 hj] at this
        cases this
      · rintro ⟨h1, _, h3, h4, h5⟩
        refine ⟨sp, hn.2 ⟨by omega, (attachableB_iff kind f _).2 h4, fun j hj1 hj2 => ?_⟩,
          rfl, h1.symm⟩
        cases hb : attachableB kind f.lines j
        · rfl
        · exact absurd ((attachableB_iff kind f j).1 hb) (h5 j (by omega) hj2)
    · rw [if_neg hc]
      simp only [Bool.and_eq_true, Bool.not_eq_true'] at hc
      constructor
      · intro h; cases h
      · rintro ⟨_, ⟨h1, h2, h3⟩, _⟩
        exact absurd ⟨⟨h1, h2⟩, h3⟩ hc

/-- The run of `analyzeGlobalParameters` on the eight lines of `layoutLines`:
the first "!!LO:" line goes to the exclusive interpretation, the second one
past the manipulator line and the null line to `4c`, the last one nowhere. -/
theorem analyzeGlobalParameters_layoutLines :
    analyzeGlobalParameters layoutKinds layoutLines [] = some (true, [(5, 2), (1, 0)]) := by
  decide

/-- C15: on every file `analyzeGlobalParameters` returns true, keeps the
attachments made before, and adds exactly these: a line `i` that is an
unspined global comment starting with "!!LO:" is attached to the line `sp`
iff `sp` is the nearest later spined line that is not all null, not a spine
manipulator line and not a local comment line. Every line is attached at
most once, so a "!!LO:" line without such a later line and every other line
are attached nowhere. -/
theorem analyzeGlobalParameters_spec (kind : Nat → LineKind) (f : HumdrumFileStructure)
    (params : List (Nat × Nat)) :
    ∃ new, analyzeGlobalParameters kind f params = some (true, params ++ new) ∧
      (new.map Prod.snd).Nodup ∧
      ∀ sp i, (sp, i) ∈ new ↔
        (IsLayoutLine kind f i ∧ i < sp ∧ Attachable kind f sp ∧
          ∀ j, i < j → j < sp → ¬ Attachable kind f j) := by
  refine ⟨(List.range f.lines.length).reverse.filterMap (layoutAttachment kind f.lines),
    ?_, ?_, ?_⟩
  · unfold analyzeGlobalParameters
    have h := analyzeGlobalParameters.loop_spec kind f.lines f.lines.length (le_refl _) params
    rw [nearestAttachable_ge kind f.lines _ (le_refl _)] at h
    rw [h]; rfl
  · rw [List.map_filterMap]
    refine List.Nodup.filterMap ?_ (List.nodup_reverse.2 (List.nodup_range _))
    intro a a' b hb hb'
    simp only [Option.mem_def, Option.map_eq_some'] at hb hb'
    obtain ⟨p, hp, e⟩ := hb
    obtain ⟨p', hp', e'⟩ := hb'
    have h1 := ((layoutAttachment_eq_some kind f a p).1 hp).1
    have h2 := ((layoutAttachment_eq_some kind f a' p').1 hp').1
    rw [← h1, ← h2, e, e']
  · intro sp i
    rw [List.mem_filterMap]
    constructor
    · rintro ⟨a, _, ha⟩
      obtain ⟨h1, h2⟩ := (layoutAttachment_eq_some kind f a (sp, i)).1 ha
      simp only at h1
      subst h1
      exact h2
    · intro h
      obtain ⟨l, hl, _⟩ := h.1
      have hi : i < f.lines.length := by
        by_contra hc
        rw [List.getElem?_eq_none (by omega)] at hl
        cases hl
      exact ⟨i, by simp [hi], (layoutAttachment_eq_some kind f i (sp, i)).2 ⟨rfl, h⟩⟩

/-- C12: on the file `**kern<TAB>**kern / 4c<TAB>qc / .<TAB>4d / 4e<TAB>4f /
*-<TAB>*-`, whose line 1 holds the durations 1 and 0, the check `cleanDurs`
would report failure, but `analyzeRhythm` never runs it: the rhythm phase
returns true and gives the five lines the start times 0, 0, 0, 1, 2. -/
theorem grace_line_passes_rhythm :
    getTokenDurations graceFile 1 = (false, [1, 0]) ∧
    (analyzeRhythm (fun _ => true) graceFile).map
        (fun r => (r.1, r.2.lines.map (fun l => l.durationFromStart))) =
      some (true, [0, 0, 0, 1, 2]) := by
  constructor <;> decide!

/-- C13: three files on which the rhythm phase fails (spines of unequal
length give inconsistent start times; a data line keeps an unexpected
negative start time; a floating spine is not linked): `analyzeRhythm` returns
false each time and the parse error message of the file is still empty. -/
theorem rhythm_failure_without_message :
    (analyzeRhythm (fun _ => true) unequalSpines).map (fun r => (r.1, r.2.parseError)) =
      some (false, "") ∧
    (analyzeRhythm (fun _ => true) undefinedNote).map (fun r => (r.1, r.2.parseError)) =
      some (false, "") ∧
    (analyzeRhythm (fun _ => true) floatingAtZero).map (fun r => (r.1, r.2.parseError)) =
      some (false, "") := by
  refine ⟨?_, ?_, ?_⟩ <;> decide!

/-- C17: in `**kern / *+ / *<TAB>**kern / 4c<TAB>4e / *-<TAB>*-`, after the
first track has been propagated, the walk from the start of the second spine
reaches the line of `4e`, whose start time F = 0 is known, after durations
summing to D = 0.  `assignDurationsToTrack` from the anchor F - D = 0 returns
true and visits the tokens of the spine, but `analyzeRhythmOfFloatingSpine`
returns false and leaves the file as it is, and so `analyzeRhythm` fails. -/
theorem floating_spine_at_zero_rejected :
    analyzeRhythm.first 0 2 1 floatingAtZero = some (true, floatingAtZero.propagated) ∧
    analyzeRhythmOfFloatingSpine.search floatingAtZero.propagated
        (floatingAtZero.propagated.lines.length + 1) 3 0 = some (0, 0) ∧
    (assignDurationsToTrack floatingAtZero.propagated 3 (0 - 0)).map
        (fun r => (r.1, r.2.tokens.map (fun t => t.rhycheck),
          r.2.lines.map (fun l => l.durationFromStart))) =
      some (true, [1, 1, 1, 1, 1, 1, 1, 1], [-1, -1, -1, 0, 1]) ∧
    analyzeRhythmOfFloatingSpine floatingAtZero.propagated 3 =
      some (false, floatingAtZero.propagated) ∧
    (analyzeRhythm (fun _ => true) floatingAtZero).map Prod.fst = some false := by
  refine ⟨by decide!, by decide!, by decide!, by decide!, by decide!⟩

/-- The search loop of `analyzeRhythmOfFloatingSpine` along a chain of first
next tokens: the lines of `token :: pre` have no start time, the line of the
next token `x` starts at `F`. -/
theorem analyzeRhythmOfFloatingSpine.search_spec (f : HumdrumFileStructure) (x : Nat)
    (F : HumNum) (hF : 0 ≤ F)
    (hx : ∃ t l, f.tokens[x]? = some t ∧ f.lines[t.lineIndex]? = some l ∧
      l.durationFromStart = F) :
    ∀ (pre : List Nat) (token fuel : Nat) (dursum : HumNum),
      Linked0 f token (pre ++ [x]) →
      (∀ c ∈ token :: pre, ∃ t l, f.tokens[c]? = some t ∧ f.lines[t.lineIndex]? = some l ∧
        l.durationFromStart < 0) →
      pre.length + 2 ≤ fuel →
      analyzeRhythmOfFloatingSpine.search f fuel token dursum =
        some (F, dursum + pathSum f (token :: pre)) := by
  obtain ⟨tx, lx, htx, hlx, hFx⟩ := hx
  have hend : ∀ (k : Nat) (d : HumNum),
      analyzeRhythmOfFloatingSpine.search f (k + 1) x d = some (F, d) := by
    intro k d
    unfold analyzeRhythmOfFloatingSpine.search
    simp only [htx, hlx, Option.bind_eq_bind, Option.some_bind, hFx, if_pos hF]
    rfl
  intro pre
  induction pre with
  | nil =>
    intro token fuel dursum hlink hneg hfuel
    obtain ⟨⟨t, rest, ht, hn⟩, _⟩ := hlink
    obtain ⟨t', l, ht', hl, hlt⟩ := hneg token (by simp)
    rw [ht] at ht'
    cases ht'
    obtain ⟨k, rfl⟩ : ∃ k, fuel = k + 2 := ⟨fuel - 2, by simp at hfuel; omega⟩
    unfold analyzeRhythmOfFloatingSpine.search
    simp only [ht, hl, Option.bind_eq_bind, Option.some_bind, if_neg (not_le.mpr hlt), hn,
      List.getElem?_cons_zero]
    rw [hend k, pathSum_cons f token [] t ht, pathSum_nil, add_zero]
    unfold posDur
    split <;> simp
  | cons c pre ih =>
    intro token fuel dursum hlink hneg hfuel
    obtain ⟨⟨t, rest, ht, hn⟩, hlink2⟩ := hlink
    obtain ⟨t', l, ht', hl, hlt⟩ := hneg token (by simp)
    rw [ht] at ht'
    cases ht'
    obtain ⟨k, rfl⟩ : ∃ k, fuel = k + 1 := ⟨fuel - 1, by simp at hfuel; omega⟩
    unfold analyzeRhythmOfFloatingSpine.search
    simp only [ht, hl, Option.bind_eq_bind, Option.some_bind, if_neg (not_le.mpr hlt), hn,
      List.getElem?_cons_zero]
    rw [ih c k _ hlink2 (fun y hy => hneg y (List.mem_cons_of_mem _ hy))
      (by simp at hfuel ⊢; omega), pathSum_cons f token (c :: pre) t ht]
    unfold posDur
    split <;> simp [add_assoc]

/-- Away from F = 0 the floating spine is anchored as described: when the
walk from the start token along first next tokens passes the tokens
`start :: pre`, whose lines have no start time, and reaches a token whose
line starts at `F > 0`, `analyzeRhythmOfFloatingSpine` is
`assignDurationsToTrack` from `F` minus the positive durations passed. -/
theorem analyzeRhythmOfFloatingSpine_linked (f : HumdrumFileStructure) (hw : WellLinked f)
    (start x : Nat) (pre : List Nat) (F : HumNum) (hF : 0 < F)
    (hlink : Linked0 f start (pre ++ [x]))
    (hneg : ∀ c ∈ start :: pre, ∃ t l, f.tokens[c]? = some t ∧
      f.lines[t.lineIndex]? = some l ∧ l.durationFromStart < 0)
    (hx : ∃ t l, f.tokens[x]? = some t ∧ f.lines[t.lineIndex]? = some l ∧
      l.durationFromStart = F) :
    analyzeRhythmOfFloatingSpine f start =
      assignDurationsToTrack f start (F - pathSum f (start :: pre)) := by
  obtain ⟨t, l, ht, hl, hlt⟩ := hneg start (by simp)
  obtain ⟨tx, lx, htx, hlx, hFx⟩ := hx
  have hlast : (start :: (pre ++ [x])).getLast (List.cons_ne_nil _ _) = x := by
    simp [List.getLast_cons]
  have hb := Linked0.line_bound f hw (pre ++ [x]) start t tx ht hlink (by rw [hlast]; exact htx)
  have hv := hw.line_valid x tx htx
  have hs := analyzeRhythmOfFloatingSpine.search_spec f x F (le_of_lt hF)
    ⟨tx, lx, htx, hlx, hFx⟩ pre start (f.lines.length + 1) 0 hlink hneg
    (by simp at hb; omega)
  obtain ⟨⟨t', rest, ht', hn⟩, _⟩ : (∃ t rest, f.tokens[start]? = some t ∧
      t.nextTokens = (pre ++ [x]).head (by simp) :: rest) ∧ True := by
    cases pre with
    | nil => exact ⟨hlink.1, trivial⟩
    | cons c pre => exact ⟨hlink.1, trivial⟩
  rw [ht] at ht'
  cases ht'
  unfold analyzeRhythmOfFloatingSpine
  simp only [ht, hl, Option.bind_eq_bind, Option.some_bind, if_neg (not_le.mpr hlt), hn,
    List.length_cons, Nat.zero_lt_succ, if_true, hs, zero_add, if_neg (ne_of_gt hF)]

/-- The same when the line of the start token has a start time `F > 0`
already: the anchor is `F`. -/
theorem analyzeRhythmOfFloatingSpine_known (f : HumdrumFileStructure)
    (start : Nat) (t : HumdrumToken) (l : HumdrumLine) (ht : f.tokens[start]? = some t)
    (hl : f.lines[t.lineIndex]? = some l) (hF : 0 < l.durationFromStart) :
    analyzeRhythmOfFloatingSpine f start =
      assignDurationsToTrack f start (l.durationFromStart - 0) := by
  unfold analyzeRhythmOfFloatingSpine
  simp only [ht, hl, Option.bind_eq_bind, Option.some_bind, if_pos (le_of_lt hF)]
  show (if l.durationFromStart = 0 then _ else _) = _
  rw [if_neg (ne_of_gt hF)]

theorem incrementState_parseError (f : HumdrumFileStructure) (tok : Nat) :
    (incrementState f tok).parseError = f.parseError := by
  unfold incrementState
  split <;> rfl

theorem setLineDurationFromStart_parseError (f : HumdrumFileStructure) (token : Nat)
    (dursum : HumNum) (r : Bool × HumdrumFileStructure)
    (h : setLineDurationFromStart f token dursum = some r) :
    r.2.parseError = f.parseError := by
  unfold setLineDurationFromStart at h
  simp only [Option.bind_eq_bind, Option.bind_eq_some] at h
  obtain ⟨t, _, h⟩ := h
  split at h
  · cases h; rfl
  · simp only [Option.bind_eq_some] at h
    obtain ⟨l, _, h⟩ := h
    split at h
    · cases h; rfl
    · split at h <;> (cases h; rfl)

theorem prepareDurations.primary_parseError (state : Int) :
    ∀ (fuel : Nat) (f : HumdrumFileStructure) (token : Nat) (dursum : HumNum) (w : Walk),
      prepareDurations.primary state fuel f token dursum = some w →
      (match w with
        | Walk.ret _ g => g.parseError
        | Walk.fall g _ _ => g.parseError) = f.parseError := by
  intro fuel
  induction fuel with
  | zero => intro f token dursum w h; cases h
  | succ fuel ih =>
    intro f token dursum w h
    unfold prepareDurations.primary at h
    simp only [Option.bind_eq_bind, Option.bind_eq_some] at h
    obtain ⟨t, _, h⟩ := h
    split at h
    · simp only [Option.bind_eq_some] at h
      obtain ⟨token1, _, t1, _, h⟩ := h
      split at h
      · cases h; rfl
      · simp only [Option.bind_eq_some] at h
        obtain ⟨r, hr, h⟩ := h
        have e := setLineDurationFromStart_parseError _ _ _ _ hr
        rw [incrementState_parseError] at e
        split at h
        · cases h; exact e
        · rw [ih _ _ _ _ h, e]
    · cases h; rfl

theorem prepareDurations.branches_parseError
    (recurse : HumdrumFileStructure → Nat → HumNum → Option (Bool × HumdrumFileStructure))
    (hrec : ∀ g x d r, recurse g x d = some r → r.2.parseError = g.parseError) :
    ∀ (xs : List Nat) (f : HumdrumFileStructure) (dursum : HumNum)
      (r : Bool × HumdrumFileStructure),
      prepareDurations.branches recurse f xs dursum = some r →
      r.2.parseError = f.parseError := by
  intro xs
  induction xs with
  | nil => intro f dursum r h; cases h; rfl
  | cons x rest ih =>
    intro f dursum r h
    unfold prepareDurations.branches at h
    simp only [Option.bind_eq_bind, Option.bind_eq_some] at h
    obtain ⟨r1, hr1, h⟩ := h
    have e := hrec _ _ _ _ hr1
    split at h
    · cases h; exact e
    · rw [ih _ _ _ h, e]

theorem prepareDurations.secondary_parseError
    (recurse : HumdrumFileStructure → Nat → HumNum → Option (Bool × HumdrumFileStructure))
    (hrec : ∀ g x d r, recurse g x d = some r → r.2.parseError = g.parseError)
    (newstate : Int) :
    ∀ (fuel : Nat) (f : HumdrumFileStructure) (token : Nat) (dursum : HumNum)
      (r : Bool × HumdrumFileStructure),
      prepareDurations.secondary recurse newstate fuel f token dursum = some r →
      r.2.parseError = f.parseError := by
  intro fuel
  induction fuel with
  | zero => intro f token dursum r h; cases h
  | succ fuel ih =>
    intro f token dursum r h
    unfold prepareDurations.secondary at h
    simp only [Option.bind_eq_bind, Option.bind_eq_some] at h
    obtain ⟨t, _, h⟩ := h
    split at h
    · simp only [Option.bind_eq_some] at h
      obtain ⟨r1, hr1, h⟩ := h
      have e := prepareDurations.branches_parseError recurse hrec _ _ _ _ hr1
      split at h
      · cases h; exact e
      · simp only [Option.bind_eq_some] at h
        obtain ⟨token1, _, t1, _, h⟩ := h
        split at h
        · cases h; exact e
        · rw [ih _ _ _ _ h, e]
    · cases h; rfl

theorem prepareDurations_parseError :
    ∀ (fuel : Nat) (f : HumdrumFileStructure) (token : Nat) (state : Int) (startdur : HumNum)
      (r : Bool × HumdrumFileStructure),
      prepareDurations fuel f token state startdur = some r →
      r.2.parseError = f.parseError := by
  intro fuel
  induction fuel with
  | zero => intro f token state startdur r h; cases h
  | succ fuel ih =>
    intro f token state startdur r h
    unfold prepareDurations at h
    simp only [Option.bind_eq_bind, Option.bind_eq_some] at h
    obtain ⟨t, _, h⟩ := h
    split at h
    · cases h; rfl
    · simp only [Option.bind_eq_some] at h
      obtain ⟨r1, hr1, h⟩ := h
      have e1 := setLineDurationFromStart_parseError _ _ _ _ hr1
      rw [incrementState_parseError] at e1
      split at h
      · cases h; exact e1
      · simp only [Option.bind_eq_some] at h
        obtain ⟨w, hw, h⟩ := h
        have e2 := prepareDurations.primary_parseError _ _ _ _ _ _ hw
        cases w with
        | ret b f2 =>
          cases h
          exact e2.trans e1
        | fall f2 last dursum2 =>
          simp only [Option.bind_eq_some] at h
          obtain ⟨tl, _, h⟩ := h
          have hk : ∀ r3 : Bool × HumdrumFileStructure, r3.2.parseError = f2.parseError →
              (if (!r3.1) = true then (pure (false, r3.2) : Option _)
                else prepareDurations.secondary
                  (fun g x d => prepareDurations fuel g x state d) (state + 1) fuel r3.2 token
                  (if 0 < t.duration then startdur + t.duration else startdur)) = some r →
              r.2.parseError = f2.parseError := by
            intro r3 e3 h3
            split at h3
            · cases h3; exact e3
            · exact (prepareDurations.secondary_parseError _
                (fun g x d r hr => ih g x state d r hr) _ _ _ _ _ _ h3).trans e3
          have e : r.2.parseError = f2.parseError := by
            split at h
            · simp only [Option.bind_eq_some] at h
              obtain ⟨r3, hr3, h⟩ := h
              exact hk r3 (setLineDurationFromStart_parseError _ _ _ _ hr3) h
            · exact hk (true, f2) rfl h
          exact e.trans (e2.trans e1)

theorem assignDurationsToTrack_parseError (f : HumdrumFileStructure) (starttoken : Nat)
    (startdur : HumNum) (r : Bool × HumdrumFileStructure)
    (h : assignDurationsToTrack f starttoken startdur = some r) :
    r.2.parseError = f.parseError := by
  unfold assignDurationsToTrack at h
  simp only [Option.bind_eq_bind, Option.bind_eq_some] at h
  obtain ⟨t, _, h⟩ := h
  split at h
  · cases h; rfl
  · exact prepareDurations_parseError _ _ _ _ _ _ h

theorem analyzeRhythmOfFloatingSpine_parseError (f : HumdrumFileStructure) (spinestart : Nat)
    (r : Bool × HumdrumFileStructure)
    (h : analyzeRhythmOfFloatingSpine f spinestart = some r) :
    r.2.parseError = f.parseError := by
  unfold analyzeRhythmOfFloatingSpine at h
  simp only [Option.bind_eq_bind, Option.bind_eq_some] at h
  obtain ⟨t, _, l, _, h⟩ := h
  have hk : ∀ y : HumNum × HumNum,
      (if y.1 = 0 then (pure (false, f) : Option _)
        else assignDurationsToTrack f spinestart (y.1 - y.2)) = some r →
      r.2.parseError = f.parseError := by
    intro y hy
    split at hy
    · cases hy; rfl
    · exact assignDurationsToTrack_parseError _ _ _ _ hy
  split at h
  · exact hk (l.durationFromStart, 0) h
  · split at h
    · simp only [Option.bind_eq_some] at h
      obtain ⟨y, _, h⟩ := h
      exact hk y h
    · exact hk (0, 0) h

theorem analyzeRhythm.first_parseError (startline : Nat) :
    ∀ (n i : Nat) (f : HumdrumFileStructure) (r : Bool × HumdrumFileStructure),
      analyzeRhythm.first startline n i f = some r → r.2.parseError = f.parseError := by
  intro n
  induction n with
  | zero => intro i f r h; cases h; rfl
  | succ n ih =>
    intro i f r h
    unfold analyzeRhythm.first at h
    simp only [Option.bind_eq_bind, Option.bind_eq_some] at h
    obtain ⟨start, _, t, _, h⟩ := h
    split at h
    · exact ih _ _ _ h
    · split at h
      · simp only [Option.bind_eq_some] at h
        obtain ⟨r1, hr1, h⟩ := h
        have e := assignDurationsToTrack_parseError _ _ _ _ hr1
        split at h
        · cases h; exact e
        · exact (ih _ _ _ h).trans e
      · exact ih _ _ _ h

theorem analyzeRhythm.second_parseError (startline : Nat) :
    ∀ (n i : Nat) (f : HumdrumFileStructure) (r : Bool × HumdrumFileStructure),
      analyzeRhythm.second startline n i f = some r → r.2.parseError = f.parseError := by
  intro n
  induction n with
  | zero => intro i f r h; cases h; rfl
  | succ n ih =>
    intro i f r h
    unfold analyzeRhythm.second at h
    simp only [Option.bind_eq_bind, Option.bind_eq_some] at h
    obtain ⟨start, _, t, _, h⟩ := h
    split at h
    · exact ih _ _ _ h
    · split at h
      · simp only [Option.bind_eq_some] at h
        obtain ⟨r1, hr1, h⟩ := h
        have e := analyzeRhythmOfFloatingSpine_parseError _ _ _ hr1
        split at h
        · cases h; exact e
        · exact (ih _ _ _ h).trans e
      · exact ih _ _ _ h

theorem analyzeNullLineRhythms_parseError (f : HumdrumFileStructure)
    (r : Bool × HumdrumFileStructure) (h : analyzeNullLineRhythms f = some r) :
    r.2.parseError = f.parseError := by
  unfold analyzeNullLineRhythms at h
  simp only [Option.bind_eq_bind, Option.bind_eq_some] at h
  obtain ⟨r1, _, h⟩ := h
  cases h; rfl

theorem assignLineDurations_parseError (f g : HumdrumFileStructure)
    (h : assignLineDurations f = some g) : g.parseError = f.parseError := by
  unfold assignLineDurations at h
  simp only [Option.bind_eq_bind, Option.bind_eq_some] at h
  obtain ⟨lines, _, h⟩ := h
  split at h <;> (cases h; rfl)

theorem rhythmTail_parseError (nn : HumdrumFileStructure → Bool) (f2 : HumdrumFileStructure)
    (r : Bool × HumdrumFileStructure) (h : rhythmTail nn f2 = some r) :
    r.2.parseError = f2.parseError := by
  cases h1 : analyzeNullLineRhythms f2 with
  | none =>
    unfold rhythmTail at h
    rw [h1] at h
    cases h
  | some r3 =>
    obtain ⟨b, g3⟩ := r3
    have e3 := analyzeNullLineRhythms_parseError f2 _ h1
    cases b with
    | false =>
      rw [rhythmTail_eq_false nn f2 g3 h1] at h
      cases h; exact e3
    | true =>
      cases h5 : assignLineDurations (fillInNegativeStartTimes g3) with
      | none =>
        unfold rhythmTail at h
        rw [h1, Option.bind_eq_bind, Option.some_bind, if_neg (by simp)] at h
        change (assignLineDurations (fillInNegativeStartTimes g3)).bind _ = _ at h
        rw [h5] at h
        cases h
      | some f5 =>
        rw [rhythmTail_eq nn f2 g3 f5 h1 h5] at h
        cases h
        have e5 := assignLineDurations_parseError _ _ h5
        exact e5.trans e3

/-- No step of the rhythm phase writes the parse error message: whatever
`analyzeRhythm` returns, the message is the one the file had before. -/
theorem analyzeRhythm_parseError (nn : HumdrumFileStructure → Bool) (f : HumdrumFileStructure)
    (r : Bool × HumdrumFileStructure) (h : analyzeRhythm nn f = some r) :
    r.2.parseError = f.parseError := by
  by_cases h0 : getMaxTrack f = 0
  · unfold analyzeRhythm at h
    rw [if_pos h0] at h
    cases h; rfl
  · rw [analyzeRhythm_eq nn f h0] at h
    simp only [Option.bind_eq_some] at h
    obtain ⟨start1, _, t1, _, r1, hr1, h⟩ := h
    have e1 := analyzeRhythm.first_parseError _ _ _ _ _ hr1
    split at h
    · cases h; exact e1
    · simp only [Option.bind_eq_some] at h
      obtain ⟨r2, hr2, h⟩ := h
      have e2 := analyzeRhythm.second_parseError _ _ _ _ _ hr2
      split at h
      · cases h; exact e2.trans e1
      · exact (rhythmTail_parseError nn _ _ h).trans (e2.trans e1)

/-- C16: two runs of `analyzeLocalParameters` in which a token that is null
or a spine manipulator receives parameters.  In `**kern<TAB>**kern /
!LO:N<TAB>! / .<TAB>4c / 4d<TAB>4e / *-<TAB>*-` the comment (token 2) is
attached to the null token `.` (token 4), not to `4d` (token 6), the most
recently seen token that is neither null nor a manipulator; in `**kern / 4c /
!LO:N / *-` the comment (token 2) is attached to the terminator (token 3). -/
theorem local_parameters_reach_null_and_terminator :
    analyzeLocalParameters layoutBeforeNull.kinds [[8], [9]] layoutBeforeNull [] =
      some (true, [(4, 2)]) ∧
    (layoutBeforeNull.kinds 4).isNull = true ∧
    ((layoutBeforeNull.kinds 6).isNull = false ∧
      (layoutBeforeNull.kinds 6).isManipulator = false) ∧
    analyzeLocalParameters layoutBeforeEnd.kinds [[3]] layoutBeforeEnd [] =
      some (true, [(3, 2)]) ∧
    (layoutBeforeEnd.kinds 3).isManipulator = true := by
  refine ⟨by decide!, by decide, by decide, by decide!, by decide⟩

theorem SameButDur.same_dur_refl (f : HumdrumFileStructure) : SameButDur f f := by
  refine ⟨rfl, rfl, fun i => ?_⟩
  unfold durOf
  cases h : f.tokens[i]? <;> simp

theorem SameButDur.token_get {f0 g : HumdrumFileStructure} (h : SameButDur f0 g) (x : Nat)
    (t : HumdrumToken) (ht : f0.tokens[x]? = some t) :
    g.tokens[x]? = some { t with duration := durOf g x } := by
  rw [h.tokens_get, ht]
  rfl

theorem durOf_setDuration (g : HumdrumFileStructure) (tok : Nat) (v : HumNum) (x : Nat)
    (hx : x ≠ tok) : durOf (HumdrumToken.setDuration g tok v) x = durOf g x := by
  unfold HumdrumToken.setDuration durOf
  cases h : g.tokens[tok]? with
  | none => rfl
  | some t =>
    simp only
    rw [List.getElem?_set_ne (Ne.symm hx)]

theorem durOf_setDuration_self (g : HumdrumFileStructure) (tok : Nat) (v : HumNum)
    (t : HumdrumToken) (ht : g.tokens[tok]? = some t) :
    durOf (HumdrumToken.setDuration g tok v) tok = v := by
  have hi : tok < g.tokens.length := by
    by_contra hc
    rw [List.getElem?_eq_none (by omega)] at ht
    cases ht
  unfold HumdrumToken.setDuration durOf
  rw [ht]
  simp only
  rw [List.getElem?_set_self hi]

theorem SameButDur.after_setDuration {f0 g : HumdrumFileStructure} (h : SameButDur f0 g) (tok : Nat)
    (v : HumNum) : SameButDur f0 (HumdrumToken.setDuration g tok v) := by
  cases hg : g.tokens[tok]? with
  | none =>
    have : HumdrumToken.setDuration g tok v = g := by
      unfold HumdrumToken.setDuration; rw [hg]
    rw [this]; exact h
  | some t =>
    have hi : tok < g.tokens.length := by
      by_contra hc
      rw [List.getElem?_eq_none (by omega)] at hg
      cases hg
    refine ⟨?_, ?_, fun i => ?_⟩
    · unfold HumdrumToken.setDuration; rw [hg]; exact h.lines_eq
    · unfold HumdrumToken.setDuration; rw [hg]; exact h.trackstarts_eq
    · by_cases hi2 : i = tok
      · subst hi2
        rw [durOf_setDuration_self g i v t hg]
        have h2 := h.tokens_get i
        rw [hg] at h2
        unfold HumdrumToken.setDuration
        rw [hg]
        simp only
        rw [List.getElem?_set_self hi]
        cases h0 : f0.tokens[i]? with
        | none => rw [h0] at h2; cases h2
        | some t0 =>
          rw [h0] at h2
          simp only [Option.map_some', Option.some.injEq] at h2 ⊢
          rw [h2]
      · rw [durOf_setDuration g tok v i hi2, ← h.tokens_get i]
        unfold HumdrumToken.setDuration
        rw [hg]
        simp only
        rw [List.getElem?_set_ne (Ne.symm hi2)]

theorem getDurationFromStart_same (f0 g : HumdrumFileStructure) (h : SameButDur f0 g)
    (hb : BackLinked f0) (x : Nat) (t : HumdrumToken) (ht : f0.tokens[x]? = some t) :
    HumdrumToken.getDurationFromStart g x = some (tokenStart f0 x) := by
  unfold HumdrumToken.getDurationFromStart tokenStart startOf
  rw [h.token_get x t ht, ht, h.lines_eq]
  have hl := hb.line_valid x t ht
  simp only [Option.bind_eq_bind, Option.some_bind, List.getElem?_eq_getElem hl]
  rfl

theorem assignDurationsToNonRhythmicTrack.step_spec (kind : Nat → TokenKind)
    (f0 g : HumdrumFileStructure) (h : SameButDur f0 g) (hb : BackLinked f0)
    (token current : Nat) (t tc : HumdrumToken) (ht : f0.tokens[token]? = some t)
    (hc : f0.tokens[current]? = some tc) :
    assignDurationsToNonRhythmicTrack.step kind g token current =
      some (if nonNullData kind token then
          (HumdrumToken.setDuration g token (tokenStart f0 current - tokenStart f0 token), token)
        else (g, current)) := by
  unfold assignDurationsToNonRhythmicTrack.step nonNullData
  rw [getDurationFromStart_same f0 g h hb token t ht,
    getDurationFromStart_same f0 g h hb current tc hc]
  cases (kind token).isData <;> cases (kind token).isNull <;> rfl

theorem assignDurationsToNonRhythmicTrack.branches_total (f0 : HumdrumFileStructure)
    (Q : Nat → Prop)
    (recurse : HumdrumFileStructure → Nat → Nat → Option (Bool × HumdrumFileStructure))
    (current : Nat) :
    ∀ (xs : List Nat) (g : HumdrumFileStructure), SameButDur f0 g →
      (∀ x ∈ xs, ∀ g, SameButDur f0 g →
        ∃ g1, recurse g x current = some (true, g1) ∧ SameButDur f0 g1 ∧ KeepsOutside Q g g1) →
      ∃ g1, assignDurationsToNonRhythmicTrack.branches recurse g xs current = some (true, g1) ∧
        SameButDur f0 g1 ∧ KeepsOutside Q g g1 := by
  intro xs
  induction xs with
  | nil =>
    intro g hg _
    exact ⟨g, rfl, hg, fun _ _ => rfl⟩
  | cons x rest ih =>
    intro g hg hrec
    obtain ⟨g1, h1, hs1, hk1⟩ := hrec x (by simp) g hg
    obtain ⟨g2, h2, hs2, hk2⟩ := ih g1 hs1 (fun y hy => hrec y (List.mem_cons_of_mem _ hy))
    refine ⟨g2, ?_, hs2, fun z hz => (hk2 z hz).trans (hk1 z hz)⟩
    unfold assignDurationsToNonRhythmicTrack.branches
    rw [h1]
    simp only [Option.bind_eq_bind, Option.some_bind, Bool.not_true, Bool.false_eq_true,
      if_false]
    exact h2

theorem assignDurationsToNonRhythmicTrack.loop_total (kind : Nat → TokenKind)
    (f0 : HumdrumFileStructure) (hb : BackLinked f0) (Q : Nat → Prop)
    (hQ : ∀ x t, f0.tokens[x]? = some t → Q x → ∀ j ∈ t.previousTokens, Q j)
    (recurse : HumdrumFileStructure → Nat → Nat → Option (Bool × HumdrumFileStructure)) :
    ∀ (n : Nat) (g : HumdrumFileStructure) (token current : Nat) (t : HumdrumToken),
      SameButDur f0 g → f0.tokens[token]? = some t → t.lineIndex + 1 ≤ n →
      (∃ tc, f0.tokens[current]? = some tc) → Q token →
      (∀ g x c tx, SameButDur f0 g → f0.tokens[x]? = some tx → tx.lineIndex < t.lineIndex →
        (∃ tc, f0.tokens[c]? = some tc) → Q x →
        ∃ g1, recurse g x c = some (true, g1) ∧ SameButDur f0 g1 ∧ KeepsOutside Q g g1) →
      ∃ g1, assignDurationsToNonRhythmicTrack.loop kind recurse n g token current =
          some (true, g1) ∧ SameButDur f0 g1 ∧ KeepsOutside Q g g1 := by
  intro n
  induction n with
  | zero => intro g token current t _ _ hn; omega
  | succ n ih =>
    intro g token current t hg ht hn hc hq hrec
    obtain ⟨tc, htc⟩ := hc
    unfold assignDurationsToNonRhythmicTrack.loop
    rw [hg.token_get token t ht]
    simp only [Option.bind_eq_bind, Option.some_bind]
    cases hp : t.previousTokens with
    | nil =>
      simp only [List.length_nil, lt_irrefl, if_false]
      exact ⟨g, rfl, hg, fun _ _ => rfl⟩
    | cons p0 rest =>
      simp only [List.length_cons, Nat.zero_lt_succ, if_true, List.drop_succ_cons, List.drop_zero,
        List.getElem?_cons_zero, Option.some_bind]
      obtain ⟨g1, h1, hs1, hk1⟩ :=
        assignDurationsToNonRhythmicTrack.branches_total f0 Q recurse current rest g hg
          (fun x hx g' hg' => by
            obtain ⟨tx, htx, hlt⟩ := hb.prev_valid token x t ht (by rw [hp]; simp [hx])
            exact hrec g' x current tx hg' htx hlt ⟨tc, htc⟩
              (hQ token t ht hq x (by rw [hp]; simp [hx])))
      rw [h1]
      simp only [Option.some_bind, Bool.not_true, Bool.false_eq_true, if_false]
      rw [assignDurationsToNonRhythmicTrack.step_spec kind f0 g1 hs1 hb token current t tc ht htc]
      simp only [Option.some_bind]
      obtain ⟨tp, htp, hlt⟩ := hb.prev_valid token p0 t ht (by rw [hp]; simp)
      have hqp : Q p0 := hQ token t ht hq p0 (by rw [hp]; simp)
      have hrec2 : ∀ g x c tx, SameButDur f0 g → f0.tokens[x]? = some tx →
          tx.lineIndex < tp.lineIndex → (∃ tc, f0.tokens[c]? = some tc) → Q x →
          ∃ g1, recurse g x c = some (true, g1) ∧ SameButDur f0 g1 ∧ KeepsOutside Q g g1 :=
        fun g x c tx hg' htx hl hc' hqx => hrec g x c tx hg' htx (by omega) hc' hqx
      by_cases hd : nonNullData kind token = true
      · rw [if_pos hd]
        obtain ⟨g2, h2, hs2, hk2⟩ := ih _ p0 token tp (hs1.after_setDuration token _) htp (by omega)
          ⟨t, ht⟩ hqp hrec2
        refine ⟨g2, h2, hs2, fun z hz => ?_⟩
        rw [hk2 z hz, durOf_setDuration _ _ _ _ (fun e => hz (by rw [e]; exact hq)), hk1 z hz]
      · rw [if_neg hd]
        obtain ⟨g2, h2, hs2, hk2⟩ := ih g1 p0 current tp hs1 htp (by omega) ⟨tc, htc⟩ hqp hrec2
        exact ⟨g2, h2, hs2, fun z hz => (hk2 z hz).trans (hk1 z hz)⟩

/-- The walk of `assignDurationsToNonRhythmicTrack` returns true from every
token of a file whose backward links lead to earlier lines, and changes
durations only. -/
theorem assignDurationsToNonRhythmicTrack_total (kind : Nat → TokenKind)
    (f0 : HumdrumFileStructure) (hb : BackLinked f0) (Q : Nat → Prop)
    (hQ : ∀ x t, f0.tokens[x]? = some t → Q x → ∀ j ∈ t.previousTokens, Q j) :
    ∀ (n : Nat) (g : HumdrumFileStructure) (token current : Nat) (t : HumdrumToken),
      SameButDur f0 g → f0.tokens[token]? = some t → t.lineIndex + 2 ≤ n →
      (∃ tc, f0.tokens[current]? = some tc) → Q token →
      ∃ g1, assignDurationsToNonRhythmicTrack kind n g token current = some (true, g1) ∧
        SameButDur f0 g1 ∧ KeepsOutside Q g g1 := by
  intro n
  induction n with
  | zero => intro g token current t _ _ hn; omega
  | succ n ih =>
    intro g token current t hg ht hn hc hq
    unfold assignDurationsToNonRhythmicTrack
    exact assignDurationsToNonRhythmicTrack.loop_total kind f0 hb Q hQ _ n g token current t hg
      ht (by omega) hc hq
      (fun g' x c tx hg' htx hl hc' hqx => ih g' x c tx hg' htx (by omega) hc' hqx)

theorem durOf_setDuration_eq (f0 g : HumdrumFileStructure) (h : SameButDur f0 g) (tok : Nat)
    (t : HumdrumToken) (ht : f0.tokens[tok]? = some t) (v : HumNum) :
    durOf (HumdrumToken.setDuration g tok v) = Function.update (durOf g) tok v := by
  funext x
  by_cases hx : x = tok
  · subst hx
    rw [Function.update_same]
    exact durOf_setDuration_self g x v _ (h.token_get x t ht)
  · rw [Function.update_noteq hx]
    exact durOf_setDuration g tok v x hx

/-- The walk of `assignDurationsToNonRhythmicTrack` along a spine that never
merges computes the durations `walkDur`. -/
theorem assignDurationsToNonRhythmicTrack.loop_chain (kind : Nat → TokenKind)
    (f0 : HumdrumFileStructure) (hb : BackLinked f0)
    (recurse : HumdrumFileStructure → Nat → Nat → Option (Bool × HumdrumFileStructure)) :
    ∀ (ps : List Nat) (token n : Nat) (g : HumdrumFileStructure) (current : Nat),
      BackChain f0 (token :: ps) → SameButDur f0 g → ps.length + 1 ≤ n →
      (∃ tc, f0.tokens[current]? = some tc) →
      ∃ g1, assignDurationsToNonRhythmicTrack.loop kind recurse n g token current =
          some (true, g1) ∧ SameButDur f0 g1 ∧
        durOf g1 = walkDur kind (tokenStart f0) (durOf g) (token :: ps) current := by
  intro ps
  induction ps with
  | nil =>
    intro token n g current hc hg hn _
    obtain ⟨t, ht, hp⟩ := hc
    obtain ⟨n, rfl⟩ : ∃ k, n = k + 1 := ⟨n - 1, by simp at hn; omega⟩
    refine ⟨g, ?_, hg, rfl⟩
    unfold assignDurationsToNonRhythmicTrack.loop
    rw [hg.token_get token t ht]
    simp only [Option.bind_eq_bind, Option.some_bind, hp, List.length_nil, lt_irrefl, if_false]
    rfl
  | cons p ps ih =>
    intro token n g current hc hg hn hcur
    obtain ⟨⟨t, ht, hp⟩, hc2⟩ := hc
    obtain ⟨tc, htc⟩ := hcur
    obtain ⟨n, rfl⟩ : ∃ k, n = k + 1 := ⟨n - 1, by simp at hn; omega⟩
    have hunf : assignDurationsToNonRhythmicTrack.loop kind recurse (n + 1) g token current =
        assignDurationsToNonRhythmicTrack.loop kind recurse n
          (if nonNullData kind token then
            (HumdrumToken.setDuration g token (tokenStart f0 current - tokenStart f0 token), token)
          else (g, current)).1 p
          (if nonNullData kind token then
            (HumdrumToken.setDuration g token (tokenStart f0 current - tokenStart f0 token), token)
          else (g, current)).2 := by
      rw [assignDurationsToNonRhythmicTrack.loop]
      rw [hg.token_get token t ht]
      simp only [Option.bind_eq_bind, Option.some_bind, hp, List.length_cons, Nat.zero_lt_succ,
        if_true, List.drop_succ_cons, List.drop_zero, List.getElem?_cons_zero,
        assignDurationsToNonRhythmicTrack.branches, Bool.not_true, Bool.false_eq_true, if_false,
        List.length_nil, Nat.zero_add, Nat.lt_one_iff]
      rw [assignDurationsToNonRhythmicTrack.step_spec kind f0 g hg hb token current t tc ht htc]
      rfl
    rw [hunf]
    by_cases hd : nonNullData kind token = true
    · simp only [hd, if_true]
      obtain ⟨g2, h2, hs2, hd2⟩ := ih p n _ token hc2 (hg.after_setDuration token _)
        (by simp at hn; omega) ⟨t, ht⟩
      refine ⟨g2, h2, hs2, ?_⟩
      rw [hd2, durOf_setDuration_eq f0 g hg token t ht]
      simp [walkDur, hd]
    · simp only [hd, if_false]
      obtain ⟨g2, h2, hs2, hd2⟩ := ih p n g current hc2 hg (by simp at hn; omega) ⟨tc, htc⟩
      refine ⟨g2, h2, hs2, ?_⟩
      rw [hd2]
      simp [walkDur, hd]

theorem walkDur_keeps (kind : Nat → TokenKind) (dfs : Nat → HumNum) (x : Nat) :
    ∀ (W : List Nat) (d : Nat → HumNum) (current : Nat),
      (nonNullData kind x = true → x ∉ W.dropLast) →
      walkDur kind dfs d W current x = d x := by
  intro W
  induction W with
  | nil => intro d current _; rfl
  | cons a W ih =>
    cases W with
    | nil => intro d current _; rfl
    | cons b rest =>
      intro d current hx
      have hx2 : nonNullData kind x = true → x ∉ (b :: rest).dropLast := by
        intro h
        have := hx h
        rw [List.dropLast_cons₂] at this
        exact fun hm => this (List.mem_cons_of_mem _ hm)
      by_cases ha : nonNullData kind a = true
      · have hne : x ≠ a := by
          intro e
          subst e
          have := hx ha
          rw [List.dropLast_cons₂] at this
          exact this (List.mem_cons_self _ _)
        simp only [walkDur, ha, if_true]
        rw [ih _ _ hx2, Function.update_noteq hne]
      · simp only [walkDur, ha, if_false]
        exact ih _ _ hx2

theorem walkDur_anchor_current (kind : Nat → TokenKind) (dfs : Nat → HumNum) (x : Nat)
    (A : List Nat) (hA : A ≠ []) (hx : nonNullData kind x = true) :
    ∀ (M : List Nat) (d : Nat → HumNum) (current : Nat),
      (M ++ x :: A).Nodup → (∀ z ∈ M, nonNullData kind z = false) →
      walkDur kind dfs d (M ++ x :: A) current x = dfs current - dfs x := by
  obtain ⟨a, A, rfl⟩ := List.exists_cons_of_ne_nil hA
  intro M
  induction M with
  | nil =>
    intro d current hnd _
    simp only [List.nil_append, walkDur, hx, if_true]
    rw [walkDur_keeps kind dfs x (a :: A) _ x, Function.update_same]
    intro _ hm
    have h1 : x ∉ a :: A := (List.nodup_cons.1 hnd).1
    exact h1 (List.dropLast_subset _ hm)
  | cons m M ih =>
    intro d current hnd hM
    have hm : nonNullData kind m = false := hM m (List.mem_cons_self _ _)
    have hshape : ∃ b rest, M ++ x :: a :: A = b :: rest := by
      cases M with
      | nil => exact ⟨x, a :: A, rfl⟩
      | cons b M => exact ⟨b, M ++ x :: a :: A, rfl⟩
    obtain ⟨b, rest, hbr⟩ := hshape
    have hstep : walkDur kind dfs d (m :: M ++ x :: a :: A) current =
        walkDur kind dfs d (M ++ x :: a :: A) current := by
      rw [List.cons_append, hbr]
      simp [walkDur, hm]
    rw [hstep]
    exact ih d current (List.nodup_cons.1 hnd).2 (fun z hz => hM z (List.mem_cons_of_mem _ hz))

theorem walkDur_anchor (kind : Nat → TokenKind) (dfs : Nat → HumNum) (x y : Nat)
    (A M : List Nat) (hA : A ≠ []) (hx : nonNullData kind x = true)
    (hy : nonNullData kind y = true) (hM : ∀ z ∈ M, nonNullData kind z = false) :
    ∀ (P : List Nat) (d : Nat → HumNum) (current : Nat),
      (P ++ y :: (M ++ x :: A)).Nodup →
      walkDur kind dfs d (P ++ y :: (M ++ x :: A)) current x = dfs y - dfs x := by
  have hshape : ∃ b rest, M ++ x :: A = b :: rest := by
    cases M with
    | nil => exact ⟨x, A, rfl⟩
    | cons b M => exact ⟨b, M ++ x :: A, rfl⟩
  obtain ⟨b, rest, hbr⟩ := hshape
  intro P
  induction P with
  | nil =>
    intro d current hnd
    have hstep : walkDur kind dfs d ([] ++ y :: (M ++ x :: A)) current =
        walkDur kind dfs (Function.update d y (dfs current - dfs y)) (M ++ x :: A) y := by
      rw [List.nil_append, hbr]
      simp [walkDur, hy]
    rw [hstep]
    exact walkDur_anchor_current kind dfs x A hA hx M _ y (List.nodup_cons.1 hnd).2 hM
  | cons p P ih =>
    intro d current hnd
    have hshape2 : ∃ c rest2, P ++ y :: (M ++ x :: A) = c :: rest2 := by
      cases P with
      | nil => exact ⟨y, M ++ x :: A, rfl⟩
      | cons c P => exact ⟨c, P ++ y :: (M ++ x :: A), rfl⟩
    obtain ⟨c, rest2, hcr⟩ := hshape2
    have hnd2 := (List.nodup_cons.1 hnd).2
    by_cases hp : nonNullData kind p = true
    · have hstep : walkDur kind dfs d (p :: P ++ y :: (M ++ x :: A)) current =
          walkDur kind dfs (Function.update d p (dfs current - dfs p))
            (P ++ y :: (M ++ x :: A)) p := by
        rw [List.cons_append, hcr]
        simp [walkDur, hp]
      rw [hstep]
      exact ih _ _ hnd2
    · have hstep : walkDur kind dfs d (p :: P ++ y :: (M ++ x :: A)) current =
          walkDur kind dfs d (P ++ y :: (M ++ x :: A)) current := by
        rw [List.cons_append, hcr]
        simp [walkDur, hp]
      rw [hstep]
      exact ih _ _ hnd2

theorem BackChain.lines_below (f0 : HumdrumFileStructure) (hb : BackLinked f0) :
    ∀ (ps : List Nat) (token : Nat) (t : HumdrumToken), BackChain f0 (token :: ps) →
      f0.tokens[token]? = some t →
      ∀ x ∈ ps, ∃ tx, f0.tokens[x]? = some tx ∧ tx.lineIndex < t.lineIndex := by
  intro ps
  induction ps with
  | nil => intro token t _ _ x hx; cases hx
  | cons p ps ih =>
    intro token t hc ht x hx
    obtain ⟨⟨t1, ht1, hp⟩, hc2⟩ := hc
    rw [ht] at ht1
    cases ht1
    obtain ⟨tp, htp, hlt⟩ := hb.prev_valid token p t ht (by rw [hp]; simp)
    rcases List.mem_cons.1 hx with h | h
    · subst h; exact ⟨tp, htp, hlt⟩
    · obtain ⟨tx, htx, hlt2⟩ := ih p tp hc2 htp x h
      exact ⟨tx, htx, by omega⟩

theorem BackChain.head_valid (f0 : HumdrumFileStructure) (token : Nat) (ps : List Nat)
    (h : BackChain f0 (token :: ps)) : ∃ t, f0.tokens[token]? = some t := by
  cases ps with
  | nil => obtain ⟨t, ht, _⟩ := h; exact ⟨t, ht⟩
  | cons p ps => obtain ⟨⟨t, ht, _⟩, _⟩ := h; exact ⟨t, ht⟩

theorem BackChain.chain_tail (f0 : HumdrumFileStructure) (token p : Nat) (ps : List Nat)
    (h : BackChain f0 (token :: p :: ps)) : BackChain f0 (p :: ps) := h.2

theorem BackChain.chain_nodup (f0 : HumdrumFileStructure) (hb : BackLinked f0) :
    ∀ (W : List Nat), BackChain f0 W → W.Nodup := by
  intro W
  induction W with
  | nil => intro h; exact List.nodup_nil
  | cons token ps ih =>
    intro h
    obtain ⟨t, ht⟩ := BackChain.head_valid f0 token ps h
    refine List.nodup_cons.2 ⟨fun hm => ?_, ?_⟩
    · obtain ⟨tx, htx, hlt⟩ := BackChain.lines_below f0 hb ps token t h ht token hm
      rw [ht] at htx
      cases htx
      omega
    · cases ps with
      | nil => exact List.nodup_nil
      | cons p ps => exact ih (BackChain.chain_tail f0 token p ps h)

theorem BackChain.chain_length_le (f0 : HumdrumFileStructure) (hb : BackLinked f0) :
    ∀ (ps : List Nat) (token : Nat) (t : HumdrumToken), BackChain f0 (token :: ps) →
      f0.tokens[token]? = some t → ps.length ≤ t.lineIndex := by
  intro ps
  induction ps with
  | nil => intro token t _ _; simp
  | cons p ps ih =>
    intro token t hc ht
    obtain ⟨⟨t1, ht1, hp⟩, hc2⟩ := hc
    rw [ht] at ht1
    cases ht1
    obtain ⟨tp, htp, hlt⟩ := hb.prev_valid token p t ht (by rw [hp]; simp)
    have := ih p tp hc2 htp
    simp only [List.length_cons]
    omega

theorem analyzeDurationsOfNonRhythmicSpines.tracks_eq (kind : Nat → TokenKind) :
    ∀ (T pre : List (List Nat)) (g : HumdrumFileStructure),
      analyzeDurationsOfNonRhythmicSpines.tracks kind (pre ++ T) T.length (pre.length + 1) g =
        analyzeDurationsOfNonRhythmicSpines.over kind g T := by
  intro T
  induction T with
  | nil => intro pre g; rfl
  | cons es rest ih =>
    intro pre g
    have hget : (pre ++ es :: rest)[pre.length + 1 - 1]? = some es := by
      rw [Nat.add_sub_cancel, List.getElem?_append_right (le_refl _), Nat.sub_self,
        List.getElem?_cons_zero]
    have hih : ∀ g', analyzeDurationsOfNonRhythmicSpines.tracks kind (pre ++ es :: rest)
        rest.length (pre.length + 1 + 1) g' =
        analyzeDurationsOfNonRhythmicSpines.over kind g' rest := by
      intro g'
      have := ih (pre ++ [es]) g'
      simpa using this
    simp only [List.length_cons]
    rw [analyzeDurationsOfNonRhythmicSpines.tracks, hget]
    simp only [Option.bind_eq_bind, Option.some_bind, hih]
    rfl

theorem analyzeDurationsOfNonRhythmicSpines_eq (kind : Nat → TokenKind)
    (trackends : List (List Nat)) (f : HumdrumFileStructure)
    (hlen : trackends.length = getMaxTrack f) :
    analyzeDurationsOfNonRhythmicSpines kind trackends f =
      analyzeDurationsOfNonRhythmicSpines.over kind f trackends := by
  unfold analyzeDurationsOfNonRhythmicSpines
  rw [← hlen]
  exact analyzeDurationsOfNonRhythmicSpines.tracks_eq kind trackends [] f

theorem KeepsOutside.keeps_trans {Q : Nat → Prop} {g g1 g2 : HumdrumFileStructure}
    (h1 : KeepsOutside Q g g1) (h2 : KeepsOutside Q g1 g2) : KeepsOutside Q g g2 :=
  fun z hz => (h2 z hz).trans (h1 z hz)

theorem analyzeDurationsOfNonRhythmicSpines.ends_foreign (kind : Nat → TokenKind)
    (f0 : HumdrumFileStructure) (hb : BackLinked f0) (Q : Nat → Prop)
    (hQ : ∀ x t, f0.tokens[x]? = some t → Q x → ∀ j ∈ t.previousTokens, Q j) :
    ∀ (es : List Nat) (g : HumdrumFileStructure), SameButDur f0 g →
      (∀ x ∈ es, (∃ t, f0.tokens[x]? = some t) ∧ Q x) →
      ∃ g1, analyzeDurationsOfNonRhythmicSpines.ends kind g es = some (true, g1) ∧
        SameButDur f0 g1 ∧ KeepsOutside Q g g1 := by
  intro es
  induction es with
  | nil => intro g hg _; exact ⟨g, rfl, hg, fun _ _ => rfl⟩
  | cons e rest ih =>
    intro g hg hes
    obtain ⟨⟨t, ht⟩, hq⟩ := hes e (List.mem_cons_self _ _)
    have hrest : ∀ x ∈ rest, (∃ t, f0.tokens[x]? = some t) ∧ Q x :=
      fun x hx => hes x (List.mem_cons_of_mem _ hx)
    unfold analyzeDurationsOfNonRhythmicSpines.ends
    rw [hg.token_get e t ht]
    simp only [Option.bind_eq_bind, Option.some_bind]
    by_cases hr : t.hasRhythm = true
    · rw [if_pos hr]
      exact ih g hg hrest
    · rw [if_neg hr]
      obtain ⟨g1, h1, hs1, hk1⟩ := assignDurationsToNonRhythmicTrack_total kind f0 hb Q hQ
        (g.lines.length + 1) g e e t hg ht
        (by rw [hg.lines_eq]; have := hb.line_valid e t ht; omega) ⟨t, ht⟩ hq
      rw [h1]
      simp only [Option.some_bind, Bool.not_true, Bool.false_eq_true, if_false]
      obtain ⟨g2, h2, hs2, hk2⟩ := ih g1 hs1 hrest
      exact ⟨g2, h2, hs2, hk1.keeps_trans hk2⟩

theorem analyzeDurationsOfNonRhythmicSpines.over_foreign (kind : Nat → TokenKind)
    (f0 : HumdrumFileStructure) (hb : BackLinked f0) (Q : Nat → Prop)
    (hQ : ∀ x t, f0.tokens[x]? = some t → Q x → ∀ j ∈ t.previousTokens, Q j) :
    ∀ (T : List (List Nat)) (g : HumdrumFileStructure), SameButDur f0 g →
      (∀ es ∈ T, ∀ x ∈ es, (∃ t, f0.tokens[x]? = some t) ∧ Q x) →
      ∃ g1, analyzeDurationsOfNonRhythmicSpines.over kind g T = some (true, g1) ∧
        SameButDur f0 g1 ∧ KeepsOutside Q g g1 := by
  intro T
  induction T with
  | nil => intro g hg _; exact ⟨g, rfl, hg, fun _ _ => rfl⟩
  | cons es rest ih =>
    intro g hg hT
    obtain ⟨g1, h1, hs1, hk1⟩ := analyzeDurationsOfNonRhythmicSpines.ends_foreign kind f0 hb Q hQ
      es g hg (hT es (List.mem_cons_self _ _))
    obtain ⟨g2, h2, hs2, hk2⟩ := ih g1 hs1 (fun es' h => hT es' (List.mem_cons_of_mem _ h))
    refine ⟨g2, ?_, hs2, hk1.keeps_trans hk2⟩
    unfold analyzeDurationsOfNonRhythmicSpines.over
    rw [h1]
    simp only [Option.some_bind, Bool.not_true, Bool.false_eq_true, if_false]
    exact h2

theorem analyzeDurationsOfNonRhythmicSpines.over_append (kind : Nat → TokenKind) :
    ∀ (T1 T2 : List (List Nat)) (g g1 : HumdrumFileStructure),
      analyzeDurationsOfNonRhythmicSpines.over kind g T1 = some (true, g1) →
      analyzeDurationsOfNonRhythmicSpines.over kind g (T1 ++ T2) =
        analyzeDurationsOfNonRhythmicSpines.over kind g1 T2 := by
  intro T1
  induction T1 with
  | nil =>
    intro T2 g g1 h
    cases h
    rfl
  | cons es rest ih =>
    intro T2 g g1 h
    unfold analyzeDurationsOfNonRhythmicSpines.over at h
    rw [List.cons_append, analyzeDurationsOfNonRhythmicSpines.over]
    cases he : analyzeDurationsOfNonRhythmicSpines.ends kind g es with
    | none => rw [he] at h; cases h
    | some r =>
      rw [he] at h
      simp only [Option.some_bind] at h ⊢
      by_cases hr : (!r.1) = true
      · rw [if_pos hr] at h
        cases h
      · rw [if_neg hr] at h ⊢
        exact ih T2 r.2 g1 h

/-- The end of a spine that never merges, handled by the inner loop: the
durations become `walkDur`. -/
theorem analyzeDurationsOfNonRhythmicSpines.ends_chain (kind : Nat → TokenKind)
    (f0 : HumdrumFileStructure) (hb : BackLinked f0) (e : Nat) (ps : List Nat)
    (hc : BackChain f0 (e :: ps)) (t : HumdrumToken) (ht : f0.tokens[e]? = some t)
    (hr : t.hasRhythm = false) (g : HumdrumFileStructure) (hg : SameButDur f0 g) :
    ∃ g1, analyzeDurationsOfNonRhythmicSpines.ends kind g [e] = some (true, g1) ∧
      SameButDur f0 g1 ∧
      durOf g1 = walkDur kind (tokenStart f0) (durOf g) (e :: ps) e := by
  have hlen := BackChain.chain_length_le f0 hb ps e t hc ht
  have hline := hb.line_valid e t ht
  obtain ⟨g1, h1, hs1, hd1⟩ := assignDurationsToNonRhythmicTrack.loop_chain kind f0 hb
    (fun g1 x c => assignDurationsToNonRhythmicTrack kind g.lines.length g1 x c)
    ps e g.lines.length g e hc hg (by rw [hg.lines_eq]; omega) ⟨t, ht⟩
  refine ⟨g1, ?_, hs1, hd1⟩
  unfold analyzeDurationsOfNonRhythmicSpines.ends
  rw [hg.token_get e t ht]
  simp only [Option.bind_eq_bind, Option.some_bind, hr, Bool.false_eq_true, if_false]
  unfold assignDurationsToNonRhythmicTrack
  rw [h1]
  rfl

theorem lyricsFile_token_lt (k : Nat) (t : HumdrumToken) (h : lyricsFile.tokens[k]? = some t) :
    k < 8 := by
  by_contra hc
  rw [List.getElem?_eq_none (by simp [lyricsFile]; omega)] at h
  cases h

theorem lyricsFile_backLinked : BackLinked lyricsFile := by
  refine ⟨?_, ?_⟩
  · intro i j t ht hj
    have hi := lyricsFile_token_lt i t ht
    interval_cases i <;> simp [lyricsFile] at ht <;> subst ht <;> simp at hj <;>
      (subst hj; exact ⟨_, rfl, by decide⟩)
  · intro i t ht
    have hi := lyricsFile_token_lt i t ht
    interval_cases i <;> simp [lyricsFile] at ht <;> subst ht <;> decide

theorem lyricsFile_closed (x : Nat) (t : HumdrumToken) (ht : lyricsFile.tokens[x]? = some t)
    (hx : x ∉ [1, 3, 5, 7]) : ∀ j ∈ t.previousTokens, j ∉ [1, 3, 5, 7] := by
  intro j hj
  have hi := lyricsFile_token_lt x t ht
  interval_cases x <;> simp [lyricsFile] at ht <;> subst ht <;> simp at hj hx ⊢ <;>
    (subst hj; decide)

/-- C11: let `cs` list, from start to end, the tokens of a track that never
merges (each token has the one before as its only previous token) and never
splits (no token outside `cs` has a previous token in `cs`), whose end `e` is
the only end of its track and has no rhythm, in a file whose backward links
lead to earlier lines.  Then `analyzeDurationsOfNonRhythmicSpines` returns
true and changes token durations only; a non-null data token `x` of the
track followed, after tokens that are not non-null data, by the non-null
data token `y` gets the start time of `y` minus its own; a non-null data
token after which no non-null data token comes gets the start time of the
end minus its own; every other token of the track (null data tokens among
them) keeps its duration. -/
theorem analyzeDurationsOfNonRhythmicSpines_spec (kind : Nat → TokenKind)
    (f : HumdrumFileStructure) (trackends T1 T2 : List (List Nat)) (cs : List Nat) (e : Nat)
    (hb : BackLinked f)
    (hlen : trackends.length = getMaxTrack f)
    (hT : trackends = T1 ++ [e] :: T2)
    (hends : ∀ es ∈ T1 ++ T2, ∀ x ∈ es, (∃ t, f.tokens[x]? = some t) ∧ x ∉ cs)
    (hchain : BackChain f cs.reverse)
    (he : cs.getLast? = some e)
    (hnr : ∀ t, f.tokens[e]? = some t → t.hasRhythm = false)
    (hclosed : ∀ x t, f.tokens[x]? = some t → x ∉ cs → ∀ j ∈ t.previousTokens, j ∉ cs)
    (hstart : ∀ s, cs.head? = some s → nonNullData kind s = false) :
    ∃ g, analyzeDurationsOfNonRhythmicSpines kind trackends f = some (true, g) ∧
      SameButDur f g ∧
      (∀ A x M y B, cs = A ++ x :: (M ++ y :: B) → nonNullData kind x = true →
        nonNullData kind y = true → (∀ z ∈ M, nonNullData kind z = false) →
        durOf g x = tokenStart f y - tokenStart f x) ∧
      (∀ A x M, cs = A ++ x :: M → nonNullData kind x = true →
        (∀ z ∈ M, nonNullData kind z = false) →
        durOf g x = tokenStart f e - tokenStart f x) ∧
      (∀ x ∈ cs, nonNullData kind x = false → durOf g x = durOf f x) := by
  obtain ⟨init, hinit⟩ : ∃ init, cs = init ++ [e] := by
    rcases List.eq_nil_or_concat cs with h | ⟨init, a, h⟩
    · rw [h] at he; cases he
    · rw [h, List.concat_eq_append, List.getLast?_append] at he
      simp at he
      rw [h, List.concat_eq_append, he]
      exact ⟨init, rfl⟩
  have hW : cs.reverse = e :: init.reverse := by rw [hinit]; simp
  rw [hW] at hchain
  obtain ⟨t, ht⟩ := BackChain.head_valid f e _ hchain
  have hnd : cs.reverse.Nodup := by
    rw [hW]; exact BackChain.chain_nodup f hb _ hchain
  have hQ : ∀ x t, f.tokens[x]? = some t → (fun z => z ∉ cs) x →
      ∀ j ∈ t.previousTokens, (fun z => z ∉ cs) j := hclosed
  obtain ⟨g1, h1, hs1, hk1⟩ := analyzeDurationsOfNonRhythmicSpines.over_foreign kind f hb
    (fun z => z ∉ cs) hQ T1 f (SameButDur.same_dur_refl f)
    (fun es h => hends es (List.mem_append_left _ h))
  obtain ⟨g2, h2, hs2, hd2⟩ := analyzeDurationsOfNonRhythmicSpines.ends_chain kind f hb e _
    hchain t ht (hnr t ht) g1 hs1
  obtain ⟨g3, h3, hs3, hk3⟩ := analyzeDurationsOfNonRhythmicSpines.over_foreign kind f hb
    (fun z => z ∉ cs) hQ T2 g2 hs2 (fun es h => hends es (List.mem_append_right _ h))
  have hrun : analyzeDurationsOfNonRhythmicSpines kind trackends f = some (true, g3) := by
    rw [analyzeDurationsOfNonRhythmicSpines_eq kind trackends f hlen, hT,
      analyzeDurationsOfNonRhythmicSpines.over_append kind T1 _ f g1 h1,
      analyzeDurationsOfNonRhythmicSpines.over, h2]
    simp only [Option.some_bind, Bool.not_true, Bool.false_eq_true, if_false]
    exact h3
  have hfin : ∀ x ∈ cs, durOf g3 x =
      walkDur kind (tokenStart f) (durOf g1) cs.reverse e x := by
    intro x hx
    rw [hk3 x (not_not.2 hx), hd2, hW]
  refine ⟨g3, hrun, hs3, ?_, ?_, ?_⟩
  · intro A x M y B hcs hx hy hM
    have hA : A.reverse ≠ [] := by
      intro hA
      have : A = [] := List.reverse_eq_nil_iff.1 hA
      rw [this] at hcs
      have := hstart x (by rw [hcs]; rfl)
      rw [hx] at this
      cases this
    have hrev : cs.reverse = B.reverse ++ y :: (M.reverse ++ x :: A.reverse) := by
      rw [hcs]; simp
    rw [hfin x (by rw [hcs]; simp)]
    rw [hrev] at hnd ⊢
    exact walkDur_anchor kind (tokenStart f) x y A.reverse M.reverse hA hx hy
      (fun z hz => hM z (List.mem_reverse.1 hz)) B.reverse _ e hnd
  · intro A x M hcs hx hM
    have hA : A.reverse ≠ [] := by
      intro hA
      have : A = [] := List.reverse_eq_nil_iff.1 hA
      rw [this] at hcs
      have := hstart x (by rw [hcs]; rfl)
      rw [hx] at this
      cases this
    have hrev : cs.reverse = M.reverse ++ x :: A.reverse := by
      rw [hcs]; simp
    rw [hfin x (by rw [hcs]; simp)]
    rw [hrev] at hnd ⊢
    exact walkDur_anchor_current kind (tokenStart f) x A.reverse hA hx M.reverse _ e hnd
      (fun z hz => hM z (List.mem_reverse.1 hz))
  · intro x hx hn
    rw [hfin x hx, walkDur_keeps kind (tokenStart f) x _ _ _ (fun h => by rw [hn] at h; cases h)]
    exact hk1 x (not_not.2 hx)

/-- The spec's example `**kern<TAB>**text / 2c<TAB>foo / 2d<TAB>bar /
*-<TAB>*-`, with `foo` at 0 and `bar` at 2 in a score of duration 4: `foo`
gets the duration 2, `bar` the score duration minus 2, and the exclusive
interpretation keeps its undefined duration. -/
theorem analyzeDurationsOfNonRhythmicSpines_spec_witness :
    ∃ g, analyzeDurationsOfNonRhythmicSpines lyricsFile.kinds [[6], [7]] lyricsFile =
        some (true, g) ∧
      durOf g 3 = 2 ∧ durOf g 5 = getScoreDuration lyricsFile - 2 ∧ durOf g 1 = -1 := by
  obtain ⟨g, hg, _, h1, h2, h3⟩ := analyzeDurationsOfNonRhythmicSpines_spec lyricsFile.kinds
    lyricsFile [[6], [7]] [[6]] [] [1, 3, 5, 7] 7 lyricsFile_backLinked rfl rfl
    (by
      intro es hes x hx
      simp only [List.append_nil, List.mem_singleton] at hes
      subst hes
      simp only [List.mem_singleton] at hx
      subst hx
      exact ⟨⟨_, rfl⟩, by decide⟩)
    ⟨⟨_, rfl, rfl⟩, ⟨_, rfl, rfl⟩, ⟨_, rfl, rfl⟩, ⟨_, rfl, rfl⟩⟩ rfl
    (by intro t h; simp [lyricsFile] at h; subst h; rfl)
    lyricsFile_closed
    (by intro s h; simp at h; subst h; decide)
  refine ⟨g, hg, ?_, ?_, ?_⟩
  · rw [h1 [1] 3 [] 5 [7] rfl (by decide) (by decide) (by simp)]
    decide!
  · rw [h2 [1, 3] 5 [7] rfl (by decide) (by decide)]
    decide!
  · rw [h3 1 (by decide) (by decide)]
    decide!

/-- C21: for a token that is a terminator or has a non-negative duration,
`setLineDurationFromStart` with the running sum `s` does this to the line of
the token: a negative (undefined) start time is replaced by `s` and the call
succeeds; a start time that is defined and equal to `s` is kept and the call
succeeds; a start time that is defined and differs from `s` is kept and the
call fails.  A defined start time is never overwritten, and nothing else in
the file changes. -/
theorem setLineDurationFromStart_spec (f : HumdrumFileStructure) (token : Nat) (s : HumNum)
    (t : HumdrumToken) (line : HumdrumLine) (ht : f.tokens[token]? = some t)
    (htimed : t.isTerminateInterpretation = true ∨ 0 ≤ t.duration)
    (hl : f.lines[t.lineIndex]? = some line) :
    (line.durationFromStart < 0 →
      setLineDurationFromStart f token s =
        some (true, { f with
          lines := f.lines.set t.lineIndex { line with durationFromStart := s } })) ∧
    (0 ≤ line.durationFromStart → line.durationFromStart = s →
      setLineDurationFromStart f token s = some (true, f)) ∧
    (0 ≤ line.durationFromStart → line.durationFromStart ≠ s →
      setLineDurationFromStart f token s = some (false, f)) := by
  have hskip : (!t.isTerminateInterpretation && decide (t.duration < 0)) = false := by
    rcases htimed with h | h
    · simp [h]
    · simp [not_lt.mpr h]
  have hset : setDurationFromStart f.lines t.lineIndex s =
      f.lines.set t.lineIndex { line with durationFromStart := s } := by
    unfold setDurationFromStart
    rw [hl]
  refine ⟨fun h => ?_, fun h0 h => ?_, fun h0 h => ?_⟩
  · unfold setLineDurationFromStart
    simp only [ht, hl, Option.bind_eq_bind, Option.some_bind, hskip, Bool.false_eq_true,
      if_false, h, if_true, hset]
    rfl
  · subst h
    unfold setLineDurationFromStart
    simp only [ht, hl, Option.bind_eq_bind, Option.some_bind, hskip, Bool.false_eq_true,
      if_false, not_lt.mpr h0, ne_eq, not_true_eq_false]
    rfl
  · unfold setLineDurationFromStart
    simp only [ht, hl, Option.bind_eq_bind, Option.some_bind, hskip, Bool.false_eq_true,
      if_false, not_lt.mpr h0, ne_eq, h, not_false_eq_true, if_true]
    rfl

/-- The quarter note on line 1 of `**kern / 4c / 4d / *-`: with the running
sum 0 the fresh line gets the start time 0; called again with 0 nothing
changes; called again with 1 the call fails and the start time stays 0. -/
theorem setLineDurationFromStart_spec_witness :
    (setLineDurationFromStart twoNotes 1 0).map
        (fun r => (r.1, r.2.lines.map (fun l => l.durationFromStart))) =
      some (true, [-1, 0, -1, -1]) ∧
    (∀ g, setLineDurationFromStart twoNotes 1 0 = some (true, g) →
      setLineDurationFromStart g 1 0 = some (true, g) ∧
      setLineDurationFromStart g 1 1 = some (false, g)) := by
  have h1 := (setLineDurationFromStart_spec twoNotes 1 0 _ _ rfl (Or.inr (by decide!)) rfl).1
    (by decide!)
  refine ⟨by rw [h1]; decide!, ?_⟩
  intro g hg
  rw [h1] at hg
  have e := (Option.some.inj hg)
  have e2 : g = { twoNotes with
      lines := twoNotes.lines.set 1 { freshLine true false true false with durationFromStart := 0 } } :=
    (congrArg Prod.snd e).symm
  subst e2
  have h2 := setLineDurationFromStart_spec
    { twoNotes with
      lines := twoNotes.lines.set 1 { freshLine true false true false with durationFromStart := 0 } } 1
  exact ⟨(h2 0 _ _ rfl (Or.inr (by decide!)) rfl).2.1 (by decide!) (by decide!),
    (h2 1 _ _ rfl (Or.inr (by decide!)) rfl).2.2 (by decide!) (by decide!)⟩

theorem meter_forward_get (L : List HumdrumLine) :
    ∀ (i : Nat) (sum : HumNum) (found : Bool) (bars : List Nat) (k : Nat) (l : HumdrumLine),
      L[k]? = some l →
      ∃ v, (analyzeMeter.forward i sum found bars L).1[k]? =
        some { l with durationFromBarline := v } := by
  induction L with
  | nil => intro i sum found bars k l h; simp at h
  | cons a rest ih =>
    intro i sum found bars k l h
    cases k with
    | zero =>
      simp only [List.getElem?_cons_zero, Option.some.injEq] at h
      subst h
      exact ⟨sum, by simp [analyzeMeter.forward]⟩
    | succ k =>
      simp only [List.getElem?_cons_succ] at h
      obtain ⟨v, hv⟩ := ih (i + 1) _ _ _ k l h
      exact ⟨v, by simpa [analyzeMeter.forward] using hv⟩

theorem meter_forward_length (L : List HumdrumLine) :
    ∀ (i : Nat) (sum : HumNum) (found : Bool) (bars : List Nat),
      (analyzeMeter.forward i sum found bars L).1.length = L.length := by
  induction L with
  | nil => intro i sum found bars; rfl
  | cons a rest ih =>
    intro i sum found bars
    simp [analyzeMeter.forward, ih]

theorem meter_backward_get (L : List HumdrumLine) :
    ∀ (k : Nat) (l : HumdrumLine), L[k]? = some l →
      ∃ v, (analyzeMeter.backward L).1[k]? = some { l with durationToBarline := v } := by
  induction L with
  | nil => intro k l h; simp at h
  | cons a rest ih =>
    intro k l h
    cases k with
    | zero =>
      simp only [List.getElem?_cons_zero, Option.some.injEq] at h
      subst h
      exact ⟨(analyzeMeter.backward rest).2 + a.duration, by simp [analyzeMeter.backward]⟩
    | succ k =>
      simp only [List.getElem?_cons_succ] at h
      obtain ⟨v, hv⟩ := ih k l h
      exact ⟨v, by simpa [analyzeMeter.backward] using hv⟩

theorem meter_forward_cons (a : HumdrumLine) (rest : List HumdrumLine) (i : Nat)
    (sum : HumNum) (found : Bool) (bars : List Nat) :
    ∃ found1 bars1, (analyzeMeter.forward i sum found bars (a :: rest)).1 =
      { a with durationFromBarline := sum } ::
        (analyzeMeter.forward (i + 1) (if a.isBarline then 0 else sum + a.duration)
          found1 bars1 rest).1 := by
  refine ⟨(if a.isData && !(if a.isBarline then true else found) then true
      else (if a.isBarline then true else found)),
    (if a.isData && !(if a.isBarline then true else found) then
      (if a.isBarline then bars ++ [i] else bars) ++ [0]
      else (if a.isBarline then bars ++ [i] else bars)), ?_⟩
  rw [analyzeMeter.forward]
  cases a.isBarline <;> cases a.isData <;> cases found <;> rfl

/-- The first loop of `analyzeMeter`: the line `k` gets the running sum at the
entry of the loop (when no barline line comes before it) or 0, plus the
durations of the lines from `s` on, where `s` is 0 or follows the last
barline line before `k`. -/
theorem meter_forward_fromBarline (L : List HumdrumLine) :
    ∀ (i : Nat) (sum : HumNum) (found : Bool) (bars : List Nat) (k s : Nat),
      s ≤ k → k < L.length →
      (s = 0 ∨ ∃ b, L[s - 1]? = some b ∧ b.isBarline = true) →
      (∀ j l, s ≤ j → j < k → L[j]? = some l → l.isBarline = false) →
      ∃ lk, (analyzeMeter.forward i sum found bars L).1[k]? = some lk ∧
        lk.durationFromBarline =
          (if s = 0 then sum else 0) + (((L.drop s).take (k - s)).map (fun l => l.duration)).sum := by
  induction L with
  | nil => intro i sum found bars k s _ hk; simp at hk
  | cons a rest ih =>
    intro i sum found bars k s hsk hk hs hnb
    obtain ⟨found1, bars1, hcons⟩ := meter_forward_cons a rest i sum found bars
    rw [hcons]
    cases k with
    | zero =>
      have hs0 : s = 0 := by omega
      subst hs0
      exact ⟨{ a with durationFromBarline := sum }, by simp, by simp⟩
    | succ k =>
      have hk' : k < rest.length := by simpa using hk
      simp only [List.getElem?_cons_succ]
      cases s with
      | zero =>
        have ha : a.isBarline = false := hnb 0 a (le_refl _) (by omega) (by simp)
        obtain ⟨lk, h1, h2⟩ := ih (i + 1) (if a.isBarline then 0 else sum + a.duration)
          found1 bars1 k 0 (by omega) hk' (Or.inl rfl)
          (fun j l h1 h2 h3 => hnb (j + 1) l (by omega) (by omega) (by simpa using h3))
        refine ⟨lk, h1, ?_⟩
        rw [h2]
        simp only [ha, Bool.false_eq_true, if_false, if_true, List.drop_zero, Nat.sub_zero,
          List.take_succ_cons, List.map_cons, List.sum_cons]
        ring
      | succ s =>
        cases s with
        | zero =>
          have ha : a.isBarline = true := by
            rcases hs with h | ⟨b, hb1, hb2⟩
            · omega
            · simp only [Nat.zero_add, Nat.sub_self, List.getElem?_cons_zero,
                Option.some.injEq] at hb1
              subst hb1
              exact hb2
          obtain ⟨lk, h1, h2⟩ := ih (i + 1) (if a.isBarline then 0 else sum + a.duration)
            found1 bars1 k 0 (by omega) hk' (Or.inl rfl)
            (fun j l h1 h2 h3 => hnb (j + 1) l (by omega) (by omega) (by simpa using h3))
          refine ⟨lk, h1, ?_⟩
          rw [h2]
          simp [ha]
        | succ s =>
          obtain ⟨lk, h1, h2⟩ := ih (i + 1) (if a.isBarline then 0 else sum + a.duration)
            found1 bars1 k (s + 1) (by omega) hk'
            (Or.inr (by
              rcases hs with h | ⟨b, hb1, hb2⟩
              · omega
              · exact ⟨b, by simpa using hb1, hb2⟩))
            (fun j l h1 h2 h3 => hnb (j + 1) l (by omega) (by omega) (by simpa using h3))
          refine ⟨lk, h1, ?_⟩
          rw [h2]
          simp

/-- The running sum left by the second loop of `analyzeMeter`: the durations
of the lines before the first barline line. -/
theorem meter_backward_snd (L : List HumdrumLine) :
    ∀ (e : Nat), e ≤ L.length →
      (e = L.length ∨ ∃ b, L[e]? = some b ∧ b.isBarline = true) →
      (∀ j l, j < e → L[j]? = some l → l.isBarline = false) →
      (analyzeMeter.backward L).2 = ((L.take e).map (fun l => l.duration)).sum := by
  induction L with
  | nil => intro e he _ _; simp [analyzeMeter.backward]
  | cons a rest ih =>
    intro e he hend hnb
    cases e with
    | zero =>
      have ha : a.isBarline = true := by
        rcases hend with h | ⟨b, hb1, hb2⟩
        · simp at h
        · simp only [List.getElem?_cons_zero, Option.some.injEq] at hb1
          subst hb1
          exact hb2
      simp [analyzeMeter.backward, ha]
    | succ e =>
      have ha : a.isBarline = false := hnb 0 a (by omega) (by simp)
      have h1 := ih e (by simpa using he)
        (by
          rcases hend with h | ⟨b, hb1, hb2⟩
          · exact Or.inl (by simpa using h)
          · exact Or.inr ⟨b, by simpa using hb1, hb2⟩)
        (fun j l hj hl => hnb (j + 1) l (by omega) (by simpa using hl))
      simp only [analyzeMeter.backward, ha, Bool.false_eq_true, if_false, h1,
        List.take_succ_cons, List.map_cons, List.sum_cons]
      ring

/-- The second loop of `analyzeMeter`: the line `k` gets the durations of the
lines from `k` up to the next barline line `e` after it, or up to the end. -/
theorem meter_backward_toBarline (L : List HumdrumLine) :
    ∀ (k e : Nat), k < e → e ≤ L.length →
      (e = L.length ∨ ∃ b, L[e]? = some b ∧ b.isBarline = true) →
      (∀ j l, k < j → j < e → L[j]? = some l → l.isBarline = false) →
      ∃ lk, (analyzeMeter.backward L).1[k]? = some lk ∧
        lk.durationToBarline = (((L.drop k).take (e - k)).map (fun l => l.duration)).sum := by
  induction L with
  | nil => intro k e hk he; simp at he; omega
  | cons a rest ih =>
    intro k e hk he hend hnb
    obtain ⟨e, rfl⟩ : ∃ e', e = e' + 1 := ⟨e - 1, by omega⟩
    have hend' : e = rest.length ∨ ∃ b, rest[e]? = some b ∧ b.isBarline = true := by
      rcases hend with h | ⟨b, hb1, hb2⟩
      · exact Or.inl (by simpa using h)
      · exact Or.inr ⟨b, by simpa using hb1, hb2⟩
    cases k with
    | zero =>
      have h1 := meter_backward_snd rest e (by simpa using he) hend'
        (fun j l hj hl => hnb (j + 1) l (by omega) (by omega) (by simpa using hl))
      refine ⟨{ a with durationToBarline := (analyzeMeter.backward rest).2 + a.duration },
        by simp [analyzeMeter.backward], ?_⟩
      simp only [h1, List.drop_zero, Nat.sub_zero, List.take_succ_cons, List.map_cons,
        List.sum_cons]
      ring
    | succ k =>
      obtain ⟨lk, h1, h2⟩ := ih k e (by omega) (by simpa using he) hend'
        (fun j l h1 h2 hl => hnb (j + 1) l (by omega) (by omega) (by simpa using hl))
      refine ⟨lk, by simpa [analyzeMeter.backward] using h1, ?_⟩
      rw [h2]
      simp

theorem meter_forward_map_duration (L : List HumdrumLine) (i : Nat) (sum : HumNum)
    (found : Bool) (bars : List Nat) :
    (analyzeMeter.forward i sum found bars L).1.map (fun l => l.duration) =
      L.map (fun l => l.duration) := by
  apply List.ext_getElem?
  intro k
  simp only [List.getElem?_map]
  cases h : L[k]? with
  | none =>
    have : (analyzeMeter.forward i sum found bars L).1[k]? = none := by
      rw [List.getElem?_eq_none_iff] at h ⊢
      rw [meter_forward_length]
      exact h
    rw [this]
  | some l =>
    obtain ⟨v, hv⟩ := meter_forward_get L i sum found bars k l h
    rw [hv]
    rfl

/-- What `analyzeMeter` does to the line `k`: its start time, duration and
kind stay; its `durationFromBarline` is the sum of the durations of the lines
from `s` to `k - 1`, where `s` is 0 or follows the last barline line before
`k`; its `durationToBarline` is the sum of the durations of the lines from `k`
to `e - 1`, where `e` is the next barline line after `k` or the line count. -/
theorem analyzeMeter_line (f : HumdrumFileStructure) (k : Nat) (l : HumdrumLine)
    (hl : f.lines[k]? = some l) :
    ∃ v w, (analyzeMeter f).2.lines[k]? =
        some { l with durationFromBarline := v, durationToBarline := w } ∧
      (∀ s, s ≤ k → (s = 0 ∨ ∃ b, f.lines[s - 1]? = some b ∧ b.isBarline = true) →
        (∀ j l1, s ≤ j → j < k → f.lines[j]? = some l1 → l1.isBarline = false) →
        v = (((f.lines.drop s).take (k - s)).map (fun l => l.duration)).sum) ∧
      (∀ e, k < e → e ≤ f.lines.length →
        (e = f.lines.length ∨ ∃ b, f.lines[e]? = some b ∧ b.isBarline = true) →
        (∀ j l1, k < j → j < e → f.lines[j]? = some l1 → l1.isBarline = false) →
        w = (((f.lines.drop k).take (e - k)).map (fun l => l.duration)).sum) := by
  have hk : k < f.lines.length := by
    by_contra hc
    rw [List.getElem?_eq_none (by omega)] at hl
    cases hl
  obtain ⟨v, hv⟩ := meter_forward_get f.lines 0 0 false [] k l hl
  obtain ⟨w, hw⟩ := meter_backward_get (analyzeMeter.forward 0 0 false [] f.lines).1 k _ hv
  have hfl := meter_forward_length f.lines 0 0 false []
  have hget : ∀ (j : Nat) (l1 : HumdrumLine), f.lines[j]? = some l1 →
      ∃ u, (analyzeMeter.forward 0 0 false [] f.lines).1[j]? =
        some { l1 with durationFromBarline := u } :=
    fun j l1 h => meter_forward_get f.lines 0 0 false [] j l1 h
  have hback : ∀ (j : Nat) (l2 : HumdrumLine),
      (analyzeMeter.forward 0 0 false [] f.lines).1[j]? = some l2 →
      ∃ l1 : HumdrumLine, f.lines[j]? = some l1 ∧ l2.isBarline = l1.isBarline := by
    intro j l2 h
    have hj : j < f.lines.length := by
      by_contra hc
      rw [List.getElem?_eq_none (by rw [hfl]; omega)] at h
      cases h
    obtain ⟨u, hu⟩ := hget j _ (List.getElem?_eq_getElem hj)
    rw [hu] at h
    cases h
    exact ⟨_, List.getElem?_eq_getElem hj, rfl⟩
  refine ⟨v, w, hw, ?_, ?_⟩
  · intro s hs hstart hnb
    obtain ⟨lk, h1, h2⟩ := meter_forward_fromBarline f.lines 0 0 false [] k s hs hk hstart hnb
    rw [hv] at h1
    cases h1
    simpa using h2
  · intro e hke he hend hnb
    obtain ⟨lk, h1, h2⟩ := meter_backward_toBarline (analyzeMeter.forward 0 0 false [] f.lines).1
      k e hke (by rw [hfl]; exact he)
      (by
        rcases hend with h | ⟨b, hb1, hb2⟩
        · exact Or.inl (by rw [hfl]; exact h)
        · obtain ⟨u, hu⟩ := hget e b hb1
          exact Or.inr ⟨_, hu, hb2⟩)
      (by
        intro j l2 h1 h2 h3
        obtain ⟨l1, e1, e2⟩ := hback j l2 h3
        rw [e2]
        exact hnb j l1 h1 h2 e1)
    rw [hw] at h1
    cases h1
    have hd := meter_forward_map_duration f.lines 0 0 false []
    have hsum : ((((analyzeMeter.forward 0 0 false [] f.lines).1.drop k).take (e - k)).map
        (fun l => l.duration)) = (((f.lines.drop k).take (e - k)).map (fun l => l.duration)) := by
      simp only [List.map_take, List.map_drop, hd]
    rw [hsum] at h2
    exact h2

/-- C24: after `analyzeMeter` the line `k` has the start time, duration and
kind it had, and its `durationFromBarline` is the sum of the durations of the
lines `s .. k - 1`, where `s` follows the last barline line before `k` or is
0 when no barline line comes before `k`.  In particular it is 0 for line 0 and
for a line that directly follows a barline line. -/
theorem analyzeMeter_fromBarline_spec (f : HumdrumFileStructure) (k : Nat) (l : HumdrumLine)
    (hl : f.lines[k]? = some l) :
    ∃ lk, (analyzeMeter f).2.lines[k]? = some lk ∧
      lk.durationFromStart = l.durationFromStart ∧ lk.duration = l.duration ∧
      lk.isBarline = l.isBarline ∧
      (∀ s, s ≤ k → (s = 0 ∨ ∃ b, f.lines[s - 1]? = some b ∧ b.isBarline = true) →
        (∀ j l1, s ≤ j → j < k → f.lines[j]? = some l1 → l1.isBarline = false) →
        lk.durationFromBarline =
          (((f.lines.drop s).take (k - s)).map (fun l => l.duration)).sum) ∧
      ((k = 0 ∨ ∃ b, f.lines[k - 1]? = some b ∧ b.isBarline = true) →
        lk.durationFromBarline = 0) := by
  obtain ⟨v, w, h1, h2, -⟩ := analyzeMeter_line f k l hl
  refine ⟨_, h1, rfl, rfl, rfl, fun s hs hstart hnb => h2 s hs hstart hnb, fun hk => ?_⟩
  have := h2 k (le_refl _) hk (fun j l1 h1 h2 => by omega)
  simpa using this

/-- In `**kern / =1 / 4c / 4d / =2 / 2e / *-` the line of `4d` (line 3)
lies one quarter note after the barline, and the line of `2e` (line 5), which
follows a barline line, has the value 0. -/
theorem analyzeMeter_fromBarline_spec_witness :
    (∃ lk, (analyzeMeter meteredLines).2.lines[3]? = some lk ∧ lk.durationFromBarline = 1) ∧
    (∃ lk, (analyzeMeter meteredLines).2.lines[5]? = some lk ∧ lk.durationFromBarline = 0) := by
  constructor
  · obtain ⟨lk, h1, -, -, -, h2, -⟩ := analyzeMeter_fromBarline_spec meteredLines 3 _ rfl
    refine ⟨lk, h1, ?_⟩
    rw [h2 2 (by decide) (Or.inr ⟨_, rfl, rfl⟩) (fun j l1 h1 h2 h3 => by
      have : j = 2 := by omega
      subst this
      simp [meteredLines] at h3
      rw [← h3])]
    decide!
  · obtain ⟨lk, h1, -, -, -, -, h2⟩ := analyzeMeter_fromBarline_spec meteredLines 5 _ rfl
    exact ⟨lk, h1, h2 (Or.inr ⟨_, rfl, rfl⟩)⟩

theorem lineDurations_map_isBarline (S : List HumdrumLine) :
    (lineDurations S).map (fun l => l.isBarline) = S.map (fun l => l.isBarline) := by
  induction S with
  | nil => rfl
  | cons l rest ih =>
    cases rest with
    | nil => rfl
    | cons m rest =>
      simp only [lineDurations, List.map_cons] at ih ⊢
      rw [ih]

theorem setDuration_map_isBarline (S : List HumdrumLine) (i : Nat) (d : HumNum) :
    (setDuration S i d).map (fun l => l.isBarline) = S.map (fun l => l.isBarline) := by
  induction S generalizing i with
  | nil => simp [setDuration]
  | cons l rest ih =>
    cases i with
    | zero => simp [setDuration]
    | succ i => rw [setDuration_cons_succ, List.map_cons, ih, List.map_cons]

theorem map_eq_get {α β : Type} (p : α → β) (L L1 : List α) (h : L1.map p = L.map p)
    (j : Nat) (l : α) (hl : L[j]? = some l) : ∃ l1, L1[j]? = some l1 ∧ p l1 = p l := by
  have h1 : (L1.map p)[j]? = some (p l) := by rw [h, List.getElem?_map, hl]; rfl
  rw [List.getElem?_map] at h1
  cases h2 : L1[j]? with
  | none => rw [h2] at h1; cases h1
  | some l1 =>
    rw [h2] at h1
    exact ⟨l1, rfl, Option.some.inj h1⟩

/-- Line `k` after `assignLineDurations` and `analyzeMeter` on a non-empty
list of lines: it keeps its start time and kind.  With `s` the line after
the last barline line before `k` (or 0), `durationFromBarline` is the start
of line `k` minus the start of line `s`; with `e` the next barline line after
`k` (or the line count), `durationToBarline` is the sum of the durations of
the lines `k .. e - 1`, which is the start of line `e` (of the last line when
`e` is the line count) minus the start of line `k`. -/
theorem meter_after_durations (f : HumdrumFileStructure) (hne : f.lines ≠ [])
    (hsz : f.lines.length < 2 ^ 64) (k : Nat) (l : HumdrumLine) (hl : f.lines[k]? = some l) :
    ∃ g lk, assignLineDurations f = some g ∧ g.lines.length = f.lines.length ∧
      (analyzeMeter g).2.lines[k]? = some lk ∧
      lk.durationFromStart = l.durationFromStart ∧ lk.isBarline = l.isBarline ∧
      (∀ s ls, s ≤ k → f.lines[s]? = some ls →
        (s = 0 ∨ ∃ b, f.lines[s - 1]? = some b ∧ b.isBarline = true) →
        (∀ j l1, s ≤ j → j < k → f.lines[j]? = some l1 → l1.isBarline = false) →
        lk.durationFromBarline = l.durationFromStart - ls.durationFromStart) ∧
      (∀ e, k < e → e ≤ f.lines.length →
        (e = f.lines.length ∨ ∃ b, f.lines[e]? = some b ∧ b.isBarline = true) →
        (∀ j l1, k < j → j < e → f.lines[j]? = some l1 → l1.isBarline = false) →
        lk.durationToBarline =
            (((g.lines.drop k).take (e - k)).map (fun l => l.duration)).sum ∧
          (∀ le, f.lines[e]? = some le →
            lk.durationToBarline = le.durationFromStart - l.durationFromStart) ∧
          (e = f.lines.length → ∀ ll, f.lines[f.lines.length - 1]? = some ll →
            lk.durationToBarline = ll.durationFromStart - l.durationFromStart)) := by
  have hk : k < f.lines.length := by
    by_contra hc
    rw [List.getElem?_eq_none (by omega)] at hl
    cases hl
  have heq := assignLineDurations_eq f hne hsz
  clear hsz
  have hdfs : (setDuration (lineDurations f.lines) (f.lines.length - 1) 0).map
      (fun l => l.durationFromStart) = f.lines.map (fun l => l.durationFromStart) := by
    rw [setDuration_map_dfs, lineDurations_map_dfs]
  have hbar : (setDuration (lineDurations f.lines) (f.lines.length - 1) 0).map
      (fun l => l.isBarline) = f.lines.map (fun l => l.isBarline) := by
    rw [setDuration_map_isBarline, lineDurations_map_isBarline]
  have hlen : (setDuration (lineDurations f.lines) (f.lines.length - 1) 0).length =
      f.lines.length := by
    rw [setDuration_length, lineDurations_length]
  -- notation for the lines after assignLineDurations
  generalize hR : setDuration (lineDurations f.lines) (f.lines.length - 1) 0 = R at *
  have hstep := lineDurations_step f.lines
  rw [hR] at hstep
  have hlast := setDuration_get_self (lineDurations f.lines) (f.lines.length - 1) 0
  rw [hR] at hlast
  have toR : ∀ (j : Nat) (l1 : HumdrumLine), f.lines[j]? = some l1 →
      ∃ r, R[j]? = some r ∧ r.durationFromStart = l1.durationFromStart ∧
        r.isBarline = l1.isBarline := by
    intro j l1 h
    obtain ⟨r, h1, h2⟩ := map_eq_get (fun l => l.durationFromStart) f.lines R hdfs j l1 h
    obtain ⟨r', h3, h4⟩ := map_eq_get (fun l => l.isBarline) f.lines R hbar j l1 h
    rw [h1] at h3
    cases h3
    exact ⟨r, h1, h2, h4⟩
  have fromR : ∀ (j : Nat) (r : HumdrumLine), R[j]? = some r →
      ∃ l1, f.lines[j]? = some l1 ∧ r.durationFromStart = l1.durationFromStart ∧
        r.isBarline = l1.isBarline := by
    intro j r h
    have hj : j < f.lines.length := by
      by_contra hc
      rw [List.getElem?_eq_none (by rw [hlen]; omega)] at h
      cases h
    obtain ⟨r', h1, h2, h3⟩ := toR j _ (List.getElem?_eq_getElem hj)
    rw [h] at h1
    cases h1
    exact ⟨_, List.getElem?_eq_getElem hj, h2, h3⟩
  obtain ⟨rk, hrk, hrk1, hrk2⟩ := toR k l hl
  obtain ⟨v, w, h1, h2, h3⟩ := analyzeMeter_line { f with lines := R } k rk hrk
  refine ⟨{ f with lines := R }, _, heq, hlen, h1, hrk1, hrk2, ?_, ?_⟩
  · intro s ls hs hls hstart hnb
    obtain ⟨rs, hrs, hrs1, -⟩ := toR s ls hls
    have hv := h2 s hs
      (by
        rcases hstart with h | ⟨b, hb1, hb2⟩
        · exact Or.inl h
        · obtain ⟨rb, e1, -, e3⟩ := toR _ b hb1
          exact Or.inr ⟨rb, e1, by rw [e3]; exact hb2⟩)
      (by
        intro j r hj1 hj2 hr
        obtain ⟨l1, e1, -, e3⟩ := fromR j r hr
        rw [e3]
        exact hnb j l1 hj1 hj2 e1)
    have ht := sum_durations_telescope R hstep (k - s) s rs rk hrs
      (by rw [Nat.add_sub_cancel' hs]; exact hrk)
    show v = _
    rw [hv]
    show (((R.drop s).take (k - s)).map (fun l => l.duration)).sum = _
    rw [ht, hrk1, hrs1]
  · intro e hke he hend hnb
    have hw := h3 e hke (by rw [hlen]; exact he)
      (by
        rcases hend with h | ⟨b, hb1, hb2⟩
        · exact Or.inl (by rw [hlen]; exact h)
        · obtain ⟨rb, e1, -, e3⟩ := toR _ b hb1
          exact Or.inr ⟨rb, e1, by rw [e3]; exact hb2⟩)
      (by
        intro j r hj1 hj2 hr
        obtain ⟨l1, e1, -, e3⟩ := fromR j r hr
        rw [e3]
        exact hnb j l1 hj1 hj2 e1)
    refine ⟨hw, ?_, ?_⟩
    · intro le hle
      obtain ⟨re, hre, hre1, -⟩ := toR e le hle
      have ht := sum_durations_telescope R hstep (e - k) k rk re hrk
        (by rw [Nat.add_sub_cancel' (le_of_lt hke)]; exact hre)
      show w = _
      rw [hw]
      show (((R.drop k).take (e - k)).map (fun l => l.duration)).sum = _
      rw [ht, hrk1, hre1]
    · intro hen ll hll
      obtain ⟨rl, hrl, hrl1, -⟩ := toR _ ll hll
      have hd0 : rl.duration = 0 := hlast rl hrl
      have ht := sum_durations_telescope R hstep (f.lines.length - 1 - k) k rk rl hrk
        (by rw [Nat.add_sub_cancel' (Nat.le_sub_one_of_lt hk)]; exact hrl)
      have hsplit : (R.drop k).take (e - k) =
          (R.drop k).take (f.lines.length - 1 - k) ++ [rl] := by
        have h1 : (R.drop k).take (e - k) = R.drop k := by
          apply List.take_of_length_le
          rw [List.length_drop, hlen, hen]
        have h2 : (R.drop k).drop (f.lines.length - 1 - k) = [rl] := by
          rw [List.drop_drop]
          have e1 : k + (f.lines.length - 1 - k) = f.lines.length - 1 := by omega
          have hlt : f.lines.length - 1 < R.length := by rw [hlen]; omega
          rw [e1, List.drop_eq_getElem_cons hlt, List.drop_of_length_le (by rw [hlen]; omega)]
          have := List.getElem?_eq_getElem hlt
          rw [hrl] at this
          rw [← Option.some.inj this]
        rw [h1]
        conv_lhs => rw [← List.take_append_drop (f.lines.length - 1 - k) (R.drop k)]
        rw [h2]
      show w = _
      rw [hw]
      show (((R.drop k).take (e - k)).map (fun l => l.duration)).sum = _
      rw [hsplit, List.map_append, List.sum_append, ht, hrk1, hrl1]
      simp [hd0]

theorem getScoreDuration_last (f : HumdrumFileStructure) (l : HumdrumLine)
    (h : f.lines[f.lines.length - 1]? = some l) (hne : f.lines ≠ []) :
    getScoreDuration f = l.durationFromStart := by
  have hlast : f.lines.getLast hne = l := by
    have h1 : f.lines.getLast? = some l := by
      rw [List.getLast?_eq_getElem?]
      exact h
    rw [List.getLast?_eq_getLast _ hne] at h1
    exact Option.some.inj h1
  simp [getScoreDuration, hne, hlast]

/-- C25: after `assignLineDurations` followed by `analyzeMeter` on a
non-empty list of lines, let `e` be the first barline line after line `k`, or
the line count when there is none.  Then the `durationToBarline` of line `k`
is the sum of the durations of the lines `k .. e - 1`; it is the start time of
line `e` minus the start time of line `k` and, when `e` is the line count, the
score duration (the start time of the last line) minus the start time of line
`k`.  The start times are those before the two calls, which keep them. -/
theorem analyzeMeter_toBarline_spec (f : HumdrumFileStructure) (hne : f.lines ≠ [])
    (hsz : f.lines.length < 2 ^ 64) (k e : Nat) (l : HumdrumLine) (hl : f.lines[k]? = some l)
    (hke : k < e) (he : e ≤ f.lines.length)
    (hend : e = f.lines.length ∨ ∃ b, f.lines[e]? = some b ∧ b.isBarline = true)
    (hnb : ∀ j l1, k < j → j < e → f.lines[j]? = some l1 → l1.isBarline = false) :
    ∃ g lk, assignLineDurations f = some g ∧
      (analyzeMeter g).2.lines.map (fun l => l.durationFromStart) =
        f.lines.map (fun l => l.durationFromStart) ∧
      (analyzeMeter g).2.lines[k]? = some lk ∧
      lk.durationToBarline = (((g.lines.drop k).take (e - k)).map (fun l => l.duration)).sum ∧
      (∀ le, f.lines[e]? = some le →
        lk.durationToBarline = le.durationFromStart - l.durationFromStart) ∧
      (e = f.lines.length →
        lk.durationToBarline = getScoreDuration f - l.durationFromStart) := by
  obtain ⟨g, lk, h1, h2, h3, h4, h5, -, h7⟩ := meter_after_durations f hne hsz k l hl
  obtain ⟨h8, h9, h10⟩ := h7 e hke he hend hnb
  refine ⟨g, lk, h1, ?_, h3, h8, h9, fun hen => ?_⟩
  · rw [analyzeMeter_map_dfs]
    have heq := assignLineDurations_eq f hne hsz
    rw [h1] at heq
    cases heq
    simp only [setDuration_map_dfs, lineDurations_map_dfs]
  · have hpos : 0 < f.lines.length := List.length_pos.mpr hne
    have hlast := List.getElem?_eq_getElem (Nat.sub_lt hpos Nat.one_pos)
    rw [h10 hen _ hlast, getScoreDuration_last f _ hlast hne]

/-- In `**kern / =1 / 4c / 4d / =2 / 2e / *-` with the start times 0, 0, 0,
1, 2, 2, 4: the line of `4c` is two quarter notes before the barline `=2`;
the barline line `=1` carries the duration 2 of its measure; the line of `2e`,
after which no barline comes, carries the score duration 4 minus 2. -/
theorem analyzeMeter_toBarline_spec_witness :
    (∃ g lk, assignLineDurations measureLines = some g ∧
      (analyzeMeter g).2.lines[2]? = some lk ∧ lk.durationToBarline = 2) ∧
    (∃ g lk, assignLineDurations measureLines = some g ∧
      (analyzeMeter g).2.lines[1]? = some lk ∧ lk.durationToBarline = 2) ∧
    (∃ g lk, assignLineDurations measureLines = some g ∧
      (analyzeMeter g).2.lines[5]? = some lk ∧
      lk.durationToBarline = getScoreDuration measureLines - 2) := by
  have hnb : ∀ (k e : Nat), (∀ j, k < j → j < e → j = 2 ∨ j = 3 ∨ j = 5 ∨ j = 6) →
      ∀ j l1, k < j → j < e → measureLines.lines[j]? = some l1 → l1.isBarline = false := by
    intro k e hj j l1 h1 h2 h3
    rcases hj j h1 h2 with h | h | h | h <;> subst h <;> simp [measureLines] at h3 <;>
      rw [← h3]
  refine ⟨?_, ?_, ?_⟩
  · obtain ⟨g, lk, h1, -, h3, -, h5, -⟩ := analyzeMeter_toBarline_spec measureLines
      (by decide) (by decide) 2 4 _ rfl (by decide) (by decide) (Or.inr ⟨_, rfl, rfl⟩)
      (hnb 2 4 (fun j h1 h2 => by omega))
    exact ⟨g, lk, h1, h3, by rw [h5 _ rfl]; decide!⟩
  · obtain ⟨g, lk, h1, -, h3, -, h5, -⟩ := analyzeMeter_toBarline_spec measureLines
      (by decide) (by decide) 1 4 _ rfl (by decide) (by decide) (Or.inr ⟨_, rfl, rfl⟩)
      (hnb 1 4 (fun j h1 h2 => by omega))
    exact ⟨g, lk, h1, h3, by rw [h5 _ rfl]; decide!⟩
  · obtain ⟨g, lk, h1, -, h3, -, -, h6⟩ := analyzeMeter_toBarline_spec measureLines
      (by decide) (by decide) 5 7 _ rfl (by decide) (by decide) (Or.inl rfl)
      (hnb 5 7 (fun j h1 h2 => by omega))
    exact ⟨g, lk, h1, h3, by rw [h6 rfl]; decide!⟩

/-- After `assignLineDurations` followed by `analyzeMeter`, for a non-barline
line `i` between two consecutive barline lines `b < i < e`,
`durationFromBarline + durationToBarline` is the start time of line `e` minus
the start time of line `b + 1`, the first line after the barline; this is the
start of `e` minus the start of `b` when the barline line `b` starts together
with the line after it. -/
theorem meter_measure_sum (f : HumdrumFileStructure) (hne : f.lines ≠ [])
    (hsz : f.lines.length < 2 ^ 64) (b i e : Nat) (lb lb1 li le : HumdrumLine)
    (hbi : b < i) (hie : i < e)
    (hlb : f.lines[b]? = some lb) (hlb1 : f.lines[b + 1]? = some lb1)
    (hli : f.lines[i]? = some li) (hle : f.lines[e]? = some le)
    (hb : lb.isBarline = true) (he : le.isBarline = true)
    (hnb : ∀ j l1, b < j → j < e → f.lines[j]? = some l1 → l1.isBarline = false) :
    ∃ g lk, assignLineDurations f = some g ∧ (analyzeMeter g).2.lines[i]? = some lk ∧
      lk.durationFromBarline + lk.durationToBarline =
        le.durationFromStart - lb1.durationFromStart ∧
      (lb.durationFromStart = lb1.durationFromStart →
        lk.durationFromBarline + lk.durationToBarline =
          le.durationFromStart - lb.durationFromStart) := by
  have hlen : e < f.lines.length := by
    by_contra hc
    rw [List.getElem?_eq_none (by omega)] at hle
    cases hle
  obtain ⟨g, lk, h1, -, h3, -, -, h6, h7⟩ := meter_after_durations f hne hsz i li hli
  have hfrom := h6 (b + 1) lb1 (by omega) hlb1 (Or.inr ⟨lb, by simpa using hlb, hb⟩)
    (fun j l1 hj1 hj2 hl1 => hnb j l1 (by omega) (by omega) hl1)
  obtain ⟨-, hto, -⟩ := h7 e hie (le_of_lt hlen) (Or.inr ⟨le, hle, he⟩)
    (fun j l1 hj1 hj2 hl1 => hnb j l1 (by omega) hj2 hl1)
  have hsum : lk.durationFromBarline + lk.durationToBarline =
      le.durationFromStart - lb1.durationFromStart := by
    rw [hfrom, hto le hle]
    ring
  exact ⟨g, lk, h1, h3, hsum, fun h => by rw [hsum, h]⟩

/-- The barline list built by the first loop of `analyzeMeter`: the entries
present at the entry, then line 0 if a pickup is found, then the barline
lines in order. -/
theorem meter_forward_barlines (L : List HumdrumLine) :
    ∀ (i : Nat) (sum : HumNum) (found : Bool) (bars : List Nat),
      (analyzeMeter.forward i sum found bars L).2 =
        bars ++ (if found = false ∧ pickupScan L = true then [0] else []) ++
          barlineIndices i L := by
  induction L with
  | nil => intro i sum found bars; simp [analyzeMeter.forward, pickupScan, barlineIndices]
  | cons l rest ih =>
    intro i sum found bars
    rw [analyzeMeter.forward]
    simp only [ih]
    cases hb : l.isBarline <;> cases hd : l.isData <;> cases found <;>
      simp [pickupScan, barlineIndices, hb, hd]

theorem mem_barlineIndices (L : List HumdrumLine) :
    ∀ (i b : Nat), b ∈ barlineIndices i L ↔
      ∃ k l, L[k]? = some l ∧ l.isBarline = true ∧ b = i + k := by
  induction L with
  | nil => intro i b; simp [barlineIndices]
  | cons a rest ih =>
    intro i b
    have hrest : (∃ k l, rest[k]? = some l ∧ l.isBarline = true ∧ b = i + 1 + k) ↔
        ∃ k l, (a :: rest)[k + 1]? = some l ∧ l.isBarline = true ∧ b = i + (k + 1) := by
      constructor
      · rintro ⟨k, l, h1, h2, h3⟩
        exact ⟨k, l, by simpa using h1, h2, by omega⟩
      · rintro ⟨k, l, h1, h2, h3⟩
        exact ⟨k, l, by simpa using h1, h2, by omega⟩
    unfold barlineIndices
    by_cases ha : a.isBarline = true
    · rw [if_pos ha, List.mem_cons, ih, hrest]
      constructor
      · rintro (h | ⟨k, l, h1, h2, h3⟩)
        · exact ⟨0, a, by simp, ha, by omega⟩
        · exact ⟨k + 1, l, h1, h2, h3⟩
      · rintro ⟨k, l, h1, h2, h3⟩
        cases k with
        | zero => exact Or.inl (by omega)
        | succ k => exact Or.inr ⟨k, l, h1, h2, h3⟩
    · rw [if_neg ha, ih, hrest]
      constructor
      · rintro ⟨k, l, h1, h2, h3⟩
        exact ⟨k + 1, l, h1, h2, h3⟩
      · rintro ⟨k, l, h1, h2, h3⟩
        cases k with
        | zero =>
          simp only [List.getElem?_cons_zero, Option.some.injEq] at h1
          subst h1
          exact absurd h2 ha
        | succ k => exact ⟨k, l, h1, h2, h3⟩

theorem barlineIndices_sorted (L : List HumdrumLine) :
    ∀ (i : Nat), (barlineIndices i L).Pairwise (fun a b => a < b) := by
  induction L with
  | nil => intro i; simp [barlineIndices]
  | cons a rest ih =>
    intro i
    unfold barlineIndices
    by_cases ha : a.isBarline = true
    · rw [if_pos ha, List.pairwise_cons]
      refine ⟨fun b hb => ?_, ih (i + 1)⟩
      obtain ⟨k, l, -, -, h3⟩ := (mem_barlineIndices rest (i + 1) b).1 hb
      omega
    · rw [if_neg ha]
      exact ih (i + 1)

theorem pickupScan_head (L : List HumdrumLine) (h : pickupScan L = true) (l : HumdrumLine)
    (hl : L[0]? = some l) : l.isBarline = false := by
  cases L with
  | nil => simp at hl
  | cons a rest =>
    simp only [List.getElem?_cons_zero, Option.some.injEq] at hl
    subst hl
    unfold pickupScan at h
    by_cases ha : a.isBarline = true
    · rw [if_pos ha] at h; cases h
    · simpa using ha

/-- C27: after `analyzeMeter` the barline list is strictly increasing in line
order.  When a data line occurs before the first barline line, its first
entry is line 0 and every other entry is a barline line; otherwise every
entry is a barline line.  Every barline line of the file occurs in the list
exactly once. -/
theorem analyzeMeter_barlines_spec (f : HumdrumFileStructure) :
    (analyzeMeter f).2.barlines.Pairwise (fun a b => a < b) ∧
    (HasPickup f.lines → ∃ rest, (analyzeMeter f).2.barlines = 0 :: rest ∧
      ∀ b ∈ rest, ∃ l, f.lines[b]? = some l ∧ l.isBarline = true) ∧
    (¬ HasPickup f.lines → ∀ b ∈ (analyzeMeter f).2.barlines,
      ∃ l, f.lines[b]? = some l ∧ l.isBarline = true) ∧
    (∀ b l, f.lines[b]? = some l → l.isBarline = true →
      (analyzeMeter f).2.barlines.count b = 1) := by
  have hbars : (analyzeMeter f).2.barlines =
      (if pickupScan f.lines = true then [0] else []) ++ barlineIndices 0 f.lines := by
    have := meter_forward_barlines f.lines 0 0 false []
    simp only [analyzeMeter]
    rw [this]
    simp
  have hmem : ∀ b, b ∈ barlineIndices 0 f.lines ↔
      ∃ l, f.lines[b]? = some l ∧ l.isBarline = true := by
    intro b
    rw [mem_barlineIndices]
    constructor
    · rintro ⟨k, l, h1, h2, h3⟩
      have : b = k := by omega
      subst this
      exact ⟨l, h1, h2⟩
    · rintro ⟨l, h1, h2⟩
      exact ⟨b, l, h1, h2, by omega⟩
  have hsorted := barlineIndices_sorted f.lines 0
  have hpos : pickupScan f.lines = true → ∀ b ∈ barlineIndices 0 f.lines, 0 < b := by
    intro hp b hb
    obtain ⟨l, h1, h2⟩ := (hmem b).1 hb
    by_contra hc
    have hb0 : b = 0 := by omega
    subst hb0
    have := pickupScan_head f.lines hp l h1
    rw [h2] at this
    cases this
  rw [hbars]
  refine ⟨?_, ?_, ?_, ?_⟩
  · by_cases hp : pickupScan f.lines = true
    · rw [if_pos hp, List.singleton_append, List.pairwise_cons]
      exact ⟨hpos hp, hsorted⟩
    · rw [if_neg hp, List.nil_append]
      exact hsorted
  · intro hp
    have hp' := (pickupScan_iff f.lines).2 hp
    rw [if_pos hp']
    exact ⟨_, rfl, fun b hb => (hmem b).1 hb⟩
  · intro hp
    have hp' : ¬ pickupScan f.lines = true := fun h => hp ((pickupScan_iff f.lines).1 h)
    rw [if_neg hp', List.nil_append]
    exact fun b hb => (hmem b).1 hb
  · intro b l h1 h2
    have hb : b ∈ barlineIndices 0 f.lines := (hmem b).2 ⟨l, h1, h2⟩
    have hnd : (barlineIndices 0 f.lines).Nodup :=
      hsorted.imp (fun h => Nat.ne_of_lt h)
    rw [List.count_append, List.count_eq_one_of_mem hnd hb]
    by_cases hp : pickupScan f.lines = true
    · rw [if_pos hp]
      have := hpos hp b hb
      have hne : b ≠ 0 := by omega
      simp [hne]
    · rw [if_neg hp]
      simp

/-- In `**kern / 4c / =1 / 4d / 4e / =2 / 4f / 4g / *-` a note precedes the
first barline: the barline list is line 0 followed by the two barline lines
2 and 5. -/
theorem analyzeMeter_barlines_spec_witness :
    (analyzeMeter pickupFile).2.barlines = [0, 2, 5] ∧
    (analyzeMeter pickupFile).2.barlines.Pairwise (fun a b => a < b) :=
  ⟨by decide!, (analyzeMeter_barlines_spec pickupFile).1⟩

/-- `assignLineDurations` on an empty vector of lines: the bound
`lines.size()-1` wraps around to `2^64 - 1`, the loop is entered with
`i = 0`, and the read of `lines[0]` is outside the vector. -/
theorem assignLineDurations_nil (f : HumdrumFileStructure) (h : f.lines = []) :
    assignLineDurations f = none := by
  unfold assignLineDurations
  rw [h]
  have hb : (([] : List HumdrumLine).length + 2 ^ 64 - 1) % 2 ^ 64 = 2 ^ 64 - 1 := by decide
  simp only [hb]
  have hf : 2 ^ 64 - 1 + 1 = (2 ^ 64 - 1) + 1 := rfl
  rw [hf, assignLineDurations.loop]
  simp

/-- C22: in `**kern / *^ / 4c<TAB>4e / *<TAB>*^ / 4c<TAB>4e<TAB>8g /
.<TAB>.<TAB>8g / *v<TAB>*v<TAB>*v / *-` every token is reachable from the
track start and all states are 0, and `assignDurationsToTrack` from the start
returns true; but the tokens 8, 11 and 14 of the third sub-spine keep the
state 0: the walk through the second sub-spine returns at the merged
terminator without turning to its own split.  The line 5, on which only the
third sub-spine has a note, keeps the start time -1, and `analyzeRhythm`
fails on this file, whose three sub-spines all last two quarter notes. -/
theorem nested_split_not_visited :
    (assignDurationsToTrack nestedSplit 0 0).map
        (fun r => (r.1, r.2.tokens.map (fun t => t.rhycheck),
          r.2.lines.map (fun l => l.durationFromStart))) =
      some (true, [1, 1, 1, 1, 1, 1, 1, 1, 0, 1, 1, 0, 1, 1, 0, 1],
        [-1, -1, 0, -1, 1, -1, -1, 2]) ∧
    (analyzeRhythm (fun _ => true) nestedSplit).map Prod.fst = some false := by
  constructor <;> decide!

/-- C28: on `**kern<TAB>**kern / 4c<TAB>2e / .<TAB>4d / 2f<TAB>. /
*-<TAB>*-` the note `2e` is over-long for the line order: line 2 starts at
time 2 and the later line 3 at time 1.  `analyzeRhythm` returns true; the
start times are 0, 0, 2, 1, 3 and line 2 gets the duration -1. -/
theorem over_long_token_accepted :
    (analyzeRhythm (fun _ => true) outOfOrder).map
        (fun r => (r.1, r.2.lines.map (fun l => (l.durationFromStart, l.duration)))) =
      some (true, [(0, 0), (0, 2), (2, -1), (1, 2), (3, 0)]) := by
  decide!

/-- C29: in `**text / *+ / *<TAB>**kern / foo<TAB>4c / *-<TAB>*-` no line has
a start time when the floating spine (start token 3) is analysed.  The search
loop walks 3, 5, 7 and then asks for the first next token of the terminator
(token 7), which has none: whatever the fuel, the model has no result for the
loop, for `analyzeRhythmOfFloatingSpine` and for `analyzeRhythm`; none of
them returns false. -/
theorem floating_search_runs_off_the_end :
    (unanchoredFloat.tokens[7]?).map (fun t => t.nextTokens) = some [] ∧
    (∀ fuel d, analyzeRhythmOfFloatingSpine.search unanchoredFloat fuel 7 d = none) ∧
    (∀ fuel d, analyzeRhythmOfFloatingSpine.search unanchoredFloat fuel 3 d = none) ∧
    analyzeRhythmOfFloatingSpine unanchoredFloat 3 = none ∧
    analyzeRhythm (fun _ => true) unanchoredFloat = none := by
  have h7 : ∀ fuel d, analyzeRhythmOfFloatingSpine.search unanchoredFloat fuel 7 d = none := by
    intro fuel d
    cases fuel with
    | zero => rfl
    | succ n =>
      rw [analyzeRhythmOfFloatingSpine.search]
      simp [unanchoredFloat, kernToken, freshLine]
  have h5 : ∀ fuel d, analyzeRhythmOfFloatingSpine.search unanchoredFloat fuel 5 d = none := by
    intro fuel d
    cases fuel with
    | zero => rfl
    | succ n =>
      rw [analyzeRhythmOfFloatingSpine.search]
      have := h7 n
      simp [unanchoredFloat, kernToken, freshLine] at this ⊢
      exact this _
  have h3 : ∀ fuel d, analyzeRhythmOfFloatingSpine.search unanchoredFloat fuel 3 d = none := by
    intro fuel d
    cases fuel with
    | zero => rfl
    | succ n =>
      rw [analyzeRhythmOfFloatingSpine.search]
      have := h5 n
      simp [unanchoredFloat, kernToken, freshLine] at this ⊢
      exact this _
  refine ⟨by decide, h7, h3, by decide!, by decide!⟩

/-- C30: for the empty list of lines the bound `lines.size()-1` of the loop
of `assignLineDurations` is `2^64 - 1`, so the loop body runs with `i = 0` and
reads `lines[0]`, a position outside the list: the call has no defined
result, it does not leave the list unchanged. -/
theorem assignLineDurations_empty_reads_outside :
    (emptyFile.lines.length + 2 ^ 64 - 1) % 2 ^ 64 = 2 ^ 64 - 1 ∧
    emptyFile.lines[0]? = none ∧
    assignLineDurations emptyFile = none :=
  ⟨by decide, rfl, assignLineDurations_nil emptyFile rfl⟩

theorem foldSteps_append (es1 es2 : List (HumdrumToken × HumNum)) :
    ∀ (D : Nat → HumNum),
      ((foldSteps D es1).1 = true →
        foldSteps D (es1 ++ es2) = foldSteps (foldSteps D es1).2 es2) ∧
      ((foldSteps D es1).1 = false → (foldSteps D (es1 ++ es2)).1 = false) := by
  induction es1 with
  | nil => intro D; exact ⟨fun _ => rfl, fun h => (by cases h)⟩
  | cons e es ih =>
    intro D
    simp only [List.cons_append, foldSteps]
    by_cases h : (lineStep D e.1 e.2).1 = true
    · simp only [h, if_true]
      exact ih _
    · refine ⟨fun h' => ?_, fun _ => ?_⟩
      · rw [if_neg h] at h'
        cases h'
      · rw [if_neg h]

/-- The primary loop of `prepareDurations` along a chain of unvisited tokens:
it makes the calls `chainEvents`; if one of them fails the loop returns false,
otherwise it arrives at the last token. -/
theorem primary_fold (f0 : HumdrumFileStructure) (hw : WellLinked f0) (st : Int) :
    ∀ (cs : List Nat) (token : Nat) (S : Nat → Int) (D : Nat → HumNum) (fuel : Nat) (d : HumNum),
      Linked0 f0 token cs → (∀ c ∈ cs, S c = st) → cs.Nodup →
      ((foldSteps D (chainEvents f0 d cs)).1 = true →
        prepareDurations.primary st (fuel + cs.length) (withState f0 S D) token d =
          prepareDurations.primary st fuel
            (withState f0 (bump S cs) (foldSteps D (chainEvents f0 d cs)).2)
            ((token :: cs).getLast (List.cons_ne_nil _ _)) (d + pathSum f0 cs)) ∧
      ((foldSteps D (chainEvents f0 d cs)).1 = false →
        ∃ g, prepareDurations.primary st (fuel + cs.length) (withState f0 S D) token d =
          some (Walk.ret false g)) := by
  intro cs
  induction cs with
  | nil =>
    intro token S D fuel d _ _ _
    refine ⟨fun _ => ?_, fun h => (by cases h)⟩
    simp [chainEvents, foldSteps, bump_nil, pathSum_nil]
  | cons c cs ih =>
    intro token S D fuel d hlink hS hnd
    obtain ⟨⟨t, rest, ht, hn⟩, hlink2⟩ := hlink
    obtain ⟨tc, hc, -⟩ := hw.next_valid token c t ht (by simp [hn])
    rw [List.nodup_cons] at hnd
    have hSc : S c = st := hS c (by simp)
    have hfuel : fuel + (c :: cs).length = (fuel + cs.length) + 1 := by
      simp only [List.length_cons]; omega
    have hev : chainEvents f0 d (c :: cs) = (tc, d) :: chainEvents f0 (d + posDur tc) cs := by
      simp [chainEvents, hc]
    rw [hev, hfuel, primary_step f0 hw st _ S D token c rest d t tc ht hn hc,
      if_neg (not_not.mpr hSc.symm)]
    simp only [foldSteps]
    by_cases hs : (lineStep D tc d).1 = true
    · simp only [hs, if_true, Bool.true_eq_false, if_false]
      obtain ⟨i1, i2⟩ := ih c (Function.update S c (S c + 1)) (lineStep D tc d).2 fuel
        (d + posDur tc) hlink2
        (fun x hx => by
          have hxc : x ≠ c := fun h => hnd.1 (h ▸ hx)
          rw [Function.update_noteq hxc]
          exact hS x (by simp [hx]))
        hnd.2
      refine ⟨fun h => ?_, i2⟩
      rw [i1 h, bump_cons S c cs hnd.1, pathSum_cons f0 c cs tc hc, add_assoc]
      simp only [List.getLast_cons (List.cons_ne_nil c cs)]
    · have hs' : (lineStep D tc d).1 = false := by
        cases h : (lineStep D tc d).1
        · rfl
        · exact absurd h hs
      rw [if_neg hs, if_pos hs']
      exact ⟨fun h => (by cases h), fun _ => ⟨_, rfl⟩⟩

/-- The secondary loop along a chain of visited tokens with one next token
each, down to a token without next token: it returns true and changes
nothing. -/
theorem secondary_single (f0 : HumdrumFileStructure) (hw : WellLinked f0)
    (recurse : HumdrumFileStructure → Nat → HumNum → Option (Bool × HumdrumFileStructure))
    (newstate : Int) (S : Nat → Int) (D : Nat → HumNum) :
    ∀ (cs : List Nat) (token : Nat) (fuel : Nat) (d : HumNum),
      Single f0 token cs → (∀ c ∈ cs, S c = newstate) →
      (∃ tl, f0.tokens[(token :: cs).getLast (List.cons_ne_nil _ _)]? = some tl ∧
        tl.nextTokens = []) →
      prepareDurations.secondary recurse newstate (fuel + cs.length + 1) (withState f0 S D)
        token d = some (true, withState f0 S D) := by
  intro cs
  induction cs with
  | nil =>
    intro token fuel d _ _ hlast
    obtain ⟨tl, htl, hn⟩ := hlast
    simp only [List.getLast_singleton] at htl
    exact secondary_end f0 recurse newstate _ S D token d tl htl hn
  | cons c cs ih =>
    intro token fuel d hlink hS hlast
    obtain ⟨⟨t, ht, hn⟩, hlink2⟩ := hlink
    obtain ⟨tc, hc, -⟩ := hw.next_valid token c t ht (by simp [hn])
    have hfuel : fuel + (c :: cs).length + 1 = (fuel + cs.length + 1) + 1 := by
      simp only [List.length_cons]; omega
    rw [hfuel, secondary_step f0 recurse newstate _ S S D D token c [] d t tc ht hn hc rfl,
      if_neg (not_not.mpr (hS c (by simp)).symm)]
    exact ih c fuel _ hlink2 (fun x hx => hS x (by simp [hx]))
      (by simpa only [List.getLast_cons (List.cons_ne_nil c cs)] using hlast)

theorem lineStep_success_val (D : Nat → HumNum) (t : HumdrumToken) (d : HumNum)
    (ht : isTimed t = true) (h : (lineStep D t d).1 = true) :
    (lineStep D t d).2 t.lineIndex = d := by
  unfold lineStep at h ⊢
  rw [if_pos ht] at h ⊢
  by_cases h1 : D t.lineIndex < 0
  · rw [if_pos h1]
    exact Function.update_same _ _ _
  · rw [if_neg h1] at h ⊢
    by_cases h2 : D t.lineIndex ≠ d
    · rw [if_pos h2] at h
      cases h
    · rw [if_neg h2]
      exact not_not.1 h2

theorem lineStep_idem (D : Nat → HumNum) (t : HumdrumToken) (d : HumNum)
    (h : D t.lineIndex = d) : lineStep D t d = (true, D) := by
  unfold lineStep
  split
  · split
    · rw [← h, Function.update_eq_self]
    · rw [if_neg (not_not.2 h)]
  · rfl

theorem foldSteps_last_val (e : HumdrumToken × HumNum) (he : isTimed e.1 = true) :
    ∀ (es : List (HumdrumToken × HumNum)) (D : Nat → HumNum),
      (foldSteps D (es ++ [e])).1 = true →
      (foldSteps D (es ++ [e])).2 e.1.lineIndex = e.2 := by
  intro es
  induction es with
  | nil =>
    intro D h
    simp only [List.nil_append, foldSteps] at h ⊢
    by_cases hs : (lineStep D e.1 e.2).1 = true
    · rw [if_pos hs]
      exact lineStep_success_val D e.1 e.2 he hs
    · rw [if_neg hs] at h
      cases h
  | cons a es ih =>
    intro D h
    simp only [List.cons_append, foldSteps] at h ⊢
    by_cases hs : (lineStep D a.1 a.2).1 = true
    · rw [if_pos hs] at h ⊢
      exact ih _ h
    · rw [if_neg hs] at h
      cases h

theorem chainEvents_snoc (f : HumdrumFileStructure) (x : Nat) (tx : HumdrumToken)
    (hx : f.tokens[x]? = some tx) :
    ∀ (xs : List Nat) (d : HumNum), (∀ c ∈ xs, ∃ tc, f.tokens[c]? = some tc) →
      chainEvents f d (xs ++ [x]) = chainEvents f d xs ++ [(tx, d + pathSum f xs)] := by
  intro xs
  induction xs with
  | nil => intro d _; simp [chainEvents, hx, pathSum_nil]
  | cons c cs ih =>
    intro d hv
    obtain ⟨tc, hc⟩ := hv c (by simp)
    have e1 : ∀ ys, chainEvents f d (c :: ys) = (tc, d) :: chainEvents f (d + posDur tc) ys := by
      intro ys
      simp [chainEvents, hc]
    rw [List.cons_append, e1, e1, ih (d + posDur tc) (fun y hy => hv y (List.mem_cons_of_mem _ hy)),
      pathSum_cons f c cs tc hc, add_assoc]
    rfl

/-- `prepareDurations` on a spine that never splits, entered with the running
sum `d`: it makes the calls `chainEvents`; if all of them succeed it returns
true, the tokens of the spine are visited once and the start times are those
left by the calls; otherwise it returns false. -/
theorem prepareDurations_chain_fold (f0 : HumdrumFileStructure) (hw : WellLinked f0)
    (hterm : ∀ (x : Nat) (t : HumdrumToken), f0.tokens[x]? = some t →
      t.isTerminateInterpretation = true → posDur t = 0)
    (st : Int) (tok : Nat) (cs : List Nat) (S : Nat → Int) (D : Nat → HumNum) (fuel : Nat)
    (d : HumNum) (t : HumdrumToken) (ht : f0.tokens[tok]? = some t) (hlink : Single f0 tok cs)
    (hlast : ∀ tl, f0.tokens[(tok :: cs).getLast (List.cons_ne_nil _ _)]? = some tl →
      tl.nextTokens = [])
    (hS : ∀ c ∈ tok :: cs, S c = st) (hnd : (tok :: cs).Nodup) :
    ((foldSteps D (chainEvents f0 d (tok :: cs))).1 = true →
      prepareDurations (fuel + cs.length + 2) (withState f0 S D) tok st d =
        some (true, withState f0 (bump S (tok :: cs))
          (foldSteps D (chainEvents f0 d (tok :: cs))).2)) ∧
    ((foldSteps D (chainEvents f0 d (tok :: cs))).1 = false →
      ∃ g, prepareDurations (fuel + cs.length + 2) (withState f0 S D) tok st d =
        some (false, g)) := by
  have hStok : st = S tok := (hS tok (by simp)).symm
  have hfuel : fuel + cs.length + 2 = (fuel + 1 + cs.length) + 1 := by omega
  have hev : chainEvents f0 d (tok :: cs) = (t, d) :: chainEvents f0 (d + posDur t) cs := by
    simp [chainEvents, ht]
  have hlink0 := Single.linked0 f0 cs tok hlink
  have hvalid := Linked0.valid f0 hw cs tok t ht hlink0
  have hnd' := List.nodup_cons.1 hnd
  have hS1 : ∀ c ∈ cs, Function.update S tok (S tok + 1) c = st := by
    intro c hc
    have : c ≠ tok := fun h => hnd'.1 (h ▸ hc)
    rw [Function.update_noteq this]
    exact hS c (by simp [hc])
  by_cases hs : (lineStep D t d).1 = true
  · -- the first call succeeds
    have hfold : foldSteps D (chainEvents f0 d (tok :: cs)) =
        foldSteps (lineStep D t d).2 (chainEvents f0 (d + posDur t) cs) := by
      rw [hev]
      simp only [foldSteps, hs, if_true]
    obtain ⟨p1, p2⟩ := primary_fold f0 hw st cs tok (Function.update S tok (S tok + 1))
      (lineStep D t d).2 (fuel + 1) (d + posDur t) hlink0 hS1 hnd'.2
    rw [hfold]
    refine ⟨fun h => ?_, fun h => ?_⟩
    · obtain ⟨tl, htl⟩ := hvalid _ (List.getLast_mem (List.cons_ne_nil tok cs))
      have hnl := hlast tl htl
      have hprim := p1 h
      rw [primary_end f0 st fuel _ _ _ _ tl htl hnl] at hprim
      -- the extra call for the terminator changes nothing
      have hls : lastStep (foldSteps (lineStep D t d).2 (chainEvents f0 (d + posDur t) cs)).2 tl
          (d + posDur t + pathSum f0 cs) =
          (true, (foldSteps (lineStep D t d).2 (chainEvents f0 (d + posDur t) cs)).2) := by
        unfold lastStep
        by_cases hterm' : tl.isTerminateInterpretation = true
        · rw [if_pos hterm']
          apply lineStep_idem
          have hsplit : tok :: cs = (tok :: cs).dropLast ++ [(tok :: cs).getLast
              (List.cons_ne_nil _ _)] := (List.dropLast_append_getLast _).symm
          have hevs : chainEvents f0 d (tok :: cs) =
              chainEvents f0 d (tok :: cs).dropLast ++
                [(tl, d + pathSum f0 (tok :: cs).dropLast)] := by
            conv_lhs => rw [hsplit]
            exact chainEvents_snoc f0 _ tl htl _ d
              (fun c hc => hvalid c (List.dropLast_subset _ hc))
          have hsum : d + posDur t + pathSum f0 cs = d + pathSum f0 (tok :: cs).dropLast := by
            have h1 : pathSum f0 (tok :: cs) =
                pathSum f0 (tok :: cs).dropLast + posDur tl := by
              conv_lhs => rw [hsplit]
              rw [pathSum_append, pathSum_cons f0 _ [] tl htl, pathSum_nil, add_zero]
            rw [pathSum_cons f0 tok cs t ht, hterm _ tl htl hterm', add_zero] at h1
            rw [← h1]
            ring
          have hval := foldSteps_last_val (tl, d + pathSum f0 (tok :: cs).dropLast)
            (by simp [isTimed, hterm']) (chainEvents f0 d (tok :: cs).dropLast) D
            (by rw [← hevs, hfold]; exact h)
          rw [← hevs, hfold] at hval
          rw [hsum]
          exact hval
        · rw [if_neg hterm']
      have hsec := secondary_single f0 hw
        (fun g x e => prepareDurations (fuel + 1 + cs.length) g x st e) (st + 1)
        (bump (Function.update S tok (S tok + 1)) cs)
        (foldSteps (lineStep D t d).2 (chainEvents f0 (d + posDur t) cs)).2 cs tok fuel
        (d + posDur t) hlink (fun c hc => by simp [bump, hc, hS1 c hc]) ⟨tl, htl, hnl⟩
      have hf2 : fuel + cs.length + 1 = fuel + 1 + cs.length := by omega
      rw [hf2] at hsec
      rw [hfuel, prepareDurations_primary_fall f0 hw _ S _ D _ tok _ st d _ t tl ht hStok hs
        hprim htl, hls, if_neg (by simp), hsec, bump_cons S tok cs hnd'.1]
    · obtain ⟨g, hg⟩ := p2 h
      exact ⟨g, by rw [hfuel, prepareDurations_primary_ret f0 hw _ S D tok st d t false g ht
        hStok hs hg]⟩
  · -- the first call fails
    have hs' : (lineStep D t d).1 = false := by
      cases h : (lineStep D t d).1
      · rfl
      · exact absurd h hs
    have hfold : (foldSteps D (chainEvents f0 d (tok :: cs))).1 = false := by
      rw [hev]
      simp only [foldSteps, hs', Bool.false_eq_true, if_false]
    rw [hfold]
    refine ⟨fun h => (by cases h), fun _ => ?_⟩
    exact ⟨_, by rw [hfuel]; exact prepareDurations_first_fail f0 hw _ S D tok st d t ht hStok hs'⟩

theorem EventsAgree.snoc_untimed (P : List (HumdrumToken × HumNum)) (e : HumdrumToken × HumNum)
    (he : isTimed e.1 = false) (h : EventsAgree P) : EventsAgree (P ++ [e]) := by
  intro e1 h1 e2 h2 t1 t2 hl
  simp only [List.mem_append, List.mem_singleton] at h1 h2
  rcases h1 with h1 | h1
  · rcases h2 with h2 | h2
    · exact h e1 h1 e2 h2 t1 t2 hl
    · subst h2; rw [he] at t2; cases t2
  · subst h1; rw [he] at t1; cases t1

theorem EventsAgree.prefix_agree (P es : List (HumdrumToken × HumNum))
    (h : EventsAgree (P ++ es)) : EventsAgree P :=
  fun e1 h1 e2 h2 => h e1 (List.mem_append_left _ h1) e2 (List.mem_append_left _ h2)

/-- A sequence of calls of `setLineDurationFromStart` with non-negative
running sums succeeds exactly when the calls agree line by line, and then the
start times are those recorded by the calls. -/
theorem foldSteps_agree :
    ∀ (es P : List (HumdrumToken × HumNum)) (D : Nat → HumNum),
      Recorded D P → (∀ e ∈ P ++ es, 0 ≤ e.2) → EventsAgree P →
      ((foldSteps D es).1 = true ↔ EventsAgree (P ++ es)) ∧
      ((foldSteps D es).1 = true → Recorded (foldSteps D es).2 (P ++ es)) := by
  intro es
  induction es with
  | nil =>
    intro P D hr _ ha
    simp only [List.append_nil, foldSteps]
    exact ⟨⟨fun _ => ha, fun _ => trivial⟩, fun _ => hr⟩
  | cons e es ih =>
    intro P D hr hpos ha
    have hassoc : P ++ e :: es = (P ++ [e]) ++ es := by simp
    have hpos' : ∀ x ∈ (P ++ [e]) ++ es, 0 ≤ x.2 := by rw [← hassoc]; exact hpos
    have he0 : 0 ≤ e.2 := hpos e (by simp)
    rw [hassoc]
    simp only [foldSteps]
    by_cases ht : isTimed e.1 = true
    · by_cases h1 : D e.1.lineIndex < 0
      · -- the line gets its start time
        have hstep : lineStep D e.1 e.2 = (true, Function.update D e.1.lineIndex e.2) := by
          unfold lineStep
          rw [if_pos ht, if_pos h1]
        have hne : ∀ x ∈ P, isTimed x.1 = true → x.1.lineIndex ≠ e.1.lineIndex := by
          intro x hx hxt heq
          have := hr.known x hx hxt
          rw [heq] at this
          have h0 := hpos x (List.mem_append_left _ hx)
          rw [← this] at h0
          exact absurd h1 (not_lt.2 h0)
        have hr' : Recorded (Function.update D e.1.lineIndex e.2) (P ++ [e]) := by
          refine ⟨fun x hx hxt => ?_, fun n hn => ?_⟩
          · simp only [List.mem_append, List.mem_singleton] at hx
            rcases hx with hx | hx
            · rw [Function.update_noteq (hne x hx hxt)]
              exact hr.known x hx hxt
            · subst hx
              exact Function.update_same _ _ _
          · by_cases hnl : n = e.1.lineIndex
            · exact ⟨e, by simp, ht, hnl.symm⟩
            · rw [Function.update_noteq hnl] at hn
              obtain ⟨x, hx, h2, h3⟩ := hr.source n hn
              exact ⟨x, List.mem_append_left _ hx, h2, h3⟩
        have ha' : EventsAgree (P ++ [e]) := by
          intro e1 h1' e2 h2' t1 t2 hl
          simp only [List.mem_append, List.mem_singleton] at h1' h2'
          rcases h1' with h1' | h1'
          · rcases h2' with h2' | h2'
            · exact ha e1 h1' e2 h2' t1 t2 hl
            · subst h2'; exact absurd hl (hne e1 h1' t1)
          · rcases h2' with h2' | h2'
            · subst h1'; exact absurd hl.symm (hne e2 h2' t2)
            · subst h1'; subst h2'; rfl
        rw [hstep]
        simp only [if_true]
        exact ih (P ++ [e]) _ hr' hpos' ha'
      · by_cases h2 : D e.1.lineIndex = e.2
        · -- the line has this start time already
          have hstep : lineStep D e.1 e.2 = (true, D) := lineStep_idem D e.1 e.2 h2
          have hr' : Recorded D (P ++ [e]) := by
            refine ⟨fun x hx hxt => ?_, fun n hn => ?_⟩
            · simp only [List.mem_append, List.mem_singleton] at hx
              rcases hx with hx | hx
              · exact hr.known x hx hxt
              · subst hx; exact h2
            · obtain ⟨x, hx, h3, h4⟩ := hr.source n hn
              exact ⟨x, List.mem_append_left _ hx, h3, h4⟩
          have ha' : EventsAgree (P ++ [e]) := by
            intro e1 h1' e2 h2' t1 t2 hl
            simp only [List.mem_append, List.mem_singleton] at h1' h2'
            rcases h1' with h1' | h1'
            · rcases h2' with h2' | h2'
              · exact ha e1 h1' e2 h2' t1 t2 hl
              · subst h2'
                rw [← hr.known e1 h1' t1, hl, h2]
            · rcases h2' with h2' | h2'
              · subst h1'
                rw [← hr.known e2 h2' t2, ← hl, h2]
              · subst h1'; subst h2'; rfl
          rw [hstep]
          simp only [if_true]
          exact ih (P ++ [e]) _ hr' hpos' ha'
        · -- the line has another start time: the call fails
          have hstep : (lineStep D e.1 e.2).1 = false := by
            unfold lineStep
            rw [if_pos ht, if_neg h1, if_pos h2]
          rw [hstep]
          simp only [Bool.false_eq_true, if_false, false_iff]
          refine ⟨fun hag => ?_, fun h => (by cases h)⟩
          obtain ⟨x, hx, h3, h4⟩ := hr.source e.1.lineIndex (not_lt.1 h1)
          have := hag x (by simp [hx]) e (by simp) h3 ht h4
          rw [← hr.known x hx h3, h4] at this
          exact h2 this
    · -- the token is not timed: nothing happens
      have ht' : isTimed e.1 = false := by
        cases h : isTimed e.1
        · rfl
        · exact absurd h ht
      have hstep : lineStep D e.1 e.2 = (true, D) := by
        unfold lineStep
        rw [if_neg ht]
      have hr' : Recorded D (P ++ [e]) := by
        refine ⟨fun x hx hxt => ?_, fun n hn => ?_⟩
        · simp only [List.mem_append, List.mem_singleton] at hx
          rcases hx with hx | hx
          · exact hr.known x hx hxt
          · subst hx; rw [ht'] at hxt; cases hxt
        · obtain ⟨x, hx, h3, h4⟩ := hr.source n hn
          exact ⟨x, List.mem_append_left _ hx, h3, h4⟩
      rw [hstep]
      simp only [if_true]
      exact ih (P ++ [e]) _ hr' hpos' (ha.snoc_untimed P e ht')

theorem Linked0.chain_nodup_fwd (f0 : HumdrumFileStructure) (hw : WellLinked f0) :
    ∀ (cs : List Nat) (cur : Nat) (tcur : HumdrumToken), f0.tokens[cur]? = some tcur →
      Linked0 f0 cur cs → (cur :: cs).Nodup := by
  intro cs
  induction cs with
  | nil => intro cur tcur _ _; simp
  | cons c cs ih =>
    intro cur tcur hcur hl
    refine List.nodup_cons.2 ⟨Linked0.not_mem f0 hw _ cur tcur hcur hl, ?_⟩
    obtain ⟨⟨t, rest, ht, hn⟩, hl2⟩ := hl
    obtain ⟨tc, hc, -⟩ := hw.next_valid cur c t ht (by simp [hn])
    exact ih c tc hc hl2

/-- One pass of the first loop of `analyzeRhythm` over a rhythmic track that
never splits and starts on the start line. -/
theorem assignDurationsToTrack_chain_fold (f : HumdrumFileStructure) (hw : WellLinked f)
    (hterm : ∀ (x : Nat) (t : HumdrumToken), f.tokens[x]? = some t →
      t.isTerminateInterpretation = true → posDur t = 0)
    (s : Nat) (cs : List Nat) (t : HumdrumToken) (ht : f.tokens[s]? = some t)
    (hr : t.hasRhythm = true) (hlink : Single f s cs)
    (hlast : ∀ tl, f.tokens[(s :: cs).getLast (List.cons_ne_nil _ _)]? = some tl →
      tl.nextTokens = [])
    (S : Nat → Int) (D : Nat → HumNum) (hS : ∀ c ∈ s :: cs, S c = 0) :
    ((foldSteps D (chainEvents f 0 (s :: cs))).1 = true →
      assignDurationsToTrack (withState f S D) s 0 =
        some (true, withState f (bump S (s :: cs)) (foldSteps D (chainEvents f 0 (s :: cs))).2)) ∧
    ((foldSteps D (chainEvents f 0 (s :: cs))).1 = false →
      ∃ g, assignDurationsToTrack (withState f S D) s 0 = some (false, g)) := by
  have hlink0 := Single.linked0 f cs s hlink
  have hnd := Linked0.chain_nodup_fwd f hw cs s t ht hlink0
  obtain ⟨tl, htl⟩ := Linked0.valid f hw cs s t ht hlink0 _
    (List.getLast_mem (List.cons_ne_nil s cs))
  have hb := Linked0.line_bound f hw cs s t tl ht hlink0 htl
  have hv := hw.line_valid _ tl htl
  have hfuel : f.lines.length + 1 = (f.lines.length - cs.length - 1) + cs.length + 2 := by omega
  have hunf : assignDurationsToTrack (withState f S D) s 0 =
      prepareDurations ((f.lines.length - cs.length - 1) + cs.length + 2) (withState f S D) s 0
        0 := by
    unfold assignDurationsToTrack
    rw [withState_tokens_get, ht]
    simp only [Option.map_some', Option.bind_eq_bind, Option.some_bind, hr, Bool.not_true,
      Bool.false_eq_true, if_false, withState_lines_length, hS s (by simp), ← hfuel]
  rw [hunf]
  exact prepareDurations_chain_fold f hw hterm 0 s cs S D _ 0 t ht hlink hlast hS hnd

theorem isRhythmic_cons (f : HumdrumFileStructure) (s : Nat) (cs : List Nat) (t : HumdrumToken)
    (ht : f.tokens[s]? = some t) : isRhythmic f (s :: cs) = t.hasRhythm := by
  simp [isRhythmic, ht]

/-- The first loop of `analyzeRhythm` over tracks that never split and start
on the start line: it makes the calls `trackEvents`, returns true if all of
them succeed, leaving the start times of the calls, and false otherwise. -/
theorem first_fold (f : HumdrumFileStructure) (hw : WellLinked f)
    (hterm : ∀ (x : Nat) (t : HumdrumToken), f.tokens[x]? = some t →
      t.isTerminateInterpretation = true → posDur t = 0)
    (startline : Nat) :
    ∀ (rem pre : List (List Nat)) (S : Nat → Int) (D : Nat → HumNum),
      f.trackstarts = (pre ++ rem).map (fun c => c.headD 0) →
      (∀ c ∈ rem, ∃ s cs t, c = s :: cs ∧ f.tokens[s]? = some t) →
      (∀ s cs, s :: cs ∈ rem → isRhythmic f (s :: cs) = true →
        Single f s cs ∧
        (∀ tl, f.tokens[(s :: cs).getLast (List.cons_ne_nil _ _)]? = some tl →
          tl.nextTokens = []) ∧
        (∀ t, f.tokens[s]? = some t → t.lineIndex = startline)) →
      rem.Pairwise (fun a b => isRhythmic f a = true → isRhythmic f b = true →
        ∀ x ∈ a, x ∉ b) →
      (∀ c ∈ rem, isRhythmic f c = true → ∀ x ∈ c, S x = 0) →
      ((foldSteps D (trackEvents f rem)).1 = true →
        ∃ S1, analyzeRhythm.first startline rem.length (pre.length + 1) (withState f S D) =
          some (true, withState f S1 (foldSteps D (trackEvents f rem)).2)) ∧
      ((foldSteps D (trackEvents f rem)).1 = false →
        ∃ g, analyzeRhythm.first startline rem.length (pre.length + 1) (withState f S D) =
          some (false, g)) := by
  intro rem
  induction rem with
  | nil =>
    intro pre S D _ _ _ _ _
    exact ⟨fun _ => ⟨S, rfl⟩, fun h => (by cases h)⟩
  | cons c rem ih =>
    intro pre S D hstarts hvalid hchain hdisj hS
    obtain ⟨s, cs, t, rfl, ht⟩ := hvalid _ (List.mem_cons_self _ _)
    have hgs : getTrackStart (withState f S D) (pre.length + 1) = some s := by
      rw [getTrackStart_withState]
      unfold getTrackStart
      rw [if_neg (by omega), hstarts, Nat.add_sub_cancel, List.getElem?_map,
        List.getElem?_append_right (le_refl _), Nat.sub_self]
      simp
    have hstarts' : f.trackstarts = ((pre ++ [s :: cs]) ++ rem).map (fun c => c.headD 0) := by
      rw [hstarts]; simp
    have hpl : (pre ++ [s :: cs]).length + 1 = pre.length + 1 + 1 := by simp
    have hdisj' := List.pairwise_cons.1 hdisj
    have ih' := fun S1 D1 hS1 => ih (pre ++ [s :: cs]) S1 D1 hstarts'
      (fun c hc => hvalid c (List.mem_cons_of_mem _ hc))
      (fun s' cs' hm hr => hchain s' cs' (List.mem_cons_of_mem _ hm) hr) hdisj'.2 hS1
    rw [hpl] at ih'
    have hunf : analyzeRhythm.first startline ((s :: cs) :: rem).length (pre.length + 1)
        (withState f S D) =
        if !t.hasRhythm then
          analyzeRhythm.first startline rem.length (pre.length + 1 + 1) (withState f S D)
        else if t.lineIndex = startline then
          (assignDurationsToTrack (withState f S D) s 0).bind (fun r =>
            if !r.1 then some (false, r.2)
            else analyzeRhythm.first startline rem.length (pre.length + 1 + 1) r.2)
        else analyzeRhythm.first startline rem.length (pre.length + 1 + 1) (withState f S D) := by
      simp only [List.length_cons]
      rw [analyzeRhythm.first, hgs]
      simp only [Option.bind_eq_bind, Option.some_bind, withState_tokens_get, ht,
        Option.map_some']
      rfl
    rw [hunf]
    by_cases hr : t.hasRhythm = true
    · -- a rhythmic track
      have hrc : isRhythmic f (s :: cs) = true := by rw [isRhythmic_cons f s cs t ht, hr]
      obtain ⟨hlink, hlast, hline⟩ := hchain s cs (List.mem_cons_self _ _) hrc
      have hev : trackEvents f ((s :: cs) :: rem) =
          chainEvents f 0 (s :: cs) ++ trackEvents f rem := by
        simp [trackEvents, hrc]
      obtain ⟨a1, a2⟩ := assignDurationsToTrack_chain_fold f hw hterm s cs t ht hr hlink hlast S D
        (hS _ (List.mem_cons_self _ _) hrc)
      obtain ⟨f1, f2⟩ := foldSteps_append (chainEvents f 0 (s :: cs)) (trackEvents f rem) D
      rw [hev, if_neg (by simp [hr]), if_pos (hline t ht)]
      by_cases hc : (foldSteps D (chainEvents f 0 (s :: cs))).1 = true
      · rw [a1 hc, f1 hc]
        simp only [Option.some_bind, Bool.not_true, Bool.false_eq_true, if_false]
        apply ih'
        intro c' hc' hr' x hx
        have hxs : x ∉ s :: cs := fun hm => hdisj'.1 c' hc' hrc hr' x hm hx
        rw [bump_not_mem S _ x hxs]
        exact hS c' (List.mem_cons_of_mem _ hc') hr' x hx
      · have hc' : (foldSteps D (chainEvents f 0 (s :: cs))).1 = false := by
          cases h : (foldSteps D (chainEvents f 0 (s :: cs))).1
          · rfl
          · exact absurd h hc
        obtain ⟨g, hg⟩ := a2 hc'
        rw [hg, f2 hc']
        exact ⟨fun h => (by cases h), fun _ => ⟨g, rfl⟩⟩
    · -- a track without rhythm is skipped
      have hr' : t.hasRhythm = false := by
        cases h : t.hasRhythm
        · rfl
        · exact absurd h hr
      have hrc : isRhythmic f (s :: cs) = false := by rw [isRhythmic_cons f s cs t ht, hr']
      have hev : trackEvents f ((s :: cs) :: rem) = trackEvents f rem := by
        simp [trackEvents, hrc]
      rw [hev, if_pos (by simp [hr'])]
      exact ih' S D (fun c' hc' hr'' x hx => hS c' (List.mem_cons_of_mem _ hc') hr'' x hx)

theorem chainEvents_mem (f : HumdrumFileStructure) :
    ∀ (ch : List Nat) (d : HumNum) (e : HumdrumToken × HumNum), e ∈ chainEvents f d ch →
      ∃ k x, ch[k]? = some x ∧ f.tokens[x]? = some e.1 ∧ e.2 = d + pathSum f (ch.take k) := by
  intro ch
  induction ch with
  | nil => intro d e he; simp [chainEvents] at he
  | cons a c ih =>
    intro d e he
    rw [chainEvents] at he
    cases ha : f.tokens[a]? with
    | none => rw [ha] at he; simp at he
    | some t =>
      rw [ha] at he
      rcases List.mem_cons.mp he with h | h
      · subst h
        exact ⟨0, a, by simp, ha, by simp [pathSum_nil]⟩
      · obtain ⟨k, x, h1, h2, h3⟩ := ih _ e h
        refine ⟨k + 1, x, by simpa using h1, h2, ?_⟩
        rw [h3, List.take_succ_cons, pathSum_cons f a _ t ha]
        ring

theorem chainEvents_of (f : HumdrumFileStructure) :
    ∀ (ch : List Nat) (d : HumNum) (k x : Nat) (t : HumdrumToken),
      (∀ y ∈ ch, ∃ ty, f.tokens[y]? = some ty) → ch[k]? = some x → f.tokens[x]? = some t →
      (t, d + pathSum f (ch.take k)) ∈ chainEvents f d ch := by
  intro ch
  induction ch with
  | nil => intro d k x t _ hk; simp at hk
  | cons a c ih =>
    intro d k x t hv hk hx
    obtain ⟨ta, hta⟩ := hv a (List.mem_cons_self _ _)
    rw [chainEvents, hta]
    cases k with
    | zero =>
      simp only [List.getElem?_cons_zero, Option.some.injEq] at hk
      subst hk
      rw [hta] at hx
      cases hx
      simp [pathSum_nil]
    | succ k =>
      simp only [List.getElem?_cons_succ] at hk
      have := ih (d + posDur ta) k x t (fun y hy => hv y (List.mem_cons_of_mem _ hy)) hk hx
      rw [List.take_succ_cons, pathSum_cons f a _ ta hta, ← add_assoc]
      exact List.mem_cons_of_mem _ this

theorem trackEvents_mem (f : HumdrumFileStructure) (e : HumdrumToken × HumNum) :
    ∀ (tracks : List (List Nat)), e ∈ trackEvents f tracks ↔
      ∃ c ∈ tracks, isRhythmic f c = true ∧ e ∈ chainEvents f 0 c := by
  intro tracks
  induction tracks with
  | nil => simp [trackEvents]
  | cons c rest ih =>
    rw [trackEvents, List.mem_append, ih]
    constructor
    · rintro (h | ⟨c1, hc1, h⟩)
      · by_cases hr : isRhythmic f c = true
        · rw [if_pos hr] at h
          exact ⟨c, List.mem_cons_self _ _, hr, h⟩
        · rw [if_neg hr] at h
          simp at h
      · exact ⟨c1, List.mem_cons_of_mem _ hc1, h⟩
    · rintro ⟨c1, hc1, hr, h⟩
      rcases List.mem_cons.mp hc1 with rfl | hm
      · left
        rw [if_pos hr]
        exact h
      · exact Or.inr ⟨c1, hm, hr, h⟩

/-- Along a chain of links the tokens lie on strictly later lines. -/
theorem Linked0.line_strict (f0 : HumdrumFileStructure) (hw : WellLinked f0) :
    ∀ (cs : List Nat) (s : Nat) (ts : HumdrumToken), f0.tokens[s]? = some ts →
      Linked0 f0 s cs → ∀ (k l x y : Nat) (tx ty : HumdrumToken),
      (s :: cs)[k]? = some x → (s :: cs)[l]? = some y → f0.tokens[x]? = some tx →
      f0.tokens[y]? = some ty → k < l → tx.lineIndex < ty.lineIndex := by
  intro cs
  induction cs with
  | nil =>
    intro s ts _ _ k l x y tx ty _ hl _ _ hkl
    rw [List.getElem?_eq_none (by simp; omega)] at hl
    cases hl
  | cons c cs ih =>
    intro s ts hs hlink k l x y tx ty hk hl hx hy hkl
    obtain ⟨l, rfl⟩ : ∃ l1, l = l1 + 1 := ⟨l - 1, by omega⟩
    simp only [List.getElem?_cons_succ] at hl
    cases k with
    | zero =>
      simp only [List.getElem?_cons_zero, Option.some.injEq] at hk
      subst hk
      rw [hs] at hx
      cases hx
      exact Linked0.line_lt f0 hw _ _ _ hs hlink y (List.getElem?_mem hl) ty hy
    | succ k =>
      simp only [List.getElem?_cons_succ] at hk
      obtain ⟨⟨t, rest, ht, hn⟩, hl2⟩ := hlink
      obtain ⟨tc, hc, -⟩ := hw.next_valid s c t ht (by simp [hn])
      exact ih c tc hc hl2 k l x y tx ty hk hl hx hy (by omega)

theorem Linked0.chain_line_inj (f0 : HumdrumFileStructure) (hw : WellLinked f0)
    (cs : List Nat) (s : Nat) (ts : HumdrumToken) (hs : f0.tokens[s]? = some ts)
    (hlink : Linked0 f0 s cs) (k l x y : Nat) (tx ty : HumdrumToken)
    (hk : (s :: cs)[k]? = some x) (hl : (s :: cs)[l]? = some y) (hx : f0.tokens[x]? = some tx)
    (hy : f0.tokens[y]? = some ty) (h : tx.lineIndex = ty.lineIndex) : k = l := by
  rcases Nat.lt_trichotomy k l with h1 | h1 | h1
  · have := Linked0.line_strict f0 hw cs s ts hs hlink k l x y tx ty hk hl hx hy h1
    omega
  · exact h1
  · have := Linked0.line_strict f0 hw cs s ts hs hlink l k y x ty tx hl hk hy hx h1
    omega

/-- The calls made for chain tracks agree on every line exactly if there is
no conflict between two tracks. -/
theorem trackEvents_agree_iff (f : HumdrumFileStructure) (hw : WellLinked f)
    (tracks : List (List Nat)) (startline : Nat) (hc : ChainTracks f tracks startline) :
    ¬ EventsAgree (trackEvents f tracks) ↔ TrackConflict f tracks := by
  have hvalid : ∀ c ∈ tracks, isRhythmic f c = true → ∀ y ∈ c, ∃ ty, f.tokens[y]? = some ty := by
    intro c hcm hr y hy
    obtain ⟨s, cs, t, rfl, ht⟩ := hc.valid c hcm
    exact Linked0.valid f hw cs s t ht (Single.linked0 f cs s (hc.single s cs hcm hr).1) y hy
  constructor
  · intro hna
    unfold EventsAgree at hna
    push_neg at hna
    obtain ⟨e1, he1, e2, he2, ht1, ht2, hline, hne⟩ := hna
    obtain ⟨ci, hci, hri, hei⟩ := (trackEvents_mem f e1 tracks).mp he1
    obtain ⟨cj, hcj, hrj, hej⟩ := (trackEvents_mem f e2 tracks).mp he2
    obtain ⟨k, x, hk, hx, hs1⟩ := chainEvents_mem f ci 0 e1 hei
    obtain ⟨l, y, hl, hy, hs2⟩ := chainEvents_mem f cj 0 e2 hej
    rw [zero_add] at hs1 hs2
    obtain ⟨i, hi⟩ := List.mem_iff_getElem?.mp hci
    obtain ⟨j, hj⟩ := List.mem_iff_getElem?.mp hcj
    refine ⟨i, j, ci, cj, k, l, x, y, e1.1, e2.1, ?_, hi, hj, hri, hrj, hk, hl, hx, hy, ht1, ht2,
      hline, by rw [← hs1, ← hs2]; exact hne⟩
    intro hij
    subst hij
    rw [hi] at hj
    cases hj
    obtain ⟨s, cs, t, rfl, ht⟩ := hc.valid ci hci
    have := Linked0.chain_line_inj f hw cs s t ht (Single.linked0 f cs s (hc.single s cs hci hri).1)
      k l x y e1.1 e2.1 hk hl hx hy hline
    subst this
    exact hne (hs1.trans hs2.symm)
  · rintro ⟨i, j, ci, cj, k, l, x, y, tx, ty, -, hi, hj, hri, hrj, hk, hl, hx, hy, ht1, ht2,
      hline, hne⟩ hag
    have hci := List.getElem?_mem hi
    have hcj := List.getElem?_mem hj
    have h1 := (trackEvents_mem f (tx, 0 + pathSum f (ci.take k)) tracks).mpr
      ⟨ci, hci, hri, chainEvents_of f ci 0 k x tx (hvalid ci hci hri) hk hx⟩
    have h2 := (trackEvents_mem f (ty, 0 + pathSum f (cj.take l)) tracks).mpr
      ⟨cj, hcj, hrj, chainEvents_of f cj 0 l y ty (hvalid cj hcj hrj) hl hy⟩
    have := hag _ h1 _ h2 ht1 ht2 hline
    simp only [zero_add] at this
    exact hne this

theorem startOf_withState (f0 : HumdrumFileStructure) (S : Nat → Int) (D : Nat → HumNum)
    (n : Nat) (h : n < f0.lines.length) : startOf (withState f0 S D) n = D n := by
  unfold startOf
  rw [withState_lines_get, List.getElem?_eq_getElem h]
  rfl

theorem unequalSpines_token_lt (k : Nat) (t : HumdrumToken)
    (h : unequalSpines.tokens[k]? = some t) : k < 6 := by
  by_contra hc
  rw [List.getElem?_eq_none (by simp [unequalSpines]; omega)] at h
  cases h

theorem unequalSpines_wellLinked : WellLinked unequalSpines := by
  refine ⟨?_, ?_⟩
  · intro i j t ht hj
    have hi := unequalSpines_token_lt i t ht
    interval_cases i <;> simp [unequalSpines] at ht <;> subst ht <;> simp [kernToken] at hj <;>
      (subst hj; exact ⟨_, rfl, by decide⟩)
  · intro i t ht
    have hi := unequalSpines_token_lt i t ht
    interval_cases i <;> simp [unequalSpines] at ht <;> subst ht <;> decide

theorem unequalSpines_chainTracks : ChainTracks unequalSpines [[0, 2, 4], [1, 3, 5]] 0 := by
  refine ⟨rfl, ?_, ?_, ?_⟩
  · intro c hc
    simp only [List.mem_cons, List.mem_singleton, List.not_mem_nil, or_false] at hc
    rcases hc with rfl | rfl
    · exact ⟨0, [2, 4], _, rfl, rfl⟩
    · exact ⟨1, [3, 5], _, rfl, rfl⟩
  · intro s cs hm _
    simp only [List.mem_cons, List.mem_singleton, List.not_mem_nil, or_false, List.cons.injEq]
      at hm
    rcases hm with ⟨rfl, rfl⟩ | ⟨rfl, rfl⟩
    · refine ⟨⟨⟨_, rfl, rfl⟩, ⟨_, rfl, rfl⟩, trivial⟩, ?_, ?_⟩
      · intro tl h
        cases h
        rfl
      · intro t h
        cases h
        rfl
    · refine ⟨⟨⟨_, rfl, rfl⟩, ⟨_, rfl, rfl⟩, trivial⟩, ?_, ?_⟩
      · intro tl h
        cases h
        rfl
      · intro t h
        cases h
        rfl
  · simp

/-- C23: a freshly parsed file whose tracks are the token lists `tracks`,
every rhythmic track being a chain that never splits and starts on the line
of the start token of track 1, and whose terminators have no positive
duration.  The first loop of `analyzeRhythm`, which propagates the tracks in
order from the sum 0, returns; it fails if and only if two timed tokens
(terminator or non-negative duration) of different rhythmic tracks lie on one
line and have different sums of the positive durations of the tokens before
them in their own track, and then `analyzeRhythm` fails with the same state;
when it succeeds, the line of every timed token of a rhythmic track has that
sum as its start time. -/
theorem chain_tracks_propagation (nn : HumdrumFileStructure → Bool) (f : HumdrumFileStructure)
    (tracks : List (List Nat)) (s1 : Nat) (t1 : HumdrumToken)
    (hw : WellLinked f)
    (hfreshD : ∀ n, startOf f n < 0) (hfreshS : ∀ x, stateOf f x = 0)
    (hterm : ∀ (x : Nat) (t : HumdrumToken), f.tokens[x]? = some t →
      t.isTerminateInterpretation = true → posDur t = 0)
    (h1 : getTrackStart f 1 = some s1) (ht1 : f.tokens[s1]? = some t1)
    (hc : ChainTracks f tracks t1.lineIndex) :
    ∃ b g, analyzeRhythm.first t1.lineIndex (getMaxTrack f) 1 f = some (b, g) ∧
      (b = false ↔ TrackConflict f tracks) ∧
      (b = false → analyzeRhythm nn f = some (false, g)) ∧
      (b = true → ∀ ch ∈ tracks, isRhythmic f ch = true →
        ∀ (k x : Nat) (t : HumdrumToken), ch[k]? = some x → f.tokens[x]? = some t →
          isTimed t = true → startOf g t.lineIndex = pathSum f (ch.take k)) := by
  have hmax : getMaxTrack f = tracks.length := by
    unfold getMaxTrack
    rw [hc.starts, List.length_map]
  have hne : getMaxTrack f ≠ 0 := by
    intro h0
    unfold getMaxTrack at h0
    unfold getTrackStart at h1
    rw [if_neg (by omega), List.getElem?_eq_none (by omega)] at h1
    cases h1
  have hfold := first_fold f hw hterm t1.lineIndex tracks [] (stateOf f) (startOf f)
    (by rw [List.nil_append]; exact hc.starts) hc.valid hc.single hc.disjoint
    (fun _ _ _ x _ => hfreshS x)
  rw [withState_self, List.length_nil, Nat.zero_add, ← hmax] at hfold
  have hnn : ∀ e ∈ [] ++ trackEvents f tracks, (0 : HumNum) ≤ e.2 := by
    intro e he
    rw [List.nil_append] at he
    obtain ⟨ch, _, _, hm⟩ := (trackEvents_mem f e tracks).mp he
    obtain ⟨k, x, _, _, hs⟩ := chainEvents_mem f ch 0 e hm
    rw [hs, zero_add]
    exact pathSum_nonneg f _
  have hrec : Recorded (startOf f) [] :=
    ⟨fun e he => (by cases he), fun n hn => absurd (hfreshD n) (not_lt.mpr hn)⟩
  obtain ⟨hag, hknown⟩ := foldSteps_agree (trackEvents f tracks) [] (startOf f) hrec hnn
    (fun e he => (by cases he))
  rw [List.nil_append] at hag hknown
  have hconf := trackEvents_agree_iff f hw tracks t1.lineIndex hc
  cases hb : (foldSteps (startOf f) (trackEvents f tracks)).1 with
  | true =>
    obtain ⟨S1, hS1⟩ := hfold.1 hb
    refine ⟨true, _, hS1, ⟨fun h => (by cases h), fun hcf => ?_⟩, fun h => (by cases h),
      fun _ ch hch hr k x t hk hx ht => ?_⟩
    · exact absurd (hag.mp hb) (hconf.mpr hcf)
    · rw [startOf_withState f S1 _ _ (hw.line_valid x t hx)]
      have hvalid : ∀ y ∈ ch, ∃ ty, f.tokens[y]? = some ty := by
        intro y hy
        obtain ⟨s, cs, ts, rfl, hts⟩ := hc.valid ch hch
        exact Linked0.valid f hw cs s ts hts (Single.linked0 f cs s (hc.single s cs hch hr).1)
          y hy
      have hm := (trackEvents_mem f (t, 0 + pathSum f (ch.take k)) tracks).mpr
        ⟨ch, hch, hr, chainEvents_of f ch 0 k x t hvalid hk hx⟩
      have := (hknown hb).known _ hm ht
      rw [zero_add] at this
      exact this
  | false =>
    obtain ⟨g, hg⟩ := hfold.2 hb
    refine ⟨false, g, hg, ⟨fun _ => ?_, fun _ => rfl⟩, fun _ => ?_, fun h => (by cases h)⟩
    · apply hconf.mp
      intro ha
      rw [hag.mpr ha] at hb
      cases hb
    · rw [analyzeRhythm_eq nn f hne, h1]
      simp only [Option.some_bind, ht1, hg]
      rfl

/-- In `**kern<TAB>**kern / 4c<TAB>2e / *-<TAB>*-` the two terminators lie on
one line after the sums 1 and 2: the propagation of the two tracks fails. -/
theorem chain_tracks_propagation_witness :
    ∃ g, analyzeRhythm.first 0 (getMaxTrack unequalSpines) 1 unequalSpines = some (false, g) ∧
      TrackConflict unequalSpines [[0, 2, 4], [1, 3, 5]] ∧
      analyzeRhythm (fun _ => true) unequalSpines = some (false, g) := by
  obtain ⟨b, g, h1, h2, h3, -⟩ := chain_tracks_propagation (fun _ => true) unequalSpines
    [[0, 2, 4], [1, 3, 5]] 0 (kernToken 0 (-1) [2] [] false) unequalSpines_wellLinked
    (by
      intro n
      unfold startOf
      by_cases hn : n < 3
      · interval_cases n <;> decide!
      · rw [List.getElem?_eq_none (by simp [unequalSpines]; omega)]
        decide!)
    (by
      intro x
      unfold stateOf
      by_cases hx : x < 6
      · interval_cases x <;> decide
      · rw [List.getElem?_eq_none (by simp [unequalSpines]; omega)])
    (by
      intro x t ht hterm
      have hx := unequalSpines_token_lt x t ht
      interval_cases x <;> simp [unequalSpines] at ht <;> subst ht <;>
        first | (exact absurd hterm (by decide)) | decide!)
    rfl rfl unequalSpines_chainTracks
  have hcf : TrackConflict unequalSpines [[0, 2, 4], [1, 3, 5]] :=
    ⟨0, 1, [0, 2, 4], [1, 3, 5], 2, 2, 4, 5, _, _, by decide, rfl, rfl, rfl, rfl, rfl, rfl,
      rfl, rfl, rfl, rfl, rfl, by decide!⟩
  have hb := h2.mpr hcf
  subst hb
  exact ⟨g, h1, hcf, h3 rfl⟩

theorem sizeToInt_small (n : Nat) (h : n < 2 ^ 31) : sizeToInt n = n := by
  unfold sizeToInt
  have h1 : n % 2 ^ 64 % 2 ^ 32 = n := by omega
  simp only [h1]
  rw [if_pos h]

theorem take_sizeToInt (durs : List HumNum) (h : durs.length < 2 ^ 31) :
    durs.take (sizeToInt durs.length).toNat = durs := by
  rw [sizeToInt_small _ h, Int.toNat_natCast, List.take_length]

/-- Whatever `tpq` returns is positive and is the value stored in the file
it leaves. -/
theorem tpq_result (f : HumdrumFileStructure) (t : Int) (g : HumdrumFileStructure)
    (h : tpq f = some (t, g)) :
    0 < t ∧ g = { f with ticksperquarternote := t } := by
  unfold tpq at h
  by_cases hc : 0 < f.ticksperquarternote
  · rw [if_pos hc] at h
    cases h
    exact ⟨hc, rfl⟩
  · rw [if_neg hc] at h
    obtain ⟨l, hl, h⟩ := Option.map_eq_some'.mp h
    cases h
    refine ⟨?_, rfl⟩
    by_cases hlen : 0 < (tpq.dems f).length
    · rw [if_pos hlen] at hl
      unfold Convert.getLcm at hl
      simp only at hl
      split at hl
      · cases hl
        exact (tpq_dems_lcm f _ rfl).1
      · cases hl
    · rw [if_neg hlen] at hl
      cases hl
      exact one_pos

/-- C31: once the stored ticks-per-quarter value is positive, `tpq` returns
it and leaves the file as it is, whatever the lines are.  After any call that
returns, the stored value is the returned one and is positive, so a second
call returns the same value and changes nothing, and the value is at least 1.
A call returns when a value is stored or when the least common multiple of
the denominators fits an `int` (with the least common multiple in place of
`Convert::getLcm`). -/
theorem tpq_cached (f : HumdrumFileStructure) :
    (0 < f.ticksperquarternote →
      tpq f = some (f.ticksperquarternote, f) ∧
      ∀ L, tpq { f with lines := L } =
        some (f.ticksperquarternote, { f with lines := L })) ∧
    (∀ (t : Int) (g : HumdrumFileStructure), tpq f = some (t, g) →
      0 < g.ticksperquarternote ∧ tpq g = some (t, g) ∧ 1 ≤ t) ∧
    (0 < f.ticksperquarternote ∨ lcmOfDenominators f.lines < 2 ^ 31 →
      ∃ t g, tpq f = some (t, g)) := by
  have hc : ∀ g : HumdrumFileStructure, 0 < g.ticksperquarternote →
      tpq g = some (g.ticksperquarternote, g) := by
    intro g hg
    unfold tpq
    rw [if_pos hg]
  refine ⟨fun h => ⟨hc f h, fun L => hc { f with lines := L } h⟩, ?_, ?_⟩
  · intro t g h
    obtain ⟨hpos, hg⟩ := tpq_result f t g h
    have hst : g.ticksperquarternote = t := by rw [hg]
    refine ⟨by rw [hst]; exact hpos, ?_, hpos⟩
    rw [hc g (by rw [hst]; exact hpos), hst]
  · intro h
    by_cases hpos : 0 < f.ticksperquarternote
    · exact ⟨_, _, hc f hpos⟩
    · rcases h with h | h
      · exact absurd h hpos
      · have h4 := (tpq_dems_lcm f _ rfl).2.2.2.1
        exact ⟨_, _, tpq_eq_lcm f (not_lt.mp hpos) _ rfl (by rw [h4]; exact_mod_cast h)⟩

/-- A file whose line lasts 1/3 and whose stored value is 4: `tpq` returns 4,
not 3, and the file stays as it is; a second call does the same. -/
theorem tpq_cached_witness :
    tpq cachedFile = some (4, cachedFile) ∧
    (∀ (t : Int) (g : HumdrumFileStructure), tpq cachedFile = some (t, g) →
      tpq g = some (t, g) ∧ 1 ≤ t) :=
  ⟨((tpq_cached cachedFile).1 (by decide)).1,
    fun t g h => ⟨((tpq_cached cachedFile).2.1 t g h).2.1,
      ((tpq_cached cachedFile).2.1 t g h).2.2⟩⟩

/-- C32: on a file without tracks `analyzeRhythm` returns true and the file
is the one it was given, whatever the verdict of `analyzeNonNullDataTokens`
would be: lines and barline list are unchanged, start times and durations
that were undefined are still undefined, and `getScoreDuration` afterwards is
0 for a file without lines and otherwise the undefined start time of the last
line (-1 for freshly constructed lines). -/
theorem analyzeRhythm_no_tracks (nn : HumdrumFileStructure → Bool) (f : HumdrumFileStructure)
    (h : getMaxTrack f = 0) :
    ∃ g, analyzeRhythm nn f = some (true, g) ∧ g = f ∧
      g.lines = f.lines ∧ g.barlines = f.barlines ∧
      ((∀ l ∈ f.lines, l.durationFromStart < 0 ∧ l.duration < 0) →
        ∀ l ∈ g.lines, l.durationFromStart < 0 ∧ l.duration < 0) ∧
      (f.lines = [] → getScoreDuration g = 0) ∧
      (f.lines ≠ [] → (∀ l ∈ f.lines, l.durationFromStart < 0) → getScoreDuration g < 0) ∧
      (f.lines ≠ [] → (∀ l ∈ f.lines, l.durationFromStart = -1) →
        getScoreDuration g = -1) := by
  refine ⟨f, ?_, rfl, rfl, rfl, fun hu => hu, ?_, ?_, ?_⟩
  · unfold analyzeRhythm
    rw [if_pos h]
  · intro he
    unfold getScoreDuration
    rw [dif_pos he]
  · intro hne hu
    unfold getScoreDuration
    rw [dif_neg hne]
    exact hu _ (List.getLast_mem hne)
  · intro hne hu
    unfold getScoreDuration
    rw [dif_neg hne]
    exact hu _ (List.getLast_mem hne)

/-- Two global comments: `analyzeRhythm` returns true with the file as it
was, although the verdict of `analyzeNonNullDataTokens` would be false, and
the score duration is still -1. -/
theorem analyzeRhythm_no_tracks_witness :
    analyzeRhythm (fun _ => false) globalComments = some (true, globalComments) ∧
    getScoreDuration globalComments = -1 := by
  obtain ⟨g, h1, h2, -, -, -, -, -, h3⟩ :=
    analyzeRhythm_no_tracks (fun _ => false) globalComments rfl
  subst h2
  refine ⟨h1, h3 (by decide) ?_⟩
  intro l hl
  simp only [globalComments, List.mem_cons, List.mem_singleton, List.not_mem_nil, or_false,
    or_self] at hl
  subst hl
  rfl

theorem cleanDurs_flags (durs : List HumNum) :
    ∀ (zp : Bool × Bool),
      ((durs.foldl (fun (zp : Bool × Bool) d =>
          if 0 < d then (zp.1, true) else if d = 0 then (true, zp.2) else zp) zp).1 = true ↔
        zp.1 = true ∨ (0 : HumNum) ∈ durs) ∧
      ((durs.foldl (fun (zp : Bool × Bool) d =>
          if 0 < d then (zp.1, true) else if d = 0 then (true, zp.2) else zp) zp).2 = true ↔
        zp.2 = true ∨ ∃ d ∈ durs, 0 < d) := by
  induction durs with
  | nil => intro zp; simp
  | cons a rest ih =>
    intro zp
    rw [List.foldl_cons]
    obtain ⟨h1, h2⟩ := ih (if 0 < a then (zp.1, true) else if a = 0 then (true, zp.2) else zp)
    rw [h1, h2]
    by_cases hp : 0 < a
    · have hne : (0 : HumNum) ≠ a := ne_of_lt hp
      simp only [hp, if_true, List.mem_cons, hne, false_or, exists_eq_or_imp, true_or, or_true,
        iff_true, and_true]
    · by_cases hz : a = 0
      · subst hz
        simp only [lt_self_iff_false, if_false, if_true, List.mem_cons, true_or, or_true,
          exists_eq_or_imp, false_or, iff_true, true_and]
      · have hne : (0 : HumNum) ≠ a := fun h => hz h.symm
        simp only [hp, hz, if_false, List.mem_cons, hne, false_or, exists_eq_or_imp]
        exact ⟨trivial, trivial⟩

/-- `cleanDurs` fails exactly on a zero together with a positive value. -/
theorem cleanDurs_iff (durs : List HumNum) (h : durs.length < 2 ^ 31) :
    cleanDurs durs = false ↔ (0 : HumNum) ∈ durs ∧ ∃ d ∈ durs, 0 < d := by
  unfold cleanDurs
  rw [take_sizeToInt durs h]
  obtain ⟨h1, h2⟩ := cleanDurs_flags durs (false, false)
  simp only [Bool.false_eq_true, false_or] at h1 h2
  simp only [← h1, ← h2]
  cases (durs.foldl (fun (zp : Bool × Bool) d =>
      if 0 < d then (zp.1, true) else if d = 0 then (true, zp.2) else zp) (false, false)).1 <;>
    cases (durs.foldl (fun (zp : Bool × Bool) d =>
      if 0 < d then (zp.1, true) else if d = 0 then (true, zp.2) else zp) (false, false)).2 <;>
    simp

/-- C33: for a line of the file with fewer than 2^31 tokens (the token count
is an `int`), `getTokenDurations` fails exactly when the durations of the
tokens of the line contain a zero and a positive value; in every case `durs`
is the list of the durations of the tokens of the line in their order,
undefined (negative) ones included. -/
theorem getTokenDurations_spec (f : HumdrumFileStructure) (line : Nat)
    (_hline : line < f.lines.length)
    (hcount : (f.tokens.filter (fun t => t.lineIndex = line)).length < 2 ^ 31) :
    ((getTokenDurations f line).1 = false ↔
      (∃ d ∈ (getTokenDurations f line).2, d = 0) ∧
      (∃ d ∈ (getTokenDurations f line).2, 0 < d)) ∧
    (getTokenDurations f line).2 =
      (f.tokens.filter (fun t => t.lineIndex = line)).map (fun t => t.duration) ∧
    (∀ i : Nat, (getTokenDurations f line).2[i]? =
      ((f.tokens.filter (fun t => t.lineIndex = line))[i]?).map
        (fun t : HumdrumToken => t.duration)) := by
  have hlen : ((f.tokens.filter (fun t => t.lineIndex = line)).map
      (fun t => t.duration)).length < 2 ^ 31 := by
    rw [List.length_map]
    exact hcount
  refine ⟨?_, rfl, fun i => ?_⟩
  · unfold getTokenDurations
    simp only
    rw [cleanDurs_iff _ hlen]
    constructor
    · rintro ⟨h1, h2⟩
      exact ⟨⟨0, h1, rfl⟩, h2⟩
    · rintro ⟨⟨d, h1, rfl⟩, h2⟩
      exact ⟨h1, h2⟩
  · unfold getTokenDurations
    simp only [List.getElem?_map]

/-- In `**kern<TAB>**kern / 4c<TAB>qc / .<TAB>4d / 4e<TAB>4f / *-<TAB>*-` the
line 1 holds a quarter note and a grace note: `getTokenDurations` fails and
`durs` is 1, 0.  On line 2 it succeeds and `durs` keeps the undefined
duration of the null token. -/
theorem getTokenDurations_spec_witness :
    (getTokenDurations graceFile 1).1 = false ∧
    (getTokenDurations graceFile 1).2 = [1, 0] ∧
    (getTokenDurations graceFile 2).2 = [-1, 1] ∧
    ¬ (getTokenDurations graceFile 2).1 = false := by
  obtain ⟨h1, h2, -⟩ := getTokenDurations_spec graceFile 1 (by decide) (by decide)
  obtain ⟨h3, h4, -⟩ := getTokenDurations_spec graceFile 2 (by decide) (by decide)
  have e1 : (getTokenDurations graceFile 1).2 = [1, 0] := by rw [h2]; decide!
  have e2 : (getTokenDurations graceFile 2).2 = [-1, 1] := by rw [h4]; decide!
  refine ⟨h1.mpr ?_, e1, e2, fun hc => ?_⟩
  · rw [e1]
    exact ⟨⟨0, by simp, rfl⟩, ⟨1, by simp, one_pos⟩⟩
  · obtain ⟨⟨d, hd, rfl⟩, -⟩ := h3.mp hc
    rw [e2] at hd
    simp at hd

theorem getMinDur.first_invariant (rest : List HumNum) :
    ∀ (seen : List HumNum) (s : HumNum × Bool), MinSoFar seen s →
      MinSoFar (seen ++ rest) (rest.foldl
        (fun (s : HumNum × Bool) d =>
          if 0 < d then (if s.1 = 0 then d else if d < s.1 then d else s.1, false) else s) s) := by
  induction rest with
  | nil => intro seen s h; simpa using h
  | cons a rest ih =>
    intro seen s h
    rw [List.foldl_cons]
    have := ih (seen ++ [a])
      (if 0 < a then (if s.1 = 0 then a else if a < s.1 then a else s.1, false) else s) (by
        obtain ⟨h1, h2⟩ := h
        by_cases ha : 0 < a
        · rw [if_pos ha]
          refine ⟨fun hc => (by cases hc), fun _ => ?_⟩
          cases hs : s.2 with
          | true =>
            obtain ⟨h0, hnone⟩ := h1 hs
            simp only [h0, if_true]
            refine ⟨ha, by simp, ?_⟩
            intro d hd hdp
            rcases List.mem_append.mp hd with hd | hd
            · exact absurd hdp (hnone d hd)
            · simp only [List.mem_singleton] at hd
              rw [hd]
          | false =>
            obtain ⟨hpos, hmem, hmin⟩ := h2 hs
            simp only [ne_of_gt hpos, if_false]
            by_cases hlt : a < s.1
            · simp only [hlt, if_true]
              refine ⟨ha, by simp, ?_⟩
              intro d hd hdp
              rcases List.mem_append.mp hd with hd | hd
              · exact le_trans (le_of_lt hlt) (hmin d hd hdp)
              · simp only [List.mem_singleton] at hd
                rw [hd]
            · simp only [hlt, if_false]
              refine ⟨hpos, List.mem_append_left _ hmem, ?_⟩
              intro d hd hdp
              rcases List.mem_append.mp hd with hd | hd
              · exact hmin d hd hdp
              · simp only [List.mem_singleton] at hd
                rw [hd]
                exact not_lt.mp hlt
        · rw [if_neg ha]
          refine ⟨fun hs => ?_, fun hs => ?_⟩
          · obtain ⟨h0, hnone⟩ := h1 hs
            refine ⟨h0, ?_⟩
            intro d hd
            rcases List.mem_append.mp hd with hd | hd
            · exact hnone d hd
            · simp only [List.mem_singleton] at hd
              rw [hd]
              exact ha
          · obtain ⟨hpos, hmem, hmin⟩ := h2 hs
            refine ⟨hpos, List.mem_append_left _ hmem, ?_⟩
            intro d hd hdp
            rcases List.mem_append.mp hd with hd | hd
            · exact hmin d hd hdp
            · simp only [List.mem_singleton] at hd
              rw [hd] at hdp
              exact absurd hdp ha)
    rw [List.append_assoc] at this
    exact this

theorem getMinDur.first_spec (durs : List HumNum) (h : durs.length < 2 ^ 31) :
    MinSoFar durs (getMinDur.first durs) := by
  unfold getMinDur.first
  rw [take_sizeToInt durs h]
  have := getMinDur.first_invariant durs [] (0, true)
    ⟨fun _ => ⟨rfl, fun d hd => (by cases hd)⟩, fun hc => (by cases hc)⟩
  rw [List.nil_append] at this
  exact this

/-- The second loop of `getMinDur` entered with a value of `mindur` other
than 0 changes nothing, provided `durstate` is long enough for its reads. -/
theorem getMinDur.second_keeps (durstate : List HumNum) (mindur : HumNum) (hm : mindur ≠ 0) :
    ∀ (n i : Nat), i + n ≤ durstate.length →
      getMinDur.second durstate n i mindur = some mindur := by
  intro n
  induction n with
  | zero => intro i _; rfl
  | succ n ih =>
    intro i hi
    have hlt : i < durstate.length := by omega
    rw [getMinDur.second, List.getElem?_eq_getElem hlt]
    simp only [Option.bind_eq_bind, Option.some_bind, hm, and_false, if_false]
    exact ih (i + 1) (by omega)

/-- C34, counterexample: for `durs` holding the one value 1 and an empty
`durstate` the second loop reads `durstate[0]`, outside the vector, and the
call has no defined result, while a `durstate` with one entry gives 1. -/
theorem getMinDur_reads_outside_durstate :
    getMinDur [1] [] = none ∧ getMinDur [1] [5] = some 1 := by
  constructor <;> decide!

/-- C34, amended: for `durs` with fewer than 2^31 entries, and a `durstate`
with at least as many entries as `durs` or a `durs` without positive value,
`getMinDur` returns the smallest positive value of `durs`, or 0 when there is
none; every such `durstate` gives the same result. -/
theorem getMinDur_spec (durs durstate : List HumNum) (hsz : durs.length < 2 ^ 31)
    (hlen : durs.length ≤ durstate.length ∨ ∀ d ∈ durs, ¬ 0 < d) :
    ∃ r, getMinDur durs durstate = some r ∧
      ((∀ d ∈ durs, ¬ 0 < d) → r = 0) ∧
      ((∃ d ∈ durs, 0 < d) → 0 < r ∧ r ∈ durs ∧ ∀ d ∈ durs, 0 < d → r ≤ d) ∧
      (∀ other : List HumNum, (durs.length ≤ other.length ∨ ∀ d ∈ durs, ¬ 0 < d) →
        getMinDur durs other = some r) := by
  obtain ⟨h1, h2⟩ := getMinDur.first_spec durs hsz
  have hval : ∀ ds : List HumNum, (durs.length ≤ ds.length ∨ ∀ d ∈ durs, ¬ 0 < d) →
      getMinDur durs ds = some (getMinDur.first durs).1 := by
    intro ds hds
    unfold getMinDur
    simp only
    cases hs : (getMinDur.first durs).2 with
    | true => simp
    | false =>
      obtain ⟨hpos, hmem, -⟩ := h2 hs
      simp only [Bool.false_eq_true, if_false]
      rw [sizeToInt_small _ hsz, Int.toNat_natCast]
      rcases hds with hds | hds
      · exact getMinDur.second_keeps ds _ (ne_of_gt hpos) _ 0 (by omega)
      · exact absurd hpos (hds _ hmem)
  refine ⟨(getMinDur.first durs).1, hval durstate hlen, ?_, ?_, hval⟩
  · intro hnone
    cases hs : (getMinDur.first durs).2 with
    | true => exact (h1 hs).1
    | false =>
      obtain ⟨hpos, hmem, -⟩ := h2 hs
      exact absurd hpos (hnone _ hmem)
  · rintro ⟨d, hd, hdp⟩
    cases hs : (getMinDur.first durs).2 with
    | true => exact absurd hdp ((h1 hs).2 d hd)
    | false => exact h2 hs

/-- The durations 2, 0, 1/2, undefined and 1 have the smallest positive value
1/2, with any five states; durations without a positive value give 0 also
with no state at all. -/
theorem getMinDur_spec_witness :
    getMinDur [2, 0, 1 / 2, -1, 1] [0, 0, 0, 0, 0] = some (1 / 2) ∧
    getMinDur [2, 0, 1 / 2, -1, 1] [3, 1, 4, 1, 5] = some (1 / 2) ∧
    getMinDur [0, -1] [] = some 0 := by
  obtain ⟨r, h1, -, h3, h4⟩ := getMinDur_spec [2, 0, 1 / 2, -1, 1] [0, 0, 0, 0, 0] (by decide)
    (Or.inl (by decide))
  obtain ⟨r0, g1, g2, -, -⟩ := getMinDur_spec [0, -1] [] (by decide)
    (Or.inr (by
      intro d hd
      simp only [List.mem_cons, List.mem_singleton, List.not_mem_nil, or_false] at hd
      rcases hd with rfl | rfl <;> norm_num))
  have hr : r = 1 / 2 := by
    obtain ⟨hpos, hmem, hmin⟩ := h3 ⟨2, by simp, by norm_num⟩
    have hle := hmin (1 / 2) (by simp) (by norm_num)
    simp only [List.mem_cons, List.mem_singleton, List.not_mem_nil, or_false] at hmem
    rcases hmem with rfl | rfl | rfl | rfl | rfl
    · norm_num at hle
    · norm_num at hpos
    · rfl
    · norm_num at hpos
    · norm_num at hle
  have hr0 : r0 = 0 := g2 (by
    intro d hd
    simp only [List.mem_cons, List.mem_singleton, List.not_mem_nil, or_false] at hd
    rcases hd with rfl | rfl <;> norm_num)
  subst hr
  subst hr0
  exact ⟨h1, h4 [3, 1, 4, 1, 5] (Or.inl (by decide)), g1⟩

theorem undefinedNote_token_cases (k : Nat) (t : HumdrumToken)
    (h : undefinedNote.tokens[k]? = some t) :
    (k = 0 ∧ t = kernToken 0 (-1) [1] [] false) ∨ (k = 1 ∧ t = kernToken 1 1 [2] [0] false) ∨
      (k = 2 ∧ t = kernToken 2 (-1) [3] [1] false) ∨
      (k = 3 ∧ t = kernToken 3 (-1) [] [2] true) := by
  have hk : k < 4 := by
    by_contra hc
    rw [List.getElem?_eq_none (by simp [undefinedNote]; omega)] at h
    cases h
  interval_cases k <;> simp [undefinedNote] at h <;> simp [h]

theorem undefinedNote_line_cases (n : Nat) (l : HumdrumLine)
    (h : undefinedNote.lines[n]? = some l) :
    (n = 0 ∧ l = freshLine true false false false) ∨
      (n = 1 ∧ l = freshLine true false true false) ∨
      (n = 2 ∧ l = freshLine true false true false) ∨
      (n = 3 ∧ l = freshLine true false false false) := by
  have hk : n < 4 := by
    by_contra hc
    rw [List.getElem?_eq_none (by simp [undefinedNote]; omega)] at h
    cases h
  interval_cases n <;> simp [undefinedNote] at h <;> simp [h]

theorem undefinedNote_singleSpine : SingleSpine undefinedNote := by
  refine ⟨⟨?_, ?_⟩, ⟨?_, ?_, ?_⟩, ?_, rfl, by simp [undefinedNote], ?_, ?_, ?_⟩
  · intro i j t ht hj
    rcases undefinedNote_token_cases i t ht with
      ⟨rfl, rfl⟩ | ⟨rfl, rfl⟩ | ⟨rfl, rfl⟩ | ⟨rfl, rfl⟩ <;>
      simp [kernToken] at hj <;> subst hj <;> exact ⟨_, rfl, by decide⟩
  · intro i t ht
    rcases undefinedNote_token_cases i t ht with
      ⟨rfl, rfl⟩ | ⟨rfl, rfl⟩ | ⟨rfl, rfl⟩ | ⟨rfl, rfl⟩ <;> decide
  · intro x t ht hterm
    rcases undefinedNote_token_cases x t ht with
      ⟨rfl, rfl⟩ | ⟨rfl, rfl⟩ | ⟨rfl, rfl⟩ | ⟨rfl, rfl⟩ <;>
      first | (exact absurd hterm (by decide)) | decide!
  · intro x t l ht _ hl
    rcases undefinedNote_token_cases x t ht with
      ⟨rfl, rfl⟩ | ⟨rfl, rfl⟩ | ⟨rfl, rfl⟩ | ⟨rfl, rfl⟩ <;>
      rcases undefinedNote_line_cases _ l hl with
        ⟨_, rfl⟩ | ⟨_, rfl⟩ | ⟨_, rfl⟩ | ⟨_, rfl⟩ <;> decide
  · decide
  · intro k t ht
    rcases undefinedNote_token_cases k t ht with
      ⟨rfl, rfl⟩ | ⟨rfl, rfl⟩ | ⟨rfl, rfl⟩ | ⟨rfl, rfl⟩ <;> decide
  · intro t ht
    rcases undefinedNote_token_cases 0 t ht with ⟨_, rfl⟩ | ⟨h, _⟩ | ⟨h, _⟩ | ⟨h, _⟩
    · rfl
    all_goals exact absurd h (by decide)
  · intro x t ht
    rcases undefinedNote_token_cases x t ht with
      ⟨rfl, rfl⟩ | ⟨rfl, rfl⟩ | ⟨rfl, rfl⟩ | ⟨rfl, rfl⟩ <;> decide
  · intro n l hl
    rcases undefinedNote_line_cases n l hl with
      ⟨rfl, rfl⟩ | ⟨rfl, rfl⟩ | ⟨rfl, rfl⟩ | ⟨rfl, rfl⟩ <;> decide!

theorem undefinedNote_not_dataTimed : ¬ DataTimed undefinedNote := by
  intro h
  obtain ⟨x, t, hx, hxl, hxt⟩ := h 2 (freshLine true false true false) rfl rfl rfl rfl
  rcases undefinedNote_token_cases x t hx with
    ⟨rfl, rfl⟩ | ⟨rfl, rfl⟩ | ⟨rfl, rfl⟩ | ⟨rfl, rfl⟩
  · exact absurd hxl (by decide)
  · exact absurd hxl (by decide)
  · exact absurd hxt (by decide!)
  · exact absurd hxl (by decide)

/-- C2, counterexample: `**kern / 4c / c / *-`, where the data token of line
2 is not null and has no defined duration, is a freshly parsed file
consisting of a single rhythmic spine that never splits.  The propagation
gives the lines of `4c` and of the terminator the start times 0 and 1, the
line 2 keeps the undefined start time, and `analyzeRhythm` returns false
(unexpected negative duration). -/
theorem single_spine_undefined_duration :
    SingleSpine undefinedNote ∧ ¬ DataTimed undefinedNote ∧
    (analyzeRhythm (fun _ => true) undefinedNote).map
        (fun r => (r.1, r.2.lines.map (fun l => l.durationFromStart))) =
      some (false, [-1, 0, -1, 1]) :=
  ⟨undefinedNote_singleSpine, undefinedNote_not_dataTimed, by decide!⟩

theorem prepareDurations.primary_frame
    (R : HumdrumFileStructure → HumdrumFileStructure → Prop) (hR : FrameRel R) (state : Int) :
    ∀ (fuel : Nat) (f : HumdrumFileStructure) (token : Nat) (dursum : HumNum) (w : Walk),
      prepareDurations.primary state fuel f token dursum = some w →
      R f (match w with
        | Walk.ret _ g => g
        | Walk.fall g _ _ => g) := by
  intro fuel
  induction fuel with
  | zero => intro f token dursum w h; cases h
  | succ fuel ih =>
    intro f token dursum w h
    unfold prepareDurations.primary at h
    simp only [Option.bind_eq_bind, Option.bind_eq_some] at h
    obtain ⟨t, _, h⟩ := h
    split at h
    · simp only [Option.bind_eq_some] at h
      obtain ⟨token1, _, t1, _, h⟩ := h
      split at h
      · cases h; exact hR.rel_refl f
      · simp only [Option.bind_eq_some] at h
        obtain ⟨r, hr, h⟩ := h
        have e := hR.rel_trans _ _ _ (hR.rel_inc f token1) (hR.rel_set _ _ _ _ hr)
        split at h
        · cases h; exact e
        · exact hR.rel_trans _ _ _ e (ih _ _ _ _ h)
    · cases h; exact hR.rel_refl f

theorem prepareDurations.branches_frame
    (R : HumdrumFileStructure → HumdrumFileStructure → Prop) (hR : FrameRel R)
    (recurse : HumdrumFileStructure → Nat → HumNum → Option (Bool × HumdrumFileStructure))
    (hrec : ∀ g x d r, recurse g x d = some r → R g r.2) :
    ∀ (xs : List Nat) (f : HumdrumFileStructure) (dursum : HumNum)
      (r : Bool × HumdrumFileStructure),
      prepareDurations.branches recurse f xs dursum = some r → R f r.2 := by
  intro xs
  induction xs with
  | nil => intro f dursum r h; cases h; exact hR.rel_refl f
  | cons x rest ih =>
    intro f dursum r h
    unfold prepareDurations.branches at h
    simp only [Option.bind_eq_bind, Option.bind_eq_some] at h
    obtain ⟨r1, hr1, h⟩ := h
    have e := hrec _ _ _ _ hr1
    split at h
    · cases h; exact e
    · exact hR.rel_trans _ _ _ e (ih _ _ _ h)

theorem prepareDurations.secondary_frame
    (R : HumdrumFileStructure → HumdrumFileStructure → Prop) (hR : FrameRel R)
    (recurse : HumdrumFileStructure → Nat → HumNum → Option (Bool × HumdrumFileStructure))
    (hrec : ∀ g x d r, recurse g x d = some r → R g r.2)
    (newstate : Int) :
    ∀ (fuel : Nat) (f : HumdrumFileStructure) (token : Nat) (dursum : HumNum)
      (r : Bool × HumdrumFileStructure),
      prepareDurations.secondary recurse newstate fuel f token dursum = some r → R f r.2 := by
  intro fuel
  induction fuel with
  | zero => intro f token dursum r h; cases h
  | succ fuel ih =>
    intro f token dursum r h
    unfold prepareDurations.secondary at h
    simp only [Option.bind_eq_bind, Option.bind_eq_some] at h
    obtain ⟨t, _, h⟩ := h
    split at h
    · simp only [Option.bind_eq_some] at h
      obtain ⟨r1, hr1, h⟩ := h
      have e := prepareDurations.branches_frame R hR recurse hrec _ _ _ _ hr1
      split at h
      · cases h; exact e
      · simp only [Option.bind_eq_some] at h
        obtain ⟨token1, _, t1, _, h⟩ := h
        split at h
        · cases h; exact e
        · exact hR.rel_trans _ _ _ e (ih _ _ _ _ h)
    · cases h; exact hR.rel_refl f

theorem prepareDurations_frame
    (R : HumdrumFileStructure → HumdrumFileStructure → Prop) (hR : FrameRel R) :
    ∀ (fuel : Nat) (f : HumdrumFileStructure) (token : Nat) (state : Int) (startdur : HumNum)
      (r : Bool × HumdrumFileStructure),
      prepareDurations fuel f token state startdur = some r → R f r.2 := by
  intro fuel
  induction fuel with
  | zero => intro f token state startdur r h; cases h
  | succ fuel ih =>
    intro f token state startdur r h
    unfold prepareDurations at h
    simp only [Option.bind_eq_bind, Option.bind_eq_some] at h
    obtain ⟨t, _, h⟩ := h
    split at h
    · cases h; exact hR.rel_refl f
    · simp only [Option.bind_eq_some] at h
      obtain ⟨r1, hr1, h⟩ := h
      have e1 := hR.rel_trans _ _ _ (hR.rel_inc f token) (hR.rel_set _ _ _ _ hr1)
      split at h
      · cases h; exact e1
      · simp only [Option.bind_eq_some] at h
        obtain ⟨w, hw, h⟩ := h
        have e2 := prepareDurations.primary_frame R hR _ _ _ _ _ _ hw
        cases w with
        | ret b f2 =>
          cases h
          exact hR.rel_trans _ _ _ e1 e2
        | fall f2 last dursum2 =>
          simp only [Option.bind_eq_some] at h
          obtain ⟨tl, _, h⟩ := h
          have hk : ∀ r3 : Bool × HumdrumFileStructure, R f2 r3.2 →
              (if (!r3.1) = true then (pure (false, r3.2) : Option _)
                else prepareDurations.secondary
                  (fun g x d => prepareDurations fuel g x state d) (state + 1) fuel r3.2 token
                  (if 0 < t.duration then startdur + t.duration else startdur)) = some r →
              R f2 r.2 := by
            intro r3 e3 h3
            split at h3
            · cases h3; exact e3
            · exact hR.rel_trans _ _ _ e3 (prepareDurations.secondary_frame R hR _
                (fun g x d r hr => ih g x state d r hr) _ _ _ _ _ _ h3)
          have e : R f2 r.2 := by
            split at h
            · simp only [Option.bind_eq_some] at h
              obtain ⟨r3, hr3, h⟩ := h
              exact hk r3 (hR.rel_set _ _ _ _ hr3) h
            · exact hk (true, f2) (hR.rel_refl f2) h
          exact hR.rel_trans _ _ _ (hR.rel_trans _ _ _ e1 e2) e

theorem assignDurationsToTrack_frame
    (R : HumdrumFileStructure → HumdrumFileStructure → Prop) (hR : FrameRel R)
    (f : HumdrumFileStructure) (starttoken : Nat)
    (startdur : HumNum) (r : Bool × HumdrumFileStructure)
    (h : assignDurationsToTrack f starttoken startdur = some r) : R f r.2 := by
  unfold assignDurationsToTrack at h
  simp only [Option.bind_eq_bind, Option.bind_eq_some] at h
  obtain ⟨t, _, h⟩ := h
  split at h
  · cases h; exact hR.rel_refl f
  · exact prepareDurations_frame R hR _ _ _ _ _ _ h

theorem analyzeRhythmOfFloatingSpine_frame
    (R : HumdrumFileStructure → HumdrumFileStructure → Prop) (hR : FrameRel R)
    (f : HumdrumFileStructure) (spinestart : Nat)
    (r : Bool × HumdrumFileStructure)
    (h : analyzeRhythmOfFloatingSpine f spinestart = some r) : R f r.2 := by
  unfold analyzeRhythmOfFloatingSpine at h
  simp only [Option.bind_eq_bind, Option.bind_eq_some] at h
  obtain ⟨t, _, l, _, h⟩ := h
  have hk : ∀ y : HumNum × HumNum,
      (if y.1 = 0 then (pure (false, f) : Option _)
        else assignDurationsToTrack f spinestart (y.1 - y.2)) = some r → R f r.2 := by
    intro y hy
    split at hy
    · cases hy; exact hR.rel_refl f
    · exact assignDurationsToTrack_frame R hR _ _ _ _ hy
  split at h
  · exact hk (l.durationFromStart, 0) h
  · split at h
    · simp only [Option.bind_eq_some] at h
      obtain ⟨y, _, h⟩ := h
      exact hk y h
    · exact hk (0, 0) h

theorem analyzeRhythm.first_frame
    (R : HumdrumFileStructure → HumdrumFileStructure → Prop) (hR : FrameRel R)
    (startline : Nat) :
    ∀ (n i : Nat) (f : HumdrumFileStructure) (r : Bool × HumdrumFileStructure),
      analyzeRhythm.first startline n i f = some r → R f r.2 := by
  intro n
  induction n with
  | zero => intro i f r h; cases h; exact hR.rel_refl f
  | succ n ih =>
    intro i f r h
    unfold analyzeRhythm.first at h
    simp only [Option.bind_eq_bind, Option.bind_eq_some] at h
    obtain ⟨start, _, t, _, h⟩ := h
    split at h
    · exact ih _ _ _ h
    · split at h
      · simp only [Option.bind_eq_some] at h
        obtain ⟨r1, hr1, h⟩ := h
        have e := assignDurationsToTrack_frame R hR _ _ _ _ hr1
        split at h
        · cases h; exact e
        · exact hR.rel_trans _ _ _ e (ih _ _ _ h)
      · exact ih _ _ _ h

theorem analyzeRhythm.second_frame
    (R : HumdrumFileStructure → HumdrumFileStructure → Prop) (hR : FrameRel R)
    (startline : Nat) :
    ∀ (n i : Nat) (f : HumdrumFileStructure) (r : Bool × HumdrumFileStructure),
      analyzeRhythm.second startline n i f = some r → R f r.2 := by
  intro n
  induction n with
  | zero => intro i f r h; cases h; exact hR.rel_refl f
  | succ n ih =>
    intro i f r h
    unfold analyzeRhythm.second at h
    simp only [Option.bind_eq_bind, Option.bind_eq_some] at h
    obtain ⟨start, _, t, _, h⟩ := h
    split at h
    · exact ih _ _ _ h
    · split at h
      · simp only [Option.bind_eq_some] at h
        obtain ⟨r1, hr1, h⟩ := h
        have e := analyzeRhythmOfFloatingSpine_frame R hR _ _ _ hr1
        split at h
        · cases h; exact e
        · exact hR.rel_trans _ _ _ e (ih _ _ _ h)
      · exact ih _ _ _ h

theorem Propagated.prop_refl (f : HumdrumFileStructure) : Propagated f f :=
  ⟨rfl, rfl, fun _ l hl => ⟨l.durationFromStart, hl, fun _ => rfl⟩⟩

theorem Propagated.prop_trans (f g h : HumdrumFileStructure) (h1 : Propagated f g)
    (h2 : Propagated g h) : Propagated f h := by
  refine ⟨h2.timed.trans h1.timed, h2.length.trans h1.length, ?_⟩
  intro m l hl
  obtain ⟨v1, hv1, hk1⟩ := h1.line m l hl
  obtain ⟨v2, hv2, hk2⟩ := h2.line m _ hv1
  refine ⟨v2, hv2, ?_⟩
  intro hm
  rw [hk2 (by rw [h1.timed]; exact hm)]
  exact hk1 hm

theorem Propagated.of_incrementState (f : HumdrumFileStructure) (tok : Nat) :
    Propagated f (incrementState f tok) := by
  unfold incrementState
  cases ht : f.tokens[tok]? with
  | none => exact Propagated.prop_refl f
  | some t =>
    refine ⟨?_, rfl, fun _ l hl => ⟨l.durationFromStart, hl, fun _ => rfl⟩⟩
    simp only
    apply List.ext_getElem?
    intro x
    simp only [List.getElem?_map, List.getElem?_set]
    by_cases hx : tok = x
    · subst hx
      rw [if_pos rfl]
      have hlt : tok < f.tokens.length := by
        by_contra hc
        rw [List.getElem?_eq_none (by omega)] at ht
        cases ht
      rw [if_pos hlt, ht]
      rfl
    · rw [if_neg hx]

theorem Propagated.of_setLineDurationFromStart (f : HumdrumFileStructure) (token : Nat)
    (d : HumNum) (r : Bool × HumdrumFileStructure)
    (h : setLineDurationFromStart f token d = some r) : Propagated f r.2 := by
  unfold setLineDurationFromStart at h
  simp only [Option.bind_eq_bind, Option.bind_eq_some] at h
  obtain ⟨t, ht, h⟩ := h
  split at h
  · cases h; exact Propagated.prop_refl f
  · rename_i hu
    simp only [Option.bind_eq_some] at h
    obtain ⟨line, hline, h⟩ := h
    split at h
    · cases h
      have htimed : isTimed t = true := by
        unfold isTimed
        cases hterm : t.isTerminateInterpretation
        · simp only [hterm, Bool.not_false, Bool.true_and, decide_eq_true_eq, not_lt] at hu
          simp [hu]
        · rfl
      have hmem : (t.lineIndex, true) ∈ f.tokens.map (fun t => (t.lineIndex, isTimed t)) := by
        rw [List.mem_map]
        exact ⟨t, List.getElem?_mem ht, by rw [htimed]⟩
      have hlt : t.lineIndex < f.lines.length := by
        by_contra hc
        rw [List.getElem?_eq_none (by omega)] at hline
        cases hline
      refine ⟨rfl, ?_, ?_⟩
      · simp [setDurationFromStart, hline]
      · intro m l hl
        simp only [setDurationFromStart, hline]
        by_cases hm : t.lineIndex = m
        · subst hm
          rw [hline] at hl
          cases hl
          refine ⟨d, by simp [hlt], fun hn => absurd hmem hn⟩
        · exact ⟨l.durationFromStart, by rw [List.getElem?_set_ne hm]; exact hl, fun _ => rfl⟩
    · split at h <;> (cases h; exact Propagated.prop_refl f)

theorem propagated_frameRel : FrameRel Propagated :=
  ⟨Propagated.prop_refl, Propagated.prop_trans, Propagated.of_incrementState,
    Propagated.of_setLineDurationFromStart⟩

/-- The backward loop of `fillInNegativeStartTimes` at a line without start
time and the line after it: both get the same start time, or both stay
without one. -/
theorem fill_backward_adjacent :
    ∀ (L : List HumdrumLine) (k : Nat) (l l1 : HumdrumLine), L[k]? = some l →
      L[k + 1]? = some l1 → l.durationFromStart < 0 →
      ∃ r r1, (fillInNegativeStartTimes.backward L).1[k]? = some r ∧
        (fillInNegativeStartTimes.backward L).1[k + 1]? = some r1 ∧
        (r.durationFromStart = r1.durationFromStart ∨
          (r.durationFromStart < 0 ∧ r1.durationFromStart < 0)) := by
  intro L
  induction L with
  | nil => intro k l l1 h; simp at h
  | cons a rest ih =>
    intro k l l1 hl hl1 hneg
    cases k with
    | succ k =>
      simp only [List.getElem?_cons_succ] at hl hl1
      obtain ⟨r, r1, h1, h2, h3⟩ := ih k l l1 hl hl1 hneg
      exact ⟨r, r1, by simpa [fillInNegativeStartTimes.backward] using h1,
        by simpa [fillInNegativeStartTimes.backward] using h2, h3⟩
    | zero =>
      simp only [List.getElem?_cons_zero, Option.some.injEq] at hl
      subst hl
      cases rest with
      | nil => simp at hl1
      | cons b rest2 =>
        simp only [Nat.zero_add, List.getElem?_cons_succ, List.getElem?_cons_zero,
          Option.some.injEq] at hl1
        subst hl1
        simp only [fillInNegativeStartTimes.backward, List.getElem?_cons_zero,
          List.getElem?_cons_succ, Nat.zero_add, Option.some.injEq, exists_and_left,
          exists_eq_left']
        by_cases hb : 0 ≤ b.durationFromStart
        · left
          simp [hb, hneg, not_lt.mpr hb]
        · have hb' : b.durationFromStart < 0 := not_le.mp hb
          by_cases hr : 0 ≤ (fillInNegativeStartTimes.backward rest2).2
          · left
            simp [hb, hb', hneg, hr]
          · right
            simp [hb, hb', hneg, hr]

/-- The forward loop of `fillInNegativeStartTimes` at two successive lines
that have the same start time or both none: they get the same start time. -/
theorem fill_forward_adjacent :
    ∀ (R : List HumdrumLine) (v : HumNum) (k : Nat) (r r1 : HumdrumLine), R[k]? = some r →
      R[k + 1]? = some r1 →
      (r.durationFromStart = r1.durationFromStart ∨
        (r.durationFromStart < 0 ∧ r1.durationFromStart < 0)) →
      ∃ w w1, (fillInNegativeStartTimes.forward v R)[k]? = some w ∧
        (fillInNegativeStartTimes.forward v R)[k + 1]? = some w1 ∧
        w.durationFromStart = w1.durationFromStart := by
  intro R
  induction R with
  | nil => intro v k r r1 h; simp at h
  | cons a rest ih =>
    intro v k r r1 hr hr1 hcase
    cases k with
    | succ k =>
      simp only [List.getElem?_cons_succ] at hr hr1
      unfold fillInNegativeStartTimes.forward
      simp only
      split
      · obtain ⟨w, w1, h1, h2, h3⟩ := ih a.durationFromStart k r r1 hr hr1 hcase
        exact ⟨w, w1, by simpa using h1, by simpa using h2, h3⟩
      · obtain ⟨w, w1, h1, h2, h3⟩ := ih v k r r1 hr hr1 hcase
        exact ⟨w, w1, by simpa using h1, by simpa using h2, h3⟩
    | zero =>
      simp only [List.getElem?_cons_zero, Option.some.injEq] at hr
      subst hr
      cases rest with
      | nil => simp at hr1
      | cons b rest2 =>
        simp only [Nat.zero_add, List.getElem?_cons_succ, List.getElem?_cons_zero,
          Option.some.injEq] at hr1
        subst hr1
        by_cases ha : 0 ≤ a.durationFromStart
        · have hab : a.durationFromStart = b.durationFromStart := by
            rcases hcase with h | ⟨h, _⟩
            · exact h
            · exact absurd ha (not_le.mpr h)
          have hb : 0 ≤ b.durationFromStart := by rw [← hab]; exact ha
          simp [fillInNegativeStartTimes.forward, ha, hb, hab]
        · have hb : ¬ 0 ≤ b.durationFromStart := by
            rcases hcase with h | ⟨_, h⟩
            · rw [← h]; exact ha
            · exact not_le.mpr h
          simp [fillInNegativeStartTimes.forward, ha, hb]

/-- A line without start time and the line after it start together after
`fillInNegativeStartTimes`. -/
theorem fill_adjacent (f : HumdrumFileStructure) (k : Nat) (l l1 : HumdrumLine)
    (hl : f.lines[k]? = some l) (hl1 : f.lines[k + 1]? = some l1)
    (hneg : l.durationFromStart < 0) :
    ∃ w w1, (fillInNegativeStartTimes f).lines[k]? = some w ∧
      (fillInNegativeStartTimes f).lines[k + 1]? = some w1 ∧
      w.durationFromStart = w1.durationFromStart := by
  obtain ⟨r, r1, h1, h2, h3⟩ := fill_backward_adjacent f.lines k l l1 hl hl1 hneg
  exact fill_forward_adjacent _ _ k r r1 h1 h2 h3

/-- `fillInNegativeStartTimes` changes nothing but start times. -/
theorem fill_line (f : HumdrumFileStructure) (m : Nat) (l : HumdrumLine)
    (hl : f.lines[m]? = some l) :
    ∃ w, (fillInNegativeStartTimes f).lines[m]? = some { l with durationFromStart := w } := by
  obtain ⟨v, hv, -⟩ := fill_backward_get f.lines m l hl
  obtain ⟨w, hw, -⟩ := fill_forward_get (fillInNegativeStartTimes.backward f.lines).1
    (fillInNegativeStartTimes.backward f.lines).2 m _ hv
  exact ⟨w, hw⟩

theorem rhythmTail_true (nn : HumdrumFileStructure → Bool) (f2 g : HumdrumFileStructure)
    (h : rhythmTail nn f2 = some (true, g)) :
    ∃ g3 f5, analyzeNullLineRhythms f2 = some (true, g3) ∧
      assignLineDurations (fillInNegativeStartTimes g3) = some f5 ∧
      g = (analyzeMeter f5).2 := by
  cases h1 : analyzeNullLineRhythms f2 with
  | none =>
    unfold rhythmTail at h
    rw [h1] at h
    cases h
  | some r3 =>
    obtain ⟨b, g3⟩ := r3
    cases b with
    | false =>
      rw [rhythmTail_eq_false nn f2 g3 h1] at h
      cases h
    | true =>
      cases h5 : assignLineDurations (fillInNegativeStartTimes g3) with
      | none =>
        unfold rhythmTail at h
        rw [h1, Option.bind_eq_bind, Option.some_bind, if_neg (by simp)] at h
        change (assignLineDurations (fillInNegativeStartTimes g3)).bind _ = _ at h
        rw [h5] at h
        cases h
      | some f5 =>
        rw [rhythmTail_eq nn f2 g3 f5 h1 h5] at h
        have hg := congrArg Prod.snd (Option.some.inj h)
        exact ⟨g3, f5, rfl, h5, hg.symm⟩

/-- A successful `analyzeRhythm` on a file with tracks: the propagation
through the tracks, then the tail. -/
theorem analyzeRhythm_true (nn : HumdrumFileStructure → Bool) (f g : HumdrumFileStructure)
    (htr : getMaxTrack f ≠ 0) (h : analyzeRhythm nn f = some (true, g)) :
    ∃ r2, Propagated f r2 ∧ rhythmTail nn r2 = some (true, g) := by
  rw [analyzeRhythm_eq nn f htr] at h
  simp only [Option.bind_eq_some] at h
  obtain ⟨start1, _, t1, _, r1, hr1, h⟩ := h
  have e1 := analyzeRhythm.first_frame Propagated propagated_frameRel _ _ _ _ _ hr1
  split at h
  · cases h
  · simp only [Option.bind_eq_some] at h
    obtain ⟨r2, hr2, h⟩ := h
    have e2 := analyzeRhythm.second_frame Propagated propagated_frameRel _ _ _ _ _ hr2
    split at h
    · cases h
    · exact ⟨r2.2, Propagated.prop_trans _ _ _ e1 e2, h⟩

theorem pickupFile_token_lt (k : Nat) (t : HumdrumToken) (h : pickupFile.tokens[k]? = some t) :
    k < 9 := by
  by_contra hc
  rw [List.getElem?_eq_none (by simp [pickupFile]; omega)] at h
  cases h

/-- C26: let `analyzeRhythm` succeed on a file with a track and fewer than
2^64 lines, and let `b < i < e` be lines such that `b` and `e` are barline
lines with no barline line between them, so that `i` is no barline line.
Three hypotheses say that the line `b` holds barline tokens only: it is not a
data line, it has no start time before the analysis, and none of its tokens
is a terminator or has a defined duration.  Then in the analysed file, where
`assignLineDurations` and `analyzeMeter` have run after
`fillInNegativeStartTimes`, `durationFromBarline + durationToBarline` of line
`i` is the duration of the measure, the start time of line `e` minus the
start time of line `b`. -/
theorem measure_sum_after_analysis (nn : HumdrumFileStructure → Bool)
    (f g : HumdrumFileStructure) (htr : getMaxTrack f ≠ 0)
    (h : analyzeRhythm nn f = some (true, g)) (hsz : f.lines.length < 2 ^ 64)
    (b i e : Nat) (lb le : HumdrumLine) (hbi : b < i) (hie : i < e)
    (hlb : f.lines[b]? = some lb) (hle : f.lines[e]? = some le)
    (hb : lb.isBarline = true) (he : le.isBarline = true)
    (hnb : ∀ j l1, b < j → j < e → f.lines[j]? = some l1 → l1.isBarline = false)
    (hnd : lb.isData = false) (hfresh : lb.durationFromStart < 0)
    (hbar : ∀ (x : Nat) (t : HumdrumToken), f.tokens[x]? = some t → t.lineIndex = b →
      isTimed t = false) :
    ∃ gb gi ge, g.lines[b]? = some gb ∧ g.lines[i]? = some gi ∧ g.lines[e]? = some ge ∧
      gi.durationFromBarline + gi.durationToBarline =
        ge.durationFromStart - gb.durationFromStart := by
  obtain ⟨r2, hP, htail⟩ := analyzeRhythm_true nn f g htr h
  obtain ⟨g3, f5, h1, h5, rfl⟩ := rhythmTail_true nn r2 g htail
  obtain ⟨ok, L1, hn1, hsame, -⟩ := analyzeNullLineRhythms_spec r2
  rw [h1] at hn1
  have hg3 : g3.lines = L1 := by
    have := congrArg Prod.snd (Option.some.inj hn1)
    simp only at this
    rw [this]
  -- the lines of the file keep everything but their start times
  have hshape3 : ∀ (m : Nat) (l : HumdrumLine), f.lines[m]? = some l →
      ∃ v, g3.lines[m]? = some { l with durationFromStart := v } := by
    intro m l hl
    obtain ⟨v, hv, -⟩ := hP.line m l hl
    obtain ⟨v1, hv1, -⟩ := hsame.2 m _ hv
    exact ⟨v1, by rw [hg3]; exact hv1⟩
  have hshape : ∀ (m : Nat) (l : HumdrumLine), f.lines[m]? = some l →
      ∃ w, (fillInNegativeStartTimes g3).lines[m]? = some { l with durationFromStart := w } := by
    intro m l hl
    obtain ⟨v, hv⟩ := hshape3 m l hl
    obtain ⟨w, hw⟩ := fill_line g3 m _ hv
    exact ⟨w, hw⟩
  have hlen : (fillInNegativeStartTimes g3).lines.length = f.lines.length := by
    rw [fillInNegativeStartTimes_length, hg3, hsame.1, hP.length]
  have he_lt : e < f.lines.length := by
    by_contra hc
    rw [List.getElem?_eq_none (by omega)] at hle
    cases hle
  have hne4 : (fillInNegativeStartTimes g3).lines ≠ [] := by
    intro h0
    rw [h0] at hlen
    simp only [List.length_nil] at hlen
    omega
  -- the barline line has no start time when the unknown start times are filled in
  have huntimed : (b, true) ∉ f.tokens.map (fun t => (t.lineIndex, isTimed t)) := by
    intro hm
    obtain ⟨t, ht, heq⟩ := List.mem_map.mp hm
    obtain ⟨x, hx⟩ := List.mem_iff_getElem?.mp ht
    have h1 := (Prod.mk.inj heq).1
    have h2 := (Prod.mk.inj heq).2
    rw [hbar x t hx h1] at h2
    cases h2
  have hb3 : g3.lines[b]? = some lb := by
    obtain ⟨v, hv, hk⟩ := hP.line b lb hlb
    rw [hk huntimed] at hv
    obtain ⟨v1, hv1, hk1⟩ := hsame.2 b _ hv
    rw [hk1 (by simp [isNullData, hnd])] at hv1
    rw [hg3]
    exact hv1
  have hb1lt : b + 1 < f.lines.length := by clear hsz; omega
  have hilt : i < f.lines.length := by clear hsz; omega
  have hb1f : f.lines[b + 1]? = some f.lines[b + 1] := List.getElem?_eq_getElem hb1lt
  have hif : f.lines[i]? = some f.lines[i] := List.getElem?_eq_getElem hilt
  obtain ⟨v1, hb13⟩ := hshape3 (b + 1) _ hb1f
  obtain ⟨w, w1, hw, hw1, hadj⟩ := fill_adjacent g3 b lb _ hb3 hb13 hfresh
  obtain ⟨wb, hwb⟩ := hshape b lb hlb
  obtain ⟨wi, hwi⟩ := hshape i _ hif
  obtain ⟨we, hwe⟩ := hshape e le hle
  have hwbar : w.isBarline = true := by
    rw [hwb] at hw
    rw [← Option.some.inj hw]
    exact hb
  have hnb4 : ∀ j l1, b < j → j < e → (fillInNegativeStartTimes g3).lines[j]? = some l1 →
      l1.isBarline = false := by
    intro j l1 hbj hje hl1
    have hjlt : j < f.lines.length := by clear hsz; omega
    have hjf : f.lines[j]? = some f.lines[j] := List.getElem?_eq_getElem hjlt
    obtain ⟨wj, hwj⟩ := hshape j _ hjf
    rw [hwj] at hl1
    rw [← Option.some.inj hl1]
    exact hnb j f.lines[j] hbj hje hjf
  have hsz4 : (fillInNegativeStartTimes g3).lines.length < 2 ^ 64 := by rw [hlen]; exact hsz
  obtain ⟨g1, lk, ha, hlk, -, hsum⟩ := meter_measure_sum (fillInNegativeStartTimes g3) hne4 hsz4
    b i e w w1 _ _ hbi hie hw hw1 hwi hwe hwbar he hnb4
  obtain ⟨g2, lkb, hab, -, hlkb, hdb, -⟩ := meter_after_durations (fillInNegativeStartTimes g3)
    hne4 hsz4 b w hw
  obtain ⟨g4, lke, hae, -, hlke, hde, -⟩ := meter_after_durations (fillInNegativeStartTimes g3)
    hne4 hsz4 e _ hwe
  have e1 : g1 = f5 := Option.some.inj (ha.symm.trans h5)
  have e2 : g2 = f5 := Option.some.inj (hab.symm.trans h5)
  have e4 : g4 = f5 := Option.some.inj (hae.symm.trans h5)
  subst e1
  subst e2
  subst e4
  refine ⟨lkb, lk, lke, hlkb, hlk, hlke, ?_⟩
  rw [hsum hadj, hdb, hde]

/-- In `**kern / 4c / =1 / 4d / 4e / =2 / 4f / 4g / *-` the line of `4d` lies
between the barline lines 2 and 5, which start at 1 and 3: its two values sum
to the two quarter notes of the measure. -/
theorem measure_sum_after_analysis_witness :
    ∃ g gb gi ge, analyzeRhythm (fun _ => true) pickupFile = some (true, g) ∧
      g.lines[2]? = some gb ∧ g.lines[3]? = some gi ∧ g.lines[5]? = some ge ∧
      gi.durationFromBarline + gi.durationToBarline =
        ge.durationFromStart - gb.durationFromStart ∧
      (g.lines.map (fun l => (l.durationFromStart, l.durationFromBarline,
        l.durationToBarline))).drop 2 =
        [(1, 1, 2), (1, 0, 2), (2, 1, 1), (3, 2, 2), (3, 0, 2), (4, 1, 1), (5, 2, 0)] := by
  have hrun : (analyzeRhythm (fun _ => true) pickupFile).map (fun r => (r.1,
      (r.2.lines.map (fun l => (l.durationFromStart, l.durationFromBarline,
        l.durationToBarline))).drop 2)) =
      some (true, [(1, 1, 2), (1, 0, 2), (2, 1, 1), (3, 2, 2), (3, 0, 2), (4, 1, 1),
        (5, 2, 0)]) := by
    decide!
  cases hr : analyzeRhythm (fun _ => true) pickupFile with
  | none => rw [hr] at hrun; cases hrun
  | some r =>
    obtain ⟨ok, g⟩ := r
    rw [hr] at hrun
    simp only [Option.map_some', Option.some.injEq, Prod.mk.injEq] at hrun
    obtain ⟨hok, hvals⟩ := hrun
    subst hok
    obtain ⟨gb, gi, ge, h1, h2, h3, h4⟩ := measure_sum_after_analysis (fun _ => true) pickupFile g
      (by decide) hr (by decide) 2 3 5 (freshLine true true false false)
      (freshLine true true false false) (by decide) (by decide) rfl rfl rfl rfl
      (by
        intro j l1 h2 h5 hl
        interval_cases j
        · simp [pickupFile] at hl
          subst hl
          rfl
        · simp [pickupFile] at hl
          subst hl
          rfl)
      rfl (by decide!)
      (by
        intro x t hx hline
        have hlt := pickupFile_token_lt x t hx
        interval_cases x <;> simp [pickupFile] at hx <;> subst hx <;>
          first | (exact absurd hline (by decide)) | decide!)
    exact ⟨g, gb, gi, ge, rfl, h1, h2, h3, h4, hvals⟩

end minHumdrum
